import Mathlib

/-!
# librpn: tokenizer, infix → RPN converter, RPN evaluator and RPN → infix renderer

A shallow embedding of `src/librpn.cpp`.

* `std::string` is a list of bytes (`Str`); string literals of the source are
  written `str "..."`, the UTF-8 bytes of the literal.
* `double` is an abstract carrier `F` with its primitive operations collected in
  `Arith F`; the lambdas stored in the symbol tables are named by tags
  (`BinOp`, `UnOp`, `ListOp`) and interpreted by `applyBin`, `applyUn`,
  `applyList`.
* `while` loops whose termination is not structural take a fuel argument; a
  loop that exhausts it returns `none`.
-/

namespace librpn

/-! ## Byte strings -/

/-- A `std::string`: a sequence of bytes. -/
abbrev Str := List Nat

/-- UTF-8 encoding of one code point. -/
def utf8Encode (c : Nat) : List Nat :=
  if c < 0x80 then [c]
  else if c < 0x800 then [0xC0 + c / 64, 0x80 + c % 64]
  else if c < 0x10000 then [0xE0 + c / 4096, 0x80 + c / 64 % 64, 0x80 + c % 64]
  else [0xF0 + c / 262144, 0x80 + c / 4096 % 64, 0x80 + c / 64 % 64, 0x80 + c % 64]

/-- The bytes of a string literal of the (UTF-8 encoded) source file. -/
def str (s : String) : Str := s.toList.bind (fun c => utf8Encode c.toNat)

/-! ## Tokens (librpn.hpp) -/

inductive TokenType where
  | Number
  | Operator
  | UnaryFunction
  | BinaryFunction
  | ListFunction
  | Constant
  | LeftParen
  | RightParen
  | Comma
  | ListStart
  | ListEnd
  deriving DecidableEq, Repr

structure Token where
  type : TokenType
  value : Str
  deriving DecidableEq, Repr

/-! ## Arithmetic on `double` -/

/-- The primitive operations on `double` used by the library. -/
structure Arith (F : Type) where
  add : F → F → F
  sub : F → F → F
  mul : F → F → F
  div : F → F → F
  fmod : F → F → F
  pow : F → F → F
  atan2 : F → F → F
  sqrt : F → F
  sin : F → F
  cos : F → F
  tan : F → F
  log : F → F
  log10 : F → F
  abs : F → F
  exp : F → F
  floor : F → F
  ceil : F → F
  /-- The comparison `a < b`. -/
  lt : F → F → Bool
  /-- Conversion of an integer value (`0`, `1`, `2.0`, `v.size()`). -/
  ofNat : Nat → F
  /-- The value of `std::nan("")`. -/
  nan : F
  /-- The test `std::isnan`. -/
  isnan : F → Bool
  /-- The conversion `std::stod`; `none` when it throws. -/
  stod : Str → Option F
  M_PI : F
  M_E : F

/-- Bodies of the binary lambdas of `OPERATORS` and `BINARY_FUNCTIONS`. -/
inductive BinOp where
  | add | sub | mul | div | fmod | pow | max | min | atan2
  deriving DecidableEq, Repr

/-- Bodies of the lambdas of `UNARY_FUNCTIONS`. -/
inductive UnOp where
  | sqrt | sin | cos | tan | log | log10 | abs | exp | floor | ceil
  deriving DecidableEq, Repr

/-- Bodies of the lambdas of `LIST_FUNCTIONS`. -/
inductive ListOp where
  | sum | product | mean | var | svar | stddev | sstddev | median
  | lmax | lmin | range | count
  deriving DecidableEq, Repr

/-- Bodies of the entries of `CONSTANTS`. -/
inductive ConstVal where
  | pi | e | twoPi
  deriving DecidableEq, Repr

structure OperatorInfo where
  precedence : Int
  rightAssociative : Bool
  func : BinOp
  deriving DecidableEq, Repr

/-! ## Symbol tables -/

def ASCII_OPERATOR_CHARS : List Nat := str "+" ++ str "-" ++ str "*" ++ str "/" ++ str "%" ++ str "^"

def OPERATORS : List (Str × OperatorInfo) :=
  [ (str "+", ⟨1, false, .add⟩),
    (str "-", ⟨1, false, .sub⟩),
    (str "*", ⟨2, false, .mul⟩),
    (str "/", ⟨2, false, .div⟩),
    (str "%", ⟨2, false, .fmod⟩),
    (str "^", ⟨3, true, .pow⟩),
    (str "×", ⟨2, false, .mul⟩),
    (str "÷", ⟨2, false, .div⟩),
    (str "·", ⟨2, false, .mul⟩) ]

def UNARY_FUNCTIONS : List (Str × UnOp) :=
  [ (str "sqrt", .sqrt),
    (str "sin", .sin),
    (str "cos", .cos),
    (str "tan", .tan),
    (str "log", .log),
    (str "ln", .log),
    (str "log10", .log10),
    (str "abs", .abs),
    (str "exp", .exp),
    (str "floor", .floor),
    (str "ceil", .ceil),
    (str "√", .sqrt) ]

def BINARY_FUNCTIONS : List (Str × BinOp) :=
  [ (str "pow", .pow),
    (str "max", .max),
    (str "min", .min),
    (str "atan2", .atan2),
    (str "mod", .fmod) ]

def LIST_FUNCTIONS : List (Str × ListOp) :=
  [ (str "sum", .sum),
    (str "ΣLIST", .sum),
    (str "product", .product),
    (str "ΠLIST", .product),
    (str "mean", .mean),
    (str "var", .var),
    (str "svar", .svar),
    (str "stddev", .stddev),
    (str "sstddev", .sstddev),
    (str "median", .median),
    (str "lmax", .lmax),
    (str "lmin", .lmin),
    (str "range", .range),
    (str "count", .count) ]

def CONSTANTS : List (Str × ConstVal) :=
  [ (str "pi", .pi),
    (str "PI", .pi),
    (str "π", .pi),
    (str "e", .e),
    (str "E", .e),
    (str "τ", .twoPi) ]

/-! ## UTF-8 utilities -/

def utf8CharLength (c : Nat) : Nat :=
  if c &&& 0x80 = 0x00 then 1
  else if c &&& 0xE0 = 0xC0 then 2
  else if c &&& 0xF0 = 0xE0 then 3
  else if c &&& 0xF8 = 0xF0 then 4
  else 1

def utf8ExtractChar (s : Str) (pos : Nat) : Str :=
  if pos ≥ s.length then []
  else
    let len := utf8CharLength (s.getD pos 0)
    if pos + len > s.length then [] else (s.drop pos).take len

/-- The test `std::isspace` in the "C" locale. -/
def isspace (c : Nat) : Bool := c == 32 || (9 ≤ c && c ≤ 13)

/-- The test `std::isdigit`. -/
def isdigit (c : Nat) : Bool := 48 ≤ c && c ≤ 57

/-- The test `std::isalpha` in the "C" locale. -/
def isalpha (c : Nat) : Bool := (65 ≤ c && c ≤ 90) || (97 ≤ c && c ≤ 122)

def isAsciiSpace (ch : Str) : Bool := ch.length == 1 && isspace (ch.getD 0 0)

def isAsciiDigit (ch : Str) : Bool := ch.length == 1 && isdigit (ch.getD 0 0)

def isAsciiAlpha (ch : Str) : Bool := ch.length == 1 && isalpha (ch.getD 0 0)

def isMultibyte (ch : Str) : Bool := ch.length > 1

/-! ## Table predicates -/

def getPrecedence (op : Str) : Int :=
  match OPERATORS.lookup op with
  | some info => info.precedence
  | none => 0

def isOperator (s : Str) : Bool := (OPERATORS.lookup s).isSome

def isUnaryFunction (s : Str) : Bool := (UNARY_FUNCTIONS.lookup s).isSome

def isBinaryFunction (s : Str) : Bool := (BINARY_FUNCTIONS.lookup s).isSome

def isConstant (s : Str) : Bool := (CONSTANTS.lookup s).isSome

def isListFunction (s : Str) : Bool := (LIST_FUNCTIONS.lookup s).isSome

def isRightAssociative (op : Str) : Bool :=
  match OPERATORS.lookup op with
  | some info => info.rightAssociative
  | none => false

def LIST_MARKER {F : Type} (A : Arith F) : F := A.nan

def isListMarker {F : Type} (A : Arith F) (v : F) : Bool := A.isnan v

/-! ## Tokenizer -/

/-- The digit loop of `tokenize`:
`while (i < expression.length()) { c = utf8ExtractChar(expression, i);
 if (isAsciiDigit(c) || c == ".") { number += c; i += c.length(); } else break; }`.
Every pass advances `i` by one byte, so fuel `expression.length()` is never
exhausted. -/
def scanNumber (expression : Str) : Nat → Nat → Str → Nat × Str
  | 0, i, number => (i, number)
  | fuel + 1, i, number =>
    if i < expression.length then
      let c := utf8ExtractChar expression i
      if isAsciiDigit c || c == str "." then
        scanNumber expression fuel (i + c.length) (number ++ c)
      else (i, number)
    else (i, number)

/-- The identifier loop of `tokenize` (letters and digits). -/
def scanName (expression : Str) : Nat → Nat → Str → Nat × Str
  | 0, i, name => (i, name)
  | fuel + 1, i, name =>
    if i < expression.length then
      let c := utf8ExtractChar expression i
      if isAsciiAlpha c || isAsciiDigit c then
        scanName expression fuel (i + c.length) (name ++ c)
      else (i, name)
    else (i, name)

/-- The flag `isUnaryMinus`: no previous token, or the previous token is an
Operator, LeftParen, Comma or ListStart. -/
def isUnaryMinus (tokens : List Token) : Bool :=
  match tokens.getLast? with
  | none => true
  | some back =>
    back.type == .Operator || back.type == .LeftParen ||
    back.type == .Comma || back.type == .ListStart

/-- The block `if (ch == "-") { ... }` of `tokenize`: `some` of the new state
when it reaches its `continue` (a negative number was lexed), `none` when
control falls through to the operator case. -/
def negativeNumber (expression : Str) (i : Nat) (ch : Str) (tokens : List Token) :
    Option (Nat × List Token) :=
  if ch == str "-" then
    if isUnaryMinus tokens then
      let nextPos := i + ch.length
      if nextPos < expression.length then
        let nextCh := utf8ExtractChar expression nextPos
        if isAsciiDigit nextCh || nextCh == str "." then
          let r := scanNumber expression expression.length nextPos (str "-")
          some (r.1, tokens ++ [⟨.Number, r.2⟩])
        else none
      else none
    else none
  else none

/-- One pass of the main loop of `tokenize`, from position `i` with the tokens
emitted so far; returns the new position and token list. -/
def tokenizeStep (expression : Str) (i : Nat) (tokens : List Token) : Nat × List Token :=
  let ch := utf8ExtractChar expression i
  let charLen := ch.length
  if isAsciiSpace ch then (i + charLen, tokens)
  else if isAsciiDigit ch || ch == str "." then
    let r := scanNumber expression expression.length i []
    (r.1, tokens ++ [⟨.Number, r.2⟩])
  else if ch == str "(" then (i + charLen, tokens ++ [⟨.LeftParen, str "("⟩])
  else if ch == str ")" then (i + charLen, tokens ++ [⟨.RightParen, str ")"⟩])
  else if ch == str "," then (i + charLen, tokens ++ [⟨.Comma, str ","⟩])
  else if ch == str "\x7b" then (i + charLen, tokens ++ [⟨.ListStart, str "\x7b"⟩])
  else if ch == str "\x7d" then (i + charLen, tokens ++ [⟨.ListEnd, str "\x7d"⟩])
  else
    match negativeNumber expression i ch tokens with
    | some r => r
    | none =>
      if charLen == 1 && ASCII_OPERATOR_CHARS.contains (ch.getD 0 0) then
        (i + charLen, tokens ++ [⟨.Operator, ch⟩])
      else if isMultibyte ch then
        if isOperator ch then (i + charLen, tokens ++ [⟨.Operator, ch⟩])
        else if isUnaryFunction ch then (i + charLen, tokens ++ [⟨.UnaryFunction, ch⟩])
        else if isConstant ch then (i + charLen, tokens ++ [⟨.Constant, ch⟩])
        else (i + charLen, tokens)
      else if isAsciiAlpha ch then
        let r := scanName expression expression.length i []
        if isConstant r.2 then (r.1, tokens ++ [⟨.Constant, r.2⟩])
        else if isUnaryFunction r.2 then (r.1, tokens ++ [⟨.UnaryFunction, r.2⟩])
        else if isBinaryFunction r.2 then (r.1, tokens ++ [⟨.BinaryFunction, r.2⟩])
        else if isListFunction r.2 then (r.1, tokens ++ [⟨.ListFunction, r.2⟩])
        else (r.1, tokens)
      else (i + charLen, tokens)

/-- The main loop `while (i < expression.length())` of `tokenize`; `none` when
the fuel runs out before the loop exits. -/
def tokenizeLoop (expression : Str) : Nat → Nat → List Token → Option (List Token)
  | 0, _, _ => none
  | fuel + 1, i, tokens =>
    if i < expression.length then
      let r := tokenizeStep expression i tokens
      tokenizeLoop expression fuel r.1 r.2
    else some tokens

/-- The function `tokenize`. A pass of the loop that advances `i` keeps
`i ≤ expression.length()`, so `expression.length() + 1` passes are enough for
every run that terminates (`tokenizeLoop_fuel`); `none` is a run that never
leaves the loop. -/
def tokenize (expression : Str) : Option (List Token) :=
  tokenizeLoop expression (expression.length + 1) 0 []

/-! ## Infix → RPN (shunting-yard) -/

/-- A loop `while (!opStack.empty() && cond(opStack.top())) { output += ' ';
output += opStack.top().value; opStack.pop(); }` of `infixToRPN`; the head of
the list is the top of the stack. -/
def popWhile (cond : Token → Bool) : Str → List Token → Str × List Token
  | output, [] => (output, [])
  | output, top :: rest =>
    if cond top then popWhile cond (output ++ str " " ++ top.value) rest
    else (output, top :: rest)

/-- The loop condition of the Operator case (without the emptiness test). -/
def operatorPops (token top : Token) : Bool :=
  top.type != .LeftParen &&
  top.type != .ListStart &&
  (top.type == .UnaryFunction ||
   decide (getPrecedence top.value > getPrecedence token.value) ||
   (getPrecedence top.value == getPrecedence token.value &&
    !isRightAssociative token.value))

/-- The statement `if (!output.empty()) output += ' ';`. -/
def separate (output : Str) : Str :=
  if !output.isEmpty then output ++ str " " else output

/-- The body of the loop `for (const auto& token : tokens)` of `infixToRPN`:
one `switch` on the token type, acting on the output and the operator stack. -/
def convertToken (token : Token) (output : Str) (opStack : List Token) : Str × List Token :=
  match token.type with
  | .Number | .Constant => (separate output ++ token.value, opStack)
  | .UnaryFunction => (output, token :: opStack)
  | .Operator =>
    let r := popWhile (operatorPops token) output opStack
    (r.1, token :: r.2)
  | .LeftParen => (output, token :: opStack)
  | .BinaryFunction => (output, token :: opStack)
  | .ListFunction => (output, token :: opStack)
  | .ListStart => (separate output ++ str "\x7b", token :: opStack)
  | .ListEnd =>
    let r := popWhile (fun top => top.type != .ListStart) output opStack
    (r.1 ++ str " \x7d", r.2.tail)
  | .Comma =>
    popWhile (fun top => top.type != .LeftParen && top.type != .ListStart) output opStack
  | .RightParen =>
    let r := popWhile (fun top => top.type != .LeftParen) output opStack
    match r.2.tail with
    | [] => (r.1, [])
    | top :: rest =>
      if top.type == .UnaryFunction || top.type == .BinaryFunction then
        (r.1 ++ str " " ++ top.value, rest)
      else (r.1, top :: rest)

/-- The loop over the tokens. -/
def convertTokens : List Token → Str → List Token → Str × List Token
  | [], output, opStack => (output, opStack)
  | token :: rest, output, opStack =>
    let r := convertToken token output opStack
    convertTokens rest r.1 r.2

/-- The conversion of a token sequence: the loop over the tokens, then the
final drain of the operator stack. -/
def convert (tokens : List Token) : Str :=
  let r := convertTokens tokens [] []
  (popWhile (fun _ => true) r.1 r.2).1

/-- The function `infixToRPN`; `none` when `tokenize` does not return. -/
def infixToRPN (expression : Str) : Option Str :=
  (tokenize expression).map convert

/-! ## Whitespace splitter of `calculateRPN` and `rpnToInfix` -/

/-- The loop `while (i < expression.length())` that splits an RPN string at
ASCII whitespace; `none` when the fuel runs out before the loop exits. The
result includes the final `if (!current.empty()) tokens.push_back(current);`. -/
def splitLoop (expression : Str) : Nat → Nat → Str → List Str → Option (List Str)
  | 0, _, _, _ => none
  | fuel + 1, i, current, tokens =>
    if i < expression.length then
      let ch := utf8ExtractChar expression i
      if isAsciiSpace ch then
        if !current.isEmpty then
          splitLoop expression fuel (i + ch.length) [] (tokens ++ [current])
        else splitLoop expression fuel (i + ch.length) current tokens
      else splitLoop expression fuel (i + ch.length) (current ++ ch) tokens
    else some (if !current.isEmpty then tokens ++ [current] else tokens)

/-- The token split at the head of `calculateRPN` and `rpnToInfix`. A pass that
advances `i` keeps `i ≤ expression.length()`, so `expression.length() + 1`
passes are enough for every run that terminates. -/
def splitTokens (expression : Str) : Option (List Str) :=
  splitLoop expression (expression.length + 1) 0 [] []

/-! ## RPN evaluation -/

/-- The ways a call does not return a value. -/
inductive Fault where
  /-- Undefined behaviour: `top()` or `pop()` on an empty stack. -/
  | emptyStack
  /-- The exception thrown by `std::stod`. -/
  | invalidNumber
  /-- The call does not return. -/
  | nonTermination
  deriving DecidableEq, Repr

section Evaluation

variable {F : Type} (A : Arith F)

def applyBin : BinOp → F → F → F
  | .add, a, b => A.add a b
  | .sub, a, b => A.sub a b
  | .mul, a, b => A.mul a b
  | .div, a, b => A.div a b
  | .fmod, a, b => A.fmod a b
  | .pow, a, b => A.pow a b
  | .max, a, b => if A.lt a b then b else a
  | .min, a, b => if A.lt b a then b else a
  | .atan2, a, b => A.atan2 a b

def applyUn : UnOp → F → F
  | .sqrt, a => A.sqrt a
  | .sin, a => A.sin a
  | .cos, a => A.cos a
  | .tan, a => A.tan a
  | .log, a => A.log a
  | .log10, a => A.log10 a
  | .abs, a => A.abs a
  | .exp, a => A.exp a
  | .floor, a => A.floor a
  | .ceil, a => A.ceil a

def constValue : ConstVal → F
  | .pi => A.M_PI
  | .e => A.M_E
  | .twoPi => A.mul (A.ofNat 2) A.M_PI

/-- The loop `total = 0; for (double x : v) total += x;`. -/
def total (v : List F) : F := v.foldl A.add (A.ofNat 0)

/-- The loop `variance = 0; for (double x : v) variance += (x - mean) * (x - mean);`. -/
def squares (mean : F) (v : List F) : F :=
  v.foldl (fun variance x => A.add variance (A.mul (A.sub x mean) (A.sub x mean))) (A.ofNat 0)

/-- Insertion into an ascending list. -/
def insertAsc (x : F) : List F → List F
  | [] => [x]
  | y :: ys => if A.lt x y then x :: y :: ys else y :: insertAsc x ys

/-- The call `std::sort(sorted.begin(), sorted.end())`, ascending by `<`. -/
def sortAsc : List F → List F
  | [] => []
  | x :: xs => insertAsc A x (sortAsc xs)

/-- The call `*std::max_element(v.begin(), v.end())` on a non-empty vector. -/
def maxElement (first : F) (rest : List F) : F :=
  rest.foldl (fun largest x => if A.lt largest x then x else largest) first

/-- The call `*std::min_element(v.begin(), v.end())` on a non-empty vector. -/
def minElement (first : F) (rest : List F) : F :=
  rest.foldl (fun smallest x => if A.lt x smallest then x else smallest) first

def applyList : ListOp → List F → F
  | .sum, v => total A v
  | .product, v => v.foldl A.mul (A.ofNat 1)
  | .mean, v =>
    if v.isEmpty then A.ofNat 0 else A.div (total A v) (A.ofNat v.length)
  | .var, v =>
    if v.isEmpty then A.ofNat 0
    else
      let mean := A.div (total A v) (A.ofNat v.length)
      A.div (squares A mean v) (A.ofNat v.length)
  | .svar, v =>
    if v.length < 2 then A.ofNat 0
    else
      let mean := A.div (total A v) (A.ofNat v.length)
      A.div (squares A mean v) (A.ofNat (v.length - 1))
  | .stddev, v =>
    if v.isEmpty then A.ofNat 0
    else
      let mean := A.div (total A v) (A.ofNat v.length)
      A.sqrt (A.div (squares A mean v) (A.ofNat v.length))
  | .sstddev, v =>
    if v.length < 2 then A.ofNat 0
    else
      let mean := A.div (total A v) (A.ofNat v.length)
      A.sqrt (A.div (squares A mean v) (A.ofNat (v.length - 1)))
  | .median, v =>
    if v.isEmpty then A.ofNat 0
    else
      let sorted := sortAsc A v
      let n := sorted.length
      if n % 2 = 0 then
        A.div (A.add (sorted.getD (n / 2 - 1) (A.ofNat 0)) (sorted.getD (n / 2) (A.ofNat 0)))
          (A.ofNat 2)
      else sorted.getD (n / 2) (A.ofNat 0)
  | .lmax, v =>
    match v with
    | [] => A.ofNat 0
    | first :: rest => maxElement A first rest
  | .lmin, v =>
    match v with
    | [] => A.ofNat 0
    | first :: rest => minElement A first rest
  | .range, v =>
    match v with
    | [] => A.ofNat 0
    | first :: rest => A.sub (maxElement A first rest) (minElement A first rest)
  | .count, v => A.ofNat v.length

/-- The loop `while (!s.empty() && !isListMarker(s.top())) { values.push_back(s.top());
s.pop(); }`; the head of the list is the top of the stack. -/
def collectValues : List F → List F → List F × List F
  | values, [] => (values, [])
  | values, top :: rest =>
    if !isListMarker A top then collectValues (values ++ [top]) rest
    else (values, top :: rest)

/-- The body of the loop `for (const auto& token : tokens)` of `calculateRPN`. -/
def evalToken (token : Str) (s : List F) : Except Fault (List F) :=
  if token == str "\x7b" then .ok (LIST_MARKER A :: s)
  else if token == str "\x7d" then .ok s
  else
    match OPERATORS.lookup token with
    | some info =>
      match s with
      | b :: a :: rest => .ok (applyBin A info.func a b :: rest)
      | _ => .error .emptyStack
    | none =>
      match UNARY_FUNCTIONS.lookup token with
      | some func =>
        match s with
        | a :: rest => .ok (applyUn A func a :: rest)
        | _ => .error .emptyStack
      | none =>
        match BINARY_FUNCTIONS.lookup token with
        | some func =>
          match s with
          | b :: a :: rest => .ok (applyBin A func a b :: rest)
          | _ => .error .emptyStack
        | none =>
          match LIST_FUNCTIONS.lookup token with
          | some func =>
            let r := collectValues A [] s
            .ok (applyList A func r.1.reverse :: r.2.tail)
          | none =>
            match CONSTANTS.lookup token with
            | some c => .ok (constValue A c :: s)
            | none =>
              match A.stod token with
              | some v => .ok (v :: s)
              | none => .error .invalidNumber

/-- The loop over the tokens of `calculateRPN`. -/
def evalTokens : List Str → List F → Except Fault (List F)
  | [], s => .ok s
  | token :: rest, s =>
    match evalToken A token s with
    | .ok s1 => evalTokens rest s1
    | .error e => .error e

/-- The function `calculateRPN`. -/
def calculateRPN (expression : Str) : Except Fault F :=
  match splitTokens expression with
  | none => .error .nonTermination
  | some tokens =>
    match evalTokens A tokens [] with
    | .ok (top :: _) => .ok top
    | .ok [] => .error .emptyStack
    | .error e => .error e

end Evaluation

/-! ## RPN → infix -/

/-- The body of the loop `for (const auto& token : tokens)` of `rpnToInfix`. -/
def renderToken (token : Str) (s : List Str) : Except Fault (List Str) :=
  if isOperator token then
    match s with
    | b :: a :: rest => .ok ((str "(" ++ a ++ str " " ++ token ++ str " " ++ b ++ str ")") :: rest)
    | _ => .error .emptyStack
  else if isUnaryFunction token then
    match s with
    | a :: rest => .ok ((token ++ str "(" ++ a ++ str ")") :: rest)
    | _ => .error .emptyStack
  else if isBinaryFunction token then
    match s with
    | b :: a :: rest => .ok ((token ++ str "(" ++ a ++ str ", " ++ b ++ str ")") :: rest)
    | _ => .error .emptyStack
  else .ok (token :: s)

/-- The loop over the tokens of `rpnToInfix`. -/
def renderTokens : List Str → List Str → Except Fault (List Str)
  | [], s => .ok s
  | token :: rest, s =>
    match renderToken token s with
    | .ok s1 => renderTokens rest s1
    | .error e => .error e

/-- The function `rpnToInfix`. -/
def rpnToInfix (expression : Str) : Except Fault Str :=
  match splitTokens expression with
  | none => .error .nonTermination
  | some tokens =>
    match renderTokens tokens [] with
    | .ok (top :: _) => .ok top
    | .ok [] => .error .emptyStack
    | .error e => .error e

/-! ## Notions used in the statements and proofs -/

/-- The byte test behind `isAsciiDigit(c) || c == "."`. -/
def numberByte (c : Nat) : Bool := isdigit c || c == 46

/-- The byte test behind `isAsciiAlpha(c) || isAsciiDigit(c)`. -/
def nameByte (c : Nat) : Bool := isalpha c || isdigit c

/-- What one pass of the loop of `tokenize` may do on the unread input `s`:
consume a prefix of `s`, and emit no token or one token whose text is that
prefix; a pass that consumes nothing emits nothing. -/
def StepOK (s : Str) (toks : List Token) (r : Nat × List Token) : Prop :=
  r.1 ≤ s.length ∧
    ((r.1 = 0 ∧ r.2 = toks) ∨
      (0 < r.1 ∧ (r.2 = toks ∨ ∃ ty, r.2 = toks ++ [⟨ty, s.take r.1⟩])))

/-- The run of the loop of `tokenize` on the unread input `s` with the tokens
emitted so far. -/
def lex (s : Str) (toks : List Token) : Option (List Token) :=
  tokenizeLoop s (s.length + 1) 0 toks

/-- The unread input starts with a digit or `.`. -/
def startsNumber : Str → Bool
  | [] => false
  | c :: _ => numberByte c

/-- The token emitted for a multi-byte code point: Operator, UnaryFunction or
Constant by table membership, in this order, or none. -/
def glyphToken (ch : Str) : List Token :=
  if isOperator ch then [⟨.Operator, ch⟩]
  else if isUnaryFunction ch then [⟨.UnaryFunction, ch⟩]
  else if isConstant ch then [⟨.Constant, ch⟩]
  else []

/-- The token emitted for an identifier: Constant, UnaryFunction,
BinaryFunction or ListFunction by table membership, in this order, or none. -/
def nameToken (name : Str) : List Token :=
  if isConstant name then [⟨.Constant, name⟩]
  else if isUnaryFunction name then [⟨.UnaryFunction, name⟩]
  else if isBinaryFunction name then [⟨.BinaryFunction, name⟩]
  else if isListFunction name then [⟨.ListFunction, name⟩]
  else []

/-- The unread input does not continue an identifier. -/
def stopsName : Str → Bool
  | [] => true
  | c :: _ => !nameByte c

/-- An unsigned number lexeme: a non-empty run of digits and `.`. -/
def isUnsigned (lit : Str) : Bool := !lit.isEmpty && lit.all numberByte

/-- A single multi-byte code point: a lead byte of length class 2, 3 or 4 and
the bytes it announces. -/
def isGlyph : Str → Bool
  | c :: _ :: w => utf8CharLength c == w.length + 2
  | _ => false

/-- An ASCII identifier: a letter followed by letters and digits. -/
def isIdentifier : Str → Bool
  | [] => false
  | c :: l => isalpha c && l.all nameByte

/-- A number literal: a non-empty run of digits and `.`, optionally with a
leading `-`. -/
def isNumberLiteral (lit : Str) : Bool :=
  isUnsigned lit ||
    match lit with
    | 45 :: l => isUnsigned l
    | _ => false

/-- Expression trees over number literals, binary operators, unary function
calls and binary function calls. -/
inductive Expr where
  | num (lit : Str)
  | op (o : Str) (a b : Expr)
  | un (f : Str) (a : Expr)
  | bin (g : Str) (a b : Expr)
  deriving Repr

/-- The literals are number literals and the symbols are registered in the
table of their kind. -/
def Expr.wf : Expr → Bool
  | .num lit => isNumberLiteral lit
  | .op o a b => isOperator o && a.wf && b.wf
  | .un f a => isUnaryFunction f && a.wf
  | .bin g a b => isBinaryFunction g && a.wf && b.wf

/-- The fully parenthesised infix text: `(a OP b)`, `name(a)`, `name(a, b)`,
literals verbatim. -/
def render : Expr → Str
  | .num lit => lit
  | .op o a b => str "(" ++ render a ++ str " " ++ o ++ str " " ++ render b ++ str ")"
  | .un f a => f ++ str "(" ++ render a ++ str ")"
  | .bin g a b => g ++ str "(" ++ render a ++ str ", " ++ render b ++ str ")"

/-- The post-order traversal: operands left to right, then the operator or
function name. -/
def postorder : Expr → List Str
  | .num lit => [lit]
  | .op o a b => postorder a ++ postorder b ++ [o]
  | .un f a => postorder a ++ [f]
  | .bin g a b => postorder a ++ postorder b ++ [g]

/-- The token sequence of the fully parenthesised infix text. -/
def tokensOf : Expr → List Token
  | .num lit => [⟨.Number, lit⟩]
  | .op o a b =>
    [⟨.LeftParen, str "("⟩] ++ tokensOf a ++ [⟨.Operator, o⟩] ++ tokensOf b ++
      [⟨.RightParen, str ")"⟩]
  | .un f a =>
    [⟨.UnaryFunction, f⟩, ⟨.LeftParen, str "("⟩] ++ tokensOf a ++ [⟨.RightParen, str ")"⟩]
  | .bin g a b =>
    [⟨.BinaryFunction, g⟩, ⟨.LeftParen, str "("⟩] ++ tokensOf a ++ [⟨.Comma, str ","⟩] ++
      tokensOf b ++ [⟨.RightParen, str ")"⟩]

/-- Items joined by single spaces. -/
def joinSpaces : List Str → Str
  | [] => []
  | [item] => item
  | item :: next :: items => item ++ str " " ++ joinSpaces (next :: items)

/-- The top of the operator stack is not a UnaryFunction or BinaryFunction. -/
def noFunctionOnTop : List Token → Bool
  | [] => true
  | top :: _ => !(top.type == .UnaryFunction || top.type == .BinaryFunction)

/-- The variable `current` after one pass of the splitting loop on the code point `ch`. -/
def splitCurrent (ch current : Str) : Str :=
  if isAsciiSpace ch then (if !current.isEmpty then [] else current) else current ++ ch

/-- The vector `tokens` after one pass of the splitting loop on the code point `ch`. -/
def splitPushed (ch current : Str) (tokens : List Str) : List Str :=
  if isAsciiSpace ch then (if !current.isEmpty then tokens ++ [current] else tokens) else tokens

/-- The vector `tokens` after the statement that follows the splitting loop. -/
def splitFlush (current : Str) (tokens : List Str) : List Str :=
  if !current.isEmpty then tokens ++ [current] else tokens

/-- The run of the splitting loop on the unread input `s`. -/
def split (s current : Str) (tokens : List Str) : Option (List Str) :=
  splitLoop s (s.length + 1) 0 current tokens

/-- ASCII bytes other than whitespace. -/
def isPlain (s : Str) : Bool := s.all (fun c => decide (c < 128) && !isspace c)

/-- An item of an RPN string as the splitter sees it: non-empty, and either
ASCII bytes other than whitespace or one multi-byte code point. -/
def isItem (s : Str) : Bool := !s.isEmpty && (isPlain s || isGlyph s)

/-- The direct value of an expression tree: the operator and function tables
applied recursively to the values of the literals, left operand first. -/
def evalExpr {F : Type} (A : Arith F) : Expr → Except Fault F
  | .num lit =>
    match A.stod lit with
    | some v => .ok v
    | none => .error .invalidNumber
  | .op o a b =>
    match evalExpr A a with
    | .error e => .error e
    | .ok va =>
      match evalExpr A b with
      | .error e => .error e
      | .ok vb =>
        match OPERATORS.lookup o with
        | some info => .ok (applyBin A info.func va vb)
        | none => .error .invalidNumber
  | .un f a =>
    match evalExpr A a with
    | .error e => .error e
    | .ok va =>
      match UNARY_FUNCTIONS.lookup f with
      | some func => .ok (applyUn A func va)
      | none => .error .invalidNumber
  | .bin g a b =>
    match evalExpr A a with
    | .error e => .error e
    | .ok va =>
      match evalExpr A b with
      | .error e => .error e
      | .ok vb =>
        match BINARY_FUNCTIONS.lookup g with
        | some func => .ok (applyBin A func va vb)
        | none => .error .invalidNumber

/-- The byte after position `i` is a digit or `.`. -/
def followedByNumber (e : Str) (i : Nat) : Bool :=
  match e[i + 1]? with
  | some c => isdigit c || c == 46
  | none => false

/-- No token precedes, or the preceding token is an Operator, LeftParen, Comma
or ListStart. -/
def signPosition (tokens : List Token) : Bool :=
  match tokens.getLast? with
  | none => true
  | some t =>
    decide (t.type = .Operator ∨ t.type = .LeftParen ∨ t.type = .Comma ∨ t.type = .ListStart)

/-- A token whose text is a valid lexeme of its kind. -/
def validLexeme (t : Token) : Bool :=
  match t.type with
  | .Number => isUnsigned t.value
  | .Operator => isOperator t.value
  | .UnaryFunction => isUnaryFunction t.value && (isIdentifier t.value || isGlyph t.value)
  | .BinaryFunction => isBinaryFunction t.value && (isIdentifier t.value || isGlyph t.value)
  | .ListFunction => isListFunction t.value && (isIdentifier t.value || isGlyph t.value)
  | .Constant => isConstant t.value && (isIdentifier t.value || isGlyph t.value)
  | .LeftParen => t.value == str "("
  | .RightParen => t.value == str ")"
  | .Comma => t.value == str ","
  | .ListStart => t.value == str "\x7b"
  | .ListEnd => t.value == str "\x7d"

/-- The text made of gaps and token texts in alternation, starting and ending
with a gap: `gap₀ text₁ gap₁ text₂ … textₙ gapₙ`. -/
def weave : List Str → List Str → Str
  | gap :: gaps, text :: texts => gap ++ text ++ weave gaps texts
  | gap :: _, [] => gap
  | [], _ => []

/-- A non-empty text without a space. -/
def isWord (w : Str) : Bool := !w.isEmpty && w.all (fun c => c != 32)

/-- Every token emitted so far has a non-empty text without a space. -/
def WordTokens (toks : List Token) : Prop := ∀ t ∈ toks, isWord t.value = true

/-- A property of the output buffer kept by both ways `infixToRPN` appends an
item: after `if (!output.empty()) output += ' '`, and after `output += ' '`. -/
structure OutputInvariant (P : Str → Prop) : Prop where
  guarded : ∀ out v, isWord v = true → P out → P (separate out ++ v)
  plain : ∀ out v, isWord v = true → P out → P (out ++ str " " ++ v)

/-- Items joined by single spaces, possibly after one leading space. -/
def Spaced (out : Str) : Prop :=
  ∃ items : List Str, (∀ w ∈ items, isWord w = true) ∧
    (out = joinSpaces items ∨ (items ≠ [] ∧ out = str " " ++ joinSpaces items))

/-- One or more items joined by single spaces. -/
def Joined (out : Str) : Prop :=
  ∃ items : List Str, items ≠ [] ∧ (∀ w ∈ items, isWord w = true) ∧ out = joinSpaces items

/-- Text made of ASCII bytes and of multi-byte code points with all their
bytes present (every well-formed UTF-8 text is of this form). -/
inductive WellFormed : Str → Prop where
  | nil : WellFormed []
  | ascii (c : Nat) (s : Str) : c < 128 → WellFormed s → WellFormed (c :: s)
  | glyph (ch s : Str) : isGlyph ch = true → WellFormed s → WellFormed (ch ++ s)

/-- The end of the text, or a space. -/
def Terminated (rest : Str) : Prop := rest = [] ∨ ∃ r, rest = 32 :: r

/-- An ASCII identifier found in none of the tables the tokenizer consults
for identifiers. -/
def isUnknownIdentifier (u : Str) : Bool :=
  isIdentifier u && !isConstant u && !isUnaryFunction u && !isBinaryFunction u &&
    !isListFunction u

/-- A multi-byte code point found in none of the tables the tokenizer consults
for multi-byte code points. -/
def isUnknownGlyph (u : Str) : Bool :=
  isGlyph u && !isOperator u && !isUnaryFunction u && !isConstant u


/-- The tree of `pow(sqrt(16), 3)`. -/
def exampleTree : Expr :=
  .bin (str "pow") (.un (str "sqrt") (.num (str "16"))) (.num (str "3"))

/-! ## A model of the arithmetic, for examples -/

/-- Decimal digits read as a natural number. -/
def digitsValue (l : Str) : Nat := l.foldl (fun n c => 10 * n + (c - 48)) 0

/-- An unsigned decimal literal `ddd`, `ddd.ddd`, `ddd.` or `.ddd` read as a
rational; `none` for any other text. -/
def decimalValue (l : Str) : Option ℚ :=
  match l.dropWhile isdigit with
  | [] => if (l.takeWhile isdigit).isEmpty then none else some (digitsValue l)
  | 46 :: frac =>
    if frac.all isdigit && !((l.takeWhile isdigit).isEmpty && frac.isEmpty) then
      some ((digitsValue (l.takeWhile isdigit ++ frac) : ℚ) / 10 ^ frac.length)
    else none
  | _ => none

/-- A binary operation on the rationals extended to NaN. -/
def liftRat (f : ℚ → ℚ → ℚ) : Option ℚ → Option ℚ → Option ℚ
  | some a, some b => some (f a b)
  | _, _ => none

/-- Truncation toward zero. -/
def truncRat (q : ℚ) : ℤ := if 0 ≤ q then ⌊q⌋ else ⌈q⌉

/-- A model of `Arith`: the rationals with one more value, `none`, in the role
of NaN. The field operations are exact; division by zero and results that
leave the rationals are NaN; `stod` reads plain decimal literals. -/
def ratArith : Arith (Option ℚ) where
  add := liftRat (· + ·)
  sub := liftRat (· - ·)
  mul := liftRat (· * ·)
  div := fun a b =>
    match a, b with
    | some x, some y => if y = 0 then none else some (x / y)
    | _, _ => none
  fmod := fun a b =>
    match a, b with
    | some x, some y => if y = 0 then none else some (x - y * truncRat (x / y))
    | _, _ => none
  pow := fun a b =>
    match a, b with
    | some x, some y => if y.den = 1 ∧ (x ≠ 0 ∨ 0 ≤ y.num) then some (x ^ y.num) else none
    | _, _ => none
  atan2 := fun a b =>
    match a, b with
    | some x, some y => if x = 0 ∧ 0 < y then some 0 else none
    | _, _ => none
  sqrt := fun a =>
    match a with
    | some x =>
      if 0 ≤ x ∧ (Nat.sqrt x.num.toNat) ^ 2 = x.num.toNat ∧ (Nat.sqrt x.den) ^ 2 = x.den then
        some ((Nat.sqrt x.num.toNat : ℚ) / (Nat.sqrt x.den : ℚ))
      else none
    | none => none
  sin := fun a => if a = some 0 then some 0 else none
  cos := fun a => if a = some 0 then some 1 else none
  tan := fun a => if a = some 0 then some 0 else none
  log := fun a => if a = some 1 then some 0 else none
  log10 := fun a => if a = some 1 then some 0 else none
  abs := fun a => a.map (fun x => |x|)
  exp := fun a => if a = some 0 then some 1 else none
  floor := fun a => a.map (fun x => ((⌊x⌋ : ℤ) : ℚ))
  ceil := fun a => a.map (fun x => ((⌈x⌉ : ℤ) : ℚ))
  lt := fun a b =>
    match a, b with
    | some x, some y => decide (x < y)
    | _, _ => false
  ofNat := fun n => some (n : ℚ)
  nan := none
  isnan := fun a => a.isNone
  stod := fun s =>
    match s with
    | 45 :: l => (decimalValue l).map (fun q => some (-q))
    | l => (decimalValue l).map some
  M_PI := some (355 / 113)
  M_E := some (2721 / 1001)

/-- Text without ASCII whitespace made of ASCII bytes and of multi-byte code
points with all their bytes present. -/
inductive Solid : Str → Prop where
  | nil : Solid []
  | ascii (c : Nat) (s : Str) : c < 128 → isspace c = false → Solid s → Solid (c :: s)
  | glyph (ch s : Str) : isGlyph ch = true → Solid s → Solid (ch ++ s)

/-- The test `token != "}"`. -/
def notListEnd (token : Str) : Bool := token != str "\x7d"

/-- Sum of the squared deviations from `m`. -/
def squaredDeviations {R : Type} [Field R] (m : R) (v : List R) : R :=
  (v.map (fun x => (x - m) ^ 2)).sum

/-- The elements of a list literal: each preceded by a space, separated by commas. -/
def listElems : List Str → Str
  | [] => []
  | [n] => str " " ++ n
  | n :: m :: r => str " " ++ n ++ str "," ++ listElems (m :: r)

/-- The infix text `{ n1, n2, ..., nk } f`. -/
def listLiteral (ns : List Str) (f : Str) : Str :=
  str "\x7b" ++ listElems ns ++ str " \x7d " ++ f

/-- The tokens of the elements of a list literal. -/
def elemTokens : List Str → List Token
  | [] => []
  | [n] => [⟨.Number, n⟩]
  | n :: m :: r => ⟨.Number, n⟩ :: ⟨.Comma, str ","⟩ :: elemTokens (m :: r)

/-- Items each preceded by a space. -/
def trail : List Str → Str
  | [] => []
  | w :: l => str " " ++ w ++ trail l

/-- Trees over unsigned number literals and registered binary operators. -/
def Expr.isArith : Expr → Bool
  | .num lit => isUnsigned lit
  | .op o a b => isOperator o && a.isArith && b.isArith
  | .un _ _ => false
  | .bin _ _ _ => false

/-- A left child is parenthesised when it is an operator node of lower precedence than
its parent `o`, or of equal precedence when `o` is right-associative. -/
def parenLeft (o : Str) : Expr → Bool
  | .op oa _ _ =>
    decide (getPrecedence oa < getPrecedence o) ||
      (getPrecedence oa == getPrecedence o && isRightAssociative o)
  | _ => false

/-- A right child is parenthesised when it is an operator node of lower precedence than
its parent `o`, or of equal precedence when `o` is left-associative. -/
def parenRight (o : Str) : Expr → Bool
  | .op ob _ _ =>
    decide (getPrecedence ob < getPrecedence o) ||
      (getPrecedence ob == getPrecedence o && !isRightAssociative o)
  | _ => false

/-- Tokens put between parentheses when `p` holds. -/
def wrap (p : Bool) (ts : List Token) : List Token :=
  if p then [⟨.LeftParen, str "("⟩] ++ ts ++ [⟨.RightParen, str ")"⟩] else ts

/-- The tokens of the conventional infix text of a tree: a child is parenthesised only
when needed; function calls are written `f ( a )` and `g ( a , b )`. -/
def infixTokens : Expr → List Token
  | .num lit => [⟨.Number, lit⟩]
  | .op o a b =>
    wrap (parenLeft o a) (infixTokens a) ++ [⟨.Operator, o⟩] ++
      wrap (parenRight o b) (infixTokens b)
  | .un f a => ⟨.UnaryFunction, f⟩ :: wrap true (infixTokens a)
  | .bin g a b =>
    [⟨.BinaryFunction, g⟩, ⟨.LeftParen, str "("⟩] ++ infixTokens a ++ [⟨.Comma, str ","⟩] ++
      infixTokens b ++ [⟨.RightParen, str ")"⟩]

/-- The conventional infix text of a tree, its tokens separated by single spaces. -/
def pretty (t : Expr) : Str := joinSpaces ((infixTokens t).map Token.value)

/-- The operators of a tree that its infix text shows outside parentheses. -/
def topOps : Expr → List Str
  | .op o a b =>
    (if parenLeft o a then [] else topOps a) ++ [o] ++
      (if parenRight o b then [] else topOps b)
  | _ => []

/-- An incoming operator `x` leaves the operator stack `st` as it is. -/
def keepsStack (x : Str) : List Token → Bool
  | [] => true
  | top :: _ => !operatorPops ⟨.Operator, x⟩ top

/-- The tree of `1 + 2 * 3 - (4 - 5) ^ 2 ^ 3`. -/
def arithExample : Expr :=
  .op (str "-")
    (.op (str "+") (.num (str "1")) (.op (str "*") (.num (str "2")) (.num (str "3"))))
    (.op (str "^") (.op (str "-") (.num (str "4")) (.num (str "5")))
      (.op (str "^") (.num (str "2")) (.num (str "3"))))

/-- The ASCII counterpart of a glyph alias; any other text is unchanged. -/
def asciiOf (s : Str) : Str :=
  if s == str "×" then str "*"
  else if s == str "·" then str "*"
  else if s == str "÷" then str "/"
  else if s == str "√" then str "sqrt"
  else if s == str "ΣLIST" then str "sum"
  else if s == str "ΠLIST" then str "product"
  else s

/-- A token with its text replaced by the ASCII counterpart. -/
def asciiToken (t : Token) : Token := ⟨t.type, asciiOf t.value⟩

/-- Every token has a text that the whitespace splitter keeps whole: non-empty, and
ASCII bytes other than whitespace or one multi-byte code point. -/
def ItemTokens (toks : List Token) : Prop := ∀ t ∈ toks, isItem t.value = true

/-- Two output buffers made of the same items up to alias names: `out` is the items joined
by single spaces, possibly after one leading space, and `out1` is the same with every
item replaced by its ASCII counterpart. -/
def AliasPair (out out1 : Str) : Prop :=
  ∃ items : List Str, (∀ w ∈ items, isItem w = true) ∧
    ((out = joinSpaces items ∧ out1 = joinSpaces (items.map asciiOf)) ∨
      (items ≠ [] ∧ out = str " " ++ joinSpaces items ∧
        out1 = str " " ++ joinSpaces (items.map asciiOf)))

/-- The leaves are number literals or constant names and the other symbols are
registered in the table of their kind. -/
def Expr.wfOperands : Expr → Bool
  | .num lit => isNumberLiteral lit || isConstant lit
  | .op o a b => isOperator o && a.wfOperands && b.wfOperands
  | .un f a => isUnaryFunction f && a.wfOperands
  | .bin g a b => isBinaryFunction g && a.wfOperands && b.wfOperands

/-- The tree of `pi + max(1, 2)`. -/
def constantExample : Expr :=
  .op (str "+") (.num (str "pi")) (.bin (str "max") (.num (str "1")) (.num (str "2")))

/-- The text of a token is a lexeme of the token's kind: a number literal, a key of the
table of the kind (an ASCII identifier for binary and list functions), or the bracket or
comma of the kind. -/
def typedText (t : Token) : Bool :=
  match t.type with
  | .Number => isNumberLiteral t.value
  | .Operator => isOperator t.value
  | .UnaryFunction => isUnaryFunction t.value
  | .BinaryFunction => isBinaryFunction t.value && isIdentifier t.value
  | .ListFunction => isListFunction t.value && isIdentifier t.value
  | .Constant => isConstant t.value
  | .LeftParen => t.value == str "("
  | .RightParen => t.value == str ")"
  | .Comma => t.value == str ","
  | .ListStart => t.value == str "\x7b"
  | .ListEnd => t.value == str "\x7d"

/-- Every token has a text of its kind. -/
def TypedTokens (toks : List Token) : Prop := ∀ t ∈ toks, typedText t = true

/-- The output buffer `out` holds the items `items`: they are joined by single spaces,
possibly after one leading space, and each is a text that the whitespace splitter keeps
whole. -/
def Tracked (out : Str) (items : List Str) : Prop :=
  (∀ w ∈ items, isItem w = true) ∧
    (out = joinSpaces items ∨ (items ≠ [] ∧ out = str " " ++ joinSpaces items))

/-- The items that one pass of the loop of `infixToRPN` appends to the output, and the
operator stack after the pass. -/
def stepItems (token : Token) (st : List Token) : List Str × List Token :=
  match token.type with
  | .Number | .Constant => ([token.value], st)
  | .UnaryFunction => ([], token :: st)
  | .Operator =>
    ((st.takeWhile (operatorPops token)).map Token.value,
      token :: st.dropWhile (operatorPops token))
  | .LeftParen => ([], token :: st)
  | .BinaryFunction => ([], token :: st)
  | .ListFunction => ([], token :: st)
  | .ListStart => ([str "\x7b"], token :: st)
  | .ListEnd =>
    ((st.takeWhile (fun top => top.type != .ListStart)).map Token.value ++ [str "\x7d"],
      (st.dropWhile (fun top => top.type != .ListStart)).tail)
  | .Comma =>
    ((st.takeWhile (fun top => top.type != .LeftParen && top.type != .ListStart)).map
        Token.value,
      st.dropWhile (fun top => top.type != .LeftParen && top.type != .ListStart))
  | .RightParen =>
    match (st.dropWhile (fun top => top.type != .LeftParen)).tail with
    | [] => ((st.takeWhile (fun top => top.type != .LeftParen)).map Token.value, [])
    | top :: rest =>
      if top.type == .UnaryFunction || top.type == .BinaryFunction then
        ((st.takeWhile (fun top => top.type != .LeftParen)).map Token.value ++ [top.value],
          rest)
      else ((st.takeWhile (fun top => top.type != .LeftParen)).map Token.value, top :: rest)

/-- The items appended by the loop over the tokens, and the operator stack after it. -/
def runItems : List Token → List Str → List Token → List Str × List Token
  | [], items, st => (items, st)
  | token :: rest, items, st =>
    runItems rest (items ++ (stepItems token st).1) (stepItems token st).2

/-- The items of the output of `infixToRPN` on a token sequence: those of the loop, then
the texts of the tokens left on the operator stack, top first. -/
def outputItems (tokens : List Token) : List Str :=
  (runItems tokens [] []).1 ++ (runItems tokens [] []).2.map Token.value

/-- The kinds of token that `infixToRPN` pushes on the operator stack. -/
def isPushed (t : Token) : Bool :=
  t.type == .Operator || t.type == .UnaryFunction || t.type == .BinaryFunction ||
    t.type == .ListFunction || t.type == .LeftParen || t.type == .ListStart

/-- The text is a number literal or a constant name. -/
def isOperandText (w : Str) : Bool := isNumberLiteral w || isConstant w

/-- The token is a Number or a Constant. -/
def isOperandToken (t : Token) : Bool := t.type == .Number || t.type == .Constant

/-- Every token on the operator stack has a text of its kind and is of a kind that
`infixToRPN` pushes. -/
def StackTyped (st : List Token) : Prop := ∀ t ∈ st, typedText t = true ∧ isPushed t = true

/-- The token is an opening bracket: `(` or `{`. -/
def isBracket (t : Token) : Bool := t.type == .LeftParen || t.type == .ListStart

/-- The brackets still open after a token, innermost first; `none` when the token closes
a bracket that is not the innermost open one. -/
def bracketStep (t : Token) (opened : List TokenType) : Option (List TokenType) :=
  match t.type with
  | .LeftParen => some (.LeftParen :: opened)
  | .ListStart => some (.ListStart :: opened)
  | .RightParen =>
    match opened with
    | .LeftParen :: o => some o
    | _ => none
  | .ListEnd =>
    match opened with
    | .ListStart :: o => some o
    | _ => none
  | _ => some opened

/-- The brackets still open after a token sequence. -/
def bracketRun : List Token → List TokenType → Option (List TokenType)
  | [], opened => some opened
  | t :: rest, opened =>
    match bracketStep t opened with
    | some o => bracketRun rest o
    | none => none

/-- The parentheses and braces of the token sequence are properly nested and matched. -/
def balanced (tokens : List Token) : Bool := bracketRun tokens [] == some []

/-- The brace that the pass over a ListStart or ListEnd token writes to the output. -/
def braceItem (t : Token) : List Str :=
  if t.type == .ListStart then [str "\x7b"]
  else if t.type == .ListEnd then [str "\x7d"]
  else []

/-- The text is not a parenthesis or a brace that the converter may emit. -/
def isPlainItem (w : Str) : Bool := w != str "(" && w != str "\x7b" && w != str "\x7d"

/-- The numbers that some value of the arithmetic stands for. -/
def Representable {F R : Type} (Rep : F → R → Prop) (a : R) : Prop := ∃ z, Rep z a

/-- `Rep x a` reads "the value `x` stands for the number `a`"; for `double`, `x` is
finite and `a` is its value. The arithmetic is faithful to `Rep` when an operation on
values that stand for numbers returns a value that stands for the exact result whenever
the exact result is representable, as an arithmetic that rounds to nearest does; nothing
is required of an operation whose exact result is not representable. -/
structure Faithful {F R : Type} [Field R] (A : Arith F) (Rep : F → R → Prop) : Prop where
  add : ∀ x y a b, Rep x a → Rep y b → Representable Rep (a + b) → Rep (A.add x y) (a + b)
  sub : ∀ x y a b, Rep x a → Rep y b → Representable Rep (a - b) → Rep (A.sub x y) (a - b)
  mul : ∀ x y a b, Rep x a → Rep y b → Representable Rep (a * b) → Rep (A.mul x y) (a * b)
  div : ∀ x y a b, Rep x a → Rep y b → b ≠ 0 → Representable Rep (a / b) →
    Rep (A.div x y) (a / b)
  ofNat : ∀ n : Nat, Representable Rep (n : R) → Rep (A.ofNat n) (n : R)

/-- The computation of the variance of `r` with divisor `d` meets no rounding: the
running total, the count, the mean, each deviation from the mean and its square, the
running sum of the squares, the divisor and the quotient are representable. -/
def VarianceExact {F R : Type} [Field R] (Rep : F → R → Prop) (r : List R) (d : Nat) : Prop :=
  (∀ k, Representable Rep (r.take k).sum) ∧
  Representable Rep (r.length : R) ∧
  Representable Rep (r.sum / (r.length : R)) ∧
  (∀ x ∈ r, Representable Rep (x - r.sum / (r.length : R)) ∧
    Representable Rep ((x - r.sum / (r.length : R)) ^ 2)) ∧
  (∀ k, Representable Rep (squaredDeviations (r.sum / (r.length : R)) (r.take k))) ∧
  Representable Rep (d : R) ∧
  Representable Rep (squaredDeviations (r.sum / (r.length : R)) r / (d : R))

/-- The squared deviation `(x - mean) * (x - mean)` of the variance loop. -/
def deviation {F : Type} (A : Arith F) (mean x : F) : F := A.mul (A.sub x mean) (A.sub x mean)

/-- The values `some a` of the example arithmetic stand for the rationals `a`. -/
def ratRep (x : Option ℚ) (a : ℚ) : Prop := x = some a

/-- Rounding down to a multiple of 1/8; NaN stays NaN. -/
def toGrid : Option ℚ → Option ℚ
  | some q => some ((⌊q * 8⌋ : ℚ) / 8)
  | none => none

/-- A model of `Arith` that rounds: the four operations of `ratArith` followed by
rounding down to a multiple of 1/8. -/
def gridArith : Arith (Option ℚ) :=
  { ratArith with
    add := fun a b => toGrid (ratArith.add a b)
    sub := fun a b => toGrid (ratArith.sub a b)
    mul := fun a b => toGrid (ratArith.mul a b)
    div := fun a b => toGrid (ratArith.div a b) }

/-- The values `some a` with `a` a multiple of 1/8 stand for `a`. -/
def gridRep (x : Option ℚ) (a : ℚ) : Prop := x = some a ∧ ∃ k : ℤ, a = (k : ℚ) / 8

/-- Expressions as they are written: number literals, a binary operator between
two operands, unary and binary function calls, and parenthesised expressions. -/
inductive Written where
  | num (lit : Str)
  | op (o : Str) (a b : Written)
  | un (f : Str) (a : Written)
  | bin (g : Str) (a b : Written)
  | paren (a : Written)
  deriving Repr

/-- The tree that a written expression denotes: parentheses only group. -/
def Written.tree : Written → Expr
  | .num lit => .num lit
  | .op o a b => .op o a.tree b.tree
  | .un f a => .un f a.tree
  | .bin g a b => .bin g a.tree b.tree
  | .paren a => a.tree

/-- The text of a written expression: `a OP b`, `name(a)`, `name(a, b)`, `(a)`,
literals verbatim. -/
def Written.text : Written → Str
  | .num lit => lit
  | .op o a b => a.text ++ str " " ++ o ++ str " " ++ b.text
  | .un f a => f ++ str "(" ++ a.text ++ str ")"
  | .bin g a b => g ++ str "(" ++ a.text ++ str ", " ++ b.text ++ str ")"
  | .paren a => str "(" ++ a.text ++ str ")"

/-- The token sequence of a written expression. -/
def Written.tokens : Written → List Token
  | .num lit => [⟨.Number, lit⟩]
  | .op o a b => a.tokens ++ [⟨.Operator, o⟩] ++ b.tokens
  | .un f a =>
    [⟨.UnaryFunction, f⟩, ⟨.LeftParen, str "("⟩] ++ a.tokens ++ [⟨.RightParen, str ")"⟩]
  | .bin g a b =>
    [⟨.BinaryFunction, g⟩, ⟨.LeftParen, str "("⟩] ++ a.tokens ++ [⟨.Comma, str ","⟩] ++
      b.tokens ++ [⟨.RightParen, str ")"⟩]
  | .paren a => [⟨.LeftParen, str "("⟩] ++ a.tokens ++ [⟨.RightParen, str ")"⟩]

/-- A left operand of `o` written without parentheses is not an operator expression of
lower precedence than `o`, nor of equal precedence when `o` is right-associative. -/
def bareLeft (o : Str) : Written → Bool
  | .op oa _ _ =>
    !(decide (getPrecedence oa < getPrecedence o) ||
      (getPrecedence oa == getPrecedence o && isRightAssociative o))
  | _ => true

/-- A right operand of `o` written without parentheses is not an operator expression of
lower precedence than `o`, nor of equal precedence when `o` is left-associative. -/
def bareRight (o : Str) : Written → Bool
  | .op ob _ _ =>
    !(decide (getPrecedence ob < getPrecedence o) ||
      (getPrecedence ob == getPrecedence o && !isRightAssociative o))
  | _ => true

/-- The literals are number literals, the symbols are registered in the table of their
kind, and the operands of every operator are grouped as precedence and associativity
read them. -/
def Written.valid : Written → Bool
  | .num lit => isNumberLiteral lit
  | .op o a b => isOperator o && a.valid && b.valid && bareLeft o a && bareRight o b
  | .un f a => isUnaryFunction f && a.valid
  | .bin g a b => isBinaryFunction g && a.valid && b.valid
  | .paren a => a.valid

/-- The operators of a written expression that stand outside parentheses and calls. -/
def Written.topOps : Written → List Str
  | .op o a b => a.topOps ++ [o] ++ b.topOps
  | _ => []

/-- The written expression `(1 + 2) * 3 - pow(sqrt(16), -2) ^ 2 ^ 3`. -/
def writtenExample : Written :=
  .op (str "-")
    (.op (str "*") (.paren (.op (str "+") (.num (str "1")) (.num (str "2")))) (.num (str "3")))
    (.op (str "^") (.bin (str "pow") (.un (str "sqrt") (.num (str "16"))) (.num (str "-2")))
      (.op (str "^") (.num (str "2")) (.num (str "3"))))

/-- On the elements of `v` the comparison `<` of the arithmetic is a strict total order:
no element is less than itself, `<` is transitive, and two elements neither of which is
less than the other are equal. For `double` this holds of every list without NaN that
does not hold both zeros. -/
def StrictOrderOn {F : Type} (A : Arith F) (v : List F) : Prop :=
  (∀ a ∈ v, A.lt a a = false) ∧
  (∀ a ∈ v, ∀ b ∈ v, ∀ c ∈ v, A.lt a b = true → A.lt b c = true → A.lt a c = true) ∧
  (∀ a ∈ v, ∀ b ∈ v, A.lt a b = false → A.lt b a = false → a = b)

/-- Ascending order: no element is less than an earlier one. -/
def Ascending {F : Type} (A : Arith F) (s : List F) : Prop :=
  s.Pairwise (fun a b => A.lt b a = false)

/-! ## Lemmas -/

theorem utf8CharLength_pos (c : Nat) : 1 ≤ utf8CharLength c := by
  unfold utf8CharLength; split_ifs <;> omega

theorem utf8CharLength_ascii : ∀ c < 128, utf8CharLength c = 1 := by
  decide

theorem utf8ExtractChar_drop (e : Str) (i k : Nat) :
    utf8ExtractChar e (i + k) = utf8ExtractChar (e.drop i) k := by
  unfold utf8ExtractChar
  by_cases h : i + k ≥ e.length
  · have : k ≥ (e.drop i).length := by simp; omega
    simp [h, this]
  · have h2 : ¬ k ≥ (e.drop i).length := by simp; omega
    simp only [h, h2, if_false]
    have hg : (List.drop i e).getD k 0 = e.getD (i + k) 0 := by
      simp [List.getD_eq_getElem?_getD, List.getElem?_drop]
    rw [hg, List.drop_drop, List.length_drop]
    have : (i + k + utf8CharLength (e.getD (i + k) 0) > e.length) ↔ (k + utf8CharLength (e.getD (i + k) 0) > e.length - i) := by omega
    simp only [this, Nat.add_comm k i]

theorem utf8ExtractChar_nil : utf8ExtractChar [] 0 = [] := by
  simp [utf8ExtractChar]

theorem utf8ExtractChar_cons (c : Nat) (rest : Str) :
    utf8ExtractChar (c :: rest) 0 =
      if utf8CharLength c ≤ rest.length + 1 then c :: rest.take (utf8CharLength c - 1) else [] := by
  have := utf8CharLength_pos c
  unfold utf8ExtractChar
  simp only [List.length_cons, ge_iff_le, Nat.le_zero_eq, Nat.add_one_ne_zero, if_false,
    List.getD_cons_zero, List.drop_zero, Nat.zero_add, gt_iff_lt]
  split_ifs with h1 h2 h2
  · omega
  · rfl
  · obtain ⟨n, hn⟩ : ∃ n, utf8CharLength c = n + 1 := ⟨utf8CharLength c - 1, by omega⟩
    simp [hn]
  · omega

theorem utf8ExtractChar_ascii (c : Nat) (rest : Str) (h : c < 128) :
    utf8ExtractChar (c :: rest) 0 = [c] := by
  rw [utf8ExtractChar_cons, utf8CharLength_ascii c h]; simp

theorem str_dot : str "." = [46] := by decide

theorem numberByte_lt {c : Nat} (h : numberByte c = true) : c < 128 := by
  simp [numberByte, isdigit] at h; omega

theorem nameByte_lt {c : Nat} (h : nameByte c = true) : c < 128 := by
  simp [nameByte, isdigit, isalpha] at h; omega

theorem extract_head (c : Nat) (rest : Str) :
    utf8ExtractChar (c :: rest) 0 = [] ∨
      ∃ w, utf8ExtractChar (c :: rest) 0 = c :: w := by
  rw [utf8ExtractChar_cons]; split_ifs
  · exact Or.inr ⟨_, rfl⟩
  · exact Or.inl rfl

theorem numberTest_cons (c : Nat) (rest : Str) :
    (isAsciiDigit (utf8ExtractChar (c :: rest) 0) || utf8ExtractChar (c :: rest) 0 == str ".")
      = numberByte c := by
  by_cases h : c < 128
  · rw [utf8ExtractChar_ascii c rest h]
    simp [isAsciiDigit, numberByte, str_dot]
  · have hn : numberByte c = false := by
      cases hb : numberByte c
      · rfl
      · exact absurd (numberByte_lt hb) h
    rw [hn]
    rcases extract_head c rest with h0 | ⟨w, hw⟩
    · rw [h0]; decide
    · rw [hw]
      simp [numberByte, isdigit] at hn
      simp [isAsciiDigit, str_dot, isdigit]
      omega

theorem nameTest_cons (c : Nat) (rest : Str) :
    (isAsciiAlpha (utf8ExtractChar (c :: rest) 0) || isAsciiDigit (utf8ExtractChar (c :: rest) 0))
      = nameByte c := by
  by_cases h : c < 128
  · rw [utf8ExtractChar_ascii c rest h]
    simp [isAsciiDigit, isAsciiAlpha, nameByte]
  · have hn : nameByte c = false := by
      cases hb : nameByte c
      · rfl
      · exact absurd (nameByte_lt hb) h
    rw [hn]
    rcases extract_head c rest with h0 | ⟨w, hw⟩
    · rw [h0]; decide
    · rw [hw]
      simp [nameByte, isdigit, isalpha] at hn
      simp [isAsciiDigit, isAsciiAlpha, isdigit, isalpha]
      omega

theorem scanNumber_eq (e : Str) : ∀ (fuel i : Nat) (acc : Str), e.length ≤ i + fuel →
    scanNumber e fuel i acc =
      (i + ((e.drop i).takeWhile numberByte).length, acc ++ (e.drop i).takeWhile numberByte) := by
  intro fuel
  induction fuel with
  | zero =>
    intro i acc h
    have h0 : e.length ≤ i := by omega
    simp [scanNumber, List.drop_eq_nil_of_le h0]
  | succ n ih =>
    intro i acc h
    unfold scanNumber
    by_cases hi : i < e.length
    · have hd : e.drop i = e[i] :: e.drop (i + 1) := List.drop_eq_getElem_cons hi
      have hx : utf8ExtractChar e i = utf8ExtractChar (e[i] :: e.drop (i + 1)) 0 := by
        rw [← hd, ← utf8ExtractChar_drop]; rfl
      simp only [hi, if_true, hx, numberTest_cons, hd, List.takeWhile_cons]
      cases hb : numberByte e[i]
      · simp
      · simp only [if_true]
        rw [utf8ExtractChar_ascii _ _ (numberByte_lt hb)]
        rw [ih (i + [e[i]].length) _ (by simp; omega)]
        simp [Nat.add_assoc, Nat.add_comm 1]
    · simp [hi, List.drop_eq_nil_of_le (Nat.le_of_not_lt hi)]

theorem scanName_eq (e : Str) : ∀ (fuel i : Nat) (acc : Str), e.length ≤ i + fuel →
    scanName e fuel i acc =
      (i + ((e.drop i).takeWhile nameByte).length, acc ++ (e.drop i).takeWhile nameByte) := by
  intro fuel
  induction fuel with
  | zero =>
    intro i acc h
    have h0 : e.length ≤ i := by omega
    simp [scanName, List.drop_eq_nil_of_le h0]
  | succ n ih =>
    intro i acc h
    unfold scanName
    by_cases hi : i < e.length
    · have hd : e.drop i = e[i] :: e.drop (i + 1) := List.drop_eq_getElem_cons hi
      have hx : utf8ExtractChar e i = utf8ExtractChar (e[i] :: e.drop (i + 1)) 0 := by
        rw [← hd, ← utf8ExtractChar_drop]; rfl
      simp only [hi, if_true, hx, nameTest_cons, hd, List.takeWhile_cons]
      cases hb : nameByte e[i]
      · simp
      · simp only [if_true]
        rw [utf8ExtractChar_ascii _ _ (nameByte_lt hb)]
        rw [ih (i + [e[i]].length) _ (by simp; omega)]
        simp [Nat.add_assoc, Nat.add_comm 1]
    · simp [hi, List.drop_eq_nil_of_le (Nat.le_of_not_lt hi)]

theorem scanNumber_drop (e : Str) (i k : Nat) (acc : Str) :
    scanNumber e e.length (i + k) acc =
      (i + (scanNumber (e.drop i) (e.drop i).length k acc).1,
        (scanNumber (e.drop i) (e.drop i).length k acc).2) := by
  rw [scanNumber_eq e e.length _ _ (Nat.le_add_left _ _),
    scanNumber_eq (e.drop i) (e.drop i).length _ _ (Nat.le_add_left _ _)]
  simp only [List.drop_drop, Nat.add_assoc]

theorem scanName_drop (e : Str) (i k : Nat) (acc : Str) :
    scanName e e.length (i + k) acc =
      (i + (scanName (e.drop i) (e.drop i).length k acc).1,
        (scanName (e.drop i) (e.drop i).length k acc).2) := by
  rw [scanName_eq e e.length _ _ (Nat.le_add_left _ _),
    scanName_eq (e.drop i) (e.drop i).length _ _ (Nat.le_add_left _ _)]
  simp only [List.drop_drop, Nat.add_assoc]

theorem negativeNumber_drop (e : Str) (i : Nat) (ch : Str) (toks : List Token) :
    negativeNumber e i ch toks =
      (negativeNumber (e.drop i) 0 ch toks).map (fun r => (i + r.1, r.2)) := by
  have hlt : (i + ch.length < e.length) ↔ (ch.length < (e.drop i).length) := by
    rw [List.length_drop]; omega
  simp only [negativeNumber, utf8ExtractChar_drop e i, scanNumber_drop e i,
    Nat.zero_add, hlt]
  split_ifs <;> rfl

theorem tokenizeStep_drop (e : Str) (i : Nat) (toks : List Token) :
    tokenizeStep e i toks =
      (i + (tokenizeStep (e.drop i) 0 toks).1, (tokenizeStep (e.drop i) 0 toks).2) := by
  have hx : utf8ExtractChar e i = utf8ExtractChar (e.drop i) 0 := utf8ExtractChar_drop e i 0
  have h1 := scanNumber_drop e i 0
  have h2 := scanName_drop e i 0
  simp only [Nat.add_zero] at h1 h2
  show _ = (fun p : Nat × List Token => (i + p.1, p.2)) (tokenizeStep (e.drop i) 0 toks)
  unfold tokenizeStep
  simp only [hx, negativeNumber_drop e i, h1, h2, Nat.zero_add]
  generalize utf8ExtractChar (e.drop i) 0 = ch
  generalize scanNumber (e.drop i) (e.drop i).length 0 [] = rn
  generalize scanName (e.drop i) (e.drop i).length 0 [] = rm
  generalize negativeNumber (e.drop i) 0 ch toks = nn
  cases nn with
  | some r => 
    simp only [Option.map_some', apply_ite (fun p : Nat × List Token => (i + p.1, p.2))]
  | none => 
    simp only [Option.map_none', apply_ite (fun p : Nat × List Token => (i + p.1, p.2))]

theorem ite_ind {α : Type} {P : α → Prop} {c : Prop} [Decidable c] {a b : α}
    (ha : c → P a) (hb : ¬c → P b) : P (if c then a else b) := by
  by_cases h : c
  · rw [if_pos h]; exact ha h
  · rw [if_neg h]; exact hb h

theorem utf8ExtractChar_take (s : Str) :
    utf8ExtractChar s 0 = s.take (utf8ExtractChar s 0).length := by
  cases s with
  | nil => simp [utf8ExtractChar_nil]
  | cons c rest =>
    rw [utf8ExtractChar_cons]
    have := utf8CharLength_pos c
    split_ifs with h
    · simp only [List.length_cons, List.length_take, List.take_succ_cons]
      congr 1
      rw [Nat.min_eq_left (by omega)]
    · simp

theorem utf8ExtractChar_length_le (s : Str) : (utf8ExtractChar s 0).length ≤ s.length := by
  have h := utf8ExtractChar_take s
  have := congrArg List.length h
  rw [List.length_take] at this
  omega

theorem takeWhile_take {α : Type} (p : α → Bool) (s : List α) :
    s.take (s.takeWhile p).length = s.takeWhile p := by
  induction s with
  | nil => simp
  | cons a s ih =>
    simp only [List.takeWhile_cons]
    split_ifs
    · simp [ih]
    · simp

theorem takeWhile_length_le {α : Type} (p : α → Bool) (s : List α) :
    (s.takeWhile p).length ≤ s.length := by
  have := congrArg List.length (takeWhile_take p s)
  rw [List.length_take] at this
  omega

theorem StepOK_skip {s : Str} {toks : List Token} {n : Nat} (h : n ≤ s.length) :
    StepOK s toks (n, toks) := by
  refine ⟨h, ?_⟩
  rcases Nat.eq_zero_or_pos n with h0 | h0
  · exact Or.inl ⟨h0, rfl⟩
  · exact Or.inr ⟨h0, Or.inl rfl⟩

theorem StepOK_tok {s : Str} {toks : List Token} {n : Nat} {ty : TokenType} {v : Str}
    (h : n ≤ s.length) (h0 : 0 < n) (hv : v = s.take n) :
    StepOK s toks (n, toks ++ [⟨ty, v⟩]) := by
  subst hv
  exact ⟨h, Or.inr ⟨h0, Or.inr ⟨ty, rfl⟩⟩⟩

theorem isAsciiAlpha_nameByte {s ch : Str} (hch : ch = s.take ch.length)
    (h : isAsciiAlpha ch = true) : 0 < (s.takeWhile nameByte).length := by
  cases s with
  | nil => rw [List.take_nil] at hch; rw [hch] at h; simp [isAsciiAlpha] at h
  | cons c rest =>
    simp only [isAsciiAlpha, Bool.and_eq_true, beq_iff_eq] at h
    rw [h.1] at hch
    simp only [List.take_succ_cons, List.take_zero] at hch
    have h2 := h.2
    rw [hch] at h2
    simp only [List.getD_cons_zero] at h2
    simp [List.takeWhile_cons, nameByte, h2]

theorem isNumber_numberByte {s ch : Str} (hch : ch = s.take ch.length)
    (h : (isAsciiDigit ch || ch == str ".") = true) : 0 < (s.takeWhile numberByte).length := by
  have hl : ch.length = 1 := by
    simp only [Bool.or_eq_true, isAsciiDigit, Bool.and_eq_true, beq_iff_eq] at h
    rcases h with h | h
    · exact h.1
    · rw [h]; rfl
  cases s with
  | nil => rw [List.take_nil] at hch; rw [hch] at hl; simp at hl
  | cons c rest =>
    rw [hl] at hch
    simp only [List.take_succ_cons, List.take_zero] at hch
    rw [hch] at h
    have : numberByte c = true := by
      simpa [isAsciiDigit, numberByte, str_dot] using h
    simp [List.takeWhile_cons, this]

theorem negativeNumber_some {s ch : Str} {toks : List Token} {r : Nat × List Token}
    (hch : ch = s.take ch.length)
    (h : negativeNumber s 0 ch toks = some r) :
    r = (1 + ((s.drop 1).takeWhile numberByte).length,
          toks ++ [⟨.Number, s.take (1 + ((s.drop 1).takeWhile numberByte).length)⟩]) := by
  unfold negativeNumber at h
  simp only [scanNumber_eq s s.length _ _ (Nat.le_add_left _ _)] at h
  by_cases h1 : (ch == str "-") = true
  · have hc : ch = [45] := by simpa [str] using h1
    subst hc
    have hs : s = 45 :: s.drop 1 := by
      cases s with
      | nil => simp at hch
      | cons c rest => simp at hch; simp [hch]
    rw [if_pos h1] at h
    by_cases h2 : isUnaryMinus toks = true
    · rw [if_pos h2] at h
      by_cases h3 : 0 + [45].length < s.length
      · rw [if_pos h3] at h
        by_cases h4 : (isAsciiDigit (utf8ExtractChar s (0 + [45].length)) ||
            utf8ExtractChar s (0 + [45].length) == str ".") = true
        · rw [if_pos h4] at h
          simp only [Option.some.injEq] at h
          rw [← h]
          simp only [List.length_singleton, Nat.zero_add, Prod.mk.injEq, true_and]
          congr 2
          conv_rhs => rw [hs]
          rw [Nat.add_comm, List.take_succ_cons, List.drop_succ_cons, List.drop_zero, takeWhile_take]
          rfl
        · rw [if_neg h4] at h; exact absurd h (by simp)
      · rw [if_neg h3] at h; exact absurd h (by simp)
    · rw [if_neg h2] at h; exact absurd h (by simp)
  · rw [if_neg h1] at h; exact absurd h (by simp)

theorem tokenizeStep_spec (s : Str) (toks : List Token) :
    StepOK s toks (tokenizeStep s 0 toks) := by
  have hch := utf8ExtractChar_take s
  have hle := utf8ExtractChar_length_le s
  unfold tokenizeStep
  simp only [scanNumber_eq s s.length _ _ (Nat.le_add_left _ _),
    scanName_eq s s.length _ _ (Nat.le_add_left _ _), Nat.zero_add, List.drop_zero, List.nil_append]
  generalize hnn : negativeNumber s 0 (utf8ExtractChar s 0) toks = nn
  revert hch hle hnn
  generalize utf8ExtractChar s 0 = ch
  intro hch hle hnn
  have hpar : ∀ (lit : Str) (ty : TokenType), lit.length = 1 → (ch == lit) = true →
      StepOK s toks (ch.length, toks ++ [⟨ty, lit⟩]) := by
    intro lit ty hl h
    have : ch = lit := by simpa using h
    subst this
    exact StepOK_tok hle (by omega) hch
  refine ite_ind (fun h => StepOK_skip hle) (fun _ => ?_)
  refine ite_ind (fun h => StepOK_tok (takeWhile_length_le _ _) (isNumber_numberByte hch h)
    (takeWhile_take _ _).symm) (fun _ => ?_)
  refine ite_ind (hpar _ _ rfl) (fun _ => ?_)
  refine ite_ind (hpar _ _ rfl) (fun _ => ?_)
  refine ite_ind (hpar _ _ rfl) (fun _ => ?_)
  refine ite_ind (hpar _ _ rfl) (fun _ => ?_)
  refine ite_ind (hpar _ _ rfl) (fun _ => ?_)
  cases nn with
  | some r =>
    have hr := negativeNumber_some hch hnn
    show StepOK s toks r
    rw [hr]
    have hs : 1 + ((s.drop 1).takeWhile numberByte).length ≤ s.length := by
      have := takeWhile_length_le numberByte (s.drop 1)
      rw [List.length_drop] at this
      have : 0 < s.length := by
        cases s with
        | nil => rw [List.take_nil] at hch; subst hch; simp [negativeNumber] at hnn
        | cons _ _ => simp
      omega
    exact StepOK_tok hs (by omega) rfl
  | none =>
    show StepOK s toks (if _ then _ else _)
    refine ite_ind (fun h => ?_) (fun _ => ?_)
    · have h1 : ch.length = 1 := by
        simp only [Bool.and_eq_true, beq_iff_eq] at h; exact h.1
      exact StepOK_tok hle (by omega) hch
    refine ite_ind (fun h => ?_) (fun _ => ?_)
    · have h1 : 0 < ch.length := by
        simp only [isMultibyte, decide_eq_true_eq] at h; omega
      refine ite_ind (fun _ => StepOK_tok hle h1 hch) (fun _ => ?_)
      refine ite_ind (fun _ => StepOK_tok hle h1 hch) (fun _ => ?_)
      refine ite_ind (fun _ => StepOK_tok hle h1 hch) (fun _ => StepOK_skip hle)
    refine ite_ind (fun h => ?_) (fun _ => StepOK_skip hle)
    have h1 := isAsciiAlpha_nameByte hch h
    have h2 := takeWhile_length_le nameByte s
    have h3 := (takeWhile_take nameByte s).symm
    refine ite_ind (fun _ => StepOK_tok h2 h1 h3) (fun _ => ?_)
    refine ite_ind (fun _ => StepOK_tok h2 h1 h3) (fun _ => ?_)
    refine ite_ind (fun _ => StepOK_tok h2 h1 h3) (fun _ => ?_)
    refine ite_ind (fun _ => StepOK_tok h2 h1 h3) (fun _ => StepOK_skip h2)

theorem tokenizeLoop_drop : ∀ (fuel : Nat) (e : Str) (i : Nat) (toks : List Token),
    tokenizeLoop e fuel i toks = tokenizeLoop (e.drop i) fuel 0 toks := by
  intro fuel
  induction fuel with
  | zero => intro e i toks; rfl
  | succ f ih =>
    intro e i toks
    unfold tokenizeLoop
    by_cases hi : i < e.length
    · have h0 : 0 < (e.drop i).length := by rw [List.length_drop]; omega
      rw [if_pos hi, if_pos h0]
      show tokenizeLoop e f (tokenizeStep e i toks).1 (tokenizeStep e i toks).2 =
        tokenizeLoop (e.drop i) f (tokenizeStep (e.drop i) 0 toks).1
          (tokenizeStep (e.drop i) 0 toks).2
      rw [tokenizeStep_drop e i toks]
      simp only
      rw [ih e, ih (e.drop i), List.drop_drop]
    · have h0 : ¬ 0 < (e.drop i).length := by rw [List.length_drop]; omega
      rw [if_neg hi, if_neg h0]

theorem tokenizeLoop_stuck (s : Str) (toks : List Token) (hs : s ≠ [])
    (h : tokenizeStep s 0 toks = (0, toks)) :
    ∀ fuel, tokenizeLoop s fuel 0 toks = none := by
  intro fuel
  induction fuel with
  | zero => rfl
  | succ f ih =>
    unfold tokenizeLoop
    have h0 : 0 < s.length := List.length_pos.mpr hs
    rw [if_pos h0]
    show tokenizeLoop s f (tokenizeStep s 0 toks).1 (tokenizeStep s 0 toks).2 = none
    rw [h]; exact ih

theorem tokenize_eq_lex (e : Str) : tokenize e = lex e [] := rfl

theorem tokenizeLoop_stable : ∀ (n : Nat) (s : Str) (toks : List Token) (fuel : Nat),
    s.length = n → n + 1 ≤ fuel → tokenizeLoop s fuel 0 toks = tokenizeLoop s (n + 1) 0 toks := by
  intro n
  induction n using Nat.strong_induction_on with
  | _ n ih =>
    intro s toks fuel hn hf
    obtain ⟨f, rfl⟩ : ∃ f, fuel = f + 1 := ⟨fuel - 1, by omega⟩
    unfold tokenizeLoop
    by_cases h0 : 0 < s.length
    · rw [if_pos h0, if_pos h0]
      show tokenizeLoop s f (tokenizeStep s 0 toks).1 (tokenizeStep s 0 toks).2 =
        tokenizeLoop s n (tokenizeStep s 0 toks).1 (tokenizeStep s 0 toks).2
      have hs : s ≠ [] := List.length_pos.mp h0
      obtain ⟨hle, hcase⟩ := tokenizeStep_spec s toks
      rcases hcase with ⟨h1, h2⟩ | ⟨h1, _⟩
      · have hst : tokenizeStep s 0 toks = (0, toks) := Prod.ext h1 h2
        rw [hst, tokenizeLoop_stuck s toks hs hst, tokenizeLoop_stuck s toks hs hst]
      · rw [tokenizeLoop_drop f, tokenizeLoop_drop n]
        have hlen : (s.drop (tokenizeStep s 0 toks).1).length = n - (tokenizeStep s 0 toks).1 := by
          rw [List.length_drop, hn]
        rw [ih _ (by omega) _ _ f hlen (by omega), ih _ (by omega) _ _ n hlen (by omega)]
    · rw [if_neg h0, if_neg h0]

theorem lex_nil (toks : List Token) : lex [] toks = some toks := rfl

theorem lex_step (s : Str) (toks : List Token) (hs : s ≠ []) :
    lex s toks = lex (s.drop (tokenizeStep s 0 toks).1) (tokenizeStep s 0 toks).2 := by
  obtain ⟨hle, hcase⟩ := tokenizeStep_spec s toks
  rcases hcase with ⟨h1, h2⟩ | ⟨h1, _⟩
  · rw [h1, h2]; rfl
  · have h0 : 0 < s.length := List.length_pos.mpr hs
    conv_lhs => unfold lex tokenizeLoop
    rw [if_pos h0]
    show tokenizeLoop s s.length (tokenizeStep s 0 toks).1 (tokenizeStep s 0 toks).2 = _
    rw [tokenizeLoop_drop]
    unfold lex
    exact tokenizeLoop_stable _ _ _ _ rfl (by rw [List.length_drop]; omega)

theorem tokenizeLoop_lex : ∀ (fuel : Nat) (s : Str) (toks ts : List Token),
    tokenizeLoop s fuel 0 toks = some ts → lex s toks = some ts := by
  intro fuel
  induction fuel with
  | zero => intro s toks ts h; exact absurd h (by simp [tokenizeLoop])
  | succ f ih =>
    intro s toks ts h
    unfold tokenizeLoop at h
    by_cases h0 : 0 < s.length
    · rw [if_pos h0] at h
      have hs : s ≠ [] := List.length_pos.mp h0
      rw [lex_step s toks hs]
      apply ih
      rw [← tokenizeLoop_drop]
      exact h
    · rw [if_neg h0] at h
      have : s = [] := by
        cases s with
        | nil => rfl
        | cons _ _ => simp at h0
      subst this
      exact h

/-- Fuel adequacy of `tokenize`: a run of the loop that exits with any amount
of fuel is the run `tokenize` returns. -/
theorem tokenizeLoop_fuel (e : Str) (fuel : Nat) (ts : List Token)
    (h : tokenizeLoop e fuel 0 [] = some ts) : tokenize e = some ts :=
  tokenizeLoop_lex fuel e [] ts h

theorem step_space (c : Nat) (rest : Str) (toks : List Token) (h : isspace c = true) :
    tokenizeStep (c :: rest) 0 toks = (1, toks) := by
  have hc : c < 128 := by simp [isspace] at h; omega
  unfold tokenizeStep
  simp only [utf8ExtractChar_ascii c rest hc]
  rw [if_pos (by simp [isAsciiSpace, h])]
  rfl

theorem step_number (c : Nat) (rest : Str) (toks : List Token) (h : numberByte c = true) :
    tokenizeStep (c :: rest) 0 toks =
      (((c :: rest).takeWhile numberByte).length,
        toks ++ [⟨.Number, (c :: rest).takeWhile numberByte⟩]) := by
  have hc : c < 128 := numberByte_lt h
  have hsp : isspace c = false := by
    simp [numberByte, isdigit] at h; simp [isspace]; omega
  unfold tokenizeStep
  simp only [utf8ExtractChar_ascii c rest hc]
  rw [if_neg (by simp [isAsciiSpace, hsp])]
  rw [if_pos (by simpa [isAsciiDigit, numberByte, str_dot] using h)]
  simp only [scanNumber_eq _ _ _ _ (Nat.le_add_left _ _), List.drop_zero, Nat.zero_add,
    List.nil_append]

theorem step_leftParen (rest : Str) (toks : List Token) :
    tokenizeStep (40 :: rest) 0 toks = (1, toks ++ [⟨.LeftParen, str "("⟩]) := by
  unfold tokenizeStep
  simp only [utf8ExtractChar_ascii 40 rest (by omega)]
  rfl

theorem step_rightParen (rest : Str) (toks : List Token) :
    tokenizeStep (41 :: rest) 0 toks = (1, toks ++ [⟨.RightParen, str ")"⟩]) := by
  unfold tokenizeStep
  simp only [utf8ExtractChar_ascii 41 rest (by omega)]
  rfl

theorem step_comma (rest : Str) (toks : List Token) :
    tokenizeStep (44 :: rest) 0 toks = (1, toks ++ [⟨.Comma, str ","⟩]) := by
  unfold tokenizeStep
  simp only [utf8ExtractChar_ascii 44 rest (by omega)]
  rfl

theorem step_listStart (rest : Str) (toks : List Token) :
    tokenizeStep (123 :: rest) 0 toks = (1, toks ++ [⟨.ListStart, str "\x7b"⟩]) := by
  unfold tokenizeStep
  simp only [utf8ExtractChar_ascii 123 rest (by omega)]
  rfl

theorem step_listEnd (rest : Str) (toks : List Token) :
    tokenizeStep (125 :: rest) 0 toks = (1, toks ++ [⟨.ListEnd, str "\x7d"⟩]) := by
  unfold tokenizeStep
  simp only [utf8ExtractChar_ascii 125 rest (by omega)]
  rfl

theorem str_minus : str "-" = [45] := by decide
theorem str_leftParen : str "(" = [40] := by decide
theorem str_rightParen : str ")" = [41] := by decide
theorem str_comma : str "," = [44] := by decide
theorem str_listStart : str "\x7b" = [123] := by decide
theorem str_listEnd : str "\x7d" = [125] := by decide
theorem str_space : str " " = [32] := by decide
theorem ASCII_OPERATOR_CHARS_eq : ASCII_OPERATOR_CHARS = [43, 45, 42, 47, 37, 94] := by decide

theorem negativeNumber_minus (rest : Str) (toks : List Token) :
    negativeNumber (45 :: rest) 0 [45] toks =
      if isUnaryMinus toks && startsNumber rest then
        some (1 + (rest.takeWhile numberByte).length,
          toks ++ [⟨.Number, 45 :: rest.takeWhile numberByte⟩])
      else none := by
  unfold negativeNumber
  rw [if_pos (by decide)]
  cases hu : isUnaryMinus toks
  · simp
  · simp only [if_true, Bool.true_and, List.length_singleton, Nat.zero_add, List.length_cons]
    cases rest with
    | nil => simp [startsNumber]
    | cons c rest =>
      have hx : utf8ExtractChar (45 :: c :: rest) 1 = utf8ExtractChar (c :: rest) 0 :=
        utf8ExtractChar_drop (45 :: c :: rest) 1 0
      rw [if_pos (by simp)]
      simp only [List.length_nil, Nat.zero_add, hx, numberTest_cons, startsNumber]
      by_cases hn : numberByte c = true
      · rw [if_pos hn, if_pos hn, scanNumber_eq _ _ _ _ (by simp)]
        simp [str_minus]
      · rw [if_neg hn, if_neg hn]

theorem step_minus (rest : Str) (toks : List Token) :
    tokenizeStep (45 :: rest) 0 toks =
      if isUnaryMinus toks && startsNumber rest then
        (1 + (rest.takeWhile numberByte).length,
          toks ++ [⟨.Number, 45 :: rest.takeWhile numberByte⟩])
      else (1, toks ++ [⟨.Operator, [45]⟩]) := by
  unfold tokenizeStep
  simp only [utf8ExtractChar_ascii 45 rest (by omega), negativeNumber_minus]
  rw [if_neg (by decide), if_neg (by decide), if_neg (by decide), if_neg (by decide),
    if_neg (by decide), if_neg (by decide), if_neg (by decide)]
  cases isUnaryMinus toks && startsNumber rest
  · rfl
  · rfl

theorem negativeNumber_none (s ch : Str) (toks : List Token) (h : ch ≠ [45]) :
    negativeNumber s 0 ch toks = none := by
  unfold negativeNumber
  rw [if_neg (by simpa [str] using h)]

theorem step_asciiOperator (c : Nat) (rest : Str) (toks : List Token)
    (h : c = 43 ∨ c = 42 ∨ c = 47 ∨ c = 37 ∨ c = 94) :
    tokenizeStep (c :: rest) 0 toks = (1, toks ++ [⟨.Operator, [c]⟩]) := by
  have hc : c < 128 := by omega
  have hm : [c] ≠ [45] := by simp; omega
  unfold tokenizeStep
  simp only [utf8ExtractChar_ascii c rest hc, negativeNumber_none _ _ _ hm]
  rcases h with h | h | h | h | h <;> subst h <;> rfl

theorem utf8ExtractChar_multibyte (c : Nat) (w rest : Str)
    (h : utf8CharLength c = w.length + 1) : utf8ExtractChar (c :: (w ++ rest)) 0 = c :: w := by
  rw [utf8ExtractChar_cons, h, if_pos (by simp)]
  simp

theorem step_multibyte (c d : Nat) (w rest : Str) (toks : List Token)
    (h : utf8CharLength c = w.length + 2) :
    tokenizeStep (c :: d :: (w ++ rest)) 0 toks =
      (w.length + 2, toks ++ glyphToken (c :: d :: w)) := by
  have hx : utf8ExtractChar (c :: d :: (w ++ rest)) 0 = c :: d :: w :=
    utf8ExtractChar_multibyte c (d :: w) rest (by simpa using h)
  have hm : c :: d :: w ≠ [45] := by simp
  unfold tokenizeStep
  simp only [hx, negativeNumber_none _ _ _ hm]
  rw [if_neg (by simp [isAsciiSpace]), if_neg (by simp [isAsciiDigit, str_dot]),
    if_neg (by simp [str_leftParen]), if_neg (by simp [str_rightParen]),
    if_neg (by simp [str_comma]),
    if_neg (by simp [str_listStart]), if_neg (by simp [str_listEnd])]
  show (if _ then _ else _) = _
  rw [if_neg (by simp), if_pos (by simp [isMultibyte])]
  unfold glyphToken
  by_cases h1 : isOperator (c :: d :: w) = true
  · rw [if_pos h1, if_pos h1]; simp
  rw [if_neg h1, if_neg h1]
  by_cases h2 : isUnaryFunction (c :: d :: w) = true
  · rw [if_pos h2, if_pos h2]; simp
  rw [if_neg h2, if_neg h2]
  by_cases h3 : isConstant (c :: d :: w) = true
  · rw [if_pos h3, if_pos h3]; simp
  rw [if_neg h3, if_neg h3]; simp

theorem step_name (c : Nat) (rest : Str) (toks : List Token) (h : isalpha c = true) :
    tokenizeStep (c :: rest) 0 toks =
      (((c :: rest).takeWhile nameByte).length,
        toks ++ nameToken ((c :: rest).takeWhile nameByte)) := by
  have hc : c < 128 := by simp [isalpha] at h; omega
  have hr : 65 ≤ c := by simp [isalpha] at h; omega
  have hu : c ≤ 122 := by simp [isalpha] at h; omega
  have hm : [c] ≠ [45] := by simp; omega
  unfold tokenizeStep
  simp only [utf8ExtractChar_ascii c rest hc, negativeNumber_none _ _ _ hm]
  rw [if_neg (by simp [isAsciiSpace, isspace]; omega),
    if_neg (by simp [isAsciiDigit, str_dot, isdigit]; omega),
    if_neg (by simp [str_leftParen]; omega), if_neg (by simp [str_rightParen]; omega),
    if_neg (by simp [str_comma]; omega), if_neg (by simp [str_listStart]; omega),
    if_neg (by simp [str_listEnd]; omega)]
  show (if _ then _ else _) = _
  rw [if_neg (by
      simp [isalpha] at h
      simp [ASCII_OPERATOR_CHARS_eq]; omega),
    if_neg (by simp [isMultibyte]), if_pos (by simp [isAsciiAlpha, h])]
  simp only [scanName_eq _ _ _ _ (Nat.le_add_left _ _), List.drop_zero, Nat.zero_add,
    List.nil_append]
  generalize List.takeWhile nameByte (c :: rest) = name
  unfold nameToken
  by_cases h1 : isConstant name = true
  · rw [if_pos h1, if_pos h1]
  rw [if_neg h1, if_neg h1]
  by_cases h2 : isUnaryFunction name = true
  · rw [if_pos h2, if_pos h2]
  rw [if_neg h2, if_neg h2]
  by_cases h3 : isBinaryFunction name = true
  · rw [if_pos h3, if_pos h3]
  rw [if_neg h3, if_neg h3]
  by_cases h4 : isListFunction name = true
  · rw [if_pos h4, if_pos h4]
  rw [if_neg h4, if_neg h4]; simp

theorem drop_takeWhile_length {α : Type} (p : α → Bool) (s : List α) :
    s.drop (s.takeWhile p).length = s.dropWhile p := by
  induction s with
  | nil => simp
  | cons a s ih =>
    simp only [List.takeWhile_cons, List.dropWhile_cons]
    split_ifs
    · simp [ih]
    · simp

theorem takeWhile_append_stop (p : Nat → Bool) (l rest : Str)
    (hl : l.all p = true) (hr : ∀ c r, rest = c :: r → p c = false) :
    (l ++ rest).takeWhile p = l ∧ (l ++ rest).dropWhile p = rest := by
  induction l with
  | nil =>
    cases rest with
    | nil => simp
    | cons c rest =>
      have hr := hr c rest rfl
      simp [List.takeWhile_cons, List.dropWhile_cons, hr]
  | cons a l ih =>
    simp only [List.all_cons, Bool.and_eq_true] at hl
    simp [List.takeWhile_cons, List.dropWhile_cons, hl.1, ih hl.2]

theorem lex_space (c : Nat) (rest : Str) (toks : List Token) (h : isspace c = true) :
    lex (c :: rest) toks = lex rest toks := by
  rw [lex_step _ _ (by simp), step_space c rest toks h]; rfl

theorem lex_leftParen (rest : Str) (toks : List Token) :
    lex (40 :: rest) toks = lex rest (toks ++ [⟨.LeftParen, [40]⟩]) := by
  rw [lex_step _ _ (by simp), step_leftParen]; rfl

theorem lex_rightParen (rest : Str) (toks : List Token) :
    lex (41 :: rest) toks = lex rest (toks ++ [⟨.RightParen, [41]⟩]) := by
  rw [lex_step _ _ (by simp), step_rightParen]; rfl

theorem lex_comma (rest : Str) (toks : List Token) :
    lex (44 :: rest) toks = lex rest (toks ++ [⟨.Comma, [44]⟩]) := by
  rw [lex_step _ _ (by simp), step_comma]; rfl

theorem lex_listStart (rest : Str) (toks : List Token) :
    lex (123 :: rest) toks = lex rest (toks ++ [⟨.ListStart, [123]⟩]) := by
  rw [lex_step _ _ (by simp), step_listStart]; rfl

theorem lex_listEnd (rest : Str) (toks : List Token) :
    lex (125 :: rest) toks = lex rest (toks ++ [⟨.ListEnd, [125]⟩]) := by
  rw [lex_step _ _ (by simp), step_listEnd]; rfl

theorem lex_unsigned (lit rest : Str) (toks : List Token) (h : isUnsigned lit = true)
    (hr : startsNumber rest = false) :
    lex (lit ++ rest) toks = lex rest (toks ++ [⟨.Number, lit⟩]) := by
  cases lit with
  | nil => simp [isUnsigned] at h
  | cons c l =>
    simp only [isUnsigned, List.isEmpty_cons, Bool.not_false, Bool.true_and] at h
    have hc : numberByte c = true := by
      simp only [List.all_cons, Bool.and_eq_true] at h; exact h.1
    have hs : ∀ c r, rest = c :: r → numberByte c = false := by
      intro c r hc; subst hc; simpa [startsNumber] using hr
    obtain ⟨h1, h2⟩ := takeWhile_append_stop numberByte (c :: l) rest h hs
    rw [lex_step _ _ (by simp)]
    rw [List.cons_append, step_number c (l ++ rest) toks hc]
    simp only [drop_takeWhile_length]
    rw [← List.cons_append, h1, h2]

theorem lex_negative (lit rest : Str) (toks : List Token) (h : isUnsigned lit = true)
    (hr : startsNumber rest = false) (hu : isUnaryMinus toks = true) :
    lex (45 :: (lit ++ rest)) toks = lex rest (toks ++ [⟨.Number, 45 :: lit⟩]) := by
  have hs : ∀ c r, rest = c :: r → numberByte c = false := by
    intro c r hc; subst hc; simpa [startsNumber] using hr
  have hsn : startsNumber (lit ++ rest) = true := by
    cases lit with
    | nil => simp [isUnsigned] at h
    | cons c l =>
      simp only [isUnsigned, List.isEmpty_cons, Bool.not_false, Bool.true_and, List.all_cons,
        Bool.and_eq_true] at h
      simp [startsNumber, h.1]
  have hall : lit.all numberByte = true := by
    simp only [isUnsigned, Bool.and_eq_true] at h; exact h.2
  obtain ⟨h1, h2⟩ := takeWhile_append_stop numberByte lit rest hall hs
  rw [lex_step _ _ (by simp), step_minus, hu, hsn]
  simp only [Bool.and_self, if_true]
  rw [Nat.add_comm, List.drop_succ_cons, drop_takeWhile_length, h1, h2]

theorem lex_minusOperator (rest : Str) (toks : List Token)
    (h : (isUnaryMinus toks && startsNumber rest) = false) :
    lex (45 :: rest) toks = lex rest (toks ++ [⟨.Operator, [45]⟩]) := by
  rw [lex_step _ _ (by simp), step_minus, h]; rfl

theorem lex_asciiOperator (c : Nat) (rest : Str) (toks : List Token)
    (h : c = 43 ∨ c = 42 ∨ c = 47 ∨ c = 37 ∨ c = 94) :
    lex (c :: rest) toks = lex rest (toks ++ [⟨.Operator, [c]⟩]) := by
  rw [lex_step _ _ (by simp), step_asciiOperator c rest toks h]; rfl

theorem lex_glyph (ch rest : Str) (toks : List Token) (h : isGlyph ch = true) :
    lex (ch ++ rest) toks = lex rest (toks ++ glyphToken ch) := by
  match ch, h with
  | c :: d :: w, h =>
    simp only [isGlyph, beq_iff_eq] at h
    rw [lex_step _ _ (by simp)]
    simp only [List.cons_append]
    rw [step_multibyte c d w rest toks h]
    simp only
    rw [show w.length + 2 = (c :: d :: w).length from rfl, ← List.cons_append, ← List.cons_append,
      List.drop_left]

theorem lex_identifier (name rest : Str) (toks : List Token) (h : isIdentifier name = true)
    (hr : stopsName rest = true) :
    lex (name ++ rest) toks = lex rest (toks ++ nameToken name) := by
  match name, h with
  | c :: l, h =>
    simp only [isIdentifier, Bool.and_eq_true] at h
    have hall : (c :: l).all nameByte = true := by
      simp only [List.all_cons, Bool.and_eq_true]
      exact ⟨by simp [nameByte, h.1], h.2⟩
    have hs : ∀ c r, rest = c :: r → nameByte c = false := by
      intro c r hc; subst hc; simpa [stopsName] using hr
    obtain ⟨h1, h2⟩ := takeWhile_append_stop nameByte (c :: l) rest hall hs
    rw [lex_step _ _ (by simp)]
    rw [List.cons_append, step_name c (l ++ rest) toks h.1]
    simp only [drop_takeWhile_length]
    rw [← List.cons_append, h1, h2]

theorem mem_keys_of_lookup {β : Type} (k : Str) (l : List (Str × β))
    (h : (l.lookup k).isSome = true) : k ∈ l.map Prod.fst := by
  induction l with
  | nil => simp at h
  | cons a l ih =>
    obtain ⟨k1, v⟩ := a
    simp only [List.lookup_cons] at h
    by_cases hk : (k == k1) = true
    · have : k = k1 := by simpa using hk
      simp [this]
    · have hk2 : (k == k1) = false := by simpa using hk
      rw [hk2] at h
      simp only [List.map_cons, List.mem_cons]
      exact Or.inr (ih h)

theorem operator_glyphs :
    ∀ o ∈ OPERATORS.map Prod.fst, (o = [43] ∨ o = [42] ∨ o = [47] ∨ o = [37] ∨ o = [94]) ∨
      o = [45] ∨ (isGlyph o = true ∧ glyphToken o = [⟨.Operator, o⟩]) := by
  decide

theorem lex_operator (o rest : Str) (toks : List Token) (h : isOperator o = true)
    (hr : startsNumber rest = false) :
    lex (o ++ rest) toks = lex rest (toks ++ [⟨.Operator, o⟩]) := by
  rcases operator_glyphs o (mem_keys_of_lookup o OPERATORS h) with h1 | h1 | ⟨h1, h2⟩
  · have : ∃ c, o = [c] ∧ (c = 43 ∨ c = 42 ∨ c = 47 ∨ c = 37 ∨ c = 94) := by
      rcases h1 with h1 | h1 | h1 | h1 | h1 <;> exact ⟨_, h1, by simp⟩
    obtain ⟨c, rfl, hc⟩ := this
    exact lex_asciiOperator c rest toks hc
  · subst h1
    exact lex_minusOperator rest toks (by rw [hr]; simp)
  · rw [lex_glyph o rest toks h1, h2]

theorem unary_lexemes :
    ∀ f ∈ UNARY_FUNCTIONS.map Prod.fst,
      (isIdentifier f = true ∧ nameToken f = [⟨.UnaryFunction, f⟩]) ∨
      (isGlyph f = true ∧ glyphToken f = [⟨.UnaryFunction, f⟩]) := by
  decide

theorem binary_lexemes :
    ∀ f ∈ BINARY_FUNCTIONS.map Prod.fst,
      isIdentifier f = true ∧ nameToken f = [⟨.BinaryFunction, f⟩] := by
  decide

theorem constant_lexemes :
    ∀ f ∈ CONSTANTS.map Prod.fst,
      (isIdentifier f = true ∧ nameToken f = [⟨.Constant, f⟩]) ∨
      (isGlyph f = true ∧ glyphToken f = [⟨.Constant, f⟩]) := by
  decide

theorem list_lexemes :
    ∀ f ∈ LIST_FUNCTIONS.map Prod.fst,
      isIdentifier f = true → nameToken f = [⟨.ListFunction, f⟩] := by
  decide

theorem lex_unary (f rest : Str) (toks : List Token) (h : isUnaryFunction f = true)
    (hr : stopsName rest = true) :
    lex (f ++ rest) toks = lex rest (toks ++ [⟨.UnaryFunction, f⟩]) := by
  rcases unary_lexemes f (mem_keys_of_lookup f UNARY_FUNCTIONS h) with ⟨h1, h2⟩ | ⟨h1, h2⟩
  · rw [lex_identifier f rest toks h1 hr, h2]
  · rw [lex_glyph f rest toks h1, h2]

theorem lex_binary (f rest : Str) (toks : List Token) (h : isBinaryFunction f = true)
    (hr : stopsName rest = true) :
    lex (f ++ rest) toks = lex rest (toks ++ [⟨.BinaryFunction, f⟩]) := by
  obtain ⟨h1, h2⟩ := binary_lexemes f (mem_keys_of_lookup f BINARY_FUNCTIONS h)
  rw [lex_identifier f rest toks h1 hr, h2]

theorem lex_constant (f rest : Str) (toks : List Token) (h : isConstant f = true)
    (hr : stopsName rest = true) :
    lex (f ++ rest) toks = lex rest (toks ++ [⟨.Constant, f⟩]) := by
  rcases constant_lexemes f (mem_keys_of_lookup f CONSTANTS h) with ⟨h1, h2⟩ | ⟨h1, h2⟩
  · rw [lex_identifier f rest toks h1 hr, h2]
  · rw [lex_glyph f rest toks h1, h2]

theorem lex_listFunction (f rest : Str) (toks : List Token) (h : isListFunction f = true)
    (hi : isIdentifier f = true) (hr : stopsName rest = true) :
    lex (f ++ rest) toks = lex rest (toks ++ [⟨.ListFunction, f⟩]) := by
  have h2 := list_lexemes f (mem_keys_of_lookup f LIST_FUNCTIONS h) hi
  rw [lex_identifier f rest toks hi hr, h2]

theorem isUnaryMinus_append (toks : List Token) (t : Token) :
    isUnaryMinus (toks ++ [t]) =
      (t.type == .Operator || t.type == .LeftParen || t.type == .Comma ||
        t.type == .ListStart) := by
  simp [isUnaryMinus]

theorem lex_literal (lit rest : Str) (toks : List Token) (h : isNumberLiteral lit = true)
    (hr : startsNumber rest = false) (hu : isUnaryMinus toks = true) :
    lex (lit ++ rest) toks = lex rest (toks ++ [⟨.Number, lit⟩]) := by
  by_cases h1 : isUnsigned lit = true
  · exact lex_unsigned lit rest toks h1 hr
  · simp only [isNumberLiteral, h1, Bool.false_or] at h
    match lit, h with
    | 45 :: l, h => exact lex_negative l rest toks h hr hu

theorem startsNumber_cons (c : Nat) (r : Str) (h : numberByte c = false) :
    startsNumber (c :: r) = false := h

theorem stopsName_cons (c : Nat) (r : Str) (h : nameByte c = false) :
    stopsName (c :: r) = true := by simp [stopsName, h]

theorem str_commaSpace : str ", " = [44, 32] := by decide

theorem lex_render (t : Expr) : t.wf = true → ∀ (rest : Str) (toks : List Token),
    startsNumber rest = false → isUnaryMinus toks = true →
    lex (render t ++ rest) toks = lex rest (toks ++ tokensOf t) := by
  induction t with
  | num lit =>
    intro hw rest toks hr hu
    exact lex_literal lit rest toks hw hr hu
  | op o a b iha ihb =>
    intro hw rest toks hr hu
    simp only [Expr.wf, Bool.and_eq_true] at hw
    obtain ⟨⟨ho, ha⟩, hb⟩ := hw
    simp only [render, tokensOf, str_leftParen, str_rightParen, str_space, List.append_assoc,
      List.cons_append, List.nil_append]
    rw [lex_leftParen,
      iha ha _ _ (startsNumber_cons 32 _ (by decide)) (by rw [isUnaryMinus_append]; rfl),
      lex_space _ _ _ (by decide),
      lex_operator o _ _ ho (startsNumber_cons 32 _ (by decide)), lex_space _ _ _ (by decide),
      ihb hb _ _ (startsNumber_cons 41 _ (by decide)) (by rw [isUnaryMinus_append]; rfl),
      lex_rightParen]
    simp only [List.append_assoc, List.cons_append, List.nil_append]
  | un f a iha =>
    intro hw rest toks hr hu
    simp only [Expr.wf, Bool.and_eq_true] at hw
    obtain ⟨hf, ha⟩ := hw
    simp only [render, tokensOf, str_leftParen, str_rightParen, List.append_assoc,
      List.cons_append, List.nil_append]
    rw [lex_unary f _ _ hf (stopsName_cons 40 _ (by decide)), lex_leftParen,
      iha ha _ _ (startsNumber_cons 41 _ (by decide)) (by rw [isUnaryMinus_append]; rfl),
      lex_rightParen]
    simp only [List.append_assoc, List.cons_append, List.nil_append]
  | bin g a b iha ihb =>
    intro hw rest toks hr hu
    simp only [Expr.wf, Bool.and_eq_true] at hw
    obtain ⟨⟨hg, ha⟩, hb⟩ := hw
    simp only [render, tokensOf, str_leftParen, str_rightParen, str_commaSpace, str_comma,
      List.append_assoc, List.cons_append, List.nil_append]
    rw [lex_binary g _ _ hg (stopsName_cons 40 _ (by decide)), lex_leftParen,
      iha ha _ _ (startsNumber_cons 44 _ (by decide)) (by rw [isUnaryMinus_append]; rfl),
      lex_comma, lex_space _ _ _ (by decide),
      ihb hb _ _ (startsNumber_cons 41 _ (by decide)) (by rw [isUnaryMinus_append]; rfl),
      lex_rightParen]
    simp only [List.append_assoc, List.cons_append, List.nil_append]

theorem tokenize_render (t : Expr) (h : t.wf = true) :
    tokenize (render t) = some (tokensOf t) := by
  have := lex_render t h [] [] rfl rfl
  rw [List.append_nil, lex_nil, List.nil_append] at this
  exact this

theorem joinSpaces_cons_cons (a b : Str) (l : List Str) :
    joinSpaces (a :: b :: l) = a ++ 32 :: joinSpaces (b :: l) := by
  show a ++ str " " ++ joinSpaces (b :: l) = _
  rw [str_space]; simp

theorem joinSpaces_singleton (a : Str) : joinSpaces [a] = a := rfl

theorem joinSpaces_append (l1 l2 : List Str) (h1 : l1 ≠ []) (h2 : l2 ≠ []) :
    joinSpaces (l1 ++ l2) = joinSpaces l1 ++ 32 :: joinSpaces l2 := by
  induction l1 with
  | nil => exact absurd rfl h1
  | cons a l ih =>
    cases l with
    | nil =>
      cases l2 with
      | nil => exact absurd rfl h2
      | cons b l2 =>
        rw [List.singleton_append, joinSpaces_cons_cons, joinSpaces_singleton]
    | cons b l =>
      have := ih (by simp)
      rw [List.cons_append] at this
      rw [List.cons_append, List.cons_append, joinSpaces_cons_cons, joinSpaces_cons_cons, this,
        List.append_assoc, List.cons_append]

theorem joinSpaces_append_singleton (l : List Str) (x : Str) (h : l ≠ []) :
    joinSpaces (l ++ [x]) = joinSpaces l ++ 32 :: x := by
  rw [joinSpaces_append l [x] h (by simp), joinSpaces_singleton]

theorem postorder_ne_nil (t : Expr) : postorder t ≠ [] := by
  cases t <;> simp [postorder]

theorem isNumberLiteral_ne_nil {lit : Str} (h : isNumberLiteral lit = true) : lit ≠ [] := by
  intro h0; subst h0; simp [isNumberLiteral, isUnsigned] at h

theorem joinSpaces_postorder_ne_nil (t : Expr) (h : t.wf = true) :
    joinSpaces (postorder t) ≠ [] := by
  cases t with
  | num lit => simpa [postorder, joinSpaces] using isNumberLiteral_ne_nil h
  | op o a b =>
    rw [postorder, joinSpaces_append_singleton _ _ (by simp [postorder_ne_nil])]; simp
  | un f a =>
    rw [postorder, joinSpaces_append_singleton _ _ (postorder_ne_nil a)]; simp
  | bin g a b =>
    rw [postorder, joinSpaces_append_singleton _ _ (by simp [postorder_ne_nil])]; simp

theorem separate_nil : separate [] = [] := rfl

theorem separate_ne_nil (out : Str) (h : out ≠ []) : separate out = out ++ [32] := by
  cases out with
  | nil => exact absurd rfl h
  | cons c l => simp [separate, str_space]

theorem separate_append (out j : Str) (h : j ≠ []) :
    separate (separate out ++ j) = separate out ++ j ++ [32] :=
  separate_ne_nil _ (by simp [h])

theorem convertTokens_nil (out : Str) (st : List Token) :
    convertTokens [] out st = (out, st) := rfl

theorem convertTokens_cons (t : Token) (l : List Token) (out : Str) (st : List Token) :
    convertTokens (t :: l) out st =
      convertTokens l (convertToken t out st).1 (convertToken t out st).2 := rfl

theorem convertTokens_append (l1 l2 : List Token) (out : Str) (st : List Token) :
    convertTokens (l1 ++ l2) out st =
      convertTokens l2 (convertTokens l1 out st).1 (convertTokens l1 out st).2 := by
  induction l1 generalizing out st with
  | nil => rfl
  | cons t l ih => rw [List.cons_append, convertTokens_cons, convertTokens_cons, ih]

theorem popWhile_nil (cond : Token → Bool) (out : Str) : popWhile cond out [] = (out, []) := rfl

theorem popWhile_cons (cond : Token → Bool) (out : Str) (top : Token) (st : List Token) :
    popWhile cond out (top :: st) =
      if cond top then popWhile cond (out ++ str " " ++ top.value) st else (out, top :: st) :=
  rfl

theorem convertToken_number (v out : Str) (st : List Token) :
    convertToken ⟨.Number, v⟩ out st = (separate out ++ v, st) := rfl

theorem convertToken_leftParen (v out : Str) (st : List Token) :
    convertToken ⟨.LeftParen, v⟩ out st = (out, ⟨.LeftParen, v⟩ :: st) := rfl

theorem convertToken_unary (v out : Str) (st : List Token) :
    convertToken ⟨.UnaryFunction, v⟩ out st = (out, ⟨.UnaryFunction, v⟩ :: st) := rfl

theorem convertToken_binary (v out : Str) (st : List Token) :
    convertToken ⟨.BinaryFunction, v⟩ out st = (out, ⟨.BinaryFunction, v⟩ :: st) := rfl

theorem convertToken_operator_paren (o v out : Str) (st : List Token) :
    convertToken ⟨.Operator, o⟩ out (⟨.LeftParen, v⟩ :: st) =
      (out, ⟨.Operator, o⟩ :: ⟨.LeftParen, v⟩ :: st) := rfl

theorem convertToken_comma_paren (c v out : Str) (st : List Token) :
    convertToken ⟨.Comma, c⟩ out (⟨.LeftParen, v⟩ :: st) = (out, ⟨.LeftParen, v⟩ :: st) := rfl

theorem convertToken_rightParen_operator (r o v out : Str) (st : List Token)
    (hs : noFunctionOnTop st = true) :
    convertToken ⟨.RightParen, r⟩ out (⟨.Operator, o⟩ :: ⟨.LeftParen, v⟩ :: st) =
      (out ++ 32 :: o, st) := by
  cases st with
  | nil => simp [convertToken, popWhile_cons, str_space]
  | cons top st =>
    simp only [noFunctionOnTop, Bool.not_eq_true'] at hs
    simp [convertToken, popWhile_cons, str_space, hs]

theorem convertToken_rightParen_unary (r f v out : Str) (st : List Token) :
    convertToken ⟨.RightParen, r⟩ out (⟨.LeftParen, v⟩ :: ⟨.UnaryFunction, f⟩ :: st) =
      (out ++ 32 :: f, st) := by
  simp [convertToken, popWhile_cons, str_space]

theorem convertToken_rightParen_binary (r f v out : Str) (st : List Token) :
    convertToken ⟨.RightParen, r⟩ out (⟨.LeftParen, v⟩ :: ⟨.BinaryFunction, f⟩ :: st) =
      (out ++ 32 :: f, st) := by
  simp [convertToken, popWhile_cons, str_space]

theorem convertTokens_render (t : Expr) : t.wf = true → ∀ (out : Str) (st : List Token),
    noFunctionOnTop st = true →
    convertTokens (tokensOf t) out st = (separate out ++ joinSpaces (postorder t), st) := by
  induction t with
  | num lit =>
    intro hw out st hs
    simp [tokensOf, convertTokens_cons, convertTokens_nil, convertToken, postorder, joinSpaces]
  | op o a b iha ihb =>
    intro hw out st hs
    simp only [Expr.wf, Bool.and_eq_true] at hw
    obtain ⟨⟨ho, ha⟩, hb⟩ := hw
    have hne := joinSpaces_postorder_ne_nil a ha
    have h1 := iha ha out (⟨.LeftParen, str "("⟩ :: st) rfl
    have h2 := ihb hb (separate out ++ joinSpaces (postorder a))
      (⟨.Operator, o⟩ :: ⟨.LeftParen, str "("⟩ :: st) rfl
    simp only [tokensOf, postorder, List.append_assoc, List.cons_append, List.nil_append]
    simp only [convertTokens_cons, convertTokens_nil, convertTokens_append,
      convertToken_leftParen, h1, convertToken_operator_paren, h2,
      convertToken_rightParen_operator _ _ _ _ _ hs]
    rw [separate_append _ _ hne, ← List.append_assoc (postorder a),
      joinSpaces_append_singleton _ _ (by simp [postorder_ne_nil]),
      joinSpaces_append _ _ (postorder_ne_nil a) (postorder_ne_nil b)]
    simp
  | un f a iha =>
    intro hw out st hs
    simp only [Expr.wf, Bool.and_eq_true] at hw
    obtain ⟨hf, ha⟩ := hw
    have h1 := iha ha out (⟨.LeftParen, str "("⟩ :: ⟨.UnaryFunction, f⟩ :: st) rfl
    simp only [tokensOf, postorder, List.append_assoc, List.cons_append, List.nil_append]
    simp only [convertTokens_cons, convertTokens_nil, convertTokens_append,
      convertToken_leftParen, convertToken_unary, h1, convertToken_rightParen_unary]
    rw [joinSpaces_append_singleton _ _ (postorder_ne_nil a)]
    simp
  | bin g a b iha ihb =>
    intro hw out st hs
    simp only [Expr.wf, Bool.and_eq_true] at hw
    obtain ⟨⟨hg, ha⟩, hb⟩ := hw
    have hne := joinSpaces_postorder_ne_nil a ha
    have h1 := iha ha out (⟨.LeftParen, str "("⟩ :: ⟨.BinaryFunction, g⟩ :: st) rfl
    have h2 := ihb hb (separate out ++ joinSpaces (postorder a))
      (⟨.LeftParen, str "("⟩ :: ⟨.BinaryFunction, g⟩ :: st) rfl
    simp only [tokensOf, postorder, List.append_assoc, List.cons_append, List.nil_append]
    simp only [convertTokens_cons, convertTokens_nil, convertTokens_append,
      convertToken_leftParen, convertToken_binary, h1, convertToken_comma_paren, h2,
      convertToken_rightParen_binary]
    rw [separate_append _ _ hne, ← List.append_assoc (postorder a),
      joinSpaces_append_singleton _ _ (by simp [postorder_ne_nil]),
      joinSpaces_append _ _ (postorder_ne_nil a) (postorder_ne_nil b)]
    simp

theorem convert_render (t : Expr) (h : t.wf = true) :
    convert (tokensOf t) = joinSpaces (postorder t) := by
  unfold convert
  rw [convertTokens_render t h [] [] rfl]
  rfl

theorem infixToRPN_render (t : Expr) (h : t.wf = true) :
    infixToRPN (render t) = some (joinSpaces (postorder t)) := by
  unfold infixToRPN
  rw [tokenize_render t h, Option.map_some', convert_render t h]

theorem splitLoop_succ (e : Str) (fuel i : Nat) (current : Str) (tokens : List Str) :
    splitLoop e (fuel + 1) i current tokens =
      if i < e.length then
        splitLoop e fuel (i + (utf8ExtractChar e i).length)
          (splitCurrent (utf8ExtractChar e i) current)
          (splitPushed (utf8ExtractChar e i) current tokens)
      else some (splitFlush current tokens) := by
  conv_lhs => unfold splitLoop
  unfold splitCurrent splitPushed splitFlush
  by_cases h : i < e.length
  · rw [if_pos h, if_pos h]
    simp only
    by_cases h1 : isAsciiSpace (utf8ExtractChar e i) = true
    · simp only [h1, if_true]
      by_cases h2 : (!current.isEmpty) = true
      · simp only [h2, if_true]
      · simp only [h2, Bool.false_eq_true, if_false]
    · simp only [h1, Bool.false_eq_true, if_false]
  · rw [if_neg h, if_neg h]

theorem splitLoop_drop : ∀ (fuel : Nat) (e : Str) (i : Nat) (current : Str) (tokens : List Str),
    splitLoop e fuel i current tokens = splitLoop (e.drop i) fuel 0 current tokens := by
  intro fuel
  induction fuel with
  | zero => intro e i current tokens; rfl
  | succ f ih =>
    intro e i current tokens
    rw [splitLoop_succ, splitLoop_succ]
    have hx : utf8ExtractChar e i = utf8ExtractChar (e.drop i) 0 := utf8ExtractChar_drop e i 0
    by_cases hi : i < e.length
    · have h0 : 0 < (e.drop i).length := by rw [List.length_drop]; omega
      rw [if_pos hi, if_pos h0, hx, ih e, ih (e.drop i), List.drop_drop, Nat.zero_add]
    · have h0 : ¬ 0 < (e.drop i).length := by rw [List.length_drop]; omega
      rw [if_neg hi, if_neg h0]

theorem splitLoop_stuck (s current : Str) (tokens : List Str) (hs : s ≠ [])
    (h : utf8ExtractChar s 0 = []) : ∀ fuel, splitLoop s fuel 0 current tokens = none := by
  intro fuel
  induction fuel with
  | zero => rfl
  | succ f ih =>
    rw [splitLoop_succ, if_pos (List.length_pos.mpr hs), h]
    simpa [splitCurrent, splitPushed, isAsciiSpace] using ih

theorem splitTokens_eq_split (e : Str) : splitTokens e = split e [] [] := rfl

theorem splitLoop_stable : ∀ (n : Nat) (s current : Str) (tokens : List Str) (fuel : Nat),
    s.length = n → n + 1 ≤ fuel →
    splitLoop s fuel 0 current tokens = splitLoop s (n + 1) 0 current tokens := by
  intro n
  induction n using Nat.strong_induction_on with
  | _ n ih =>
    intro s current tokens fuel hn hf
    obtain ⟨f, rfl⟩ : ∃ f, fuel = f + 1 := ⟨fuel - 1, by omega⟩
    rw [splitLoop_succ, splitLoop_succ]
    by_cases h0 : 0 < s.length
    · rw [if_pos h0, if_pos h0]
      have hs : s ≠ [] := List.length_pos.mp h0
      by_cases hch : utf8ExtractChar s 0 = []
      · rw [hch]
        have e1 : splitCurrent [] current = current := by simp [splitCurrent, isAsciiSpace]
        have e2 : splitPushed [] current tokens = tokens := by simp [splitPushed, isAsciiSpace]
        rw [e1, e2]
        simp only [List.length_nil, Nat.add_zero]
        rw [splitLoop_stuck s current tokens hs hch, splitLoop_stuck s current tokens hs hch]
      · have hpos : 0 < (utf8ExtractChar s 0).length := List.length_pos.mpr hch
        have hle := utf8ExtractChar_length_le s
        rw [splitLoop_drop f, splitLoop_drop n]
        have hlen : (s.drop (0 + (utf8ExtractChar s 0).length)).length
            = n - (utf8ExtractChar s 0).length := by
          rw [List.length_drop, hn, Nat.zero_add]
        rw [ih _ (by omega) _ _ _ f hlen (by omega), ih _ (by omega) _ _ _ n hlen (by omega)]
    · rw [if_neg h0, if_neg h0]

theorem split_nil (current : Str) (tokens : List Str) :
    split [] current tokens = some (splitFlush current tokens) := by
  unfold split
  rw [splitLoop_succ]; rfl

theorem split_step (s current : Str) (tokens : List Str) (hs : s ≠ []) :
    split s current tokens =
      split (s.drop (utf8ExtractChar s 0).length) (splitCurrent (utf8ExtractChar s 0) current)
        (splitPushed (utf8ExtractChar s 0) current tokens) := by
  by_cases hch : utf8ExtractChar s 0 = []
  · rw [hch]
    have e1 : splitCurrent [] current = current := by simp [splitCurrent, isAsciiSpace]
    have e2 : splitPushed [] current tokens = tokens := by simp [splitPushed, isAsciiSpace]
    rw [e1, e2]; rfl
  · have hpos : 0 < (utf8ExtractChar s 0).length := List.length_pos.mpr hch
    have hle := utf8ExtractChar_length_le s
    conv_lhs => unfold split
    rw [splitLoop_succ, if_pos (List.length_pos.mpr hs), splitLoop_drop, Nat.zero_add]
    unfold split
    exact splitLoop_stable _ _ _ _ _ rfl (by rw [List.length_drop]; omega)

theorem split_space (c : Nat) (rest current : Str) (tokens : List Str) (h : isspace c = true) :
    split (c :: rest) current tokens =
      split rest (if !current.isEmpty then [] else current)
        (if !current.isEmpty then tokens ++ [current] else tokens) := by
  have hc : c < 128 := by simp [isspace] at h; omega
  rw [split_step _ _ _ (by simp), utf8ExtractChar_ascii c rest hc]
  have hsp : isAsciiSpace [c] = true := by simp [isAsciiSpace, h]
  simp only [splitCurrent, splitPushed, hsp, if_true, List.length_singleton, List.drop_succ_cons,
    List.drop_zero]

theorem split_char (ch rest current : Str) (tokens : List Str)
    (hx : utf8ExtractChar (ch ++ rest) 0 = ch) (hsp : isAsciiSpace ch = false) :
    split (ch ++ rest) current tokens = split rest (current ++ ch) tokens := by
  by_cases hn : ch = []
  · subst hn; simp
  · rw [split_step _ _ _ (by simp [hn]), hx]
    simp only [splitCurrent, splitPushed, hsp, Bool.false_eq_true, if_false, List.drop_left]

theorem split_plain (w rest current : Str) (tokens : List Str) (h : isPlain w = true) :
    split (w ++ rest) current tokens = split rest (current ++ w) tokens := by
  induction w generalizing current with
  | nil => simp
  | cons c w ih =>
    simp only [isPlain, List.all_cons, Bool.and_eq_true, decide_eq_true_eq,
      Bool.not_eq_true'] at h
    have := split_char [c] (w ++ rest) current tokens
      (utf8ExtractChar_ascii c _ h.1.1) (by simp [isAsciiSpace, h.1.2])
    rw [List.cons_append, ← List.singleton_append, this, ih _ (by simpa [isPlain] using h.2)]
    simp

theorem split_glyph (ch rest current : Str) (tokens : List Str) (h : isGlyph ch = true) :
    split (ch ++ rest) current tokens = split rest (current ++ ch) tokens := by
  match ch, h with
  | c :: d :: w, h =>
    simp only [isGlyph, beq_iff_eq] at h
    exact split_char (c :: d :: w) rest current tokens
      (utf8ExtractChar_multibyte c (d :: w) rest (by simpa using h)) (by simp [isAsciiSpace])

theorem split_item (w rest current : Str) (tokens : List Str) (h : isItem w = true) :
    split (w ++ rest) current tokens = split rest (current ++ w) tokens := by
  simp only [isItem, Bool.and_eq_true, Bool.or_eq_true] at h
  rcases h.2 with h1 | h1
  · exact split_plain w rest current tokens h1
  · exact split_glyph w rest current tokens h1

theorem split_joinSpaces (items : List Str) (h : ∀ w ∈ items, isItem w = true) :
    ∀ tokens, split (joinSpaces items) [] tokens = some (tokens ++ items) := by
  induction items with
  | nil => intro tokens; simp [joinSpaces, split_nil, splitFlush]
  | cons x l ih =>
    intro tokens
    have hx := h x (by simp)
    have hne : x ≠ [] := by
      intro h0; subst h0; simp [isItem] at hx
    have hemp : x.isEmpty = false := by
      cases x with
      | nil => exact absurd rfl hne
      | cons _ _ => rfl
    cases l with
    | nil =>
      rw [joinSpaces_singleton]
      have := split_item x [] [] tokens hx
      rw [List.append_nil, List.nil_append] at this
      rw [this, split_nil]
      simp [splitFlush, hemp]
    | cons y l =>
      rw [joinSpaces_cons_cons, split_item x _ [] tokens hx, List.nil_append,
        split_space 32 _ _ _ (by decide)]
      simp only [hemp, Bool.not_false, if_true]
      rw [ih (fun w hw => h w (by simp [hw]))]
      simp

theorem splitTokens_joinSpaces (items : List Str) (h : ∀ w ∈ items, isItem w = true) :
    splitTokens (joinSpaces items) = some items := by
  rw [splitTokens_eq_split, split_joinSpaces items h]; simp

theorem lookup_none_of_not_mem {β : Type} (k : Str) (l : List (Str × β))
    (h : k ∉ l.map Prod.fst) : l.lookup k = none := by
  cases hl : l.lookup k with
  | none => rfl
  | some v => exact absurd (mem_keys_of_lookup k l (by rw [hl]; rfl)) h

theorem literal_keys :
    (∀ k ∈ OPERATORS.map Prod.fst, isNumberLiteral k = false) ∧
    (∀ k ∈ UNARY_FUNCTIONS.map Prod.fst, isNumberLiteral k = false) ∧
    (∀ k ∈ BINARY_FUNCTIONS.map Prod.fst, isNumberLiteral k = false) ∧
    (∀ k ∈ LIST_FUNCTIONS.map Prod.fst, isNumberLiteral k = false) ∧
    (∀ k ∈ CONSTANTS.map Prod.fst, isNumberLiteral k = false) ∧
    isNumberLiteral (str "\x7b") = false ∧ isNumberLiteral (str "\x7d") = false := by
  decide

theorem literal_not_key {lit : Str} (h : isNumberLiteral lit = true) :
    (lit == str "\x7b") = false ∧ (lit == str "\x7d") = false ∧
    OPERATORS.lookup lit = none ∧ UNARY_FUNCTIONS.lookup lit = none ∧
    BINARY_FUNCTIONS.lookup lit = none ∧ LIST_FUNCTIONS.lookup lit = none ∧
    CONSTANTS.lookup lit = none := by
  obtain ⟨h1, h2, h3, h4, h5, h6, h7⟩ := literal_keys
  have key : ∀ {β : Type} (l : List (Str × β)),
      (∀ k ∈ l.map Prod.fst, isNumberLiteral k = false) → l.lookup lit = none := by
    intro β l hl
    apply lookup_none_of_not_mem
    intro hm
    rw [hl lit hm] at h
    exact absurd h (by simp)
  refine ⟨?_, ?_, key _ h1, key _ h2, key _ h3, key _ h4, key _ h5⟩
  · cases hb : lit == str "\x7b" with
    | false => rfl
    | true =>
      have : lit = str "\x7b" := by simpa using hb
      rw [this, h6] at h; exact absurd h (by simp)
  · cases hb : lit == str "\x7d" with
    | false => rfl
    | true =>
      have : lit = str "\x7d" := by simpa using hb
      rw [this, h7] at h; exact absurd h (by simp)

theorem operator_keys :
    ∀ k ∈ OPERATORS.map Prod.fst, (k == str "\x7b") = false ∧ (k == str "\x7d") = false := by
  decide

theorem unary_keys :
    ∀ k ∈ UNARY_FUNCTIONS.map Prod.fst, (k == str "\x7b") = false ∧ (k == str "\x7d") = false ∧
      OPERATORS.lookup k = none := by
  decide

theorem binary_keys :
    ∀ k ∈ BINARY_FUNCTIONS.map Prod.fst, (k == str "\x7b") = false ∧ (k == str "\x7d") = false ∧
      OPERATORS.lookup k = none ∧ UNARY_FUNCTIONS.lookup k = none := by
  decide

section
variable {F : Type} (A : Arith F)

theorem evalTokens_cons (token : Str) (rest : List Str) (s : List F) :
    evalTokens A (token :: rest) s =
      match evalToken A token s with
      | .ok s1 => evalTokens A rest s1
      | .error e => .error e := rfl

theorem evalToken_literal (lit : Str) (s : List F) (h : isNumberLiteral lit = true) :
    evalToken A lit s =
      match A.stod lit with
      | some v => .ok (v :: s)
      | none => .error .invalidNumber := by
  obtain ⟨h1, h2, h3, h4, h5, h6, h7⟩ := literal_not_key h
  unfold evalToken
  rw [h1, h2]
  simp only [Bool.false_eq_true, if_false, h3, h4, h5, h6, h7]

theorem evalToken_operator (o : Str) (info : OperatorInfo) (a b : F) (s : List F)
    (h : OPERATORS.lookup o = some info) :
    evalToken A o (b :: a :: s) = .ok (applyBin A info.func a b :: s) := by
  obtain ⟨h1, h2⟩ := operator_keys o (mem_keys_of_lookup o OPERATORS (by rw [h]; rfl))
  unfold evalToken
  rw [h1, h2]
  simp only [Bool.false_eq_true, if_false, h]

theorem evalToken_unary (f : Str) (func : UnOp) (a : F) (s : List F)
    (h : UNARY_FUNCTIONS.lookup f = some func) :
    evalToken A f (a :: s) = .ok (applyUn A func a :: s) := by
  obtain ⟨h1, h2, h3⟩ := unary_keys f (mem_keys_of_lookup f UNARY_FUNCTIONS (by rw [h]; rfl))
  unfold evalToken
  rw [h1, h2]
  simp only [Bool.false_eq_true, if_false, h3, h]

theorem evalToken_binary (g : Str) (func : BinOp) (a b : F) (s : List F)
    (h : BINARY_FUNCTIONS.lookup g = some func) :
    evalToken A g (b :: a :: s) = .ok (applyBin A func a b :: s) := by
  obtain ⟨h1, h2, h3, h4⟩ :=
    binary_keys g (mem_keys_of_lookup g BINARY_FUNCTIONS (by rw [h]; rfl))
  unfold evalToken
  rw [h1, h2]
  simp only [Bool.false_eq_true, if_false, h3, h4, h]

theorem evalTokens_postorder (t : Expr) : t.wf = true → ∀ (rest : List Str) (s : List F),
    evalTokens A (postorder t ++ rest) s =
      match evalExpr A t with
      | .ok v => evalTokens A rest (v :: s)
      | .error e => .error e := by
  induction t with
  | num lit =>
    intro hw rest s
    simp only [postorder, List.singleton_append, evalTokens_cons, evalToken_literal A lit s hw,
      evalExpr]
    cases A.stod lit <;> rfl
  | op o a b iha ihb =>
    intro hw rest s
    simp only [Expr.wf, Bool.and_eq_true] at hw
    obtain ⟨⟨ho, ha⟩, hb⟩ := hw
    simp only [postorder, List.append_assoc, iha ha, evalExpr]
    cases evalExpr A a with
    | error e => rfl
    | ok va =>
      simp only [ihb hb]
      cases evalExpr A b with
      | error e => rfl
      | ok vb =>
        obtain ⟨info, hinfo⟩ := Option.isSome_iff_exists.mp ho
        simp only [List.singleton_append, evalTokens_cons,
          evalToken_operator A o info va vb s hinfo, hinfo]
  | un f a iha =>
    intro hw rest s
    simp only [Expr.wf, Bool.and_eq_true] at hw
    obtain ⟨hf, ha⟩ := hw
    simp only [postorder, List.append_assoc, iha ha, evalExpr]
    cases evalExpr A a with
    | error e => rfl
    | ok va =>
      obtain ⟨func, hfunc⟩ := Option.isSome_iff_exists.mp hf
      simp only [List.singleton_append, evalTokens_cons,
        evalToken_unary A f func va s hfunc, hfunc]
  | bin g a b iha ihb =>
    intro hw rest s
    simp only [Expr.wf, Bool.and_eq_true] at hw
    obtain ⟨⟨hg, ha⟩, hb⟩ := hw
    simp only [postorder, List.append_assoc, iha ha, evalExpr]
    cases evalExpr A a with
    | error e => rfl
    | ok va =>
      simp only [ihb hb]
      cases evalExpr A b with
      | error e => rfl
      | ok vb =>
        obtain ⟨func, hfunc⟩ := Option.isSome_iff_exists.mp hg
        simp only [List.singleton_append, evalTokens_cons,
          evalToken_binary A g func va vb s hfunc, hfunc]

end

theorem isUnsigned_isPlain {l : Str} (h : isUnsigned l = true) : isPlain l = true := by
  simp only [isUnsigned, Bool.and_eq_true, List.all_eq_true] at h
  simp only [isPlain, List.all_eq_true, Bool.and_eq_true, decide_eq_true_eq, Bool.not_eq_true']
  intro c hc
  have := h.2 c hc
  simp only [numberByte, isdigit, Bool.or_eq_true, Bool.and_eq_true, decide_eq_true_eq,
    beq_iff_eq] at this
  constructor
  · omega
  · simp only [isspace, Bool.or_eq_false_iff, Bool.and_eq_false_iff, beq_eq_false_iff_ne,
      decide_eq_false_iff_not]
    omega

theorem literal_isItem {lit : Str} (h : isNumberLiteral lit = true) : isItem lit = true := by
  have hne := isNumberLiteral_ne_nil h
  have hemp : lit.isEmpty = false := by
    cases lit with
    | nil => exact absurd rfl hne
    | cons _ _ => rfl
  simp only [isItem, hemp, Bool.not_false, Bool.true_and, Bool.or_eq_true]
  left
  by_cases h1 : isUnsigned lit = true
  · exact isUnsigned_isPlain h1
  · simp only [isNumberLiteral, h1, Bool.false_or] at h
    match lit, h with
    | 45 :: l, h =>
      have := isUnsigned_isPlain h
      simp only [isPlain, List.all_cons, Bool.and_eq_true] at this ⊢
      exact ⟨by decide, this⟩

theorem key_items :
    (∀ k ∈ OPERATORS.map Prod.fst, isItem k = true) ∧
    (∀ k ∈ UNARY_FUNCTIONS.map Prod.fst, isItem k = true) ∧
    (∀ k ∈ BINARY_FUNCTIONS.map Prod.fst, isItem k = true) := by
  decide

theorem postorder_items (t : Expr) (h : t.wf = true) : ∀ w ∈ postorder t, isItem w = true := by
  induction t with
  | num lit =>
    intro w hw
    simp only [postorder, List.mem_singleton] at hw
    subst hw
    exact literal_isItem h
  | op o a b iha ihb =>
    simp only [Expr.wf, Bool.and_eq_true] at h
    obtain ⟨⟨ho, ha⟩, hb⟩ := h
    intro w hw
    simp only [postorder, List.mem_append, List.mem_singleton] at hw
    rcases hw with (hw | hw) | hw
    · exact iha ha w hw
    · exact ihb hb w hw
    · subst hw; exact key_items.1 w (mem_keys_of_lookup w OPERATORS ho)
  | un f a iha =>
    simp only [Expr.wf, Bool.and_eq_true] at h
    obtain ⟨hf, ha⟩ := h
    intro w hw
    simp only [postorder, List.mem_append, List.mem_singleton] at hw
    rcases hw with hw | hw
    · exact iha ha w hw
    · subst hw; exact key_items.2.1 w (mem_keys_of_lookup w UNARY_FUNCTIONS hf)
  | bin g a b iha ihb =>
    simp only [Expr.wf, Bool.and_eq_true] at h
    obtain ⟨⟨hg, ha⟩, hb⟩ := h
    intro w hw
    simp only [postorder, List.mem_append, List.mem_singleton] at hw
    rcases hw with (hw | hw) | hw
    · exact iha ha w hw
    · exact ihb hb w hw
    · subst hw; exact key_items.2.2 w (mem_keys_of_lookup w BINARY_FUNCTIONS hg)

theorem calculateRPN_postorder {F : Type} (A : Arith F) (t : Expr) (h : t.wf = true) :
    calculateRPN A (joinSpaces (postorder t)) = evalExpr A t := by
  unfold calculateRPN
  rw [splitTokens_joinSpaces _ (postorder_items t h)]
  have := evalTokens_postorder A t h [] []
  rw [List.append_nil] at this
  simp only [this]
  cases evalExpr A t <;> rfl

theorem renderTokens_cons (token : Str) (rest : List Str) (s : List Str) :
    renderTokens (token :: rest) s =
      match renderToken token s with
      | .ok s1 => renderTokens rest s1
      | .error e => .error e := rfl

theorem renderToken_literal (lit : Str) (s : List Str) (h : isNumberLiteral lit = true) :
    renderToken lit s = .ok (lit :: s) := by
  obtain ⟨h1, h2, h3, h4, h5, h6, h7⟩ := literal_not_key h
  unfold renderToken
  simp [isOperator, isUnaryFunction, isBinaryFunction, h3, h4, h5]

theorem renderToken_operator (o a b : Str) (s : List Str) (h : isOperator o = true) :
    renderToken o (b :: a :: s) =
      .ok ((str "(" ++ a ++ str " " ++ o ++ str " " ++ b ++ str ")") :: s) := by
  unfold renderToken
  rw [if_pos h]

theorem renderToken_unary (f a : Str) (s : List Str) (h : isUnaryFunction f = true) :
    renderToken f (a :: s) = .ok ((f ++ str "(" ++ a ++ str ")") :: s) := by
  obtain ⟨h1, h2, h3⟩ := unary_keys f (mem_keys_of_lookup f UNARY_FUNCTIONS h)
  unfold renderToken
  rw [if_neg (by simp [isOperator, h3]), if_pos h]

theorem renderToken_binary (g a b : Str) (s : List Str) (h : isBinaryFunction g = true) :
    renderToken g (b :: a :: s) = .ok ((g ++ str "(" ++ a ++ str ", " ++ b ++ str ")") :: s) := by
  obtain ⟨h1, h2, h3, h4⟩ := binary_keys g (mem_keys_of_lookup g BINARY_FUNCTIONS h)
  unfold renderToken
  rw [if_neg (by simp [isOperator, h3]), if_neg (by simp [isUnaryFunction, h4]), if_pos h]

theorem renderTokens_postorder (t : Expr) : t.wf = true → ∀ (rest : List Str) (s : List Str),
    renderTokens (postorder t ++ rest) s = renderTokens rest (render t :: s) := by
  induction t with
  | num lit =>
    intro hw rest s
    simp only [postorder, List.singleton_append, renderTokens_cons,
      renderToken_literal lit s hw, render]
  | op o a b iha ihb =>
    intro hw rest s
    simp only [Expr.wf, Bool.and_eq_true] at hw
    obtain ⟨⟨ho, ha⟩, hb⟩ := hw
    simp only [postorder, List.append_assoc, iha ha, ihb hb, List.singleton_append,
      renderTokens_cons, renderToken_operator o _ _ _ ho, render]
  | un f a iha =>
    intro hw rest s
    simp only [Expr.wf, Bool.and_eq_true] at hw
    obtain ⟨hf, ha⟩ := hw
    simp only [postorder, List.append_assoc, iha ha, List.singleton_append,
      renderTokens_cons, renderToken_unary f _ _ hf, render]
  | bin g a b iha ihb =>
    intro hw rest s
    simp only [Expr.wf, Bool.and_eq_true] at hw
    obtain ⟨⟨hg, ha⟩, hb⟩ := hw
    simp only [postorder, List.append_assoc, iha ha, ihb hb, List.singleton_append,
      renderTokens_cons, renderToken_binary g _ _ _ hg, render]

theorem rpnToInfix_postorder (t : Expr) (h : t.wf = true) :
    rpnToInfix (joinSpaces (postorder t)) = .ok (render t) := by
  unfold rpnToInfix
  rw [splitTokens_joinSpaces _ (postorder_items t h)]
  have := renderTokens_postorder t h [] []
  rw [List.append_nil] at this
  simp only [this]
  rfl

theorem unaryMinus_rule (e : Str) (i : Nat) (tokens : List Token) (h : e[i]? = some 45) :
    tokenizeStep e i tokens =
      if followedByNumber e i = true ∧ signPosition tokens = true then
        (i + 1 + ((e.drop (i + 1)).takeWhile numberByte).length,
          tokens ++ [⟨.Number, str "-" ++ (e.drop (i + 1)).takeWhile numberByte⟩])
      else (i + 1, tokens ++ [⟨.Operator, str "-"⟩]) := by
  have hi : i < e.length := by
    by_contra hc
    rw [List.getElem?_eq_none (by omega)] at h
    exact absurd h (by simp)
  have hd : e.drop i = 45 :: e.drop (i + 1) := by
    rw [List.drop_eq_getElem_cons hi]
    congr 1
    rw [List.getElem?_eq_getElem hi] at h
    exact Option.some.inj h
  have hf : followedByNumber e i = startsNumber (e.drop (i + 1)) := by
    unfold followedByNumber
    by_cases h1 : i + 1 < e.length
    · rw [List.getElem?_eq_getElem h1, List.drop_eq_getElem_cons h1]
      rfl
    · rw [List.getElem?_eq_none (by omega), List.drop_eq_nil_of_le (by omega)]
      rfl
  have hs : signPosition tokens = isUnaryMinus tokens := by
    unfold signPosition isUnaryMinus
    cases tokens.getLast? with
    | none => rfl
    | some t =>
      obtain ⟨ty, v⟩ := t
      cases ty <;> simp
  rw [tokenizeStep_drop, hd, step_minus, hf, hs, str_minus]
  by_cases hc : (isUnaryMinus tokens && startsNumber (e.drop (i + 1))) = true
  · rw [if_pos hc, if_pos (by
      simp only [Bool.and_eq_true] at hc; exact ⟨hc.2, hc.1⟩)]
    simp [Nat.add_assoc]
  · rw [if_neg hc, if_neg (by
      simp only [Bool.and_eq_true] at hc; exact fun h => hc ⟨h.2, h.1⟩)]

theorem list_glyphs : ∀ f ∈ LIST_FUNCTIONS.map Prod.fst, isGlyph f = false := by decide

theorem lex_validLexeme (t : Token) (rest : Str) (toks : List Token)
    (h : validLexeme t = true) (hn : startsNumber rest = false) (hs : stopsName rest = true) :
    lex (t.value ++ rest) toks = lex rest (toks ++ [t]) := by
  obtain ⟨ty, v⟩ := t
  cases ty <;> simp only [validLexeme, Bool.and_eq_true, beq_iff_eq] at h
  · exact lex_unsigned v rest toks h hn
  · exact lex_operator v rest toks h hn
  · exact lex_unary v rest toks h.1 hs
  · exact lex_binary v rest toks h.1 hs
  · have hm := mem_keys_of_lookup v LIST_FUNCTIONS h.1
    have hg := list_glyphs v hm
    rw [hg, Bool.or_false] at h
    exact lex_listFunction v rest toks h.1 h.2 hs
  · exact lex_constant v rest toks h.1 hs
  · subst h; rw [str_leftParen]; exact lex_leftParen rest toks
  · subst h; rw [str_rightParen]; exact lex_rightParen rest toks
  · subst h; rw [str_comma]; exact lex_comma rest toks
  · subst h; rw [str_listStart]; exact lex_listStart rest toks
  · subst h; rw [str_listEnd]; exact lex_listEnd rest toks

theorem lex_lexemes (ts : List Token) (h : ∀ t ∈ ts, validLexeme t = true) :
    ∀ toks, lex (joinSpaces (ts.map Token.value)) toks = some (toks ++ ts) := by
  induction ts with
  | nil => intro toks; simp [joinSpaces, lex_nil]
  | cons t l ih =>
    intro toks
    have ht := h t (by simp)
    cases l with
    | nil =>
      have := lex_validLexeme t [] toks ht rfl rfl
      rw [List.append_nil] at this
      simp only [List.map_cons, List.map_nil, joinSpaces_singleton, this, lex_nil]
    | cons u l =>
      simp only [List.map_cons, joinSpaces_cons_cons]
      rw [lex_validLexeme t _ toks ht (startsNumber_cons 32 _ (by decide))
        (stopsName_cons 32 _ (by decide)), lex_space _ _ _ (by decide)]
      have := ih (fun x hx => h x (by simp [hx])) (toks ++ [t])
      simp only [List.map_cons] at this
      rw [this]
      simp

theorem tokenize_lexemes (ts : List Token) (h : ∀ t ∈ ts, validLexeme t = true) :
    tokenize (joinSpaces (ts.map Token.value)) = some ts := by
  rw [tokenize_eq_lex, lex_lexemes ts h]; rfl

theorem isUnsigned_ne_nil {a : Str} (h : isUnsigned a = true) : a ≠ [] := by
  intro h0; subst h0; simp [isUnsigned] at h

theorem convertToken_operator_nil (o out : Str) :
    convertToken ⟨.Operator, o⟩ out [] = (out, [⟨.Operator, o⟩]) := rfl

theorem convertToken_operator_operator (o top out : Str) (st : List Token) :
    convertToken ⟨.Operator, o⟩ out (⟨.Operator, top⟩ :: st) =
      if decide (getPrecedence top > getPrecedence o) ||
          (getPrecedence top == getPrecedence o && !isRightAssociative o) then
        ((popWhile (operatorPops ⟨.Operator, o⟩) (out ++ str " " ++ top) st).1,
          ⟨.Operator, o⟩ :: (popWhile (operatorPops ⟨.Operator, o⟩) (out ++ str " " ++ top) st).2)
      else (out, ⟨.Operator, o⟩ :: ⟨.Operator, top⟩ :: st) := by
  simp only [convertToken, popWhile_cons, operatorPops]
  have e1 : (TokenType.Operator != TokenType.LeftParen) = true := rfl
  have e2 : (TokenType.Operator != TokenType.ListStart) = true := rfl
  have e3 : (TokenType.Operator == TokenType.UnaryFunction) = false := rfl
  rw [e1, e2, e3]
  simp only [Bool.true_and, Bool.false_or]
  split_ifs <;> rfl

theorem convert_chain (a b c op1 op2 : Str) (ha : a ≠ []) :
    convert [⟨.Number, a⟩, ⟨.Operator, op1⟩, ⟨.Number, b⟩, ⟨.Operator, op2⟩, ⟨.Number, c⟩] =
      if getPrecedence op1 > getPrecedence op2 ∨
          (getPrecedence op1 = getPrecedence op2 ∧ isRightAssociative op2 = false) then
        a ++ str " " ++ b ++ str " " ++ op1 ++ str " " ++ c ++ str " " ++ op2
      else a ++ str " " ++ b ++ str " " ++ c ++ str " " ++ op2 ++ str " " ++ op1 := by
  have hs : separate (separate [] ++ a) = a ++ str " " := by
    rw [separate_nil, List.nil_append, separate_ne_nil a ha, str_space]
  unfold convert
  simp only [convertTokens_cons, convertTokens_nil, convertToken_number,
    convertToken_operator_nil, hs, convertToken_operator_operator]
  by_cases hc : getPrecedence op1 > getPrecedence op2 ∨
      (getPrecedence op1 = getPrecedence op2 ∧ isRightAssociative op2 = false)
  · rw [if_pos hc, if_pos (by
      rcases hc with hc | ⟨h1, h2⟩
      · simp [hc]
      · simp [h1, h2])]
    simp only [popWhile_nil]
    rw [separate_ne_nil _ (by simp [ha])]
    simp [popWhile_cons, popWhile_nil, str_space]
  · rw [if_neg hc, if_neg (by
      intro h
      simp only [Bool.or_eq_true, decide_eq_true_eq, Bool.and_eq_true, beq_iff_eq,
        Bool.not_eq_true'] at h
      exact hc h)]
    simp only
    rw [separate_ne_nil _ (by simp [ha])]
    simp [popWhile_cons, popWhile_nil, str_space]

theorem weave_shift (p g : Str) (gs texts : List Str) :
    weave ((p ++ g) :: gs) texts = p ++ weave (g :: gs) texts := by
  cases texts with
  | nil => rfl
  | cons t ts => simp [weave]

theorem lex_stuck (s : Str) (toks : List Token) (hs : s ≠ [])
    (h : tokenizeStep s 0 toks = (0, toks)) : lex s toks = none :=
  tokenizeLoop_stuck s toks hs h _

theorem lex_substrings : ∀ (n : Nat) (s : Str) (toks ts : List Token),
    s.length = n → lex s toks = some ts →
    ∃ (new : List Token) (gaps : List Str), ts = toks ++ new ∧
      gaps.length = new.length + 1 ∧ weave gaps (new.map Token.value) = s ∧
      ∀ t ∈ new, t.value ≠ [] := by
  intro n
  induction n using Nat.strong_induction_on with
  | _ n ih =>
    intro s toks ts hn h
    by_cases hs : s = []
    · subst hs
      rw [lex_nil] at h
      refine ⟨[], [[]], ?_, rfl, rfl, by simp⟩
      simpa using (Option.some.inj h).symm
    · obtain ⟨hle, hcase⟩ := tokenizeStep_spec s toks
      rcases hcase with ⟨h1, h2⟩ | ⟨h1, h2⟩
      · rw [lex_stuck s toks hs (Prod.ext h1 h2)] at h
        exact absurd h (by simp)
      · rw [lex_step s toks hs] at h
        have hlen : (s.drop (tokenizeStep s 0 toks).1).length = n - (tokenizeStep s 0 toks).1 := by
          rw [List.length_drop, hn]
        obtain ⟨new, gaps, hts, hg, hw, hne⟩ := ih _ (by omega) _ _ _ hlen h
        rcases h2 with h2 | ⟨ty, h2⟩
        · rw [h2] at hts
          match gaps, hg with
          | g :: gs, hg =>
            refine ⟨new, (s.take (tokenizeStep s 0 toks).1 ++ g) :: gs, hts, hg, ?_, hne⟩
            rw [weave_shift, hw, List.take_append_drop]
        · rw [h2, List.append_assoc] at hts
          refine ⟨_ :: new, [] :: gaps, hts, by simp [hg], ?_, ?_⟩
          · simp only [List.map_cons, weave, List.nil_append, hw, List.take_append_drop]
          · intro t ht
            simp only [List.singleton_append, List.mem_cons] at ht
            rcases ht with ht | ht
            · subst ht
              intro h0
              have := congrArg List.length h0
              simp only [List.length_take, List.length_nil] at this
              omega
            · exact hne t ht

theorem tokenize_substrings (e : Str) (ts : List Token) (h : tokenize e = some ts) :
    ∃ gaps : List Str, gaps.length = ts.length + 1 ∧
      weave gaps (ts.map Token.value) = e ∧ ∀ t ∈ ts, t.value ≠ [] := by
  obtain ⟨new, gaps, hts, hg, hw, hne⟩ := lex_substrings _ e [] ts rfl h
  rw [List.nil_append] at hts
  subst hts
  exact ⟨gaps, hg, hw, hne⟩

theorem isWord_takeWhile (p : Nat → Bool) (s : Str) (hp : p 32 = false)
    (hne : 0 < (s.takeWhile p).length) : isWord (s.takeWhile p) = true := by
  have hemp : (s.takeWhile p).isEmpty = false := by
    cases h : s.takeWhile p with
    | nil => rw [h] at hne; simp at hne
    | cons _ _ => rfl
  simp only [isWord, hemp, Bool.not_false, Bool.true_and, List.all_eq_true, bne_iff_ne, ne_eq]
  intro c hc h32
  subst h32
  have := List.mem_takeWhile_imp hc
  rw [hp] at this
  exact absurd this (by simp)

theorem glyph_words :
    (∀ k ∈ OPERATORS.map Prod.fst, isWord k = true) ∧
    (∀ k ∈ UNARY_FUNCTIONS.map Prod.fst, isWord k = true) ∧
    (∀ k ∈ CONSTANTS.map Prod.fst, isWord k = true) := by
  decide

theorem WordTokens_append {toks : List Token} {t : Token} (h : WordTokens toks)
    (ht : isWord t.value = true) : WordTokens (toks ++ [t]) := by
  intro x hx
  simp only [List.mem_append, List.mem_singleton] at hx
  rcases hx with hx | hx
  · exact h x hx
  · subst hx; exact ht

theorem tokenizeStep_words (s : Str) (toks : List Token) (h : WordTokens toks) :
    WordTokens (tokenizeStep s 0 toks).2 := by
  have hch := utf8ExtractChar_take s
  unfold tokenizeStep
  simp only [scanNumber_eq s s.length _ _ (Nat.le_add_left _ _),
    scanName_eq s s.length _ _ (Nat.le_add_left _ _), Nat.zero_add, List.drop_zero, List.nil_append]
  generalize hnn : negativeNumber s 0 (utf8ExtractChar s 0) toks = nn
  revert hch hnn
  generalize utf8ExtractChar s 0 = ch
  intro hch hnn
  have P : ∀ {n : Nat} {ty : TokenType} {v : Str}, isWord v = true →
      WordTokens (n, toks ++ [(⟨ty, v⟩ : Token)]).2 := fun hv => WordTokens_append h hv
  have Q : ∀ {n : Nat}, WordTokens (n, toks).2 := h
  refine ite_ind (P := fun r : Nat × List Token => WordTokens r.2) (fun _ => Q) (fun _ => ?_)
  refine ite_ind (P := fun r : Nat × List Token => WordTokens r.2)
    (fun hc => P (isWord_takeWhile _ _ (by decide) (isNumber_numberByte hch hc))) (fun _ => ?_)
  refine ite_ind (P := fun r : Nat × List Token => WordTokens r.2) (fun _ => P (by decide)) (fun _ => ?_)
  refine ite_ind (P := fun r : Nat × List Token => WordTokens r.2) (fun _ => P (by decide)) (fun _ => ?_)
  refine ite_ind (P := fun r : Nat × List Token => WordTokens r.2) (fun _ => P (by decide)) (fun _ => ?_)
  refine ite_ind (P := fun r : Nat × List Token => WordTokens r.2) (fun _ => P (by decide)) (fun _ => ?_)
  refine ite_ind (P := fun r : Nat × List Token => WordTokens r.2) (fun _ => P (by decide)) (fun _ => ?_)
  cases nn with
  | some r =>
    show WordTokens r.2
    have hc45 : ch = [45] := by
      by_contra hne
      rw [negativeNumber_none s ch toks hne] at hnn
      exact absurd hnn (by simp)
    subst hc45
    obtain ⟨rest, rfl⟩ : ∃ rest, s = 45 :: rest := by
      cases s with
      | nil => simp at hch
      | cons c rest => simp at hch; exact ⟨rest, by rw [hch]⟩
    rw [negativeNumber_minus] at hnn
    by_cases hc : (isUnaryMinus toks && startsNumber rest) = true
    · rw [if_pos hc] at hnn
      rw [← Option.some.inj hnn]
      apply WordTokens_append h
      simp only [isWord, List.isEmpty_cons, Bool.not_false, Bool.true_and, List.all_cons,
        Bool.and_eq_true, List.all_eq_true, bne_iff_ne, ne_eq]
      refine ⟨by decide, ?_⟩
      intro c hc h32
      subst h32
      have := List.mem_takeWhile_imp hc
      exact absurd this (by decide)
    · rw [if_neg hc] at hnn
      exact absurd hnn (by simp)
  | none =>
    show WordTokens (Prod.snd (if _ then _ else _))
    refine ite_ind (P := fun r : Nat × List Token => WordTokens r.2) (fun hc => ?_) (fun _ => ?_)
    · apply WordTokens_append h
      simp only [Bool.and_eq_true, beq_iff_eq] at hc
      obtain ⟨h1, h2⟩ := hc
      match ch, h1 with
      | [c], _ =>
        simp only [List.getD_cons_zero, ASCII_OPERATOR_CHARS_eq] at h2
        have : c ≠ 32 := by
          intro h0; subst h0; simp at h2
        simp [isWord, this]
    refine ite_ind (P := fun r : Nat × List Token => WordTokens r.2) (fun _ => ?_) (fun _ => ?_)
    · refine ite_ind (P := fun r : Nat × List Token => WordTokens r.2)
        (fun hc => P (glyph_words.1 _ (mem_keys_of_lookup _ _ hc))) (fun _ => ?_)
      refine ite_ind (P := fun r : Nat × List Token => WordTokens r.2)
        (fun hc => P (glyph_words.2.1 _ (mem_keys_of_lookup _ _ hc))) (fun _ => ?_)
      exact ite_ind (P := fun r : Nat × List Token => WordTokens r.2)
        (fun hc => P (glyph_words.2.2 _ (mem_keys_of_lookup _ _ hc))) (fun _ => Q)
    refine ite_ind (P := fun r : Nat × List Token => WordTokens r.2) (fun hc => ?_) (fun _ => Q)
    have hw := isWord_takeWhile nameByte s (by decide) (isAsciiAlpha_nameByte hch hc)
    refine ite_ind (P := fun r : Nat × List Token => WordTokens r.2) (fun _ => P hw) (fun _ => ?_)
    refine ite_ind (P := fun r : Nat × List Token => WordTokens r.2) (fun _ => P hw) (fun _ => ?_)
    refine ite_ind (P := fun r : Nat × List Token => WordTokens r.2) (fun _ => P hw) (fun _ => ?_)
    exact ite_ind (P := fun r : Nat × List Token => WordTokens r.2) (fun _ => P hw) (fun _ => Q)

theorem lex_words : ∀ (n : Nat) (s : Str) (toks ts : List Token),
    s.length = n → WordTokens toks → lex s toks = some ts → WordTokens ts := by
  intro n
  induction n using Nat.strong_induction_on with
  | _ n ih =>
    intro s toks ts hn hw h
    by_cases hs : s = []
    · subst hs
      rw [lex_nil] at h
      rw [← Option.some.inj h]; exact hw
    · obtain ⟨hle, hcase⟩ := tokenizeStep_spec s toks
      rcases hcase with ⟨h1, h2⟩ | ⟨h1, h2⟩
      · rw [lex_stuck s toks hs (Prod.ext h1 h2)] at h
        exact absurd h (by simp)
      · rw [lex_step s toks hs] at h
        have hlen : (s.drop (tokenizeStep s 0 toks).1).length = n - (tokenizeStep s 0 toks).1 := by
          rw [List.length_drop, hn]
        exact ih _ (by omega) _ _ _ hlen (tokenizeStep_words s toks hw) h

theorem tokenize_words (e : Str) (ts : List Token) (h : tokenize e = some ts) :
    WordTokens ts :=
  lex_words _ e [] ts rfl (by intro t ht; simp at ht) h

theorem popWhile_invariant {P : Str → Prop} (hP : OutputInvariant P) (cond : Token → Bool) :
    ∀ (st : List Token) (out : Str), WordTokens st → P out →
      P (popWhile cond out st).1 ∧ WordTokens (popWhile cond out st).2 := by
  intro st
  induction st with
  | nil => intro out hst h; exact ⟨h, hst⟩
  | cons top st ih =>
    intro out hst h
    rw [popWhile_cons]
    by_cases hc : cond top = true
    · rw [if_pos hc]
      exact ih _ (fun t ht => hst t (by simp [ht])) (hP.plain out _ (hst top (by simp)) h)
    · rw [if_neg hc]
      exact ⟨h, hst⟩

theorem WordTokens_tail {st : List Token} (h : WordTokens st) : WordTokens st.tail :=
  fun t ht => h t (List.mem_of_mem_tail ht)

theorem WordTokens_cons {st : List Token} {t : Token} (ht : isWord t.value = true)
    (h : WordTokens st) : WordTokens (t :: st) := by
  intro x hx
  simp only [List.mem_cons] at hx
  rcases hx with hx | hx
  · subst hx; exact ht
  · exact h x hx

theorem convertToken_invariant {P : Str → Prop} (hP : OutputInvariant P) (token : Token)
    (out : Str) (st : List Token) (ht : isWord token.value = true) (hst : WordTokens st)
    (h : P out) :
    P (convertToken token out st).1 ∧ WordTokens (convertToken token out st).2 := by
  obtain ⟨ty, v⟩ := token
  cases ty
  · exact ⟨hP.guarded out v ht h, hst⟩
  · have := popWhile_invariant hP (operatorPops ⟨.Operator, v⟩) st out hst h
    exact ⟨this.1, WordTokens_cons ht this.2⟩
  · exact ⟨h, WordTokens_cons ht hst⟩
  · exact ⟨h, WordTokens_cons ht hst⟩
  · exact ⟨h, WordTokens_cons ht hst⟩
  · exact ⟨hP.guarded out v ht h, hst⟩
  · exact ⟨h, WordTokens_cons ht hst⟩
  · have := popWhile_invariant hP (fun top => top.type != .LeftParen) st out hst h
    show P (Prod.fst (match (popWhile _ out st).2.tail with
      | [] => _
      | top :: rest => _)) ∧ WordTokens (Prod.snd (match (popWhile _ out st).2.tail with
      | [] => _
      | top :: rest => _))
    have ht2 := WordTokens_tail this.2
    revert ht2
    cases (popWhile (fun top => top.type != TokenType.LeftParen) out st).2.tail with
    | nil => intro _; exact ⟨this.1, by intro t ht; simp at ht⟩
    | cons top rest =>
      intro ht2
      simp only
      by_cases hc : (top.type == TokenType.UnaryFunction || top.type == TokenType.BinaryFunction) = true
      · rw [if_pos hc]
        exact ⟨hP.plain _ _ (ht2 top (by simp)) this.1, fun t ht => ht2 t (by simp [ht])⟩
      · rw [if_neg hc]
        exact ⟨this.1, ht2⟩
  · exact popWhile_invariant hP _ st out hst h
  · exact ⟨hP.guarded out _ (by decide) h, WordTokens_cons ht hst⟩
  · have := popWhile_invariant hP (fun top => top.type != .ListStart) st out hst h
    refine ⟨?_, WordTokens_tail this.2⟩
    have := hP.plain _ (str "\x7d") (by decide) this.1
    simpa [convertToken, str_space, str_listEnd] using this

theorem convertTokens_invariant {P : Str → Prop} (hP : OutputInvariant P) :
    ∀ (tokens : List Token) (out : Str) (st : List Token), WordTokens tokens → WordTokens st →
      P out → P (convertTokens tokens out st).1 ∧ WordTokens (convertTokens tokens out st).2 := by
  intro tokens
  induction tokens with
  | nil => intro out st _ hst h; exact ⟨h, hst⟩
  | cons t l ih =>
    intro out st ht hst h
    rw [convertTokens_cons]
    have := convertToken_invariant hP t out st (ht t (by simp)) hst h
    exact ih _ _ (fun x hx => ht x (by simp [hx])) this.2 this.1

/-- The drain at the end of `infixToRPN`, from any state of the loop. -/
theorem drain_invariant {P : Str → Prop} (hP : OutputInvariant P)
    (tokens : List Token) (out : Str) (st : List Token) (ht : WordTokens tokens)
    (hst : WordTokens st) (h : P out) :
    P (popWhile (fun _ => true) (convertTokens tokens out st).1
      (convertTokens tokens out st).2).1 := by
  have := convertTokens_invariant hP tokens out st ht hst h
  exact (popWhile_invariant hP _ _ _ this.2 this.1).1

theorem isWord_ne_nil {w : Str} (h : isWord w = true) : w ≠ [] := by
  intro h0; subst h0; simp [isWord] at h

theorem isWord_no_space {w : Str} (h : isWord w = true) : 32 ∉ w := by
  intro hm
  simp only [isWord, Bool.and_eq_true, List.all_eq_true, bne_iff_ne, ne_eq] at h
  exact h.2 32 hm rfl

theorem joinSpaces_ne_nil (items : List Str) (h : items ≠ [])
    (hw : ∀ w ∈ items, isWord w = true) : joinSpaces items ≠ [] := by
  match items, h with
  | [w], _ => exact isWord_ne_nil (hw w (by simp))
  | w :: x :: l, _ => rw [joinSpaces_cons_cons]; simp

theorem words_append {items : List Str} {v : Str} (hw : ∀ w ∈ items, isWord w = true)
    (hv : isWord v = true) : ∀ w ∈ items ++ [v], isWord w = true := by
  intro w hm
  simp only [List.mem_append, List.mem_singleton] at hm
  rcases hm with hm | hm
  · exact hw w hm
  · subst hm; exact hv

theorem Joined_invariant : OutputInvariant Joined := by
  constructor
  · rintro out v hv ⟨items, hne, hw, rfl⟩
    refine ⟨items ++ [v], by simp, words_append hw hv, ?_⟩
    rw [separate_ne_nil _ (joinSpaces_ne_nil items hne hw),
      joinSpaces_append_singleton _ _ hne]
    simp
  · rintro out v hv ⟨items, hne, hw, rfl⟩
    refine ⟨items ++ [v], by simp, words_append hw hv, ?_⟩
    rw [joinSpaces_append_singleton _ _ hne, str_space]
    simp

theorem Spaced_invariant : OutputInvariant Spaced := by
  constructor
  · rintro out v hv ⟨items, hw, h⟩
    by_cases hne : items = []
    · subst hne
      rcases h with h | ⟨h, _⟩
      · subst h
        exact ⟨[v], by simpa using hv, Or.inl (by simp [joinSpaces, separate])⟩
      · exact absurd rfl h
    · refine ⟨items ++ [v], words_append hw hv, ?_⟩
      have hj := joinSpaces_ne_nil items hne hw
      rcases h with h | ⟨_, h⟩
      · left
        subst h
        rw [separate_ne_nil _ hj, joinSpaces_append_singleton _ _ hne]
        simp
      · right
        subst h
        refine ⟨by simp, ?_⟩
        rw [separate_ne_nil _ (by simp [str_space]), joinSpaces_append_singleton _ _ hne]
        simp
  · rintro out v hv ⟨items, hw, h⟩
    by_cases hne : items = []
    · subst hne
      rcases h with h | ⟨h, _⟩
      · subst h
        exact ⟨[v], by simpa using hv, Or.inr ⟨by simp, by simp [joinSpaces]⟩⟩
      · exact absurd rfl h
    · refine ⟨items ++ [v], words_append hw hv, ?_⟩
      rcases h with h | ⟨_, h⟩
      · left
        subst h
        rw [joinSpaces_append_singleton _ _ hne, str_space]
        simp
      · right
        subst h
        refine ⟨by simp, ?_⟩
        rw [joinSpaces_append_singleton _ _ hne, str_space]
        simp

theorem convert_spaced (ts : List Token) (hw : WordTokens ts) : Spaced (convert ts) :=
  drain_invariant Spaced_invariant ts [] [] hw (by intro t ht; simp at ht)
    ⟨[], by simp, Or.inl rfl⟩

theorem convert_joined (t : Token) (ts : List Token) (hw : WordTokens (t :: ts))
    (ht : t.type = .Number ∨ t.type = .Constant ∨ t.type = .ListStart) :
    Joined (convert (t :: ts)) := by
  have ht0 := hw t (by simp)
  have hts : WordTokens ts := fun x hx => hw x (by simp [hx])
  obtain ⟨ty, v⟩ := t
  simp only at ht
  unfold convert
  rw [convertTokens_cons]
  rcases ht with ht | ht | ht <;> subst ht
  · exact drain_invariant Joined_invariant ts _ _ hts
      (show WordTokens [] from fun t ht => absurd ht (List.not_mem_nil t))
      ⟨[v], by simp, by simpa using ht0, rfl⟩
  · exact drain_invariant Joined_invariant ts _ _ hts
      (show WordTokens [] from fun t ht => absurd ht (List.not_mem_nil t))
      ⟨[v], by simp, by simpa using ht0, rfl⟩
  · exact drain_invariant Joined_invariant ts _ _ hts
      (show WordTokens [⟨.ListStart, v⟩] from by
        intro t ht; simp only [List.mem_singleton] at ht; subst ht; exact ht0)
      ⟨[str "\x7b"], by simp, by decide, rfl⟩

theorem joinSpaces_head (w : Str) (l : List Str) : ∃ r, joinSpaces (w :: l) = w ++ r := by
  cases l with
  | nil => exact ⟨[], by simp [joinSpaces]⟩
  | cons x l => exact ⟨32 :: joinSpaces (x :: l), joinSpaces_cons_cons w x l⟩

theorem isGlyph_lead {c : Nat} {w : Str} (h : isGlyph (c :: w) = true) : ¬ c < 128 := by
  intro hc
  cases w with
  | nil => simp [isGlyph] at h
  | cons d w =>
    simp only [isGlyph, beq_iff_eq] at h
    rw [utf8CharLength_ascii c hc] at h
    omega

theorem WellFormed_tail {c : Nat} {s : Str} (h : WellFormed (c :: s)) (hc : c < 128) :
    WellFormed s := by
  generalize hx : c :: s = x at h
  cases h with
  | nil => exact absurd hx (by simp)
  | ascii c1 s1 _ h1 =>
    simp only [List.cons.injEq] at hx
    rw [hx.2]; exact h1
  | glyph ch s1 hg h1 =>
    cases ch with
    | nil => simp [isGlyph] at hg
    | cons c1 w =>
      simp only [List.cons_append, List.cons.injEq] at hx
      rw [← hx.1] at hg
      exact absurd hc (isGlyph_lead hg)

theorem WellFormed_glyph_tail {c : Nat} {s : Str} (h : WellFormed (c :: s)) (hc : ¬ c < 128) :
    ∃ ch s1, c :: s = ch ++ s1 ∧ isGlyph ch = true ∧ WellFormed s1 := by
  generalize hx : c :: s = x at h
  cases h with
  | nil => exact absurd hx (by simp)
  | ascii c1 s1 h0 h1 =>
    simp only [List.cons.injEq] at hx
    rw [← hx.1] at h0
    exact absurd h0 hc
  | glyph ch s1 hg h1 => exact ⟨ch, s1, rfl, hg, h1⟩

theorem WellFormed_dropWhile (p : Nat → Bool) (hp : ∀ c, p c = true → c < 128) :
    ∀ a : Str, WellFormed a → WellFormed (a.dropWhile p) := by
  intro a
  induction a with
  | nil => intro h; exact h
  | cons c a ih =>
    intro h
    rw [List.dropWhile_cons]
    by_cases hc : p c = true
    · rw [if_pos hc]
      exact ih (WellFormed_tail h (hp c hc))
    · rw [if_neg hc]; exact h

theorem dropWhile_length_le {α : Type} (p : α → Bool) (s : List α) :
    (s.dropWhile p).length ≤ s.length := by
  induction s with
  | nil => simp
  | cons a s ih =>
    rw [List.dropWhile_cons]
    split_ifs
    · simp; omega
    · simp

theorem takeWhile_terminated (p : Nat → Bool) (hp : p 32 = false) (l rest : Str)
    (hr : Terminated rest) :
    (l ++ rest).takeWhile p = l.takeWhile p ∧ (l ++ rest).dropWhile p = l.dropWhile p ++ rest := by
  induction l with
  | nil =>
    rcases hr with hr | ⟨r, hr⟩
    · subst hr; simp
    · subst hr; simp [List.takeWhile_cons, List.dropWhile_cons, hp]
  | cons a l ih =>
    simp only [List.cons_append, List.takeWhile_cons, List.dropWhile_cons]
    by_cases ha : p a = true
    · simp [ha, ih]
    · simp [ha]

theorem startsNumber_terminated (l rest : Str) (hr : Terminated rest) :
    startsNumber (l ++ rest) = startsNumber l := by
  cases l with
  | nil =>
    rcases hr with hr | ⟨r, hr⟩
    · subst hr; rfl
    · subst hr; rfl
  | cons a l => rfl

theorem step_other (c : Nat) (rest : Str) (toks : List Token) (hc : c < 128)
    (h1 : isspace c = false) (h2 : numberByte c = false) (h3 : isalpha c = false)
    (h4 : c ≠ 40 ∧ c ≠ 41 ∧ c ≠ 44 ∧ c ≠ 123 ∧ c ≠ 125 ∧ c ≠ 45)
    (h5 : c ≠ 43 ∧ c ≠ 42 ∧ c ≠ 47 ∧ c ≠ 37 ∧ c ≠ 94) :
    tokenizeStep (c :: rest) 0 toks = (1, toks) := by
  have hm : [c] ≠ [45] := by simp; omega
  unfold tokenizeStep
  simp only [utf8ExtractChar_ascii c rest hc, negativeNumber_none _ _ _ hm]
  rw [if_neg (by simp [isAsciiSpace, h1]),
    if_neg (by
      simp only [numberByte, Bool.or_eq_false_iff, beq_eq_false_iff_ne] at h2
      simp [isAsciiDigit, str_dot, h2.1, h2.2]),
    if_neg (by simp [str_leftParen]; omega), if_neg (by simp [str_rightParen]; omega),
    if_neg (by simp [str_comma]; omega), if_neg (by simp [str_listStart]; omega),
    if_neg (by simp [str_listEnd]; omega)]
  show (if _ then _ else _) = _
  rw [if_neg (by simp [ASCII_OPERATOR_CHARS_eq]; omega),
    if_neg (by simp [isMultibyte]), if_neg (by simp [isAsciiAlpha, h3])]
  rfl

theorem lex_other (c : Nat) (rest : Str) (toks : List Token) (hc : c < 128)
    (h1 : isspace c = false) (h2 : numberByte c = false) (h3 : isalpha c = false)
    (h4 : c ≠ 40 ∧ c ≠ 41 ∧ c ≠ 44 ∧ c ≠ 123 ∧ c ≠ 125 ∧ c ≠ 45)
    (h5 : c ≠ 43 ∧ c ≠ 42 ∧ c ≠ 47 ∧ c ≠ 37 ∧ c ≠ 94) :
    lex (c :: rest) toks = lex rest toks := by
  rw [lex_step _ _ (by simp), step_other c rest toks hc h1 h2 h3 h4 h5]; rfl

theorem lex_number (c : Nat) (rest : Str) (toks : List Token) (h : numberByte c = true) :
    lex (c :: rest) toks =
      lex ((c :: rest).dropWhile numberByte)
        (toks ++ [⟨.Number, (c :: rest).takeWhile numberByte⟩]) := by
  rw [lex_step _ _ (by simp), step_number c rest toks h]
  simp only [drop_takeWhile_length]

theorem lex_name (c : Nat) (rest : Str) (toks : List Token) (h : isalpha c = true) :
    lex (c :: rest) toks =
      lex ((c :: rest).dropWhile nameByte)
        (toks ++ nameToken ((c :: rest).takeWhile nameByte)) := by
  rw [lex_step _ _ (by simp), step_name c rest toks h]
  simp only [drop_takeWhile_length]

theorem lex_minus (rest : Str) (toks : List Token) :
    lex (45 :: rest) toks =
      if isUnaryMinus toks && startsNumber rest then
        lex (rest.dropWhile numberByte) (toks ++ [⟨.Number, 45 :: rest.takeWhile numberByte⟩])
      else lex rest (toks ++ [⟨.Operator, [45]⟩]) := by
  rw [lex_step _ _ (by simp), step_minus]
  by_cases hc : (isUnaryMinus toks && startsNumber rest) = true
  · rw [if_pos hc, if_pos hc]
    simp only
    rw [Nat.add_comm, List.drop_succ_cons, drop_takeWhile_length]
  · rw [if_neg hc, if_neg hc]; rfl

/-- The tokens of a well-formed text that is followed by a space or by the end
of the input do not depend on what comes after the space. -/
theorem lex_local : ∀ (n : Nat) (a : Str), a.length = n → WellFormed a →
    ∀ toks : List Token, ∃ T : List Token, ∀ rest, Terminated rest →
      lex (a ++ rest) toks = lex rest T := by
  intro n
  induction n using Nat.strong_induction_on with
  | _ n ih =>
    intro a hn hwf toks
    cases a with
    | nil => exact ⟨toks, fun rest _ => rfl⟩
    | cons c a1 =>
      simp only [List.length_cons] at hn
      by_cases hc : c < 128
      · have hw1 := WellFormed_tail hwf hc
        have next : ∀ toks1 : List Token, ∃ T : List Token, ∀ rest, Terminated rest →
            lex (a1 ++ rest) toks1 = lex rest T := ih a1.length (by omega) a1 rfl hw1
        have nextDrop : ∀ (p : Nat → Bool), (∀ c, p c = true → c < 128) →
            ∀ (l : Str), l.length ≤ a1.length → WellFormed l → ∀ toks1 : List Token,
            ∃ T : List Token, ∀ rest, Terminated rest →
              lex (l.dropWhile p ++ rest) toks1 = lex rest T := by
          intro p hp l hl hwl toks1
          exact ih (l.dropWhile p).length (by have := dropWhile_length_le p l; omega) _ rfl
            (WellFormed_dropWhile p hp l hwl) toks1
        by_cases h1 : isspace c = true
        · obtain ⟨T, hT⟩ := next toks
          exact ⟨T, fun rest hr => by rw [List.cons_append, lex_space c _ _ h1, hT rest hr]⟩
        by_cases h2 : numberByte c = true
        · obtain ⟨T, hT⟩ := nextDrop numberByte (fun c h => numberByte_lt h) a1 (le_refl _) hw1
            (toks ++ [⟨.Number, (c :: a1).takeWhile numberByte⟩])
          refine ⟨T, fun rest hr => ?_⟩
          obtain ⟨e1, e2⟩ := takeWhile_terminated numberByte (by decide) (c :: a1) rest hr
          rw [List.cons_append, lex_number c _ _ h2, ← List.cons_append, e1, e2]
          rw [List.dropWhile_cons, if_pos h2]
          exact hT rest hr
        by_cases h3 : isalpha c = true
        · have hnb : nameByte c = true := by simp [nameByte, h3]
          obtain ⟨T, hT⟩ := nextDrop nameByte (fun c h => nameByte_lt h) a1 (le_refl _) hw1
            (toks ++ nameToken ((c :: a1).takeWhile nameByte))
          refine ⟨T, fun rest hr => ?_⟩
          obtain ⟨e1, e2⟩ := takeWhile_terminated nameByte (by decide) (c :: a1) rest hr
          rw [List.cons_append, lex_name c _ _ h3, ← List.cons_append, e1, e2]
          rw [List.dropWhile_cons, if_pos hnb]
          exact hT rest hr
        by_cases h40 : c = 40
        · subst h40
          obtain ⟨T, hT⟩ := next (toks ++ [⟨.LeftParen, [40]⟩])
          exact ⟨T, fun rest hr => by rw [List.cons_append, lex_leftParen, hT rest hr]⟩
        by_cases h41 : c = 41
        · subst h41
          obtain ⟨T, hT⟩ := next (toks ++ [⟨.RightParen, [41]⟩])
          exact ⟨T, fun rest hr => by rw [List.cons_append, lex_rightParen, hT rest hr]⟩
        by_cases h44 : c = 44
        · subst h44
          obtain ⟨T, hT⟩ := next (toks ++ [⟨.Comma, [44]⟩])
          exact ⟨T, fun rest hr => by rw [List.cons_append, lex_comma, hT rest hr]⟩
        by_cases h123 : c = 123
        · subst h123
          obtain ⟨T, hT⟩ := next (toks ++ [⟨.ListStart, [123]⟩])
          exact ⟨T, fun rest hr => by rw [List.cons_append, lex_listStart, hT rest hr]⟩
        by_cases h125 : c = 125
        · subst h125
          obtain ⟨T, hT⟩ := next (toks ++ [⟨.ListEnd, [125]⟩])
          exact ⟨T, fun rest hr => by rw [List.cons_append, lex_listEnd, hT rest hr]⟩
        by_cases h45 : c = 45
        · subst h45
          by_cases hcond : (isUnaryMinus toks && startsNumber a1) = true
          · obtain ⟨T, hT⟩ := nextDrop numberByte (fun c h => numberByte_lt h) a1 (le_refl _) hw1
              (toks ++ [⟨.Number, 45 :: a1.takeWhile numberByte⟩])
            refine ⟨T, fun rest hr => ?_⟩
            obtain ⟨e1, e2⟩ := takeWhile_terminated numberByte (by decide) a1 rest hr
            rw [List.cons_append, lex_minus, startsNumber_terminated a1 rest hr, if_pos hcond,
              e1, e2]
            exact hT rest hr
          · obtain ⟨T, hT⟩ := next (toks ++ [⟨.Operator, [45]⟩])
            refine ⟨T, fun rest hr => ?_⟩
            rw [List.cons_append, lex_minus, startsNumber_terminated a1 rest hr, if_neg hcond]
            exact hT rest hr
        by_cases hop : c = 43 ∨ c = 42 ∨ c = 47 ∨ c = 37 ∨ c = 94
        · obtain ⟨T, hT⟩ := next (toks ++ [⟨.Operator, [c]⟩])
          exact ⟨T, fun rest hr => by
            rw [List.cons_append, lex_asciiOperator c _ _ hop, hT rest hr]⟩
        · obtain ⟨T, hT⟩ := next toks
          refine ⟨T, fun rest hr => ?_⟩
          rw [List.cons_append, lex_other c _ _ hc (by simpa using h1) (by simpa using h2)
            (by simpa using h3) ⟨h40, h41, h44, h123, h125, h45⟩
            (by omega), hT rest hr]
      · obtain ⟨ch, s1, hx, hg, hw1⟩ := WellFormed_glyph_tail hwf hc
        have hlen : s1.length < n := by
          have := congrArg List.length hx
          simp only [List.length_cons, List.length_append] at this
          have : 0 < ch.length := by
            cases ch with
            | nil => simp [isGlyph] at hg
            | cons _ _ => simp
          omega
        obtain ⟨T, hT⟩ := ih s1.length hlen s1 rfl hw1 (toks ++ glyphToken ch)
        refine ⟨T, fun rest hr => ?_⟩
        rw [hx, List.append_assoc, lex_glyph ch _ _ hg, hT rest hr]

theorem nameToken_unknown {u : Str} (h : isUnknownIdentifier u = true) : nameToken u = [] := by
  simp only [isUnknownIdentifier, Bool.and_eq_true, Bool.not_eq_true'] at h
  obtain ⟨⟨⟨⟨_, h1⟩, h2⟩, h3⟩, h4⟩ := h
  simp [nameToken, h1, h2, h3, h4]

theorem glyphToken_unknown {u : Str} (h : isUnknownGlyph u = true) : glyphToken u = [] := by
  simp only [isUnknownGlyph, Bool.and_eq_true, Bool.not_eq_true'] at h
  obtain ⟨⟨⟨_, h1⟩, h2⟩, h3⟩ := h
  simp [glyphToken, h1, h2, h3]

theorem stopsName_terminated {rest : Str} (h : Terminated rest) : stopsName rest = true := by
  rcases h with h | ⟨r, h⟩ <;> subst h <;> rfl

theorem lex_unknown (u rest : Str) (toks : List Token)
    (h : isUnknownIdentifier u = true ∨ isUnknownGlyph u = true) (hr : Terminated rest) :
    lex (u ++ rest) toks = lex rest toks := by
  rcases h with h | h
  · have hi : isIdentifier u = true := by
      simp only [isUnknownIdentifier, Bool.and_eq_true] at h; exact h.1.1.1.1
    rw [lex_identifier u rest toks hi (stopsName_terminated hr), nameToken_unknown h,
      List.append_nil]
  · have hi : isGlyph u = true := by
      simp only [isUnknownGlyph, Bool.and_eq_true] at h; exact h.1.1.1
    rw [lex_glyph u rest toks hi, glyphToken_unknown h, List.append_nil]

theorem tokenize_unknown_dropped (a b u : Str) (ha : WellFormed a)
    (hu : isUnknownIdentifier u = true ∨ isUnknownGlyph u = true) :
    tokenize (a ++ str " " ++ u ++ str " " ++ b) = tokenize (a ++ str " " ++ b) := by
  obtain ⟨T, hT⟩ := lex_local a.length a rfl ha []
  have e1 : a ++ str " " ++ u ++ str " " ++ b = a ++ 32 :: (u ++ 32 :: b) := by
    simp [str_space]
  have e2 : a ++ str " " ++ b = a ++ 32 :: b := by simp [str_space]
  rw [e1, e2, tokenize_eq_lex, tokenize_eq_lex, hT _ (Or.inr ⟨_, rfl⟩), hT _ (Or.inr ⟨_, rfl⟩),
    lex_space 32 _ _ (by decide), lex_unknown u _ T hu (Or.inr ⟨_, rfl⟩),
    lex_space 32 _ _ (by decide)]

theorem tokenize_whitespace (s : Str) (h : s.all isspace = true) : tokenize s = some [] := by
  rw [tokenize_eq_lex]
  induction s with
  | nil => rfl
  | cons c s ih =>
    simp only [List.all_cons, Bool.and_eq_true] at h
    rw [lex_space c s [] h.1, ih h.2]

theorem tokenize_unknown (u : Str) (h : isUnknownIdentifier u = true) : tokenize u = some [] := by
  have := lex_unknown u [] [] (Or.inl h) (Or.inl rfl)
  rw [List.append_nil] at this
  rw [tokenize_eq_lex, this]; rfl

/-- On a well-formed text the loop of `tokenize` exits. -/
theorem tokenize_wellFormed (e : Str) (h : WellFormed e) : ∃ ts, tokenize e = some ts := by
  obtain ⟨T, hT⟩ := lex_local e.length e rfl h []
  have := hT [] (Or.inl rfl)
  rw [List.append_nil] at this
  exact ⟨T, by rw [tokenize_eq_lex, this]; rfl⟩

/-! ## The claims -/

/-- C1: round trip infix → RPN → value. For every expression tree `t` over number
literals, registered binary operators, unary and binary function calls, converting the
fully parenthesised text of `t` returns an RPN string, and evaluating that string gives
the direct value of `t` (the same value, or the same `std::stod` failure). -/
theorem C1_roundtrip_value {F : Type} (A : Arith F) (t : Expr) (h : t.wf = true) :
    ∃ rpn, infixToRPN (render t) = some rpn ∧ calculateRPN A rpn = evalExpr A t :=
  ⟨joinSpaces (postorder t), infixToRPN_render t h, calculateRPN_postorder A t h⟩

theorem C1_roundtrip_value_witness :
    exampleTree.wf = true ∧
      ∃ rpn, infixToRPN (render exampleTree) = some rpn ∧
        calculateRPN ratArith rpn = evalExpr ratArith exampleTree :=
  ⟨by decide, C1_roundtrip_value ratArith exampleTree (by decide)⟩

/-- C2: function-call and parenthesis lowering. For every expression tree `t` over
number literals (optionally with a leading `-`), registered operators, unary and binary
function calls, `infixToRPN` of the fully parenthesised text of `t` is the post-order
traversal of `t` joined by single spaces. -/
theorem C2_lowering (t : Expr) (h : t.wf = true) :
    infixToRPN (render t) = some (joinSpaces (postorder t)) :=
  infixToRPN_render t h

theorem C2_lowering_witness :
    exampleTree.wf = true ∧ render exampleTree = str "pow(sqrt(16), 3)" ∧
      joinSpaces (postorder exampleTree) = str "16 sqrt 3 pow" ∧
      infixToRPN (render exampleTree) = some (joinSpaces (postorder exampleTree)) :=
  ⟨by decide, by decide, by decide, C2_lowering exampleTree (by decide)⟩

/-- C4: grouping of a two-operator chain. For unsigned number literals `a`, `b`, `c`
and registered operators `op1`, `op2`, `infixToRPN "a op1 b op2 c"` is `"a b op1 c op2"`
when `op1` has greater precedence than `op2`, or equal precedence and `op2` is
left-associative, and `"a b c op2 op1"` otherwise. -/
theorem C4_chain (a b c op1 op2 : Str) (ha : isUnsigned a = true) (hb : isUnsigned b = true)
    (hc : isUnsigned c = true) (h1 : isOperator op1 = true) (h2 : isOperator op2 = true) :
    infixToRPN (a ++ str " " ++ op1 ++ str " " ++ b ++ str " " ++ op2 ++ str " " ++ c) =
      some (if getPrecedence op1 > getPrecedence op2 ∨
              (getPrecedence op1 = getPrecedence op2 ∧ isRightAssociative op2 = false) then
          a ++ str " " ++ b ++ str " " ++ op1 ++ str " " ++ c ++ str " " ++ op2
        else a ++ str " " ++ b ++ str " " ++ c ++ str " " ++ op2 ++ str " " ++ op1) := by
  have hl : ∀ t ∈ [(⟨.Number, a⟩ : Token), ⟨.Operator, op1⟩, ⟨.Number, b⟩, ⟨.Operator, op2⟩,
      ⟨.Number, c⟩], validLexeme t = true := by
    intro t ht
    simp only [List.mem_cons, List.mem_singleton, List.not_mem_nil, or_false] at ht
    rcases ht with ht | ht | ht | ht | ht <;> subst ht <;> assumption
  have ht := tokenize_lexemes _ hl
  have he : joinSpaces (List.map Token.value [(⟨.Number, a⟩ : Token), ⟨.Operator, op1⟩,
      ⟨.Number, b⟩, ⟨.Operator, op2⟩, ⟨.Number, c⟩]) =
      a ++ str " " ++ op1 ++ str " " ++ b ++ str " " ++ op2 ++ str " " ++ c := by
    simp [joinSpaces]
  rw [he] at ht
  unfold infixToRPN
  rw [ht, Option.map_some', convert_chain a b c op1 op2 (isUnsigned_ne_nil ha)]

theorem C4_chain_witness :
    isUnsigned (str "2") = true ∧ isUnsigned (str "3") = true ∧ isOperator (str "^") = true ∧
      infixToRPN (str "2" ++ str " " ++ str "^" ++ str " " ++ str "3" ++ str " " ++ str "^" ++
          str " " ++ str "2") =
        some (if getPrecedence (str "^") > getPrecedence (str "^") ∨
              (getPrecedence (str "^") = getPrecedence (str "^") ∧
                isRightAssociative (str "^") = false) then
            str "2" ++ str " " ++ str "3" ++ str " " ++ str "^" ++ str " " ++ str "2" ++
              str " " ++ str "^"
          else str "2" ++ str " " ++ str "3" ++ str " " ++ str "2" ++ str " " ++ str "^" ++
            str " " ++ str "^") :=
  ⟨by decide, by decide, by decide,
    C4_chain (str "2") (str "3") (str "2") (str "^") (str "^") (by decide) (by decide)
      (by decide) (by decide) (by decide)⟩

/-- C5 (the code at the failing input): on the one-byte string `0xC3`, a lead byte
whose second byte is missing, `utf8ExtractChar` returns the empty string, so a pass of
the loop of `tokenize` leaves the position and the tokens unchanged and the loop never
exits: it returns no token sequence with any amount of fuel. -/
theorem C5_truncated_lead_never_returns :
    utf8ExtractChar [0xC3] 0 = [] ∧ tokenizeStep [0xC3] 0 [] = (0, []) ∧
      (∀ fuel, tokenizeLoop [0xC3] fuel 0 [] = none) ∧ tokenize [0xC3] = none :=
  ⟨by decide, by decide, tokenizeLoop_stuck [0xC3] [] (by simp) (by decide),
    tokenizeLoop_stuck [0xC3] [] (by simp) (by decide) _⟩

/-- C6: unary-minus disambiguation. When the loop of `tokenize` is at a `-`, it emits a
negative Number token (the `-` and the maximal run of digits and `.` after it) if the
`-` is immediately followed by a digit or `.` and no token precedes or the preceding
token is an Operator, LeftParen, Comma or ListStart; in every other case it emits the
Operator token `-`. -/
theorem C6_unary_minus (e : Str) (i : Nat) (tokens : List Token) (h : e[i]? = some 45) :
    tokenizeStep e i tokens =
      if followedByNumber e i = true ∧ signPosition tokens = true then
        (i + 1 + ((e.drop (i + 1)).takeWhile numberByte).length,
          tokens ++ [⟨.Number, str "-" ++ (e.drop (i + 1)).takeWhile numberByte⟩])
      else (i + 1, tokens ++ [⟨.Operator, str "-"⟩]) :=
  unaryMinus_rule e i tokens h

theorem C6_unary_minus_witness :
    (str "3 -5")[2]? = some 45 ∧
      tokenize (str "-5") = some [⟨.Number, str "-5"⟩] ∧
      tokenize (str "3 -5") =
        some [⟨.Number, str "3"⟩, ⟨.Operator, str "-"⟩, ⟨.Number, str "5"⟩] ∧
      tokenizeStep (str "3 -5") 2 [⟨.Number, str "3"⟩] =
        if followedByNumber (str "3 -5") 2 = true ∧
            signPosition [⟨.Number, str "3"⟩] = true then
          (2 + 1 + (((str "3 -5").drop (2 + 1)).takeWhile numberByte).length,
            [⟨.Number, str "3"⟩] ++
              [⟨.Number, str "-" ++ ((str "3 -5").drop (2 + 1)).takeWhile numberByte⟩])
        else (2 + 1, [⟨.Number, str "3"⟩] ++ [⟨.Operator, str "-"⟩]) :=
  ⟨by decide, by decide, by decide,
    C6_unary_minus (str "3 -5") 2 [⟨.Number, str "3"⟩] (by decide)⟩

/-- C7: tokenizer round trip on well-formed lexemes. For every list of tokens in
which each token is a valid lexeme of its kind, `tokenize` of the token texts joined by
single spaces returns exactly that list. -/
theorem C7_lexeme_roundtrip (ts : List Token) (h : ∀ t ∈ ts, validLexeme t = true) :
    tokenize (joinSpaces (ts.map Token.value)) = some ts :=
  tokenize_lexemes ts h

theorem C7_lexeme_roundtrip_witness :
    (∀ t ∈ [(⟨.UnaryFunction, str "√"⟩ : Token), ⟨.LeftParen, str "("⟩, ⟨.Number, str "16"⟩,
        ⟨.RightParen, str ")"⟩, ⟨.Operator, str "-"⟩, ⟨.Constant, str "pi"⟩],
        validLexeme t = true) ∧
      tokenize (joinSpaces (List.map Token.value
        [(⟨.UnaryFunction, str "√"⟩ : Token), ⟨.LeftParen, str "("⟩, ⟨.Number, str "16"⟩,
          ⟨.RightParen, str ")"⟩, ⟨.Operator, str "-"⟩, ⟨.Constant, str "pi"⟩])) =
        some [(⟨.UnaryFunction, str "√"⟩ : Token), ⟨.LeftParen, str "("⟩, ⟨.Number, str "16"⟩,
          ⟨.RightParen, str ")"⟩, ⟨.Operator, str "-"⟩, ⟨.Constant, str "pi"⟩] :=
  ⟨by decide, C7_lexeme_roundtrip _ (by decide)⟩

/-- C8: for every input on which `tokenize` returns, the input is
`gap₀ text₁ gap₁ … textₙ gapₙ` where `text₁ … textₙ` are the texts of the returned
tokens in order: each token text is a non-empty contiguous substring of the input, and
the substrings occur in token order without overlapping. -/
theorem C8_substrings (e : Str) (ts : List Token) (h : tokenize e = some ts) :
    ∃ gaps : List Str, gaps.length = ts.length + 1 ∧
      weave gaps (ts.map Token.value) = e ∧ ∀ t ∈ ts, t.value ≠ [] :=
  tokenize_substrings e ts h

theorem C8_substrings_witness :
    tokenize (str "3 -5") =
        some [⟨.Number, str "3"⟩, ⟨.Operator, str "-"⟩, ⟨.Number, str "5"⟩] ∧
      ∃ gaps : List Str,
        gaps.length =
          [(⟨.Number, str "3"⟩ : Token), ⟨.Operator, str "-"⟩, ⟨.Number, str "5"⟩].length + 1 ∧
        weave gaps (List.map Token.value
          [(⟨.Number, str "3"⟩ : Token), ⟨.Operator, str "-"⟩, ⟨.Number, str "5"⟩]) =
            str "3 -5" ∧
        ∀ t ∈ [(⟨.Number, str "3"⟩ : Token), ⟨.Operator, str "-"⟩, ⟨.Number, str "5"⟩],
          t.value ≠ [] :=
  ⟨by decide, C8_substrings (str "3 -5") _ (by decide)⟩

/-- C9: unrecognised input is dropped silently. For every well-formed text `a`, every
text `b` and every `u` that is an ASCII identifier found in none of the identifier
tables or a multi-byte code point found in none of the operator, unary-function and
constant tables, `tokenize (a ++ " " ++ u ++ " " ++ b) = tokenize (a ++ " " ++ b)`;
and `tokenize` of the empty string, of whitespace only, or of an unknown identifier
alone is the empty sequence. -/
theorem C9_unknown_dropped (a b u : Str) (ha : WellFormed a)
    (hu : isUnknownIdentifier u = true ∨ isUnknownGlyph u = true) :
    tokenize (a ++ str " " ++ u ++ str " " ++ b) = tokenize (a ++ str " " ++ b) ∧
      tokenize [] = some [] ∧
      (∀ s : Str, s.all isspace = true → tokenize s = some []) ∧
      (isUnknownIdentifier u = true → tokenize u = some []) :=
  ⟨tokenize_unknown_dropped a b u ha hu, rfl, tokenize_whitespace, tokenize_unknown u⟩

theorem C9_unknown_dropped_witness :
    WellFormed [49] ∧ isUnknownIdentifier (str "foo") = true ∧
      (tokenize ([49] ++ str " " ++ str "foo" ++ str " " ++ str "+ 2") =
          tokenize ([49] ++ str " " ++ str "+ 2") ∧
        tokenize [] = some [] ∧
        (∀ s : Str, s.all isspace = true → tokenize s = some []) ∧
        (isUnknownIdentifier (str "foo") = true → tokenize (str "foo") = some [])) :=
  ⟨WellFormed.ascii 49 [] (by decide) WellFormed.nil, by decide,
    C9_unknown_dropped [49] (str "+ 2") (str "foo")
      (WellFormed.ascii 49 [] (by decide) WellFormed.nil) (Or.inl (by decide))⟩

/-- C10 (as stated, refuted): `infixToRPN "+"` returns `" +"`, which starts with a
space and so is not a sequence of non-empty space-free items joined by single spaces. -/
theorem C10_leading_space :
    infixToRPN (str "+") = some (str " +") ∧
      ¬ ∃ items : List Str, (∀ w ∈ items, w ≠ [] ∧ 32 ∉ w) ∧ str " +" = joinSpaces items := by
  refine ⟨by decide, ?_⟩
  rintro ⟨items, hw, he⟩
  cases items with
  | nil => exact absurd he (by decide)
  | cons w l =>
    obtain ⟨r, hr⟩ := joinSpaces_head w l
    rw [hr] at he
    obtain ⟨hne, h32⟩ := hw w (by simp)
    cases w with
    | nil => exact hne rfl
    | cons c w =>
      have hc : c = 32 := by
        have : str " +" = [32, 43] := by decide
        rw [this] at he
        simp only [List.cons_append, List.cons.injEq] at he
        exact he.1.symm
      exact h32 (by simp [hc])

/-- C10 (amended): for every input on which `infixToRPN` returns, the returned string
is a sequence of non-empty space-free items separated by exactly one space each, with
no trailing space and no two consecutive spaces, possibly preceded by one leading
space; when the first token of the input is a Number, a Constant or ListStart there is
no leading space. -/
theorem C10_spaced (e out : Str) (h : infixToRPN e = some out) :
    (∃ items : List Str, (∀ w ∈ items, w ≠ [] ∧ 32 ∉ w) ∧
        (out = joinSpaces items ∨ (items ≠ [] ∧ out = str " " ++ joinSpaces items))) ∧
      ∀ t ts, tokenize e = some (t :: ts) →
        (t.type = .Number ∨ t.type = .Constant ∨ t.type = .ListStart) →
        ∃ items : List Str, (∀ w ∈ items, w ≠ [] ∧ 32 ∉ w) ∧ out = joinSpaces items := by
  unfold infixToRPN at h
  cases ht : tokenize e with
  | none => rw [ht] at h; exact absurd h (by simp)
  | some toks =>
    rw [ht, Option.map_some'] at h
    have hout : out = convert toks := (Option.some.inj h).symm
    have hw := tokenize_words e toks ht
    constructor
    · obtain ⟨items, hi, hs⟩ := convert_spaced toks hw
      rw [← hout] at hs
      exact ⟨items, fun w hm => ⟨isWord_ne_nil (hi w hm), isWord_no_space (hi w hm)⟩, hs⟩
    · intro t ts hts hty
      have heq : toks = t :: ts := Option.some.inj hts
      subst heq
      obtain ⟨items, _, hi, hs⟩ := convert_joined t ts hw hty
      rw [← hout] at hs
      exact ⟨items, fun w hm => ⟨isWord_ne_nil (hi w hm), isWord_no_space (hi w hm)⟩, hs⟩

theorem C10_spaced_witness :
    infixToRPN (str "1 + 2") = some (str "1 2 +") ∧
      ((∃ items : List Str, (∀ w ∈ items, w ≠ [] ∧ 32 ∉ w) ∧
          (str "1 2 +" = joinSpaces items ∨
            (items ≠ [] ∧ str "1 2 +" = str " " ++ joinSpaces items))) ∧
        ∀ t ts, tokenize (str "1 + 2") = some (t :: ts) →
          (t.type = .Number ∨ t.type = .Constant ∨ t.type = .ListStart) →
          ∃ items : List Str, (∀ w ∈ items, w ≠ [] ∧ 32 ∉ w) ∧
            str "1 2 +" = joinSpaces items) :=
  ⟨by decide, C10_spaced (str "1 + 2") (str "1 2 +") (by decide)⟩

theorem split_solid (w : Str) (h : Solid w) : ∀ (rest current : Str) (tokens : List Str),
    split (w ++ rest) current tokens = split rest (current ++ w) tokens := by
  induction h with
  | nil => intro rest current tokens; simp
  | ascii c s hc hsp _ ih =>
    intro rest current tokens
    have := split_char [c] (s ++ rest) current tokens
      (utf8ExtractChar_ascii c _ hc) (by simp [isAsciiSpace, hsp])
    rw [List.cons_append, ← List.singleton_append, this, ih]
    simp
  | glyph ch s hg _ ih =>
    intro rest current tokens
    rw [List.append_assoc, split_glyph ch _ _ _ hg, ih, List.append_assoc]

theorem split_joinSpaces_solid (items : List Str) (h : ∀ w ∈ items, w ≠ [] ∧ Solid w) :
    ∀ tokens, split (joinSpaces items) [] tokens = some (tokens ++ items) := by
  induction items with
  | nil => intro tokens; simp [joinSpaces, split_nil, splitFlush]
  | cons x l ih =>
    intro tokens
    obtain ⟨hne, hx⟩ := h x (by simp)
    have hemp : x.isEmpty = false := by
      cases x with
      | nil => exact absurd rfl hne
      | cons _ _ => rfl
    cases l with
    | nil =>
      rw [joinSpaces_singleton]
      have := split_solid x hx [] [] tokens
      rw [List.append_nil, List.nil_append] at this
      rw [this, split_nil]
      simp [splitFlush, hemp]
    | cons y l =>
      rw [joinSpaces_cons_cons, split_solid x hx _ [] tokens, List.nil_append,
        split_space 32 _ _ _ (by decide)]
      simp only [hemp, Bool.not_false, if_true]
      rw [ih (fun w hw => h w (by simp [hw]))]
      simp

theorem splitTokens_joinSpaces_solid (items : List Str)
    (h : ∀ w ∈ items, w ≠ [] ∧ Solid w) : splitTokens (joinSpaces items) = some items := by
  rw [splitTokens_eq_split, split_joinSpaces_solid items h]; simp

theorem evalToken_listEnd {F : Type} (A : Arith F) (s : List F) :
    evalToken A (str "\x7d") s = .ok s := by
  unfold evalToken
  rw [if_neg (by decide), if_pos (by decide)]

theorem evalTokens_filter {F : Type} (A : Arith F) (tokens : List Str) :
    ∀ s : List F, evalTokens A (tokens.filter notListEnd) s = evalTokens A tokens s := by
  induction tokens with
  | nil => intro s; rfl
  | cons t l ih =>
    intro s
    by_cases ht : notListEnd t = true
    · rw [List.filter_cons_of_pos ht, evalTokens_cons, evalTokens_cons]
      cases evalToken A t s with
      | error e => rfl
      | ok s1 => exact ih s1
    · rw [List.filter_cons_of_neg ht, ih, evalTokens_cons]
      have : t = str "\x7d" := by
        simpa [notListEnd] using ht
      rw [this, evalToken_listEnd]

theorem list_keys :
    ∀ k ∈ LIST_FUNCTIONS.map Prod.fst, (k == str "\x7b") = false ∧ (k == str "\x7d") = false ∧
      OPERATORS.lookup k = none ∧ UNARY_FUNCTIONS.lookup k = none ∧
      BINARY_FUNCTIONS.lookup k = none := by
  decide

theorem collectValues_marker {F : Type} (A : Arith F) (m : F) (rest : List F)
    (hm : isListMarker A m = true) :
    ∀ (xs values : List F), (∀ x ∈ xs, isListMarker A x = false) →
      collectValues A values (xs ++ m :: rest) = (values ++ xs, m :: rest) := by
  intro xs
  induction xs with
  | nil =>
    intro values _
    simp [collectValues, hm]
  | cons x xs ih =>
    intro values h
    have hx := h x (by simp)
    rw [List.cons_append, collectValues]
    simp only [hx, Bool.not_false, if_true]
    rw [ih _ (fun y hy => h y (by simp [hy]))]
    simp

theorem collectValues_all {F : Type} (A : Arith F) :
    ∀ (xs values : List F), (∀ x ∈ xs, isListMarker A x = false) →
      collectValues A values xs = (values ++ xs, []) := by
  intro xs
  induction xs with
  | nil => intro values _; simp [collectValues]
  | cons x xs ih =>
    intro values h
    have hx := h x (by simp)
    rw [collectValues]
    simp only [hx, Bool.not_false, if_true]
    rw [ih _ (fun y hy => h y (by simp [hy]))]
    simp

theorem evalToken_listFunction {F : Type} (A : Arith F) (f : Str) (func : ListOp) (s : List F)
    (h : LIST_FUNCTIONS.lookup f = some func) :
    evalToken A f s =
      .ok (applyList A func (collectValues A [] s).1.reverse :: (collectValues A [] s).2.tail) := by
  obtain ⟨h1, h2, h3, h4, h5⟩ :=
    list_keys f (mem_keys_of_lookup f LIST_FUNCTIONS (by rw [h]; rfl))
  unfold evalToken
  rw [h1, h2]
  simp only [Bool.false_eq_true, if_false, h3, h4, h5, h]

theorem operator_precedence : ∀ o ∈ OPERATORS.map Prod.fst, 1 ≤ getPrecedence o := by
  decide

theorem getPrecedence_of_not_operator (f : Str) (h : OPERATORS.lookup f = none) :
    getPrecedence f = 0 := by
  unfold getPrecedence; rw [h]

theorem operatorPops_function (o f : Str) (ty : TokenType) (ho : isOperator o = true)
    (hf : OPERATORS.lookup f = none) (hty : (ty == TokenType.UnaryFunction) = false) :
    operatorPops ⟨.Operator, o⟩ ⟨ty, f⟩ = false := by
  have hp := operator_precedence o (mem_keys_of_lookup o OPERATORS ho)
  have h0 := getPrecedence_of_not_operator f hf
  unfold operatorPops
  simp only [h0, hty, Bool.false_or]
  have h1 : decide (0 > getPrecedence o) = false := by
    simp only [decide_eq_false_iff_not]; omega
  have h2 : ((0 : Int) == getPrecedence o) = false := by
    simp only [beq_eq_false_iff_ne]; omega
  rw [h1, h2]; simp

theorem ratArith_literal (l : Str) (q : ℚ) (s : List (Option ℚ))
    (h1 : isNumberLiteral l = true) (h2 : ratArith.stod l = some (some q)) :
    evalToken ratArith l s = .ok (some q :: s) := by
  rw [evalToken_literal ratArith l s h1, h2]

theorem evalToken_listStart {F : Type} (A : Arith F) (s : List F) :
    evalToken A (str "\x7b") s = .ok (LIST_MARKER A :: s) := by
  unfold evalToken; rw [if_pos (by decide)]

/-- C11 (the code at the failing input): an incoming operator never pops a ListFunction
or BinaryFunction from the top of the operator stack (only a UnaryFunction is tested, and
a function name has precedence 0), so `infixToRPN "{ 2, 4, 6, 8 } mean + 1"` is
`"{ 2 4 6 8 } 1 + mean"`, which evaluates to 21/4, and not `"{ 2 4 6 8 } mean 1 +"`,
which evaluates to 6. -/
theorem C11_function_not_popped :
    (∀ o f, isOperator o = true → isListFunction f = true →
        operatorPops ⟨.Operator, o⟩ ⟨.ListFunction, f⟩ = false) ∧
      (∀ o g, isOperator o = true → isBinaryFunction g = true →
        operatorPops ⟨.Operator, o⟩ ⟨.BinaryFunction, g⟩ = false) ∧
      infixToRPN (str "\x7b 2, 4, 6, 8 \x7d mean + 1") =
        some (str "\x7b 2 4 6 8 \x7d 1 + mean") ∧
      calculateRPN ratArith (str "\x7b 2 4 6 8 \x7d 1 + mean") = .ok (some (21 / 4)) ∧
      calculateRPN ratArith (str "\x7b 2 4 6 8 \x7d mean 1 +") = .ok (some 6) := by
  refine ⟨?_, ?_, by decide, ?_, ?_⟩
  · intro o f ho hf
    exact operatorPops_function o f _ ho
      (list_keys f (mem_keys_of_lookup f LIST_FUNCTIONS hf)).2.2.1 rfl
  · intro o g ho hg
    exact operatorPops_function o g _ ho
      (binary_keys g (mem_keys_of_lookup g BINARY_FUNCTIONS hg)).2.2.1 rfl
  · unfold calculateRPN
    rw [show splitTokens (str "\x7b 2 4 6 8 \x7d 1 + mean") =
      some [str "\x7b", str "2", str "4", str "6", str "8", str "\x7d", str "1", str "+",
        str "mean"] from by decide]
    simp only [evalTokens_cons, evalTokens, evalToken_listStart,
      ratArith_literal (str "2") 2 _ (by decide) (by decide),
      ratArith_literal (str "4") 4 _ (by decide) (by decide),
      ratArith_literal (str "6") 6 _ (by decide) (by decide),
      ratArith_literal (str "8") 8 _ (by decide) (by decide),
      ratArith_literal (str "1") 1 _ (by decide) (by decide), evalToken_listEnd,
      evalToken_operator ratArith (str "+") _ _ _ _
        (by decide : OPERATORS.lookup (str "+") = some ⟨1, false, .add⟩),
      evalToken_listFunction ratArith (str "mean") .mean _ (by decide)]
    norm_num [collectValues, isListMarker, LIST_MARKER, applyList, applyBin, total, ratArith,
      liftRat]
  · unfold calculateRPN
    rw [show splitTokens (str "\x7b 2 4 6 8 \x7d mean 1 +") =
      some [str "\x7b", str "2", str "4", str "6", str "8", str "\x7d", str "mean", str "1",
        str "+"] from by decide]
    simp only [evalTokens_cons, evalTokens, evalToken_listStart,
      ratArith_literal (str "2") 2 _ (by decide) (by decide),
      ratArith_literal (str "4") 4 _ (by decide) (by decide),
      ratArith_literal (str "6") 6 _ (by decide) (by decide),
      ratArith_literal (str "8") 8 _ (by decide) (by decide),
      ratArith_literal (str "1") 1 _ (by decide) (by decide), evalToken_listEnd,
      evalToken_operator ratArith (str "+") _ _ _ _
        (by decide : OPERATORS.lookup (str "+") = some ⟨1, false, .add⟩),
      evalToken_listFunction ratArith (str "mean") .mean _ (by decide)]
    norm_num [collectValues, isListMarker, LIST_MARKER, applyList, applyBin, total, ratArith,
      liftRat]

/-- C12: operand order in the evaluator. For number literals `a`, `b` with values `va`,
`vb`: for every registered operator and every registered binary function,
`calculateRPN "a b op"` applies the function to `(va, vb)` in this order, and for every
registered unary function `calculateRPN "a f"` applies it to `va`. -/
theorem C12_operand_order {F : Type} (A : Arith F) (a b : Str) (va vb : F)
    (ha : isNumberLiteral a = true) (hb : isNumberLiteral b = true)
    (hva : A.stod a = some va) (hvb : A.stod b = some vb) :
    (∀ op info, OPERATORS.lookup op = some info →
        calculateRPN A (a ++ str " " ++ b ++ str " " ++ op) =
          .ok (applyBin A info.func va vb)) ∧
      (∀ g func, BINARY_FUNCTIONS.lookup g = some func →
        calculateRPN A (a ++ str " " ++ b ++ str " " ++ g) = .ok (applyBin A func va vb)) ∧
      (∀ f func, UNARY_FUNCTIONS.lookup f = some func →
        calculateRPN A (a ++ str " " ++ f) = .ok (applyUn A func va)) := by
  refine ⟨?_, ?_, ?_⟩
  · intro op info h
    have hw : (Expr.op op (.num a) (.num b)).wf = true := by
      simp [Expr.wf, ha, hb, isOperator, h]
    have := calculateRPN_postorder A _ hw
    simp only [postorder, List.singleton_append, List.cons_append, List.nil_append,
      joinSpaces_cons_cons, joinSpaces_singleton, evalExpr, hva, hvb, h] at this
    rw [← this, str_space]; simp
  · intro g func h
    have hw : (Expr.bin g (.num a) (.num b)).wf = true := by
      simp [Expr.wf, ha, hb, isBinaryFunction, h]
    have := calculateRPN_postorder A _ hw
    simp only [postorder, List.singleton_append, List.cons_append, List.nil_append,
      joinSpaces_cons_cons, joinSpaces_singleton, evalExpr, hva, hvb, h] at this
    rw [← this, str_space]; simp
  · intro f func h
    have hw : (Expr.un f (.num a)).wf = true := by
      simp [Expr.wf, ha, isUnaryFunction, h]
    have := calculateRPN_postorder A _ hw
    simp only [postorder, List.singleton_append, joinSpaces_cons_cons, joinSpaces_singleton,
      evalExpr, hva, h] at this
    rw [← this, str_space]; simp

theorem C12_operand_order_witness :
    (isNumberLiteral (str "5") = true ∧ isNumberLiteral (str "3") = true ∧
      ratArith.stod (str "5") = some (some 5) ∧ ratArith.stod (str "3") = some (some 3)) ∧
    calculateRPN ratArith (str "5 3 -") = .ok (some 2) ∧
    calculateRPN ratArith (str "7 3 %") = .ok (some 1) ∧
    calculateRPN ratArith (str "17 5 mod") = .ok (some 2) := by
  refine ⟨⟨by decide, by decide, by decide, by decide⟩, ?_, ?_, ?_⟩
  · have h := (C12_operand_order ratArith (str "5") (str "3") (some 5) (some 3) (by decide)
      (by decide) (by decide) (by decide)).1 (str "-") ⟨1, false, .sub⟩ (by decide)
    rw [show str "5" ++ str " " ++ str "3" ++ str " " ++ str "-" = str "5 3 -" from by decide] at h
    rw [h]; norm_num [applyBin, ratArith, liftRat]
  · have h := (C12_operand_order ratArith (str "7") (str "3") (some 7) (some 3) (by decide)
      (by decide) (by decide) (by decide)).1 (str "%") ⟨2, false, .fmod⟩ (by decide)
    rw [show str "7" ++ str " " ++ str "3" ++ str " " ++ str "%" = str "7 3 %" from by decide] at h
    rw [h]; norm_num [applyBin, ratArith, liftRat, truncRat]
  · have h := (C12_operand_order ratArith (str "17") (str "5") (some 17) (some 5) (by decide)
      (by decide) (by decide) (by decide)).2.1 (str "mod") .fmod (by decide)
    rw [show str "17" ++ str " " ++ str "5" ++ str " " ++ str "mod" = str "17 5 mod"
      from by decide] at h
    rw [h]; norm_num [applyBin, ratArith, liftRat, truncRat]

/-- C13: list-function step of the evaluator. If the operand stack is
`rest ++ [m] ++ xs` from bottom to top, where `m` is a list marker and no element of
`xs` is one, then processing a list-function token leaves the stack
`rest ++ [reduce xs]`: the reducer receives `xs` in push order and `rest` is
unchanged. -/
theorem C13_list_step {F : Type} (A : Arith F) (f : Str) (func : ListOp)
    (rest xs : List F) (m : F) (hf : LIST_FUNCTIONS.lookup f = some func)
    (hm : isListMarker A m = true) (hxs : ∀ x ∈ xs, isListMarker A x = false) :
    evalToken A f (rest ++ [m] ++ xs).reverse = .ok (rest ++ [applyList A func xs]).reverse := by
  have hs : (rest ++ [m] ++ xs).reverse = xs.reverse ++ m :: rest.reverse := by simp
  rw [evalToken_listFunction A f func _ hf, hs,
    collectValues_marker A m rest.reverse hm xs.reverse [] (by
      intro x hx; exact hxs x (List.mem_reverse.mp hx))]
  simp

theorem C13_list_step_witness :
    (LIST_FUNCTIONS.lookup (str "sum") = some .sum ∧ isListMarker ratArith none = true ∧
      ∀ x ∈ [some (2 : ℚ), some 3], isListMarker ratArith x = false) ∧
    evalToken ratArith (str "sum") ([some (1 : ℚ)] ++ [none] ++ [some 2, some 3]).reverse =
      .ok ([some (1 : ℚ)] ++ [applyList ratArith .sum [some 2, some 3]]).reverse ∧
    calculateRPN ratArith (str "\x7b 1 \x7b 2 3 \x7d sum 4 \x7d sum") = .ok (some 10) := by
  have hx : ∀ x ∈ [some (2 : ℚ), some 3], isListMarker ratArith x = false := by
    intro x hx
    simp only [List.mem_cons, List.mem_singleton, List.not_mem_nil, or_false] at hx
    rcases hx with hx | hx <;> subst hx <;> rfl
  refine ⟨⟨by decide, rfl, hx⟩,
    C13_list_step ratArith (str "sum") .sum [some 1] [some 2, some 3] none (by decide) rfl hx, ?_⟩
  unfold calculateRPN
  rw [show splitTokens (str "\x7b 1 \x7b 2 3 \x7d sum 4 \x7d sum") =
    some [str "\x7b", str "1", str "\x7b", str "2", str "3", str "\x7d", str "sum", str "4",
      str "\x7d", str "sum"] from by decide]
  simp only [evalTokens_cons, evalTokens, evalToken_listStart,
    ratArith_literal (str "1") 1 _ (by decide) (by decide),
    ratArith_literal (str "2") 2 _ (by decide) (by decide),
    ratArith_literal (str "3") 3 _ (by decide) (by decide),
    ratArith_literal (str "4") 4 _ (by decide) (by decide), evalToken_listEnd,
    evalToken_listFunction ratArith (str "sum") .sum _ (by decide)]
  norm_num [collectValues, isListMarker, LIST_MARKER, applyList, total, ratArith, liftRat]

/-- C14: the `}` token is a no-op for the evaluator. Deleting all `}` tokens from a
token sequence does not change the operand stack reached from any stack (nor the
fault); two token sequences that differ only in `}` tokens reach the same stack; and
for items without whitespace, `calculateRPN` of the items joined by spaces is the same
with and without the `}` items. -/
theorem C14_listEnd_noop {F : Type} (A : Arith F) :
    (∀ (tokens : List Str) (s : List F),
        evalTokens A (tokens.filter notListEnd) s = evalTokens A tokens s) ∧
      (∀ (t1 t2 : List Str) (s : List F), t1.filter notListEnd = t2.filter notListEnd →
        evalTokens A t1 s = evalTokens A t2 s) ∧
      (∀ items : List Str, (∀ w ∈ items, w ≠ [] ∧ Solid w) →
        calculateRPN A (joinSpaces (items.filter notListEnd)) =
          calculateRPN A (joinSpaces items)) := by
  refine ⟨evalTokens_filter A, ?_, ?_⟩
  · intro t1 t2 s h
    rw [← evalTokens_filter A t1, ← evalTokens_filter A t2, h]
  · intro items h
    unfold calculateRPN
    rw [splitTokens_joinSpaces_solid items h,
      splitTokens_joinSpaces_solid (items.filter notListEnd)
        (fun w hw => h w (List.mem_of_mem_filter hw))]
    simp only [evalTokens_filter]

theorem calculateRPN_emptyList {F : Type} (A : Arith F) (f : Str) (func : ListOp)
    (hnan : A.isnan A.nan = true) (hf : LIST_FUNCTIONS.lookup f = some func)
    (hs : splitTokens (str "\x7b \x7d " ++ f) = some [str "\x7b", str "\x7d", f]) :
    calculateRPN A (str "\x7b \x7d " ++ f) = .ok (applyList A func []) := by
  unfold calculateRPN
  rw [hs]
  simp only [evalTokens_cons, evalTokens, evalToken_listStart, evalToken_listEnd,
    evalToken_listFunction A f func _ hf]
  simp [collectValues, isListMarker, LIST_MARKER, hnan]

/-- C19: the standard deviations are the square roots of the variances. In an
arithmetic where the square root of 0 is 0, for every sequence `v`,
`stddev v = sqrt (var v)` and `sstddev v = sqrt (svar v)`; `stddev` of the empty
sequence is 0 and `sstddev` of a sequence with fewer than 2 elements is 0. -/
theorem C19_stddev {F : Type} (A : Arith F) (hsqrt : A.sqrt (A.ofNat 0) = A.ofNat 0)
    (v : List F) :
    applyList A .stddev v = A.sqrt (applyList A .var v) ∧
      applyList A .sstddev v = A.sqrt (applyList A .svar v) ∧
      applyList A .stddev [] = A.ofNat 0 ∧
      (v.length < 2 → applyList A .sstddev v = A.ofNat 0) := by
  refine ⟨?_, ?_, rfl, fun h => by simp only [applyList, if_pos h]⟩
  · by_cases he : v.isEmpty = true
    · simp only [applyList, he, if_true, hsqrt]
    · simp only [applyList, he, Bool.false_eq_true, if_false]
  · by_cases hl : v.length < 2
    · simp only [applyList, if_pos hl, hsqrt]
    · simp only [applyList, if_neg hl]

theorem C19_stddev_witness :
    ratArith.sqrt (ratArith.ofNat 0) = ratArith.ofNat 0 ∧
      applyList ratArith .stddev [some 1, some 1] = some 0 ∧
      applyList ratArith .stddev [some 1, some 1] =
        ratArith.sqrt (applyList ratArith .var [some 1, some 1]) := by
  have h0 : ratArith.sqrt (ratArith.ofNat 0) = ratArith.ofNat 0 := by
    norm_num [ratArith]
  have h := C19_stddev ratArith h0 [some 1, some 1]
  refine ⟨h0, ?_, h.1⟩
  rw [h.1]
  norm_num [applyList, squares, total, ratArith, liftRat]

theorem evalTokens_literals {F : Type} (A : Arith F) :
    ∀ (xs : List Str) (vs : List F) (rest : List Str) (s : List F),
      (∀ x ∈ xs, isNumberLiteral x = true) → xs.map A.stod = vs.map some →
      evalTokens A (xs ++ rest) s = evalTokens A rest (vs.reverse ++ s) := by
  intro xs
  induction xs with
  | nil =>
    intro vs rest s _ hv
    cases vs with
    | nil => rfl
    | cons _ _ => simp at hv
  | cons x xs ih =>
    intro vs rest s hx hv
    cases vs with
    | nil => simp at hv
    | cons v vs =>
      rw [List.map_cons, List.map_cons, List.cons.injEq] at hv
      rw [List.cons_append, evalTokens_cons, evalToken_literal A x s (hx x (by simp)), hv.1]
      simp only
      rw [ih vs rest (v :: s) (fun y hy => hx y (by simp [hy])) hv.2]
      simp

theorem evalTokens_listLiteral {F : Type} (A : Arith F) (xs : List Str) (vs : List F)
    (f : Str) (func : ListOp) (s : List F) (hnan : A.isnan A.nan = true)
    (hx : ∀ x ∈ xs, isNumberLiteral x = true) (hv : xs.map A.stod = vs.map some)
    (hn : ∀ v ∈ vs, A.isnan v = false) (hf : LIST_FUNCTIONS.lookup f = some func) :
    evalTokens A ([str "\x7b"] ++ xs ++ [str "\x7d", f]) s =
      .ok (applyList A func vs :: s) := by
  rw [List.append_assoc, List.singleton_append, evalTokens_cons, evalToken_listStart]
  simp only
  rw [evalTokens_literals A xs vs _ _ hx hv, evalTokens_cons, evalToken_listEnd]
  simp only
  rw [evalTokens_cons, evalToken_listFunction A f func _ hf,
    collectValues_marker A (LIST_MARKER A) s hnan vs.reverse []
      (fun x hx => hn x (List.mem_reverse.mp hx))]
  simp [evalTokens]

theorem calculateRPN_listLiteral {F : Type} (A : Arith F) (xs : List Str) (vs : List F)
    (f : Str) (func : ListOp) (hnan : A.isnan A.nan = true)
    (hx : ∀ x ∈ xs, isNumberLiteral x = true) (hv : xs.map A.stod = vs.map some)
    (hn : ∀ v ∈ vs, A.isnan v = false) (hf : LIST_FUNCTIONS.lookup f = some func)
    (hi : isItem f = true) :
    calculateRPN A (joinSpaces ([str "\x7b"] ++ xs ++ [str "\x7d", f])) =
      .ok (applyList A func vs) := by
  unfold calculateRPN
  rw [splitTokens_joinSpaces _ (by
    intro w hw
    simp only [List.mem_append, List.mem_singleton, List.mem_cons, List.not_mem_nil,
      or_false] at hw
    rcases hw with (rfl | hw) | rfl | rfl
    · decide
    · exact literal_isItem (hx w hw)
    · decide
    · exact hi)]
  simp only
  rw [evalTokens_listLiteral A xs vs f func [] hnan hx hv hn hf]

theorem mem_keys_iff {β : Type} (k : Str) (l : List (Str × β)) :
    (l.lookup k).isSome = true ↔ k ∈ l.map Prod.fst := by
  constructor
  · exact mem_keys_of_lookup k l
  · intro h
    by_contra hn
    rw [Bool.not_eq_true, Option.not_isSome, Option.isNone_iff_eq_none] at hn
    induction l with
    | nil => simp at h
    | cons p l ih =>
      obtain ⟨a, b⟩ := p
      rw [List.lookup_cons] at hn
      rw [List.map_cons, List.mem_cons] at h
      by_cases hk : (k == a) = true
      · rw [hk] at hn; exact absurd hn (by simp)
      · rw [Bool.not_eq_true] at hk
        rw [hk] at hn
        rcases h with h1 | h1
        · rw [beq_iff_eq.mpr h1] at hk; exact absurd hk (by decide)
        · exact ih h1 hn

theorem constant_keys : ∀ k ∈ CONSTANTS.map Prod.fst,
    (k == str "\x7b") = false ∧ (k == str "\x7d") = false ∧ OPERATORS.lookup k = none ∧
      UNARY_FUNCTIONS.lookup k = none ∧ BINARY_FUNCTIONS.lookup k = none ∧
      LIST_FUNCTIONS.lookup k = none ∧ splitTokens k = some [k] := by
  decide

theorem evalToken_constant {F : Type} (A : Arith F) (c : Str) (v : ConstVal) (s : List F)
    (h : CONSTANTS.lookup c = some v) : evalToken A c s = .ok (constValue A v :: s) := by
  have hk := constant_keys c (mem_keys_of_lookup c CONSTANTS (by rw [h]; rfl))
  unfold evalToken
  rw [hk.1, hk.2.1, hk.2.2.1, hk.2.2.2.1, hk.2.2.2.2.1, hk.2.2.2.2.2.1, h]
  simp

theorem solid_plain : ∀ w : Str, isPlain w = true → Solid w := by
  intro w
  induction w with
  | nil => intro _; exact Solid.nil
  | cons c w ih =>
    intro h
    simp only [isPlain, List.all_cons, Bool.and_eq_true, decide_eq_true_eq,
      Bool.not_eq_true'] at h
    exact Solid.ascii c w h.1.1 h.1.2 (ih (by simpa [isPlain] using h.2))

theorem solid_append {a b : Str} (ha : Solid a) (hb : Solid b) : Solid (a ++ b) := by
  induction ha with
  | nil => exact hb
  | ascii c s hc hsp _ ih => exact Solid.ascii c _ hc hsp ih
  | glyph ch s hg _ ih => rw [List.append_assoc]; exact Solid.glyph ch _ hg ih

theorem solid_glyph {ch : Str} (h : isGlyph ch = true) : Solid ch := by
  have := Solid.glyph ch [] h Solid.nil
  rwa [List.append_nil] at this

theorem renderTokens_append : ∀ (a b : List Str) (s : List Str),
    renderTokens (a ++ b) s =
      match renderTokens a s with
      | .ok s1 => renderTokens b s1
      | .error e => .error e := by
  intro a
  induction a with
  | nil => intro b s; rfl
  | cons t a ih =>
    intro b s
    rw [List.cons_append, renderTokens_cons, renderTokens_cons]
    cases renderToken t s with
    | ok s1 => exact ih b s1
    | error e => rfl

theorem renderToken_verbatim (token : Str) (s : List Str) (h1 : isOperator token = false)
    (h2 : isUnaryFunction token = false) (h3 : isBinaryFunction token = false) :
    renderToken token s = .ok (token :: s) := by
  unfold renderToken
  rw [h1, h2, h3]
  simp

theorem lookup_isSome_false {β : Type} {l : List (Str × β)} {k : Str}
    (h : l.lookup k = none) : (l.lookup k).isSome = false := by
  rw [h]; rfl

theorem joinSpaces_cons_trail (a : Str) (l : List Str) : joinSpaces (a :: l) = a ++ trail l := by
  induction l generalizing a with
  | nil => simp [joinSpaces, trail]
  | cons b l ih => rw [joinSpaces_cons_cons, ih b, trail, str_space]; simp

theorem trail_append (l1 l2 : List Str) : trail (l1 ++ l2) = trail l1 ++ trail l2 := by
  induction l1 with
  | nil => rfl
  | cons a l ih => simp [trail, ih]

theorem lex_listElems : ∀ (ns : List Str) (r : Str) (toks : List Token),
    (∀ n ∈ ns, isNumberLiteral n = true) → isUnaryMinus toks = true →
    lex (listElems ns ++ 32 :: r) toks = lex r (toks ++ elemTokens ns) := by
  intro ns
  induction ns with
  | nil =>
    intro r toks _ _
    simp only [listElems, List.nil_append, elemTokens, List.append_nil]
    exact lex_space 32 r toks (by decide)
  | cons n l ih =>
    intro r toks hn hu
    have h1 := hn n (by simp)
    cases l with
    | nil =>
      simp only [listElems, elemTokens, str_space, List.singleton_append, List.cons_append,
        List.append_assoc, List.nil_append]
      rw [lex_space 32 _ _ (by decide),
        lex_literal n _ toks h1 (startsNumber_cons 32 _ (by decide)) hu,
        lex_space 32 _ _ (by decide)]
    | cons m l =>
      simp only [listElems, elemTokens, str_space, str_comma, List.singleton_append,
        List.cons_append, List.append_assoc, List.nil_append]
      rw [lex_space 32 _ _ (by decide),
        lex_literal n _ toks h1 (startsNumber_cons 44 _ (by decide)) hu, lex_comma]
      rw [ih r (toks ++ [(⟨.Number, n⟩ : Token)] ++ [(⟨.Comma, [44]⟩ : Token)])
        (fun x hx => hn x (by simp [hx])) (by rw [isUnaryMinus_append]; rfl)]
      simp

theorem identifier_isItem {f : Str} (h : isIdentifier f = true) : isItem f = true := by
  cases f with
  | nil => simp [isIdentifier] at h
  | cons c l =>
    simp only [isIdentifier, Bool.and_eq_true, List.all_eq_true] at h
    have hp : isPlain (c :: l) = true := by
      simp only [isPlain, List.all_eq_true, Bool.and_eq_true, decide_eq_true_eq,
        Bool.not_eq_true']
      intro x hx
      have hx2 : nameByte x = true := by
        rcases List.mem_cons.mp hx with rfl | hx
        · simp [nameByte, h.1]
        · exact h.2 x hx
      refine ⟨nameByte_lt hx2, ?_⟩
      simp only [nameByte, isalpha, isdigit, Bool.or_eq_true, Bool.and_eq_true,
        decide_eq_true_eq] at hx2
      simp only [isspace, Bool.or_eq_false_iff, Bool.and_eq_false_iff, beq_eq_false_iff_ne,
        decide_eq_false_iff_not]
      omega
    simp [isItem, hp]

theorem convertTokens_elems : ∀ (ns : List Str) (out v : Str) (st : List Token),
    out ≠ [] →
    convertTokens (elemTokens ns) out (⟨.ListStart, v⟩ :: st) =
      (out ++ trail ns, ⟨.ListStart, v⟩ :: st) := by
  intro ns
  induction ns with
  | nil => intro out v st _; simp [elemTokens, trail, convertTokens_nil]
  | cons n l ih =>
    intro out v st hout
    cases l with
    | nil =>
      simp only [elemTokens, convertTokens_cons, convertTokens_nil, convertToken_number,
        separate_ne_nil out hout, trail, str_space]
      simp
    | cons m l =>
      have hc : ∀ o : Str, convertToken ⟨.Comma, str ","⟩ o (⟨.ListStart, v⟩ :: st) =
          (o, ⟨.ListStart, v⟩ :: st) := fun _ => rfl
      simp only [elemTokens, convertTokens_cons, convertToken_number, hc,
        separate_ne_nil out hout]
      rw [ih _ v st (by simp)]
      simp [trail, str_space]

theorem convert_listLiteral (ns : List Str) (f : Str) :
    convert ([⟨.ListStart, str "\x7b"⟩] ++ elemTokens ns ++
        [⟨.ListEnd, str "\x7d"⟩, ⟨.ListFunction, f⟩]) =
      joinSpaces ([str "\x7b"] ++ ns ++ [str "\x7d", f]) := by
  have h1 : ∀ (o : Str) (st : List Token), convertToken ⟨.ListStart, str "\x7b"⟩ o st =
      (separate o ++ str "\x7b", ⟨.ListStart, str "\x7b"⟩ :: st) := fun _ _ => rfl
  have h2 : ∀ (o v : Str) (st : List Token),
      convertToken ⟨.ListEnd, str "\x7d"⟩ o (⟨.ListStart, v⟩ :: st) =
        (o ++ str " \x7d", st) := fun _ _ _ => rfl
  have h3 : ∀ (o : Str) (st : List Token), convertToken ⟨.ListFunction, f⟩ o st =
      (o, ⟨.ListFunction, f⟩ :: st) := fun _ _ => rfl
  unfold convert
  rw [List.append_assoc, List.singleton_append, convertTokens_cons, h1, separate_nil,
    List.nil_append, convertTokens_append, convertTokens_elems ns _ _ [] (by decide)]
  simp only [convertTokens_cons, convertTokens_nil, h2, h3, popWhile_cons, popWhile_nil,
    if_true]
  show _ = joinSpaces (str "\x7b" :: (ns ++ [str "\x7d", f]))
  rw [joinSpaces_cons_trail, trail_append]
  simp [trail, str_space, str_listEnd, show str " \x7d" = [32, 125] from by decide]

theorem tokenize_listLiteral (ns : List Str) (f : Str)
    (hn : ∀ n ∈ ns, isNumberLiteral n = true) (hf : isListFunction f = true)
    (hi : isIdentifier f = true) :
    tokenize (listLiteral ns f) =
      some ([⟨.ListStart, str "\x7b"⟩] ++ elemTokens ns ++
        [⟨.ListEnd, str "\x7d"⟩, ⟨.ListFunction, f⟩]) := by
  rw [tokenize_eq_lex]
  have e : listLiteral ns f = 123 :: (listElems ns ++ 32 :: 125 :: 32 :: (f ++ [])) := by
    simp [listLiteral, show str " \x7d " = [32, 125, 32] from by decide, str_listStart]
  rw [e, lex_listStart, lex_listElems ns _ _ hn (by rw [isUnaryMinus_append]; rfl),
    lex_listEnd, lex_space 32 _ _ (by decide), lex_listFunction f [] _ hf hi rfl, lex_nil]
  simp [str_listStart, str_listEnd]

theorem identifier_extend {f u : Str} (hf : isIdentifier f = true)
    (hu : u.all nameByte = true) : isIdentifier (f ++ u) = true := by
  cases f with
  | nil => simp [isIdentifier] at hf
  | cons c l =>
    simp only [isIdentifier, Bool.and_eq_true] at hf
    simp only [List.cons_append, isIdentifier, List.all_append, Bool.and_eq_true]
    exact ⟨hf.1, hf.2, hu⟩

theorem tokenize_identifier (name : Str) (h : isIdentifier name = true) :
    tokenize name = some (nameToken name) := by
  have := lex_identifier name [] [] h rfl
  rw [List.append_nil, lex_nil, List.nil_append] at this
  rw [tokenize_eq_lex, this]

theorem identifier_startsNumber {name : Str} (h : isIdentifier name = true) (rest : Str) :
    startsNumber (name ++ rest) = false := by
  cases name with
  | nil => simp [isIdentifier] at h
  | cons c l =>
    simp only [isIdentifier, Bool.and_eq_true] at h
    apply startsNumber_cons
    have h1 := h.1
    simp only [isalpha, Bool.or_eq_true, Bool.and_eq_true, decide_eq_true_eq] at h1
    simp only [numberByte, isdigit, Bool.or_eq_false_iff, Bool.and_eq_false_iff,
      decide_eq_false_iff_not, beq_eq_false_iff_ne]
    omega

theorem popWhile_pending (cond : Token → Bool) : ∀ (pend : List Token) (out : Str)
    (st : List Token), (∀ p ∈ pend, cond p = true) →
    (∀ top rest, st = top :: rest → cond top = false) →
    popWhile cond out (pend ++ st) = (out ++ trail (pend.map Token.value), st) := by
  intro pend
  induction pend with
  | nil =>
    intro out st _ hst
    cases st with
    | nil => simp [popWhile_nil, trail]
    | cons top rest =>
      rw [List.nil_append, popWhile_cons, hst top rest rfl]
      simp [trail]
  | cons p pend ih =>
    intro out st hp hst
    rw [List.cons_append, popWhile_cons, hp p (by simp), if_pos rfl,
      ih _ st (fun q hq => hp q (by simp [hq])) hst]
    simp [trail]

theorem topOps_root : ∀ (t : Expr) (x : Str), x ∈ topOps t →
    ∃ o a b, t = .op o a b ∧ getPrecedence o ≤ getPrecedence x := by
  intro t
  induction t with
  | num lit => intro x hx; simp [topOps] at hx
  | un f a _ => intro x hx; simp [topOps] at hx
  | bin g a b _ _ => intro x hx; simp [topOps] at hx
  | op o a b iha ihb =>
    intro x hx
    refine ⟨o, a, b, rfl, ?_⟩
    simp only [topOps, List.mem_append, List.mem_singleton] at hx
    rcases hx with (hx | hx) | hx
    · by_cases hp : parenLeft o a = true
      · rw [if_pos hp] at hx; simp at hx
      · rw [if_neg hp] at hx
        obtain ⟨oa, a1, a2, rfl, hle⟩ := iha x hx
        simp only [parenLeft, Bool.or_eq_true, decide_eq_true_eq, not_or, not_lt] at hp
        exact le_trans hp.1 hle
    · rw [hx]
    · by_cases hp : parenRight o b = true
      · rw [if_pos hp] at hx; simp at hx
      · rw [if_neg hp] at hx
        obtain ⟨ob, b1, b2, rfl, hle⟩ := ihb x hx
        simp only [parenRight, Bool.or_eq_true, decide_eq_true_eq, not_or, not_lt] at hp
        exact le_trans hp.1 hle

theorem topOps_operators : ∀ (t : Expr), t.isArith = true → ∀ x ∈ topOps t,
    isOperator x = true := by
  intro t
  induction t with
  | num lit => intro _ x hx; simp [topOps] at hx
  | un f a _ => intro _ x hx; simp [topOps] at hx
  | bin g a b _ _ => intro _ x hx; simp [topOps] at hx
  | op o a b iha ihb =>
    intro hw x hx
    simp only [Expr.isArith, Bool.and_eq_true] at hw
    simp only [topOps, List.mem_append, List.mem_singleton] at hx
    rcases hx with (hx | hx) | hx
    · by_cases hp : parenLeft o a = true
      · rw [if_pos hp] at hx; simp at hx
      · rw [if_neg hp] at hx; exact iha hw.1.2 x hx
    · rw [hx]; exact hw.1.1
    · by_cases hp : parenRight o b = true
      · rw [if_pos hp] at hx; simp at hx
      · rw [if_neg hp] at hx; exact ihb hw.2 x hx

theorem operatorPops_operator (o x : Str) :
    operatorPops ⟨.Operator, o⟩ ⟨.Operator, x⟩ =
      (decide (getPrecedence x > getPrecedence o) ||
        (getPrecedence x == getPrecedence o && !isRightAssociative o)) := by
  have e1 : (TokenType.Operator != TokenType.LeftParen) = true := rfl
  have e2 : (TokenType.Operator != TokenType.ListStart) = true := rfl
  have e3 : (TokenType.Operator == TokenType.UnaryFunction) = false := rfl
  simp only [operatorPops, e1, e2, e3, Bool.true_and, Bool.false_or]

theorem associativity_uniform : ∀ o ∈ OPERATORS.map Prod.fst, ∀ x ∈ OPERATORS.map Prod.fst,
    getPrecedence o = getPrecedence x → isRightAssociative o = isRightAssociative x := by
  decide

theorem left_pops (o : Str) (a : Expr) (hp : parenLeft o a = false) :
    ∀ x ∈ topOps a, operatorPops ⟨.Operator, o⟩ ⟨.Operator, x⟩ = true := by
  intro x hx
  obtain ⟨oa, a1, a2, rfl, hle⟩ := topOps_root a x hx
  simp only [parenLeft, Bool.or_eq_false_iff, decide_eq_false_iff_not, not_lt,
    Bool.and_eq_false_iff, beq_eq_false_iff_ne] at hp
  rw [operatorPops_operator]
  simp only [Bool.or_eq_true, decide_eq_true_eq, Bool.and_eq_true, beq_iff_eq,
    Bool.not_eq_true']
  by_cases h : getPrecedence x > getPrecedence o
  · exact Or.inl h
  · right
    have he : getPrecedence x = getPrecedence o := by omega
    refine ⟨he, ?_⟩
    rcases hp.2 with h2 | h2
    · exact absurd (by omega) h2
    · exact h2

theorem right_keeps (o : Str) (b : Expr) (ho : isOperator o = true) (hb : b.isArith = true)
    (hp : parenRight o b = false) :
    ∀ x ∈ topOps b, operatorPops ⟨.Operator, x⟩ ⟨.Operator, o⟩ = false := by
  intro x hx
  have hxo := topOps_operators b hb x hx
  obtain ⟨ob, b1, b2, rfl, hle⟩ := topOps_root b x hx
  simp only [parenRight, Bool.or_eq_false_iff, decide_eq_false_iff_not, not_lt,
    Bool.and_eq_false_iff, beq_eq_false_iff_ne, Bool.not_eq_false'] at hp
  rw [operatorPops_operator]
  simp only [Bool.or_eq_false_iff, decide_eq_false_iff_not, not_lt, Bool.and_eq_false_iff,
    beq_eq_false_iff_ne, Bool.not_eq_false', gt_iff_lt]
  refine ⟨by omega, ?_⟩
  by_cases he : getPrecedence o = getPrecedence x
  · right
    have h2 : isRightAssociative o = true := by
      rcases hp.2 with h2 | h2
      · exact absurd (by omega) h2
      · exact h2
    rw [← associativity_uniform o (mem_keys_of_lookup o OPERATORS ho) x
      (mem_keys_of_lookup x OPERATORS hxo) he, h2]
  · exact Or.inl he

theorem isArith_wf : ∀ t : Expr, t.isArith = true → t.wf = true := by
  intro t
  induction t with
  | num lit => intro h; simp only [Expr.isArith] at h; simp [Expr.wf, isNumberLiteral, h]
  | un f a _ => intro h; simp [Expr.isArith] at h
  | bin g a b _ _ => intro h; simp [Expr.isArith] at h
  | op o a b iha ihb =>
    intro h
    simp only [Expr.isArith, Bool.and_eq_true] at h
    simp [Expr.wf, h.1.1, iha h.1.2, ihb h.2]

theorem convertToken_rightParen_pending (r v out : Str) (pend st : List Token)
    (hp : ∀ p ∈ pend, p.type = .Operator) (hs : noFunctionOnTop st = true) :
    convertToken ⟨.RightParen, r⟩ out (pend ++ ⟨.LeftParen, v⟩ :: st) =
      (out ++ trail (pend.map Token.value), st) := by
  have h := popWhile_pending (fun top => top.type != .LeftParen) pend out
    (⟨.LeftParen, v⟩ :: st) (fun p hp1 => by simp [hp p hp1])
    (fun top rest e => by
      rw [List.cons.injEq] at e
      rw [← e.1]; rfl)
  cases st with
  | nil => simp only [convertToken, h, List.tail_cons]
  | cons top st =>
    simp only [noFunctionOnTop, Bool.not_eq_true'] at hs
    simp only [convertToken, h, List.tail_cons, hs]
    simp

theorem convertToken_operator_pending (o out : Str) (pend st : List Token)
    (hp : ∀ p ∈ pend, operatorPops ⟨.Operator, o⟩ p = true)
    (hs : keepsStack o st = true) :
    convertToken ⟨.Operator, o⟩ out (pend ++ st) =
      (out ++ trail (pend.map Token.value), ⟨.Operator, o⟩ :: st) := by
  have h := popWhile_pending (operatorPops ⟨.Operator, o⟩) pend out st hp
    (fun top rest e => by
      subst e
      simpa [keepsStack] using hs)
  simp only [convertToken, h]

theorem keepsStack_leftParen (x v : Str) (st : List Token) :
    keepsStack x (⟨.LeftParen, v⟩ :: st) = true := by
  simp [keepsStack, operatorPops]

theorem convertTokens_child (t : Expr) (p : Bool) (out : Str) (st : List Token)
    (ih : ∀ (out : Str) (st : List Token), noFunctionOnTop st = true →
      (∀ x ∈ topOps t, keepsStack x st = true) →
      ∃ (o1 : Str) (pend : List Token),
        convertTokens (infixTokens t) out st = (o1, pend ++ st) ∧
        (∀ q ∈ pend, q.type = .Operator ∧ q.value ∈ topOps t) ∧
        o1 ++ trail (pend.map Token.value) = separate out ++ joinSpaces (postorder t))
    (hst : noFunctionOnTop st = true)
    (hk : p = false → ∀ x ∈ topOps t, keepsStack x st = true) :
    ∃ (o1 : Str) (pend : List Token),
      convertTokens (wrap p (infixTokens t)) out st = (o1, pend ++ st) ∧
      (∀ q ∈ pend, q.type = .Operator ∧ q.value ∈ topOps t ∧ p = false) ∧
      o1 ++ trail (pend.map Token.value) = separate out ++ joinSpaces (postorder t) := by
  cases p with
  | false =>
    obtain ⟨o1, pend, h1, h2, h3⟩ := ih out st hst (hk rfl)
    exact ⟨o1, pend, h1, fun q hq => ⟨(h2 q hq).1, (h2 q hq).2, rfl⟩, h3⟩
  | true =>
    obtain ⟨o1, pend, h1, h2, h3⟩ := ih out (⟨.LeftParen, str "("⟩ :: st) rfl
      (fun x _ => keepsStack_leftParen x _ st)
    refine ⟨o1 ++ trail (pend.map Token.value), [], ?_, by simp, ?_⟩
    · simp only [wrap, if_true, List.append_assoc, List.singleton_append, convertTokens_cons,
        convertTokens_append, convertToken_leftParen, h1, convertTokens_nil, List.nil_append]
      exact convertToken_rightParen_pending (str ")") (str "(") o1 pend st
        (fun q hq => (h2 q hq).1) hst
    · simp [trail, h3]

theorem convertTokens_infix : ∀ t : Expr, t.isArith = true → ∀ (out : Str) (st : List Token),
    noFunctionOnTop st = true → (∀ x ∈ topOps t, keepsStack x st = true) →
    ∃ (o1 : Str) (pend : List Token),
      convertTokens (infixTokens t) out st = (o1, pend ++ st) ∧
      (∀ q ∈ pend, q.type = .Operator ∧ q.value ∈ topOps t) ∧
      o1 ++ trail (pend.map Token.value) = separate out ++ joinSpaces (postorder t) := by
  intro t
  induction t with
  | num lit =>
    intro _ out st _ _
    exact ⟨separate out ++ lit, [], by
      simp [infixTokens, convertTokens_cons, convertTokens_nil, convertToken_number],
      by simp, by simp [trail, postorder, joinSpaces]⟩
  | un f a _ => intro h; simp [Expr.isArith] at h
  | bin g a b _ _ => intro h; simp [Expr.isArith] at h
  | op o a b iha ihb =>
    intro hw out st hst hsafe
    simp only [Expr.isArith, Bool.and_eq_true] at hw
    obtain ⟨⟨ho, ha⟩, hb⟩ := hw
    have hne := joinSpaces_postorder_ne_nil a (isArith_wf a ha)
    obtain ⟨o1, pa, ha1, ha2, ha3⟩ := convertTokens_child a (parenLeft o a) out st (iha ha) hst
      (fun hp x hx => hsafe x (by simp [topOps, hp, hx]))
    have hop := convertToken_operator_pending o o1 pa st
      (fun q hq => by
        obtain ⟨hq1, hq2, hq3⟩ := ha2 q hq
        have := left_pops o a hq3 q.value hq2
        cases q with
        | mk ty v =>
          simp only at hq1
          subst hq1
          exact this)
      (hsafe o (by simp [topOps]))
    rw [ha3] at hop
    obtain ⟨o2, pb, hb1, hb2, hb3⟩ := convertTokens_child b (parenRight o b)
      (separate out ++ joinSpaces (postorder a)) (⟨.Operator, o⟩ :: st) (ihb hb) rfl
      (fun hp x hx => by
        have := right_keeps o b ho hb hp x hx
        simp [keepsStack, this])
    refine ⟨o2, pb ++ [⟨.Operator, o⟩], ?_, ?_, ?_⟩
    · simp only [infixTokens, convertTokens_append, ha1, convertTokens_cons,
        convertTokens_nil, hop, hb1, List.append_assoc, List.singleton_append]
    · intro q hq
      rcases List.mem_append.mp hq with hq | hq
      · obtain ⟨hq1, hq2, hq3⟩ := hb2 q hq
        exact ⟨hq1, by simp [topOps, hq3, hq2]⟩
      · rw [List.mem_singleton.mp hq]
        exact ⟨rfl, by simp [topOps]⟩
    · rw [List.map_append, trail_append, ← List.append_assoc, hb3, separate_append _ _ hne]
      simp only [postorder, List.map_cons, List.map_nil, trail, str_space]
      rw [joinSpaces_append_singleton _ _ (by simp [postorder_ne_nil]),
        joinSpaces_append _ _ (postorder_ne_nil a) (postorder_ne_nil b)]
      simp

theorem convert_infix (t : Expr) (h : t.isArith = true) :
    convert (infixTokens t) = joinSpaces (postorder t) := by
  obtain ⟨o1, pend, h1, h2, h3⟩ := convertTokens_infix t h [] [] rfl (fun _ _ => rfl)
  unfold convert
  rw [h1, List.append_nil]
  have := popWhile_pending (fun _ => true) pend o1 [] (fun _ _ => rfl)
    (fun top rest e => by simp at e)
  rw [List.append_nil] at this
  simp only [this]
  rw [h3, separate_nil, List.nil_append]

theorem infixTokens_valid : ∀ t : Expr, t.isArith = true →
    ∀ tok ∈ infixTokens t, validLexeme tok = true := by
  intro t
  induction t with
  | num lit =>
    intro h tok htok
    simp only [infixTokens, List.mem_singleton] at htok
    subst htok
    exact h
  | un f a _ => intro h; simp [Expr.isArith] at h
  | bin g a b _ _ => intro h; simp [Expr.isArith] at h
  | op o a b iha ihb =>
    intro hw tok htok
    simp only [Expr.isArith, Bool.and_eq_true] at hw
    have hwrap : ∀ (p : Bool) (ts : List Token), (∀ x ∈ ts, validLexeme x = true) →
        ∀ x ∈ wrap p ts, validLexeme x = true := by
      intro p ts hts x hx
      cases p with
      | false => exact hts x hx
      | true =>
        simp only [wrap, if_true, List.mem_append, List.mem_singleton] at hx
        rcases hx with (rfl | hx) | rfl
        · decide
        · exact hts x hx
        · decide
    simp only [infixTokens, List.mem_append, List.mem_singleton] at htok
    rcases htok with (htok | rfl) | htok
    · exact hwrap _ _ (iha hw.1.2) tok htok
    · exact hw.1.1
    · exact hwrap _ _ (ihb hw.2) tok htok

theorem asciiOf_cases (s : Str) :
    (asciiOf s = s) ∨ (s = str "×" ∧ asciiOf s = str "*") ∨ (s = str "·" ∧ asciiOf s = str "*") ∨
      (s = str "÷" ∧ asciiOf s = str "/") ∨ (s = str "√" ∧ asciiOf s = str "sqrt") ∨
      (s = str "ΣLIST" ∧ asciiOf s = str "sum") ∨
      (s = str "ΠLIST" ∧ asciiOf s = str "product") := by
  by_cases h1 : s = str "×"
  · subst h1; right; left; exact ⟨rfl, by decide⟩
  by_cases h2 : s = str "·"
  · subst h2; right; right; left; exact ⟨rfl, by decide⟩
  by_cases h3 : s = str "÷"
  · subst h3; right; right; right; left; exact ⟨rfl, by decide⟩
  by_cases h4 : s = str "√"
  · subst h4; right; right; right; right; left; exact ⟨rfl, by decide⟩
  by_cases h5 : s = str "ΣLIST"
  · subst h5; right; right; right; right; right; left; exact ⟨rfl, by decide⟩
  by_cases h6 : s = str "ΠLIST"
  · subst h6; right; right; right; right; right; right; exact ⟨rfl, by decide⟩
  left
  unfold asciiOf
  rw [if_neg (by simpa using h1), if_neg (by simpa using h2), if_neg (by simpa using h3),
    if_neg (by simpa using h4), if_neg (by simpa using h5), if_neg (by simpa using h6)]

theorem asciiOf_lookups (s : Str) :
    OPERATORS.lookup (asciiOf s) = OPERATORS.lookup s ∧
      UNARY_FUNCTIONS.lookup (asciiOf s) = UNARY_FUNCTIONS.lookup s ∧
      BINARY_FUNCTIONS.lookup (asciiOf s) = BINARY_FUNCTIONS.lookup s ∧
      LIST_FUNCTIONS.lookup (asciiOf s) = LIST_FUNCTIONS.lookup s ∧
      CONSTANTS.lookup (asciiOf s) = CONSTANTS.lookup s ∧
      (asciiOf s == str "\x7b") = (s == str "\x7b") ∧
      (asciiOf s == str "\x7d") = (s == str "\x7d") := by
  rcases asciiOf_cases s with h | ⟨rfl, h⟩ | ⟨rfl, h⟩ | ⟨rfl, h⟩ | ⟨rfl, h⟩ | ⟨rfl, h⟩ | ⟨rfl, h⟩
  · rw [h]; simp
  all_goals rw [h]; decide

theorem evalToken_asciiOf {F : Type} (A : Arith F) (token : Str) (s : List F) :
    evalToken A (asciiOf token) s = evalToken A token s := by
  rcases asciiOf_cases token with h | h
  · rw [h]
  · obtain ⟨h1, h2, h3, h4, h5, h6, h7⟩ := asciiOf_lookups token
    have hsome : (OPERATORS.lookup token).isSome = true ∨
        (UNARY_FUNCTIONS.lookup token).isSome = true ∨
        (LIST_FUNCTIONS.lookup token).isSome = true := by
      rcases h with ⟨rfl, _⟩ | ⟨rfl, _⟩ | ⟨rfl, _⟩ | ⟨rfl, _⟩ | ⟨rfl, _⟩ | ⟨rfl, _⟩ <;> decide
    unfold evalToken
    rw [h1, h2, h3, h4, h6, h7]
    by_cases c1 : (token == str "\x7b") = true
    · rw [if_pos c1, if_pos c1]
    rw [if_neg c1, if_neg c1]
    by_cases c2 : (token == str "\x7d") = true
    · rw [if_pos c2, if_pos c2]
    rw [if_neg c2, if_neg c2]
    cases hO : OPERATORS.lookup token with
    | some info => rfl
    | none =>
      simp only
      cases hU : UNARY_FUNCTIONS.lookup token with
      | some f => rfl
      | none =>
        simp only
        cases hB : BINARY_FUNCTIONS.lookup token with
        | some f => rfl
        | none =>
          simp only
          cases hL : LIST_FUNCTIONS.lookup token with
          | some f => rfl
          | none =>
            rw [hO, hU, hL] at hsome
            simp at hsome

theorem evalTokens_asciiOf {F : Type} (A : Arith F) (tokens : List Str) :
    ∀ s : List F, evalTokens A (tokens.map asciiOf) s = evalTokens A tokens s := by
  induction tokens with
  | nil => intro s; rfl
  | cons t l ih =>
    intro s
    rw [List.map_cons, evalTokens_cons, evalTokens_cons, evalToken_asciiOf]
    cases evalToken A t s with
    | ok s1 => exact ih s1
    | error e => rfl

theorem asciiOf_solid (w : Str) (h : w ≠ [] ∧ Solid w) : asciiOf w ≠ [] ∧ Solid (asciiOf w) := by
  rcases asciiOf_cases w with e | ⟨_, e⟩ | ⟨_, e⟩ | ⟨_, e⟩ | ⟨_, e⟩ | ⟨_, e⟩ | ⟨_, e⟩
  · rw [e]; exact h
  all_goals rw [e]; exact ⟨by decide, solid_plain _ (by decide)⟩

theorem calculateRPN_asciiOf {F : Type} (A : Arith F) (items : List Str)
    (h : ∀ w ∈ items, w ≠ [] ∧ Solid w) :
    calculateRPN A (joinSpaces (items.map asciiOf)) = calculateRPN A (joinSpaces items) := by
  unfold calculateRPN
  rw [splitTokens_joinSpaces_solid items h, splitTokens_joinSpaces_solid (items.map asciiOf)
    (by
      intro w hw
      obtain ⟨x, hx, rfl⟩ := List.mem_map.mp hw
      exact asciiOf_solid x (h x hx))]
  simp only [evalTokens_asciiOf]

theorem plainByte_number {c : Nat} (h : numberByte c = true) :
    (decide (c < 128) && !isspace c) = true := by
  simp only [numberByte, isdigit, Bool.or_eq_true, Bool.and_eq_true, decide_eq_true_eq,
    beq_iff_eq] at h
  simp only [Bool.and_eq_true, decide_eq_true_eq, Bool.not_eq_true', isspace,
    Bool.or_eq_false_iff, Bool.and_eq_false_iff, beq_eq_false_iff_ne, decide_eq_false_iff_not]
  omega

theorem plainByte_name {c : Nat} (h : nameByte c = true) :
    (decide (c < 128) && !isspace c) = true := by
  simp only [nameByte, isalpha, isdigit, Bool.or_eq_true, Bool.and_eq_true,
    decide_eq_true_eq] at h
  simp only [Bool.and_eq_true, decide_eq_true_eq, Bool.not_eq_true', isspace,
    Bool.or_eq_false_iff, Bool.and_eq_false_iff, beq_eq_false_iff_ne, decide_eq_false_iff_not]
  omega

theorem isItem_takeWhile (p : Nat → Bool)
    (hp : ∀ c, p c = true → (decide (c < 128) && !isspace c) = true) (s : Str)
    (hne : 0 < (s.takeWhile p).length) : isItem (s.takeWhile p) = true := by
  have hemp : (s.takeWhile p).isEmpty = false := by
    cases h : s.takeWhile p with
    | nil => rw [h] at hne; simp at hne
    | cons _ _ => rfl
  have hpl : isPlain (s.takeWhile p) = true := by
    unfold isPlain
    rw [List.all_eq_true]
    intro c hc
    exact hp c (List.mem_takeWhile_imp hc)
  simp [isItem, hemp, hpl]

theorem glyph_items :
    (∀ k ∈ OPERATORS.map Prod.fst, isItem k = true) ∧
    (∀ k ∈ UNARY_FUNCTIONS.map Prod.fst, isItem k = true) ∧
    (∀ k ∈ CONSTANTS.map Prod.fst, isItem k = true) := by
  decide

theorem ItemTokens_append {toks : List Token} {t : Token} (h : ItemTokens toks)
    (ht : isItem t.value = true) : ItemTokens (toks ++ [t]) := by
  intro x hx
  simp only [List.mem_append, List.mem_singleton] at hx
  rcases hx with hx | hx
  · exact h x hx
  · subst hx; exact ht

theorem tokenizeStep_items (s : Str) (toks : List Token) (h : ItemTokens toks) :
    ItemTokens (tokenizeStep s 0 toks).2 := by
  have hch := utf8ExtractChar_take s
  unfold tokenizeStep
  simp only [scanNumber_eq s s.length _ _ (Nat.le_add_left _ _),
    scanName_eq s s.length _ _ (Nat.le_add_left _ _), Nat.zero_add, List.drop_zero, List.nil_append]
  generalize hnn : negativeNumber s 0 (utf8ExtractChar s 0) toks = nn
  revert hch hnn
  generalize utf8ExtractChar s 0 = ch
  intro hch hnn
  have P : ∀ {n : Nat} {ty : TokenType} {v : Str}, isItem v = true →
      ItemTokens (n, toks ++ [(⟨ty, v⟩ : Token)]).2 := fun hv => ItemTokens_append h hv
  have Q : ∀ {n : Nat}, ItemTokens (n, toks).2 := h
  refine ite_ind (P := fun r : Nat × List Token => ItemTokens r.2) (fun _ => Q) (fun _ => ?_)
  refine ite_ind (P := fun r : Nat × List Token => ItemTokens r.2)
    (fun hc => P (isItem_takeWhile _ (fun _ => plainByte_number) _
      (isNumber_numberByte hch hc))) (fun _ => ?_)
  refine ite_ind (P := fun r : Nat × List Token => ItemTokens r.2) (fun _ => P (by decide)) (fun _ => ?_)
  refine ite_ind (P := fun r : Nat × List Token => ItemTokens r.2) (fun _ => P (by decide)) (fun _ => ?_)
  refine ite_ind (P := fun r : Nat × List Token => ItemTokens r.2) (fun _ => P (by decide)) (fun _ => ?_)
  refine ite_ind (P := fun r : Nat × List Token => ItemTokens r.2) (fun _ => P (by decide)) (fun _ => ?_)
  refine ite_ind (P := fun r : Nat × List Token => ItemTokens r.2) (fun _ => P (by decide)) (fun _ => ?_)
  cases nn with
  | some r =>
    show ItemTokens r.2
    have hc45 : ch = [45] := by
      by_contra hne
      rw [negativeNumber_none s ch toks hne] at hnn
      exact absurd hnn (by simp)
    subst hc45
    obtain ⟨rest, rfl⟩ : ∃ rest, s = 45 :: rest := by
      cases s with
      | nil => simp at hch
      | cons c rest => simp at hch; exact ⟨rest, by rw [hch]⟩
    rw [negativeNumber_minus] at hnn
    by_cases hc : (isUnaryMinus toks && startsNumber rest) = true
    · rw [if_pos hc] at hnn
      rw [← Option.some.inj hnn]
      apply ItemTokens_append h
      have hpl : isPlain (45 :: rest.takeWhile numberByte) = true := by
        unfold isPlain
        rw [List.all_cons, Bool.and_eq_true, List.all_eq_true]
        exact ⟨by decide, fun c hc => plainByte_number (List.mem_takeWhile_imp hc)⟩
      simp [isItem, hpl]
    · rw [if_neg hc] at hnn
      exact absurd hnn (by simp)
  | none =>
    show ItemTokens (Prod.snd (if _ then _ else _))
    refine ite_ind (P := fun r : Nat × List Token => ItemTokens r.2) (fun hc => ?_) (fun _ => ?_)
    · apply ItemTokens_append h
      simp only [Bool.and_eq_true, beq_iff_eq] at hc
      obtain ⟨h1, h2⟩ := hc
      match ch, h1 with
      | [c], _ =>
        simp only [List.getD_cons_zero, ASCII_OPERATOR_CHARS_eq, List.contains_cons,
          List.contains_nil, Bool.or_false, Bool.or_eq_true, beq_iff_eq] at h2
        rcases h2 with rfl | rfl | rfl | rfl | rfl | rfl <;> decide
    refine ite_ind (P := fun r : Nat × List Token => ItemTokens r.2) (fun _ => ?_) (fun _ => ?_)
    · refine ite_ind (P := fun r : Nat × List Token => ItemTokens r.2)
        (fun hc => P (glyph_items.1 _ (mem_keys_of_lookup _ _ hc))) (fun _ => ?_)
      refine ite_ind (P := fun r : Nat × List Token => ItemTokens r.2)
        (fun hc => P (glyph_items.2.1 _ (mem_keys_of_lookup _ _ hc))) (fun _ => ?_)
      exact ite_ind (P := fun r : Nat × List Token => ItemTokens r.2)
        (fun hc => P (glyph_items.2.2 _ (mem_keys_of_lookup _ _ hc))) (fun _ => Q)
    refine ite_ind (P := fun r : Nat × List Token => ItemTokens r.2) (fun hc => ?_) (fun _ => Q)
    have hw := isItem_takeWhile nameByte (fun _ => plainByte_name) s
      (isAsciiAlpha_nameByte hch hc)
    refine ite_ind (P := fun r : Nat × List Token => ItemTokens r.2) (fun _ => P hw) (fun _ => ?_)
    refine ite_ind (P := fun r : Nat × List Token => ItemTokens r.2) (fun _ => P hw) (fun _ => ?_)
    refine ite_ind (P := fun r : Nat × List Token => ItemTokens r.2) (fun _ => P hw) (fun _ => ?_)
    exact ite_ind (P := fun r : Nat × List Token => ItemTokens r.2) (fun _ => P hw) (fun _ => Q)

theorem lex_items : ∀ (n : Nat) (s : Str) (toks ts : List Token),
    s.length = n → ItemTokens toks → lex s toks = some ts → ItemTokens ts := by
  intro n
  induction n using Nat.strong_induction_on with
  | _ n ih =>
    intro s toks ts hn hw h
    by_cases hs : s = []
    · subst hs
      rw [lex_nil] at h
      rw [← Option.some.inj h]; exact hw
    · obtain ⟨hle, hcase⟩ := tokenizeStep_spec s toks
      rcases hcase with ⟨h1, h2⟩ | ⟨h1, h2⟩
      · rw [lex_stuck s toks hs (Prod.ext h1 h2)] at h
        exact absurd h (by simp)
      · rw [lex_step s toks hs] at h
        have hlen : (s.drop (tokenizeStep s 0 toks).1).length = n - (tokenizeStep s 0 toks).1 := by
          rw [List.length_drop, hn]
        exact ih _ (by omega) _ _ _ hlen (tokenizeStep_items s toks hw) h

theorem tokenize_items (e : Str) (ts : List Token) (h : tokenize e = some ts) :
    ItemTokens ts :=
  lex_items _ e [] ts rfl (by intro t ht; simp at ht) h

theorem isItem_ne_nil {w : Str} (h : isItem w = true) : w ≠ [] := by
  intro h0; subst h0; simp [isItem] at h

theorem asciiOf_isItem {w : Str} (h : isItem w = true) : isItem (asciiOf w) = true := by
  rcases asciiOf_cases w with e | ⟨_, e⟩ | ⟨_, e⟩ | ⟨_, e⟩ | ⟨_, e⟩ | ⟨_, e⟩ | ⟨_, e⟩
  · rw [e]; exact h
  all_goals rw [e]; decide

theorem joinSpaces_items_ne_nil (items : List Str) (h : items ≠ [])
    (hw : ∀ w ∈ items, isItem w = true) : joinSpaces items ≠ [] := by
  match items, h with
  | [w], _ => exact isItem_ne_nil (hw w (by simp))
  | w :: x :: l, _ => rw [joinSpaces_cons_cons]; simp

theorem items_map_asciiOf {items : List Str} (hw : ∀ w ∈ items, isItem w = true) :
    ∀ w ∈ items.map asciiOf, isItem w = true := by
  intro w hm
  obtain ⟨x, hx, rfl⟩ := List.mem_map.mp hm
  exact asciiOf_isItem (hw x hx)

theorem items_append {items : List Str} {v : Str} (hw : ∀ w ∈ items, isItem w = true)
    (hv : isItem v = true) : ∀ w ∈ items ++ [v], isItem w = true := by
  intro w hm
  simp only [List.mem_append, List.mem_singleton] at hm
  rcases hm with hm | hm
  · exact hw w hm
  · subst hm; exact hv

theorem AliasPair_guarded (out out1 v : Str) (hv : isItem v = true) (h : AliasPair out out1) :
    AliasPair (separate out ++ v) (separate out1 ++ asciiOf v) := by
  obtain ⟨items, hw, h⟩ := h
  by_cases hne : items = []
  · subst hne
    rcases h with ⟨h, h1⟩ | ⟨h, _⟩
    · subst h; subst h1
      exact ⟨[v], by simpa using hv, Or.inl (by simp [joinSpaces, separate])⟩
    · exact absurd rfl h
  · refine ⟨items ++ [v], items_append hw hv, ?_⟩
    have hj := joinSpaces_items_ne_nil items hne hw
    have hj1 := joinSpaces_items_ne_nil (items.map asciiOf) (by simpa using hne)
      (items_map_asciiOf hw)
    have hne1 : items.map asciiOf ≠ [] := by simpa using hne
    rcases h with ⟨h, h1⟩ | ⟨_, h, h1⟩
    · left
      subst h; subst h1
      rw [separate_ne_nil _ hj, separate_ne_nil _ hj1, joinSpaces_append_singleton _ _ hne,
        List.map_append, List.map_singleton, joinSpaces_append_singleton _ _ hne1]
      simp
    · right
      subst h; subst h1
      refine ⟨by simp, ?_⟩
      rw [separate_ne_nil _ (by simp [str_space]), separate_ne_nil _ (by simp [str_space]),
        joinSpaces_append_singleton _ _ hne, List.map_append, List.map_singleton,
        joinSpaces_append_singleton _ _ hne1]
      simp

theorem AliasPair_plain (out out1 v : Str) (hv : isItem v = true) (h : AliasPair out out1) :
    AliasPair (out ++ str " " ++ v) (out1 ++ str " " ++ asciiOf v) := by
  obtain ⟨items, hw, h⟩ := h
  by_cases hne : items = []
  · subst hne
    rcases h with ⟨h, h1⟩ | ⟨h, _⟩
    · subst h; subst h1
      exact ⟨[v], by simpa using hv, Or.inr ⟨by simp, by simp [joinSpaces]⟩⟩
    · exact absurd rfl h
  · refine ⟨items ++ [v], items_append hw hv, ?_⟩
    have hne1 : items.map asciiOf ≠ [] := by simpa using hne
    rcases h with ⟨h, h1⟩ | ⟨_, h, h1⟩
    · left
      subst h; subst h1
      rw [joinSpaces_append_singleton _ _ hne, List.map_append, List.map_singleton,
        joinSpaces_append_singleton _ _ hne1, str_space]
      simp
    · right
      subst h; subst h1
      refine ⟨by simp, ?_⟩
      rw [joinSpaces_append_singleton _ _ hne, List.map_append, List.map_singleton,
        joinSpaces_append_singleton _ _ hne1, str_space]
      simp

theorem splitTokens_leading (items : List Str) (h : ∀ w ∈ items, isItem w = true) :
    splitTokens (str " " ++ joinSpaces items) = some items := by
  rw [splitTokens_eq_split, str_space, List.singleton_append, split_space 32 _ _ _ (by decide)]
  simp only [List.isEmpty_nil, Bool.not_true, Bool.false_eq_true, if_false]
  rw [split_joinSpaces items h]
  simp

theorem calculateRPN_aliasPair {F : Type} (A : Arith F) (out out1 : Str)
    (h : AliasPair out out1) : calculateRPN A out1 = calculateRPN A out := by
  obtain ⟨items, hw, h⟩ := h
  have hw1 := items_map_asciiOf hw
  unfold calculateRPN
  rcases h with ⟨h, h1⟩ | ⟨_, h, h1⟩
  · rw [h, h1, splitTokens_joinSpaces _ hw, splitTokens_joinSpaces _ hw1]
    simp only [evalTokens_asciiOf]
  · rw [h, h1, splitTokens_leading _ hw, splitTokens_leading _ hw1]
    simp only [evalTokens_asciiOf]

theorem getPrecedence_asciiOf (s : Str) : getPrecedence (asciiOf s) = getPrecedence s := by
  unfold getPrecedence; rw [(asciiOf_lookups s).1]

theorem isRightAssociative_asciiOf (s : Str) :
    isRightAssociative (asciiOf s) = isRightAssociative s := by
  unfold isRightAssociative; rw [(asciiOf_lookups s).1]

theorem operatorPops_asciiToken (token top : Token) :
    operatorPops (asciiToken token) (asciiToken top) = operatorPops token top := by
  simp only [operatorPops, asciiToken, getPrecedence_asciiOf, isRightAssociative_asciiOf]

theorem ItemTokens_tail {st : List Token} (h : ItemTokens st) : ItemTokens st.tail :=
  fun t ht => h t (List.mem_of_mem_tail ht)

theorem ItemTokens_cons {st : List Token} {t : Token} (ht : isItem t.value = true)
    (h : ItemTokens st) : ItemTokens (t :: st) := by
  intro x hx
  rcases List.mem_cons.mp hx with hx | hx
  · subst hx; exact ht
  · exact h x hx

theorem popWhile_aliasPair (cond cond1 : Token → Bool)
    (hc : ∀ t, cond1 (asciiToken t) = cond t) :
    ∀ (st : List Token) (out out1 : Str), ItemTokens st → AliasPair out out1 →
      AliasPair (popWhile cond out st).1 (popWhile cond1 out1 (st.map asciiToken)).1 ∧
        (popWhile cond1 out1 (st.map asciiToken)).2 = (popWhile cond out st).2.map asciiToken ∧
        ItemTokens (popWhile cond out st).2 := by
  intro st
  induction st with
  | nil => intro out out1 hst h; exact ⟨h, rfl, hst⟩
  | cons top st ih =>
    intro out out1 hst h
    rw [List.map_cons, popWhile_cons, popWhile_cons, hc top]
    by_cases hct : cond top = true
    · rw [if_pos hct, if_pos hct]
      exact ih _ _ (fun t ht => hst t (by simp [ht]))
        (AliasPair_plain out out1 _ (hst top (by simp)) h)
    · rw [if_neg hct, if_neg hct]
      exact ⟨h, rfl, hst⟩

theorem convertToken_aliasPair (token : Token) (out out1 : Str) (st : List Token)
    (ht : isItem token.value = true) (hst : ItemTokens st) (h : AliasPair out out1) :
    AliasPair (convertToken token out st).1
        (convertToken (asciiToken token) out1 (st.map asciiToken)).1 ∧
      (convertToken (asciiToken token) out1 (st.map asciiToken)).2 =
        (convertToken token out st).2.map asciiToken ∧
      ItemTokens (convertToken token out st).2 := by
  obtain ⟨ty, v⟩ := token
  have hpop : ∀ cond cond1 : Token → Bool, (∀ t, cond1 (asciiToken t) = cond t) →
      ∃ (o o1 : Str) (s2 : List Token), popWhile cond out st = (o, s2) ∧
        popWhile cond1 out1 (st.map asciiToken) = (o1, s2.map asciiToken) ∧
        AliasPair o o1 ∧ ItemTokens s2 := by
    intro cond cond1 hc
    obtain ⟨p1, p2, p3⟩ := popWhile_aliasPair cond cond1 hc st out out1 hst h
    exact ⟨_, _, _, rfl, Prod.ext rfl p2, p1, p3⟩
  cases ty
  · exact ⟨AliasPair_guarded out out1 v ht h, rfl, hst⟩
  · obtain ⟨o, o1, s2, e, e1, p1, p3⟩ := hpop (operatorPops ⟨.Operator, v⟩)
      (operatorPops ⟨.Operator, asciiOf v⟩)
      (fun t => operatorPops_asciiToken ⟨.Operator, v⟩ t)
    simp only [convertToken, asciiToken, e, e1]
    exact ⟨p1, rfl, ItemTokens_cons ht p3⟩
  · exact ⟨h, rfl, ItemTokens_cons ht hst⟩
  · exact ⟨h, rfl, ItemTokens_cons ht hst⟩
  · exact ⟨h, rfl, ItemTokens_cons ht hst⟩
  · exact ⟨AliasPair_guarded out out1 v ht h, rfl, hst⟩
  · exact ⟨h, rfl, ItemTokens_cons ht hst⟩
  · obtain ⟨o, o1, s2, e, e1, p1, p3⟩ := hpop (fun top => top.type != .LeftParen)
      (fun top => top.type != .LeftParen) (fun _ => rfl)
    simp only [convertToken, asciiToken, e, e1]
    cases s2 with
    | nil => exact ⟨p1, rfl, by intro t ht; simp at ht⟩
    | cons x s3 =>
      cases s3 with
      | nil => exact ⟨p1, rfl, by intro t ht; simp at ht⟩
      | cons top rest =>
        simp only [List.map_cons, List.tail_cons]
        have hty : (asciiToken top).type = top.type := rfl
        have hval : (asciiToken top).value = asciiOf top.value := rfl
        by_cases hc : (top.type == TokenType.UnaryFunction ||
            top.type == TokenType.BinaryFunction) = true
        · simp only [hty, hval, if_pos hc]
          exact ⟨AliasPair_plain _ _ _ (p3 top (by simp)) p1, trivial,
            fun t ht => p3 t (by simp [ht])⟩
        · simp only [hty, if_neg hc]
          exact ⟨p1, rfl, fun t ht => p3 t (by simp [ht])⟩
  · obtain ⟨o, o1, s2, e, e1, p1, p3⟩ := hpop
      (fun top => top.type != .LeftParen && top.type != .ListStart)
      (fun top => top.type != .LeftParen && top.type != .ListStart) (fun _ => rfl)
    simp only [convertToken, asciiToken, e, e1]
    first
      | exact ⟨p1, rfl, p3⟩
      | exact ⟨p1, trivial, p3⟩
  · exact ⟨AliasPair_guarded out out1 (str "\x7b") (by decide) h, rfl, ItemTokens_cons ht hst⟩
  · obtain ⟨o, o1, s2, e, e1, p1, p3⟩ := hpop (fun top => top.type != .ListStart)
      (fun top => top.type != .ListStart) (fun _ => rfl)
    simp only [convertToken, asciiToken, e, e1]
    refine ⟨?_, by rw [List.map_tail], ItemTokens_tail p3⟩
    have := AliasPair_plain _ _ (str "\x7d") (by decide) p1
    simpa [str_space, str_listEnd] using this

theorem convertTokens_aliasPair : ∀ (tokens : List Token) (out out1 : Str) (st : List Token),
    ItemTokens tokens → ItemTokens st → AliasPair out out1 →
    AliasPair (convertTokens tokens out st).1
        (convertTokens (tokens.map asciiToken) out1 (st.map asciiToken)).1 ∧
      (convertTokens (tokens.map asciiToken) out1 (st.map asciiToken)).2 =
        (convertTokens tokens out st).2.map asciiToken ∧
      ItemTokens (convertTokens tokens out st).2 := by
  intro tokens
  induction tokens with
  | nil => intro out out1 st _ hst h; exact ⟨h, rfl, hst⟩
  | cons t l ih =>
    intro out out1 st ht hst h
    rw [List.map_cons, convertTokens_cons, convertTokens_cons]
    obtain ⟨p1, p2, p3⟩ := convertToken_aliasPair t out out1 st (ht t (by simp)) hst h
    rw [p2]
    exact ih _ _ _ (fun x hx => ht x (by simp [hx])) p3 p1

theorem convert_aliasPair (tokens : List Token) (ht : ItemTokens tokens) :
    AliasPair (convert tokens) (convert (tokens.map asciiToken)) := by
  obtain ⟨p1, p2, p3⟩ := convertTokens_aliasPair tokens [] [] [] ht
    (by intro t ht; simp at ht) ⟨[], by simp, Or.inl ⟨rfl, rfl⟩⟩
  unfold convert
  simp only
  have h0 : ([] : List Token).map asciiToken = [] := rfl
  rw [h0] at p1 p2
  rw [p2]
  exact (popWhile_aliasPair (fun _ => true) (fun _ => true) (fun _ => rfl) _ _ _ p3 p1).1

theorem validLexeme_ascii (t : Token) (h : validLexeme t = true) :
    validLexeme (asciiToken t) = true := by
  obtain ⟨ty, v⟩ := t
  show validLexeme ⟨ty, asciiOf v⟩ = true
  rcases asciiOf_cases v with e | ⟨rfl, e⟩ | ⟨rfl, e⟩ | ⟨rfl, e⟩ | ⟨rfl, e⟩ | ⟨rfl, e⟩ | ⟨rfl, e⟩
  · rw [e]; exact h
  all_goals
    rw [e]
    cases ty <;> first | decide | exact absurd h (by decide)

theorem infix_aliases (e e1 : Str) (ts : List Token) (h : tokenize e = some ts)
    (h1 : tokenize e1 = some (ts.map asciiToken)) :
    ∃ r r1, infixToRPN e = some r ∧ infixToRPN e1 = some r1 ∧
      ∀ (F : Type) (A : Arith F), calculateRPN A r1 = calculateRPN A r := by
  refine ⟨convert ts, convert (ts.map asciiToken), ?_, ?_, ?_⟩
  · unfold infixToRPN; rw [h]; rfl
  · unfold infixToRPN; rw [h1]; rfl
  · intro F A
    exact calculateRPN_aliasPair A _ _ (convert_aliasPair ts (tokenize_items e ts h))

theorem ratArith_example_ascii :
    calculateRPN ratArith (str "3 4 * 2 /") = .ok (some 6) := by
  unfold calculateRPN
  rw [show splitTokens (str "3 4 * 2 /") = some [str "3", str "4", str "*", str "2", str "/"]
    from by decide]
  simp only [evalTokens_cons, evalTokens,
    ratArith_literal (str "3") 3 _ (by decide) (by decide),
    ratArith_literal (str "4") 4 _ (by decide) (by decide),
    ratArith_literal (str "2") 2 _ (by decide) (by decide),
    evalToken_operator ratArith (str "*") _ _ _ _
      (by decide : OPERATORS.lookup (str "*") = some ⟨2, false, .mul⟩),
    evalToken_operator ratArith (str "/") _ _ _ _
      (by decide : OPERATORS.lookup (str "/") = some ⟨2, false, .div⟩)]
  norm_num [applyBin, ratArith, liftRat]

theorem ratArith_example_glyph :
    calculateRPN ratArith (str "3 4 × 2 ÷") = .ok (some 6) := by
  unfold calculateRPN
  rw [show splitTokens (str "3 4 × 2 ÷") = some [str "3", str "4", str "×", str "2", str "÷"]
    from by decide]
  simp only [evalTokens_cons, evalTokens,
    ratArith_literal (str "3") 3 _ (by decide) (by decide),
    ratArith_literal (str "4") 4 _ (by decide) (by decide),
    ratArith_literal (str "2") 2 _ (by decide) (by decide),
    evalToken_operator ratArith (str "×") _ _ _ _
      (by decide : OPERATORS.lookup (str "×") = some ⟨2, false, .mul⟩),
    evalToken_operator ratArith (str "÷") _ _ _ _
      (by decide : OPERATORS.lookup (str "÷") = some ⟨2, false, .div⟩)]
  norm_num [applyBin, ratArith, liftRat]

/-- C22: `count` reducer. For every list `xs` of `k ≥ 0` number literals that `std::stod`
converts to numbers (values that are not NaN), `calculateRPN "{ x1 ... xk } count"` is
`k`; `count` of a sequence is its length, 0 for the empty sequence. -/
theorem C22_count {F : Type} (A : Arith F) (xs : List Str) (vs : List F)
    (hnan : A.isnan A.nan = true) (hx : ∀ x ∈ xs, isNumberLiteral x = true)
    (hv : xs.map A.stod = vs.map some) (hn : ∀ v ∈ vs, A.isnan v = false) :
    calculateRPN A (joinSpaces ([str "\x7b"] ++ xs ++ [str "\x7d", str "count"])) =
        .ok (A.ofNat xs.length) ∧
      (∀ v : List F, applyList A .count v = A.ofNat v.length) ∧
      applyList A .count [] = A.ofNat 0 := by
  refine ⟨?_, fun _ => rfl, rfl⟩
  rw [calculateRPN_listLiteral A xs vs (str "count") .count hnan hx hv hn (by decide)
    (by decide)]
  have hl : vs.length = xs.length := by
    have := congrArg List.length hv
    simpa using this.symm
  show Except.ok (A.ofNat vs.length) = _
  rw [hl]

theorem C22_count_witness :
    (ratArith.isnan ratArith.nan = true ∧
      (∀ x ∈ [str "1", str "2", str "3", str "4", str "5"], isNumberLiteral x = true) ∧
      [str "1", str "2", str "3", str "4", str "5"].map ratArith.stod =
        [some (1 : ℚ), some 2, some 3, some 4, some 5].map some ∧
      (∀ v ∈ [some (1 : ℚ), some 2, some 3, some 4, some 5], ratArith.isnan v = false)) ∧
      joinSpaces ([str "\x7b"] ++ [str "1", str "2", str "3", str "4", str "5"] ++
        [str "\x7d", str "count"]) = str "\x7b 1 2 3 4 5 \x7d count" ∧
      calculateRPN ratArith (str "\x7b 1 2 3 4 5 \x7d count") = .ok (some 5) ∧
      calculateRPN ratArith (str "\x7b \x7d count") = .ok (some 0) := by
  have h1 : ∀ x ∈ [str "1", str "2", str "3", str "4", str "5"],
      isNumberLiteral x = true := by decide
  have h2 : [str "1", str "2", str "3", str "4", str "5"].map ratArith.stod =
      [some (1 : ℚ), some 2, some 3, some 4, some 5].map some := by
    simp [ratArith, str, utf8Encode, decimalValue, digitsValue, isdigit]
  have h3 : ∀ v ∈ [some (1 : ℚ), some 2, some 3, some 4, some 5],
      ratArith.isnan v = false := by
    intro v hv
    simp only [List.mem_cons, List.not_mem_nil, or_false] at hv
    rcases hv with rfl | rfl | rfl | rfl | rfl <;> rfl
  have hj : joinSpaces ([str "\x7b"] ++ [str "1", str "2", str "3", str "4", str "5"] ++
      [str "\x7d", str "count"]) = str "\x7b 1 2 3 4 5 \x7d count" := by decide
  have h := (C22_count ratArith _ _ rfl h1 h2 h3).1
  have h0 := (C22_count ratArith [] [] rfl (by simp) rfl (by simp)).1
  refine ⟨⟨rfl, h1, h2, h3⟩, hj, ?_, ?_⟩
  · rw [hj] at h
    rw [h]; simp [ratArith]
  · have hj0 : joinSpaces ([str "\x7b"] ++ ([] : List Str) ++ [str "\x7d", str "count"]) =
        str "\x7b \x7d count" := by decide
    rw [hj0] at h0
    rw [h0]; simp [ratArith]

/-- C23 (counterexample): the list-function aliases are not recognised in infix text. The
tokenizer emits no token for `ΣLIST`, so `infixToRPN "{ 1, 2, 3 } ΣLIST"` is `"{ 1 2 3 }"`,
which evaluates to 3, while the ASCII form `"{ 1, 2, 3 } sum"` gives `"{ 1 2 3 } sum"`,
which evaluates to 6. An alias written directly before a digit is a token of its own,
while its ASCII counterpart merges with the digit: `"√4"` gives `"4 √"`, which evaluates
to a value, and `"sqrt4"` gives the empty string, on which `calculateRPN` reads the top of
an empty stack. -/
theorem C23_infix_alias_differs :
    tokenize (str "\x7b 1, 2, 3 \x7d ΣLIST") =
        some [⟨.ListStart, str "\x7b"⟩, ⟨.Number, str "1"⟩, ⟨.Comma, str ","⟩,
          ⟨.Number, str "2"⟩, ⟨.Comma, str ","⟩, ⟨.Number, str "3"⟩,
          ⟨.ListEnd, str "\x7d"⟩] ∧
      infixToRPN (str "\x7b 1, 2, 3 \x7d ΣLIST") = some (str "\x7b 1 2 3 \x7d") ∧
      calculateRPN ratArith (str "\x7b 1 2 3 \x7d") = .ok (some 3) ∧
      infixToRPN (str "\x7b 1, 2, 3 \x7d sum") = some (str "\x7b 1 2 3 \x7d sum") ∧
      calculateRPN ratArith (str "\x7b 1 2 3 \x7d sum") = .ok (some 6) ∧
      infixToRPN (str "√4") = some (str "4 √") ∧
      calculateRPN ratArith (str "4 √") = .ok (ratArith.sqrt (some 4)) ∧
      infixToRPN (str "sqrt4") = some [] ∧
      calculateRPN ratArith [] = .error .emptyStack := by
  refine ⟨by decide, by decide, ?_, by decide, ?_, by decide, ?_, by decide, ?_⟩
  · unfold calculateRPN
    rw [show splitTokens (str "\x7b 1 2 3 \x7d") =
      some [str "\x7b", str "1", str "2", str "3", str "\x7d"] from by decide]
    simp only [evalTokens_cons, evalTokens, evalToken_listStart, evalToken_listEnd,
      ratArith_literal (str "1") 1 _ (by decide) (by decide),
      ratArith_literal (str "2") 2 _ (by decide) (by decide),
      ratArith_literal (str "3") 3 _ (by decide) (by decide)]
  · unfold calculateRPN
    rw [show splitTokens (str "\x7b 1 2 3 \x7d sum") =
      some [str "\x7b", str "1", str "2", str "3", str "\x7d", str "sum"] from by decide]
    simp only [evalTokens_cons, evalTokens, evalToken_listStart, evalToken_listEnd,
      ratArith_literal (str "1") 1 _ (by decide) (by decide),
      ratArith_literal (str "2") 2 _ (by decide) (by decide),
      ratArith_literal (str "3") 3 _ (by decide) (by decide),
      evalToken_listFunction ratArith (str "sum") .sum _ (by decide)]
    norm_num [collectValues, isListMarker, LIST_MARKER, applyList, total, ratArith, liftRat]
  · unfold calculateRPN
    rw [show splitTokens (str "4 √") = some [str "4", str "√"] from by decide]
    simp only [evalTokens_cons, evalTokens,
      ratArith_literal (str "4") 4 _ (by decide) (by decide),
      evalToken_unary ratArith (str "√") .sqrt _ _ (by decide)]
    rfl
  · unfold calculateRPN
    rw [show splitTokens [] = some [] from by decide]
    rfl

/-- C23 (amended): glyph aliases. `×` and `·` have the table entry of `*`, `÷` that of
`/`, `√` that of `sqrt`, `ΣLIST` that of `sum` and `ΠLIST` that of `product`; hence for
every RPN token sequence, replacing alias tokens by their ASCII counterparts leaves the
operand stack and the result of `calculateRPN` unchanged; and for every pair of infix
texts that the tokenizer splits into the same tokens up to alias names, `infixToRPN`
returns on both and the results evaluate to the same value (`3 × 4 ÷ 2` and `3 * 4 / 2`
both give 6). Texts made of valid lexemes separated by single spaces are such pairs. -/
theorem C23_aliases :
    (OPERATORS.lookup (str "×") = OPERATORS.lookup (str "*") ∧
      OPERATORS.lookup (str "·") = OPERATORS.lookup (str "*") ∧
      OPERATORS.lookup (str "÷") = OPERATORS.lookup (str "/") ∧
      UNARY_FUNCTIONS.lookup (str "√") = UNARY_FUNCTIONS.lookup (str "sqrt") ∧
      LIST_FUNCTIONS.lookup (str "ΣLIST") = LIST_FUNCTIONS.lookup (str "sum") ∧
      LIST_FUNCTIONS.lookup (str "ΠLIST") = LIST_FUNCTIONS.lookup (str "product")) ∧
      (∀ (F : Type) (A : Arith F) (tokens : List Str) (s : List F),
        evalTokens A (tokens.map asciiOf) s = evalTokens A tokens s) ∧
      (∀ (F : Type) (A : Arith F) (items : List Str), (∀ w ∈ items, w ≠ [] ∧ Solid w) →
        calculateRPN A (joinSpaces (items.map asciiOf)) = calculateRPN A (joinSpaces items)) ∧
      (∀ (e e1 : Str) (ts : List Token), tokenize e = some ts →
        tokenize e1 = some (ts.map asciiToken) →
        ∃ r r1, infixToRPN e = some r ∧ infixToRPN e1 = some r1 ∧
          ∀ (F : Type) (A : Arith F), calculateRPN A r1 = calculateRPN A r) ∧
      (∀ ts : List Token, (∀ t ∈ ts, validLexeme t = true) →
        tokenize (joinSpaces (ts.map Token.value)) = some ts ∧
          tokenize (joinSpaces ((ts.map asciiToken).map Token.value)) =
            some (ts.map asciiToken)) ∧
      infixToRPN (str "3 × 4 ÷ 2") = some (str "3 4 × 2 ÷") ∧
      infixToRPN (str "3 * 4 / 2") = some (str "3 4 * 2 /") ∧
      calculateRPN ratArith (str "3 4 × 2 ÷") = .ok (some 6) ∧
      calculateRPN ratArith (str "3 4 * 2 /") = .ok (some 6) := by
  refine ⟨by decide, fun F A tokens s => evalTokens_asciiOf A tokens s,
    fun F A items h => calculateRPN_asciiOf A items h, infix_aliases, ?_, by decide, by decide,
    ratArith_example_glyph, ratArith_example_ascii⟩
  intro ts h
  refine ⟨tokenize_lexemes ts h, tokenize_lexemes _ ?_⟩
  intro t ht
  obtain ⟨x, hx, rfl⟩ := List.mem_map.mp ht
  exact validLexeme_ascii x (h x hx)

/-- C24: operator table. `isOperator s` holds exactly for the nine symbols
`+ - * / % ^ × ÷ ·`; `getPrecedence` is 1 for `+ -`, 2 for `* / % × ÷ ·` and 3 for `^`,
and is at least 1 exactly on the operators (0 elsewhere); `isRightAssociative s`
holds exactly for `s = "^"`. -/
theorem C24_operator_table (s : Str) :
    (isOperator s = true ↔
        s ∈ [str "+", str "-", str "*", str "/", str "%", str "^", str "×", str "÷",
          str "·"]) ∧
      (∀ o ∈ [str "+", str "-"], getPrecedence o = 1) ∧
      (∀ o ∈ [str "*", str "/", str "%", str "×", str "÷", str "·"], getPrecedence o = 2) ∧
      getPrecedence (str "^") = 3 ∧
      (1 ≤ getPrecedence s ↔ isOperator s = true) ∧
      (isOperator s = false → getPrecedence s = 0) ∧
      (isRightAssociative s = true ↔ s = str "^") := by
  have hkeys : OPERATORS.map Prod.fst =
      [str "+", str "-", str "*", str "/", str "%", str "^", str "×", str "÷", str "·"] := by
    decide
  have hmem : isOperator s = true ↔ s ∈ OPERATORS.map Prod.fst := mem_keys_iff s OPERATORS
  have hnone : isOperator s = false → OPERATORS.lookup s = none := by
    intro h
    unfold isOperator at h
    cases hl : OPERATORS.lookup s with
    | none => rfl
    | some _ => rw [hl] at h; simp at h
  refine ⟨by rw [hmem, hkeys], by decide, by decide, by decide, ?_, ?_, ?_⟩
  · constructor
    · intro h
      by_contra hn
      rw [Bool.not_eq_true] at hn
      rw [getPrecedence_of_not_operator s (hnone hn)] at h
      omega
    · intro h
      exact operator_precedence s (hmem.mp h)
  · intro h
    exact getPrecedence_of_not_operator s (hnone h)
  · constructor
    · intro h
      by_cases ho : isOperator s = true
      · have hm := hmem.mp ho
        rw [hkeys] at hm
        simp only [List.mem_cons, List.not_mem_nil, or_false] at hm
        rcases hm with rfl | rfl | rfl | rfl | rfl | rfl | rfl | rfl | rfl
        all_goals first | rfl | exact absurd h (by decide)
      · rw [Bool.not_eq_true] at ho
        unfold isRightAssociative at h
        rw [hnone ho] at h
        simp at h
    · intro h
      subst h
      decide

/-- C25: list-literal lowering. For every list `ns` of `k ≥ 0` number literals (optionally
with a leading `-`) and every ASCII list-function name `f`, `infixToRPN` turns
`{ n1, n2, ..., nk } f` into `{ n1 n2 ... nk } f` (commas removed, braces kept, function
last); when `std::stod` converts the literals to the numbers `vs` (not NaN),
`calculateRPN` of that string is the reducer of `f` applied to `vs`. -/
theorem C25_list_literal (ns : List Str) (f : Str) (func : ListOp)
    (hn : ∀ n ∈ ns, isNumberLiteral n = true)
    (hf : LIST_FUNCTIONS.lookup f = some func) (hi : isIdentifier f = true) :
    infixToRPN (listLiteral ns f) = some (joinSpaces ([str "\x7b"] ++ ns ++ [str "\x7d", f])) ∧
      ∀ (F : Type) (A : Arith F) (vs : List F), A.isnan A.nan = true →
        ns.map A.stod = vs.map some → (∀ v ∈ vs, A.isnan v = false) →
        calculateRPN A (joinSpaces ([str "\x7b"] ++ ns ++ [str "\x7d", f])) =
          .ok (applyList A func vs) := by
  constructor
  · unfold infixToRPN
    rw [tokenize_listLiteral ns f hn (by unfold isListFunction; rw [hf]; rfl) hi,
      Option.map_some', convert_listLiteral]
  · intro F A vs hnan hv hnn
    exact calculateRPN_listLiteral A ns vs f func hnan hn hv hnn hf (identifier_isItem hi)

theorem C25_list_literal_witness :
    ((∀ n ∈ [str "1", str "2", str "3"], isNumberLiteral n = true) ∧
      LIST_FUNCTIONS.lookup (str "sum") = some .sum ∧ isIdentifier (str "sum") = true) ∧
      listLiteral [str "1", str "2", str "3"] (str "sum") = str "\x7b 1, 2, 3 \x7d sum" ∧
      infixToRPN (str "\x7b 1, 2, 3 \x7d sum") = some (str "\x7b 1 2 3 \x7d sum") ∧
      infixToRPN (str "\x7b 10, 20, 30, 40, 50 \x7d mean") =
        some (str "\x7b 10 20 30 40 50 \x7d mean") ∧
      calculateRPN ratArith (str "\x7b 10 20 30 40 50 \x7d mean") = .ok (some 30) ∧
      infixToRPN (str "\x7b -1, 2.5 \x7d lmin") = some (str "\x7b -1 2.5 \x7d lmin") := by
  have h1 : ∀ n ∈ [str "1", str "2", str "3"], isNumberLiteral n = true := by decide
  have hl : listLiteral [str "1", str "2", str "3"] (str "sum") =
      str "\x7b 1, 2, 3 \x7d sum" := by decide
  have h := (C25_list_literal [str "1", str "2", str "3"] (str "sum") .sum h1
    (by decide) (by decide)).1
  have h2 := C25_list_literal [str "10", str "20", str "30", str "40", str "50"]
    (str "mean") .mean (by decide) (by decide) (by decide)
  have h3 := (C25_list_literal [str "-1", str "2.5"] (str "lmin") .lmin (by decide)
    (by decide) (by decide)).1
  have e2 : listLiteral [str "10", str "20", str "30", str "40", str "50"] (str "mean") =
      str "\x7b 10, 20, 30, 40, 50 \x7d mean" := by decide
  have j2 : joinSpaces ([str "\x7b"] ++ [str "10", str "20", str "30", str "40", str "50"] ++
      [str "\x7d", str "mean"]) = str "\x7b 10 20 30 40 50 \x7d mean" := by decide
  have v2 := h2.2 _ ratArith [some 10, some 20, some 30, some 40, some 50] rfl
    (by simp [ratArith, str, utf8Encode, decimalValue, digitsValue, isdigit])
    (by
      intro v hv
      simp only [List.mem_cons, List.not_mem_nil, or_false] at hv
      rcases hv with rfl | rfl | rfl | rfl | rfl <;> rfl)
  rw [j2] at v2
  refine ⟨⟨h1, by decide, by decide⟩, hl, ?_, ?_, ?_, ?_⟩
  · rw [hl] at h; rw [h]; decide
  · have := h2.1; rw [e2, j2] at this; exact this
  · rw [v2]; norm_num [applyList, total, ratArith, liftRat]
  · rw [show listLiteral [str "-1", str "2.5"] (str "lmin") = str "\x7b -1, 2.5 \x7d lmin"
      from by decide] at h3
    rw [h3]; decide

/-- C26: constant table. `isConstant s` holds exactly for `pi`, `PI`, `π`, `e`, `E`, `τ`;
`calculateRPN` of a single constant token returns its table value; `pi`, `PI` and `π`
have the same value, `e` and `E` have the same value, and the value of `τ` is
`2 * value(π)`. -/
theorem C26_constant_table {F : Type} (A : Arith F) (s : Str) :
    (isConstant s = true ↔ s ∈ [str "pi", str "PI", str "π", str "e", str "E", str "τ"]) ∧
      (∀ c v, CONSTANTS.lookup c = some v → calculateRPN A c = .ok (constValue A v)) ∧
      CONSTANTS.lookup (str "pi") = CONSTANTS.lookup (str "π") ∧
      CONSTANTS.lookup (str "PI") = CONSTANTS.lookup (str "π") ∧
      CONSTANTS.lookup (str "e") = CONSTANTS.lookup (str "E") ∧
      calculateRPN A (str "π") = .ok A.M_PI ∧
      calculateRPN A (str "e") = .ok A.M_E ∧
      calculateRPN A (str "τ") = .ok (A.mul (A.ofNat 2) A.M_PI) := by
  have hkeys : CONSTANTS.map Prod.fst =
      [str "pi", str "PI", str "π", str "e", str "E", str "τ"] := by decide
  have hcalc : ∀ c v, CONSTANTS.lookup c = some v →
      calculateRPN A c = .ok (constValue A v) := by
    intro c v h
    have hk := constant_keys c (mem_keys_of_lookup c CONSTANTS (by rw [h]; rfl))
    unfold calculateRPN
    rw [hk.2.2.2.2.2.2]
    simp only [evalTokens_cons, evalTokens, evalToken_constant A c v [] h]
  refine ⟨by rw [← hkeys]; exact mem_keys_iff s CONSTANTS, hcalc, by decide, by decide,
    by decide, hcalc _ .pi (by decide), hcalc _ .e (by decide), hcalc _ .twoPi (by decide)⟩

/-- C27: shunting-yard correctness for conventional infix. For every expression tree `t`
over unsigned number literals and registered binary operators, printed as space-separated
infix in which a child is parenthesised only when needed (left child: lower precedence
than its parent, or equal precedence and the parent is right-associative; right child:
lower precedence than its parent, or equal precedence and the parent is
left-associative), `infixToRPN` returns the post-order traversal of `t` joined by single
spaces. -/
theorem C27_shunting_yard (t : Expr) (h : t.isArith = true) :
    infixToRPN (pretty t) = some (joinSpaces (postorder t)) := by
  unfold infixToRPN pretty
  rw [tokenize_lexemes _ (infixTokens_valid t h), Option.map_some', convert_infix t h]

theorem C27_shunting_yard_witness :
    arithExample.isArith = true ∧
      pretty arithExample = str "1 + 2 * 3 - ( 4 - 5 ) ^ 2 ^ 3" ∧
      infixToRPN (str "1 + 2 * 3 - ( 4 - 5 ) ^ 2 ^ 3") =
        some (str "1 2 3 * + 4 5 - 2 3 ^ ^ -") ∧
      pretty (.op (str "*") (.op (str "+") (.num (str "1")) (.num (str "2")))
        (.num (str "3"))) = str "( 1 + 2 ) * 3" ∧
      pretty (.op (str "-") (.num (str "1")) (.op (str "-") (.num (str "2"))
        (.num (str "3")))) = str "1 - ( 2 - 3 )" ∧
      pretty (.op (str "^") (.op (str "^") (.num (str "2")) (.num (str "3")))
        (.num (str "2"))) = str "( 2 ^ 3 ) ^ 2" := by
  have hp : pretty arithExample = str "1 + 2 * 3 - ( 4 - 5 ) ^ 2 ^ 3" := by decide
  have h := C27_shunting_yard arithExample (by decide)
  rw [hp] at h
  refine ⟨by decide, hp, ?_, by decide, by decide, by decide⟩
  rw [h]
  decide

/-- C28 (the code at the failing input): on the one-byte string `"\xC3"`, a lead byte
whose continuation byte is missing, `utf8ExtractChar` returns the empty string, the
splitting loop adds 0 to its position and never exits, so neither `calculateRPN` nor
`rpnToInfix` returns. On a text made of non-empty items of ASCII bytes and complete
multi-byte code points joined by single spaces the splitter returns the items. -/
theorem C28_splitter_never_returns :
    utf8ExtractChar [0xC3] 0 = [] ∧
      (∀ (fuel : Nat) (current : Str) (tokens : List Str),
        splitLoop [0xC3] fuel 0 current tokens = none) ∧
      splitTokens [0xC3] = none ∧
      (∀ (F : Type) (A : Arith F), calculateRPN A [0xC3] = .error .nonTermination) ∧
      rpnToInfix [0xC3] = .error .nonTermination ∧
      splitTokens (str "1 2 +") = some [str "1", str "2", str "+"] := by
  have h0 : utf8ExtractChar [0xC3] 0 = [] := by decide
  have h1 : ∀ (fuel : Nat) (current : Str) (tokens : List Str),
      splitLoop [0xC3] fuel 0 current tokens = none :=
    fun fuel current tokens => splitLoop_stuck [0xC3] current tokens (by simp) h0 fuel
  have h2 : splitTokens [0xC3] = none := h1 _ _ _
  refine ⟨h0, h1, h2, ?_, ?_, by decide⟩
  · intro F A
    unfold calculateRPN
    rw [h2]
  · unfold rpnToInfix
    rw [h2]

/-- C29 (counterexample): a registered name immediately followed by letters or digits
can yield a token: `e` is a registered constant, and `exp`, which is `e` followed by
`xp`, yields the UnaryFunction token `exp`; `log` is a registered function, and `log10`,
which is `log` followed by `10`, yields the UnaryFunction token `log10`. -/
theorem C29_registered_extension :
    isConstant (str "e") = true ∧ str "exp" = str "e" ++ str "xp" ∧
      tokenize (str "e" ++ str "xp") = some [⟨.UnaryFunction, str "exp"⟩] ∧
      isUnaryFunction (str "log") = true ∧
      tokenize (str "log" ++ str "10") = some [⟨.UnaryFunction, str "log10"⟩] ∧
      ¬ (∀ f u : Str, (isConstant f || isUnaryFunction f || isBinaryFunction f ||
          isListFunction f) = true → u ≠ [] → u.all nameByte = true →
          tokenize (f ++ u) = some []) := by
  refine ⟨by decide, by decide, by decide, by decide, by decide, ?_⟩
  intro h
  have := h (str "e") (str "xp") (by decide) (by decide) (by decide)
  exact absurd this (by decide)

/-- C29 (amended): identifier lexing is maximal munch. The tokenizer takes the longest
run of ASCII letters and digits that starts at a letter and looks up only that whole
run: an identifier `name` followed by a byte that is not a letter or digit (or by the
end of the text) yields the token of `name`, or no token when `name` is in none of the
tables; so a registered name followed by letters or digits yields no token unless the
whole run is registered, `log10` yields one UnaryFunction token, `pie`, `sin2`, `pi2`
yield no token, and a digit run followed by a name yields the Number and then the token
of the name (`2pi` yields Number `2`, Constant `pi`). -/
theorem C29_maximal_munch (name : Str) (hi : isIdentifier name = true) :
    (∀ (rest : Str) (toks : List Token), stopsName rest = true →
        lex (name ++ rest) toks = lex rest (toks ++ nameToken name)) ∧
      tokenize name = some (nameToken name) ∧
      (∀ u : Str, u.all nameByte = true → tokenize (name ++ u) = some (nameToken (name ++ u))) ∧
      (∀ u : Str, u.all nameByte = true → isUnknownIdentifier (name ++ u) = true →
        tokenize (name ++ u) = some []) ∧
      (∀ lit : Str, isUnsigned lit = true →
        tokenize (lit ++ name) = some (⟨.Number, lit⟩ :: nameToken name)) ∧
      tokenize (str "log10") = some [⟨.UnaryFunction, str "log10"⟩] ∧
      tokenize (str "pie") = some [] ∧ tokenize (str "sin2") = some [] ∧
      tokenize (str "pi2") = some [] ∧
      tokenize (str "2pi") = some [⟨.Number, str "2"⟩, ⟨.Constant, str "pi"⟩] := by
  refine ⟨fun rest toks hr => lex_identifier name rest toks hi hr,
    tokenize_identifier name hi,
    fun u hu => tokenize_identifier _ (identifier_extend hi hu),
    fun u hu hk => tokenize_unknown _ hk, ?_, by decide, by decide, by decide, by decide,
    by decide⟩
  intro lit hl
  rw [tokenize_eq_lex, lex_unsigned lit name [] hl (by
    have := identifier_startsNumber hi []
    rwa [List.append_nil] at this)]
  have := lex_identifier name [] [⟨.Number, lit⟩] hi rfl
  rw [List.append_nil, lex_nil] at this
  rw [List.nil_append, this]
  rfl

theorem C29_maximal_munch_witness :
    isIdentifier (str "pi") = true ∧
      tokenize (str "pi") = some [⟨.Constant, str "pi"⟩] ∧
      tokenize (str "pi" ++ str "e") = some [] ∧
      tokenize (str "2" ++ str "pi") = some [⟨.Number, str "2"⟩, ⟨.Constant, str "pi"⟩] := by
  have h := C29_maximal_munch (str "pi") (by decide)
  refine ⟨by decide, ?_, ?_, ?_⟩
  · rw [h.2.1]; decide
  · exact h.2.2.2.1 (str "e") (by decide) (by decide)
  · rw [h.2.2.2.2.1 (str "2") (by decide)]; decide

/-- C30: the renderer does not interpret list syntax. `rpnToInfix` pushes `{`, `}` and
list-function names verbatim; for every token sequence whose processing causes no stack
underflow and whose final token is not an operator, unary function or binary function,
the final stack has that token on top, and `rpnToInfix` of the items joined by spaces
returns it verbatim. -/
theorem C30_list_verbatim (tokens : List Str) (last : Str) (s : List Str)
    (h1 : isOperator last = false) (h2 : isUnaryFunction last = false)
    (h3 : isBinaryFunction last = false) (hok : renderTokens tokens [] = .ok s) :
    renderTokens (tokens ++ [last]) [] = .ok (last :: s) ∧
      ((∀ w ∈ tokens ++ [last], w ≠ [] ∧ Solid w) →
        rpnToInfix (joinSpaces (tokens ++ [last])) = .ok last) ∧
      (∀ st : List Str, renderToken (str "\x7b") st = .ok (str "\x7b" :: st)) ∧
      (∀ st : List Str, renderToken (str "\x7d") st = .ok (str "\x7d" :: st)) ∧
      (∀ (f : Str) (st : List Str), isListFunction f = true →
        renderToken f st = .ok (f :: st)) := by
  have hr : renderTokens (tokens ++ [last]) [] = .ok (last :: s) := by
    rw [renderTokens_append, hok]
    simp only [renderTokens_cons, renderToken_verbatim last s h1 h2 h3, renderTokens]
  refine ⟨hr, ?_, ?_, ?_, ?_⟩
  · intro hw
    unfold rpnToInfix
    rw [splitTokens_joinSpaces_solid _ hw]
    simp only
    rw [hr]
  · intro st; exact renderToken_verbatim _ st (by decide) (by decide) (by decide)
  · intro st; exact renderToken_verbatim _ st (by decide) (by decide) (by decide)
  · intro f st hf
    have hk := list_keys f (mem_keys_of_lookup f LIST_FUNCTIONS hf)
    exact renderToken_verbatim f st (lookup_isSome_false hk.2.2.1)
      (lookup_isSome_false hk.2.2.2.1) (lookup_isSome_false hk.2.2.2.2)

theorem C30_list_verbatim_witness :
    (isOperator (str "sum") = false ∧ isUnaryFunction (str "sum") = false ∧
      isBinaryFunction (str "sum") = false ∧
      renderTokens [str "\x7b", str "1", str "2", str "3", str "\x7d"] [] =
        .ok [str "\x7d", str "3", str "2", str "1", str "\x7b"]) ∧
      joinSpaces ([str "\x7b", str "1", str "2", str "3", str "\x7d"] ++ [str "sum"]) =
        str "\x7b 1 2 3 \x7d sum" ∧
      rpnToInfix (str "\x7b 1 2 3 \x7d sum") = .ok (str "sum") := by
  have hok : renderTokens [str "\x7b", str "1", str "2", str "3", str "\x7d"] [] =
      .ok [str "\x7d", str "3", str "2", str "1", str "\x7b"] := by
    simp only [renderTokens_cons, renderTokens,
      renderToken_verbatim (str "\x7b") _ (by decide) (by decide) (by decide),
      renderToken_verbatim (str "1") _ (by decide) (by decide) (by decide),
      renderToken_verbatim (str "2") _ (by decide) (by decide) (by decide),
      renderToken_verbatim (str "3") _ (by decide) (by decide) (by decide),
      renderToken_verbatim (str "\x7d") _ (by decide) (by decide) (by decide)]
  have hj : joinSpaces ([str "\x7b", str "1", str "2", str "3", str "\x7d"] ++ [str "sum"]) =
      str "\x7b 1 2 3 \x7d sum" := by decide
  have h := (C30_list_verbatim [str "\x7b", str "1", str "2", str "3", str "\x7d"]
    (str "sum") _ (by decide) (by decide) (by decide) hok).2.1 (by
      intro w hw
      simp only [List.cons_append, List.nil_append, List.mem_cons, List.not_mem_nil,
        or_false] at hw
      rcases hw with rfl | rfl | rfl | rfl | rfl | rfl <;>
        exact ⟨by decide, solid_plain _ (by decide)⟩)
  rw [hj] at h
  exact ⟨⟨by decide, by decide, by decide, hok⟩, hj, h⟩

theorem list_solid : ∀ k ∈ LIST_FUNCTIONS.map Prod.fst, k ≠ [] ∧ Solid k := by
  intro k hk
  simp only [LIST_FUNCTIONS, List.map_cons, List.map_nil, List.mem_cons, List.not_mem_nil,
    or_false] at hk
  rcases hk with rfl | rfl | rfl | rfl | rfl | rfl | rfl | rfl | rfl | rfl | rfl | rfl | rfl | rfl
  all_goals first
    | exact ⟨by decide, solid_plain _ (by decide)⟩
    | exact ⟨by decide, solid_append (@solid_glyph (str "Σ") (by decide))
        (solid_plain (str "LIST") (by decide))⟩
    | exact ⟨by decide, solid_append (@solid_glyph (str "Π") (by decide))
        (solid_plain (str "LIST") (by decide))⟩

theorem literal_solid {lit : Str} (h : isNumberLiteral lit = true) : lit ≠ [] ∧ Solid lit := by
  have hi := literal_isItem h
  refine ⟨isItem_ne_nil hi, ?_⟩
  simp only [isItem, Bool.and_eq_true, Bool.or_eq_true] at hi
  rcases hi.2 with hp | hg
  · exact solid_plain _ hp
  · exact solid_glyph hg

theorem isSome_false_of_none {β : Type} {o : Option β} (h : o = none) : o.isSome = false := by
  rw [h]; rfl

theorem exclusive_constant {s : Str} (h : isConstant s = true) :
    isOperator s = false ∧ isUnaryFunction s = false ∧ isBinaryFunction s = false ∧
      isListFunction s = false := by
  have hk := constant_keys s (mem_keys_of_lookup s CONSTANTS h)
  exact ⟨isSome_false_of_none hk.2.2.1, isSome_false_of_none hk.2.2.2.1,
    isSome_false_of_none hk.2.2.2.2.1, isSome_false_of_none hk.2.2.2.2.2.1⟩

theorem exclusive_list {s : Str} (h : isListFunction s = true) :
    isOperator s = false ∧ isUnaryFunction s = false ∧ isBinaryFunction s = false := by
  have hk := list_keys s (mem_keys_of_lookup s LIST_FUNCTIONS h)
  exact ⟨isSome_false_of_none hk.2.2.1, isSome_false_of_none hk.2.2.2.1,
    isSome_false_of_none hk.2.2.2.2⟩

theorem exclusive_binary {s : Str} (h : isBinaryFunction s = true) :
    isOperator s = false ∧ isUnaryFunction s = false := by
  have hk := binary_keys s (mem_keys_of_lookup s BINARY_FUNCTIONS h)
  exact ⟨isSome_false_of_none hk.2.2.1, isSome_false_of_none hk.2.2.2⟩

theorem exclusive_unary {s : Str} (h : isUnaryFunction s = true) : isOperator s = false :=
  isSome_false_of_none (unary_keys s (mem_keys_of_lookup s UNARY_FUNCTIONS h)).2.2

theorem exclusive_count (s : Str) :
    (isOperator s).toNat + (isUnaryFunction s).toNat + (isBinaryFunction s).toNat +
      (isListFunction s).toNat + (isConstant s).toNat ≤ 1 := by
  by_cases hc : isConstant s = true
  · obtain ⟨h1, h2, h3, h4⟩ := exclusive_constant hc
    simp [h1, h2, h3, h4, hc]
  · rw [Bool.not_eq_true] at hc
    by_cases hl : isListFunction s = true
    · obtain ⟨h1, h2, h3⟩ := exclusive_list hl
      simp [h1, h2, h3, hl, hc]
    · rw [Bool.not_eq_true] at hl
      by_cases hb : isBinaryFunction s = true
      · obtain ⟨h1, h2⟩ := exclusive_binary hb
        simp [h1, h2, hb, hl, hc]
      · rw [Bool.not_eq_true] at hb
        by_cases hu : isUnaryFunction s = true
        · simp [exclusive_unary hu, hu, hb, hl, hc]
        · rw [Bool.not_eq_true] at hu
          cases ho : isOperator s <;> simp [hu, hb, hl, hc]

theorem lookup_of_isSome {β : Type} {l : List (Str × β)} {k : Str}
    (h : (l.lookup k).isSome = true) : ∃ v, l.lookup k = some v := by
  cases hl : l.lookup k with
  | none => rw [hl] at h; simp at h
  | some v => exact ⟨v, rfl⟩

theorem evalTokens_safe {F : Type} (A : Arith F) (t : Expr) : t.wfOperands = true →
    ∀ (rest : List Str) (s : List F),
      evalTokens A (postorder t ++ rest) s = .error .invalidNumber ∨
        ∃ v, evalTokens A (postorder t ++ rest) s = evalTokens A rest (v :: s) := by
  induction t with
  | num lit =>
    intro hw rest s
    simp only [Expr.wfOperands, Bool.or_eq_true] at hw
    simp only [postorder, List.singleton_append, evalTokens_cons]
    by_cases hl : isNumberLiteral lit = true
    · rw [evalToken_literal A lit s hl]
      cases A.stod lit with
      | none => exact Or.inl rfl
      | some v => exact Or.inr ⟨v, rfl⟩
    · obtain ⟨c, hc⟩ := lookup_of_isSome (hw.resolve_left hl)
      rw [evalToken_constant A lit c s hc]
      exact Or.inr ⟨_, rfl⟩
  | op o a b iha ihb =>
    intro hw rest s
    simp only [Expr.wfOperands, Bool.and_eq_true] at hw
    obtain ⟨⟨ho, ha⟩, hb⟩ := hw
    obtain ⟨info, hinfo⟩ := lookup_of_isSome ho
    simp only [postorder, List.append_assoc]
    rcases iha ha (postorder b ++ ([o] ++ rest)) s with h1 | ⟨va, h1⟩
    · exact Or.inl h1
    · rw [h1]
      rcases ihb hb ([o] ++ rest) (va :: s) with h2 | ⟨vb, h2⟩
      · exact Or.inl h2
      · rw [h2, List.singleton_append, evalTokens_cons,
          evalToken_operator A o info va vb s hinfo]
        exact Or.inr ⟨_, rfl⟩
  | un f a iha =>
    intro hw rest s
    simp only [Expr.wfOperands, Bool.and_eq_true] at hw
    obtain ⟨hf, ha⟩ := hw
    obtain ⟨func, hfunc⟩ := lookup_of_isSome hf
    simp only [postorder, List.append_assoc]
    rcases iha ha ([f] ++ rest) s with h1 | ⟨va, h1⟩
    · exact Or.inl h1
    · rw [h1, List.singleton_append, evalTokens_cons, evalToken_unary A f func va s hfunc]
      exact Or.inr ⟨_, rfl⟩
  | bin g a b iha ihb =>
    intro hw rest s
    simp only [Expr.wfOperands, Bool.and_eq_true] at hw
    obtain ⟨⟨hg, ha⟩, hb⟩ := hw
    obtain ⟨func, hfunc⟩ := lookup_of_isSome hg
    simp only [postorder, List.append_assoc]
    rcases iha ha (postorder b ++ ([g] ++ rest)) s with h1 | ⟨va, h1⟩
    · exact Or.inl h1
    · rw [h1]
      rcases ihb hb ([g] ++ rest) (va :: s) with h2 | ⟨vb, h2⟩
      · exact Or.inl h2
      · rw [h2, List.singleton_append, evalTokens_cons,
          evalToken_binary A g func va vb s hfunc]
        exact Or.inr ⟨_, rfl⟩

theorem renderTokens_safe (t : Expr) : t.wfOperands = true →
    ∀ (rest : List Str) (s : List Str),
      ∃ x, renderTokens (postorder t ++ rest) s = renderTokens rest (x :: s) := by
  induction t with
  | num lit =>
    intro hw rest s
    simp only [Expr.wfOperands, Bool.or_eq_true] at hw
    simp only [postorder, List.singleton_append, renderTokens_cons]
    by_cases hl : isNumberLiteral lit = true
    · rw [renderToken_literal lit s hl]
      exact ⟨lit, rfl⟩
    · obtain ⟨h1, h2, h3, _⟩ := exclusive_constant (hw.resolve_left hl)
      rw [renderToken_verbatim lit s h1 h2 h3]
      exact ⟨lit, rfl⟩
  | op o a b iha ihb =>
    intro hw rest s
    simp only [Expr.wfOperands, Bool.and_eq_true] at hw
    obtain ⟨⟨ho, ha⟩, hb⟩ := hw
    simp only [postorder, List.append_assoc]
    obtain ⟨xa, h1⟩ := iha ha (postorder b ++ ([o] ++ rest)) s
    obtain ⟨xb, h2⟩ := ihb hb ([o] ++ rest) (xa :: s)
    rw [h1, h2, List.singleton_append, renderTokens_cons, renderToken_operator o xa xb s ho]
    exact ⟨_, rfl⟩
  | un f a iha =>
    intro hw rest s
    simp only [Expr.wfOperands, Bool.and_eq_true] at hw
    obtain ⟨hf, ha⟩ := hw
    simp only [postorder, List.append_assoc]
    obtain ⟨xa, h1⟩ := iha ha ([f] ++ rest) s
    rw [h1, List.singleton_append, renderTokens_cons, renderToken_unary f xa s hf]
    exact ⟨_, rfl⟩
  | bin g a b iha ihb =>
    intro hw rest s
    simp only [Expr.wfOperands, Bool.and_eq_true] at hw
    obtain ⟨⟨hg, ha⟩, hb⟩ := hw
    simp only [postorder, List.append_assoc]
    obtain ⟨xa, h1⟩ := iha ha (postorder b ++ ([g] ++ rest)) s
    obtain ⟨xb, h2⟩ := ihb hb ([g] ++ rest) (xa :: s)
    rw [h1, h2, List.singleton_append, renderTokens_cons, renderToken_binary g xa xb s hg]
    exact ⟨_, rfl⟩

theorem postorder_operand_items (t : Expr) (h : t.wfOperands = true) :
    ∀ w ∈ postorder t, isItem w = true := by
  induction t with
  | num lit =>
    intro w hw
    simp only [postorder, List.mem_singleton] at hw
    subst hw
    simp only [Expr.wfOperands, Bool.or_eq_true] at h
    rcases h with h | h
    · exact literal_isItem h
    · exact glyph_items.2.2 w (mem_keys_of_lookup w CONSTANTS h)
  | op o a b iha ihb =>
    intro w hw
    simp only [Expr.wfOperands, Bool.and_eq_true] at h
    simp only [postorder, List.mem_append, List.mem_singleton] at hw
    rcases hw with (hw | hw) | hw
    · exact iha h.1.2 w hw
    · exact ihb h.2 w hw
    · subst hw; exact key_items.1 w (mem_keys_of_lookup w OPERATORS h.1.1)
  | un f a iha =>
    intro w hw
    simp only [Expr.wfOperands, Bool.and_eq_true] at h
    simp only [postorder, List.mem_append, List.mem_singleton] at hw
    rcases hw with hw | hw
    · exact iha h.2 w hw
    · subst hw; exact key_items.2.1 w (mem_keys_of_lookup w UNARY_FUNCTIONS h.1)
  | bin g a b iha ihb =>
    intro w hw
    simp only [Expr.wfOperands, Bool.and_eq_true] at h
    simp only [postorder, List.mem_append, List.mem_singleton] at hw
    rcases hw with (hw | hw) | hw
    · exact iha h.1.2 w hw
    · exact ihb h.2 w hw
    · subst hw; exact key_items.2.2 w (mem_keys_of_lookup w BINARY_FUNCTIONS h.1.1)

theorem isUnsigned_takeWhile (s : Str) (hne : 0 < (s.takeWhile numberByte).length) :
    isUnsigned (s.takeWhile numberByte) = true := by
  have hemp : (s.takeWhile numberByte).isEmpty = false := by
    cases h : s.takeWhile numberByte with
    | nil => rw [h] at hne; simp at hne
    | cons _ _ => rfl
  simp only [isUnsigned, hemp, Bool.not_false, Bool.true_and, List.all_eq_true]
  intro c hc
  exact List.mem_takeWhile_imp hc

theorem isIdentifier_takeWhile {s ch : Str} (hch : ch = s.take ch.length)
    (h : isAsciiAlpha ch = true) : isIdentifier (s.takeWhile nameByte) = true := by
  cases s with
  | nil => rw [List.take_nil] at hch; rw [hch] at h; simp [isAsciiAlpha] at h
  | cons c rest =>
    simp only [isAsciiAlpha, Bool.and_eq_true, beq_iff_eq] at h
    rw [h.1] at hch
    simp only [List.take_succ_cons, List.take_zero] at hch
    have h2 := h.2
    rw [hch] at h2
    simp only [List.getD_cons_zero] at h2
    have hn : nameByte c = true := by simp [nameByte, h2]
    rw [List.takeWhile_cons, hn]
    simp only [if_true, isIdentifier, h2, Bool.true_and, List.all_eq_true]
    intro x hx
    exact List.mem_takeWhile_imp hx

theorem TypedTokens_append {toks : List Token} {t : Token} (h : TypedTokens toks)
    (ht : typedText t = true) : TypedTokens (toks ++ [t]) := by
  intro x hx
  simp only [List.mem_append, List.mem_singleton] at hx
  rcases hx with hx | hx
  · exact h x hx
  · subst hx; exact ht

theorem tokenizeStep_typed (s : Str) (toks : List Token) (h : TypedTokens toks) :
    TypedTokens (tokenizeStep s 0 toks).2 := by
  have hch := utf8ExtractChar_take s
  unfold tokenizeStep
  simp only [scanNumber_eq s s.length _ _ (Nat.le_add_left _ _),
    scanName_eq s s.length _ _ (Nat.le_add_left _ _), Nat.zero_add, List.drop_zero, List.nil_append]
  generalize hnn : negativeNumber s 0 (utf8ExtractChar s 0) toks = nn
  revert hch hnn
  generalize utf8ExtractChar s 0 = ch
  intro hch hnn
  have P : ∀ {n : Nat} {ty : TokenType} {v : Str}, typedText ⟨ty, v⟩ = true →
      TypedTokens (n, toks ++ [(⟨ty, v⟩ : Token)]).2 := fun hv => TypedTokens_append h hv
  have Q : ∀ {n : Nat}, TypedTokens (n, toks).2 := h
  refine ite_ind (P := fun r : Nat × List Token => TypedTokens r.2) (fun _ => Q) (fun _ => ?_)
  refine ite_ind (P := fun r : Nat × List Token => TypedTokens r.2)
    (fun hc => P (by
      have := isUnsigned_takeWhile s (isNumber_numberByte hch hc)
      simp [typedText, isNumberLiteral, this])) (fun _ => ?_)
  refine ite_ind (P := fun r : Nat × List Token => TypedTokens r.2) (fun _ => P (by decide)) (fun _ => ?_)
  refine ite_ind (P := fun r : Nat × List Token => TypedTokens r.2) (fun _ => P (by decide)) (fun _ => ?_)
  refine ite_ind (P := fun r : Nat × List Token => TypedTokens r.2) (fun _ => P (by decide)) (fun _ => ?_)
  refine ite_ind (P := fun r : Nat × List Token => TypedTokens r.2) (fun _ => P (by decide)) (fun _ => ?_)
  refine ite_ind (P := fun r : Nat × List Token => TypedTokens r.2) (fun _ => P (by decide)) (fun _ => ?_)
  cases nn with
  | some r =>
    show TypedTokens r.2
    have hc45 : ch = [45] := by
      by_contra hne
      rw [negativeNumber_none s ch toks hne] at hnn
      exact absurd hnn (by simp)
    subst hc45
    obtain ⟨rest, rfl⟩ : ∃ rest, s = 45 :: rest := by
      cases s with
      | nil => simp at hch
      | cons c rest => simp at hch; exact ⟨rest, by rw [hch]⟩
    rw [negativeNumber_minus] at hnn
    by_cases hc : (isUnaryMinus toks && startsNumber rest) = true
    · rw [if_pos hc] at hnn
      rw [← Option.some.inj hnn]
      apply TypedTokens_append h
      simp only [Bool.and_eq_true] at hc
      have hne : 0 < (rest.takeWhile numberByte).length := by
        cases rest with
        | nil => simp [startsNumber] at hc
        | cons c r =>
          have : numberByte c = true := hc.2
          simp [List.takeWhile_cons, this]
      have := isUnsigned_takeWhile rest hne
      simp [typedText, isNumberLiteral, this]
    · rw [if_neg hc] at hnn
      exact absurd hnn (by simp)
  | none =>
    show TypedTokens (Prod.snd (if _ then _ else _))
    refine ite_ind (P := fun r : Nat × List Token => TypedTokens r.2) (fun hc => ?_) (fun _ => ?_)
    · apply TypedTokens_append h
      simp only [Bool.and_eq_true, beq_iff_eq] at hc
      obtain ⟨h1, h2⟩ := hc
      match ch, h1 with
      | [c], _ =>
        simp only [List.getD_cons_zero, ASCII_OPERATOR_CHARS_eq, List.contains_cons,
          List.contains_nil, Bool.or_false, Bool.or_eq_true, beq_iff_eq] at h2
        rcases h2 with rfl | rfl | rfl | rfl | rfl | rfl <;> decide
    refine ite_ind (P := fun r : Nat × List Token => TypedTokens r.2) (fun _ => ?_) (fun _ => ?_)
    · refine ite_ind (P := fun r : Nat × List Token => TypedTokens r.2)
        (fun hc => P hc) (fun _ => ?_)
      refine ite_ind (P := fun r : Nat × List Token => TypedTokens r.2)
        (fun hc => P hc) (fun _ => ?_)
      exact ite_ind (P := fun r : Nat × List Token => TypedTokens r.2)
        (fun hc => P hc) (fun _ => Q)
    refine ite_ind (P := fun r : Nat × List Token => TypedTokens r.2) (fun hc => ?_) (fun _ => Q)
    have hw := isIdentifier_takeWhile hch hc
    refine ite_ind (P := fun r : Nat × List Token => TypedTokens r.2) (fun hc => P hc) (fun _ => ?_)
    refine ite_ind (P := fun r : Nat × List Token => TypedTokens r.2) (fun hc => P hc) (fun _ => ?_)
    refine ite_ind (P := fun r : Nat × List Token => TypedTokens r.2)
      (fun hc => P (by simp [typedText, hc, hw])) (fun _ => ?_)
    exact ite_ind (P := fun r : Nat × List Token => TypedTokens r.2)
      (fun hc => P (by simp [typedText, hc, hw])) (fun _ => Q)

theorem lex_typed : ∀ (n : Nat) (s : Str) (toks ts : List Token),
    s.length = n → TypedTokens toks → lex s toks = some ts → TypedTokens ts := by
  intro n
  induction n using Nat.strong_induction_on with
  | _ n ih =>
    intro s toks ts hn hw h
    by_cases hs : s = []
    · subst hs
      rw [lex_nil] at h
      rw [← Option.some.inj h]; exact hw
    · obtain ⟨hle, hcase⟩ := tokenizeStep_spec s toks
      rcases hcase with ⟨h1, h2⟩ | ⟨h1, h2⟩
      · rw [lex_stuck s toks hs (Prod.ext h1 h2)] at h
        exact absurd h (by simp)
      · rw [lex_step s toks hs] at h
        have hlen : (s.drop (tokenizeStep s 0 toks).1).length = n - (tokenizeStep s 0 toks).1 := by
          rw [List.length_drop, hn]
        exact ih _ (by omega) _ _ _ hlen (tokenizeStep_typed s toks hw) h

theorem tokenize_typed (e : Str) (ts : List Token) (h : tokenize e = some ts) :
    TypedTokens ts :=
  lex_typed _ e [] ts rfl (by intro t ht; simp at ht) h

theorem ratArith_example_listAlias :
    calculateRPN ratArith (str "\x7b 1 2 3 \x7d ΣLIST") = .ok (some 6) ∧
      calculateRPN ratArith (str "\x7b 1 2 3 \x7d ΠLIST") = .ok (some 6) := by
  constructor
  · unfold calculateRPN
    rw [show splitTokens (str "\x7b 1 2 3 \x7d ΣLIST") =
      some [str "\x7b", str "1", str "2", str "3", str "\x7d", str "ΣLIST"] from by decide]
    simp only [evalTokens_cons, evalTokens, evalToken_listStart, evalToken_listEnd,
      ratArith_literal (str "1") 1 _ (by decide) (by decide),
      ratArith_literal (str "2") 2 _ (by decide) (by decide),
      ratArith_literal (str "3") 3 _ (by decide) (by decide),
      evalToken_listFunction ratArith (str "ΣLIST") .sum _ (by decide)]
    norm_num [collectValues, isListMarker, LIST_MARKER, applyList, total, ratArith, liftRat]
  · unfold calculateRPN
    rw [show splitTokens (str "\x7b 1 2 3 \x7d ΠLIST") =
      some [str "\x7b", str "1", str "2", str "3", str "\x7d", str "ΠLIST"] from by decide]
    simp only [evalTokens_cons, evalTokens, evalToken_listStart, evalToken_listEnd,
      ratArith_literal (str "1") 1 _ (by decide) (by decide),
      ratArith_literal (str "2") 2 _ (by decide) (by decide),
      ratArith_literal (str "3") 3 _ (by decide) (by decide),
      evalToken_listFunction ratArith (str "ΠLIST") .product _ (by decide)]
    norm_num [collectValues, isListMarker, LIST_MARKER, applyList, ratArith, liftRat]

theorem popWhile_eq (cond : Token → Bool) : ∀ (st : List Token) (out : Str),
    popWhile cond out st =
      (out ++ trail ((st.takeWhile cond).map Token.value), st.dropWhile cond) := by
  intro st
  induction st with
  | nil => intro out; simp [popWhile_nil, trail]
  | cons top st ih =>
    intro out
    rw [popWhile_cons]
    by_cases hc : cond top = true
    · rw [if_pos hc, ih, List.takeWhile_cons, List.dropWhile_cons, if_pos hc, if_pos hc]
      simp [trail]
    · rw [if_neg hc, List.takeWhile_cons, List.dropWhile_cons, if_neg hc, if_neg hc]
      simp [trail]

theorem Tracked_plain (out v : Str) (items : List Str) (hv : isItem v = true)
    (h : Tracked out items) : Tracked (out ++ str " " ++ v) (items ++ [v]) := by
  obtain ⟨hw, h⟩ := h
  refine ⟨items_append hw hv, ?_⟩
  by_cases hne : items = []
  · subst hne
    rcases h with h | ⟨h, _⟩
    · subst h
      exact Or.inr ⟨by simp, by simp [joinSpaces]⟩
    · exact absurd rfl h
  · rcases h with h | ⟨_, h⟩
    · left
      subst h
      rw [joinSpaces_append_singleton _ _ hne, str_space]
      simp
    · right
      subst h
      refine ⟨by simp, ?_⟩
      rw [joinSpaces_append_singleton _ _ hne, str_space]
      simp

theorem Tracked_guarded (out v : Str) (items : List Str) (hv : isItem v = true)
    (h : Tracked out items) : Tracked (separate out ++ v) (items ++ [v]) := by
  obtain ⟨hw, h⟩ := h
  refine ⟨items_append hw hv, ?_⟩
  by_cases hne : items = []
  · subst hne
    rcases h with h | ⟨h, _⟩
    · subst h
      exact Or.inl (by simp [joinSpaces, separate])
    · exact absurd rfl h
  · have hj := joinSpaces_items_ne_nil items hne hw
    rcases h with h | ⟨_, h⟩
    · left
      subst h
      rw [separate_ne_nil _ hj, joinSpaces_append_singleton _ _ hne]
      simp
    · right
      subst h
      refine ⟨by simp, ?_⟩
      rw [separate_ne_nil _ (by simp [str_space]), joinSpaces_append_singleton _ _ hne]
      simp

theorem Tracked_trail : ∀ (vs : List Str) (out : Str) (items : List Str),
    (∀ v ∈ vs, isItem v = true) → Tracked out items →
    Tracked (out ++ trail vs) (items ++ vs) := by
  intro vs
  induction vs with
  | nil => intro out items _ h; simpa [trail] using h
  | cons v vs ih =>
    intro out items hv h
    have := ih (out ++ str " " ++ v) (items ++ [v]) (fun x hx => hv x (by simp [hx]))
      (Tracked_plain out v items (hv v (by simp)) h)
    simpa [trail] using this

theorem splitTokens_tracked (out : Str) (items : List Str) (h : Tracked out items) :
    splitTokens out = some items := by
  obtain ⟨hw, h | ⟨_, h⟩⟩ := h
  · rw [h]; exact splitTokens_joinSpaces items hw
  · rw [h]; exact splitTokens_leading items hw

theorem ItemTokens_takeWhile {st : List Token} (cond : Token → Bool) (h : ItemTokens st) :
    ∀ v ∈ (st.takeWhile cond).map Token.value, isItem v = true := by
  intro v hv
  obtain ⟨t, ht, rfl⟩ := List.mem_map.mp hv
  exact h t ((List.takeWhile_prefix cond).subset ht)

theorem ItemTokens_dropWhile {st : List Token} (cond : Token → Bool) (h : ItemTokens st) :
    ItemTokens (st.dropWhile cond) :=
  fun t ht => h t ((List.dropWhile_suffix cond).subset ht)

theorem convertToken_stepItems (token : Token) (out : Str) (st : List Token)
    (items : List Str) (ht : isItem token.value = true) (hst : ItemTokens st)
    (h : Tracked out items) :
    Tracked (convertToken token out st).1 (items ++ (stepItems token st).1) ∧
      (convertToken token out st).2 = (stepItems token st).2 := by
  have hp : ∀ cond : Token → Bool,
      Tracked (out ++ trail ((st.takeWhile cond).map Token.value))
        (items ++ (st.takeWhile cond).map Token.value) :=
    fun cond => Tracked_trail _ out items (ItemTokens_takeWhile cond hst) h
  obtain ⟨ty, v⟩ := token
  cases ty
  · exact ⟨Tracked_guarded out v items ht h, rfl⟩
  · simp only [convertToken, stepItems, popWhile_eq]
    exact ⟨hp _, by first | rfl | trivial⟩
  · exact ⟨by simpa [stepItems] using h, rfl⟩
  · exact ⟨by simpa [stepItems] using h, rfl⟩
  · exact ⟨by simpa [stepItems] using h, rfl⟩
  · exact ⟨Tracked_guarded out v items ht h, rfl⟩
  · exact ⟨by simpa [stepItems] using h, rfl⟩
  · simp only [convertToken, stepItems, popWhile_eq]
    have hd := ItemTokens_tail (ItemTokens_dropWhile (fun top => top.type != .LeftParen) hst)
    revert hd
    cases (st.dropWhile (fun top => top.type != TokenType.LeftParen)).tail with
    | nil => intro _; exact ⟨hp _, rfl⟩
    | cons top rest =>
      intro hd
      simp only
      by_cases hc : (top.type == TokenType.UnaryFunction ||
          top.type == TokenType.BinaryFunction) = true
      · simp only [if_pos hc]
        refine ⟨?_, by first | rfl | trivial⟩
        have := Tracked_plain _ top.value _ (hd top (by simp)) (hp (fun top => top.type != .LeftParen))
        simpa using this
      · simp only [if_neg hc]
        exact ⟨hp _, by first | rfl | trivial⟩
  · simp only [convertToken, stepItems, popWhile_eq]
    exact ⟨hp _, by first | rfl | trivial⟩
  · exact ⟨Tracked_guarded out (str "\x7b") items (by decide) h, rfl⟩
  · simp only [convertToken, stepItems, popWhile_eq]
    refine ⟨?_, by first | rfl | trivial⟩
    have := Tracked_plain _ (str "\x7d") _ (by decide) (hp (fun top => top.type != .ListStart))
    simpa [str_space, str_listEnd, show str " \x7d" = [32, 125] from by decide] using this

theorem stepItems_stack (token : Token) (st : List Token) :
    ∀ t ∈ (stepItems token st).2, t ∈ st ∨ (t = token ∧ isPushed token = true) := by
  have hd : ∀ (cond : Token → Bool) (t : Token), t ∈ st.dropWhile cond → t ∈ st :=
    fun cond t ht => (List.dropWhile_suffix cond).subset ht
  obtain ⟨ty, v⟩ := token
  intro t ht
  cases ty
  · exact Or.inl ht
  · simp only [stepItems, List.mem_cons] at ht
    rcases ht with rfl | ht
    · exact Or.inr ⟨rfl, rfl⟩
    · exact Or.inl (hd _ t ht)
  · simp only [stepItems, List.mem_cons] at ht
    rcases ht with rfl | ht
    · exact Or.inr ⟨rfl, rfl⟩
    · exact Or.inl ht
  · simp only [stepItems, List.mem_cons] at ht
    rcases ht with rfl | ht
    · exact Or.inr ⟨rfl, rfl⟩
    · exact Or.inl ht
  · simp only [stepItems, List.mem_cons] at ht
    rcases ht with rfl | ht
    · exact Or.inr ⟨rfl, rfl⟩
    · exact Or.inl ht
  · exact Or.inl ht
  · simp only [stepItems, List.mem_cons] at ht
    rcases ht with rfl | ht
    · exact Or.inr ⟨rfl, rfl⟩
    · exact Or.inl ht
  · left
    simp only [stepItems] at ht
    have hsub : ∀ x ∈ (st.dropWhile (fun top => top.type != TokenType.LeftParen)).tail,
        x ∈ st := fun x hx => hd _ x (List.mem_of_mem_tail hx)
    revert ht hsub
    cases (st.dropWhile (fun top => top.type != TokenType.LeftParen)).tail with
    | nil => intro ht _; simp at ht
    | cons top rest =>
      intro ht hsub
      simp only at ht
      by_cases hc : (top.type == TokenType.UnaryFunction ||
          top.type == TokenType.BinaryFunction) = true
      · rw [if_pos hc] at ht
        exact hsub t (List.mem_cons_of_mem _ ht)
      · rw [if_neg hc] at ht
        exact hsub t ht
  · exact Or.inl (hd _ t ht)
  · simp only [stepItems, List.mem_cons] at ht
    rcases ht with rfl | ht
    · exact Or.inr ⟨rfl, rfl⟩
    · exact Or.inl ht
  · exact Or.inl (hd _ t (List.mem_of_mem_tail ht))

theorem runItems_tracked : ∀ (tokens : List Token) (out : Str) (st : List Token)
    (items : List Str), ItemTokens tokens → ItemTokens st → Tracked out items →
    Tracked (convertTokens tokens out st).1 (runItems tokens items st).1 ∧
      (convertTokens tokens out st).2 = (runItems tokens items st).2 ∧
      ItemTokens (runItems tokens items st).2 := by
  intro tokens
  induction tokens with
  | nil => intro out st items _ hst h; exact ⟨h, rfl, hst⟩
  | cons t l ih =>
    intro out st items ht hst h
    obtain ⟨h1, h2⟩ := convertToken_stepItems t out st items (ht t (by simp)) hst h
    rw [convertTokens_cons, h2]
    have hst2 : ItemTokens (stepItems t st).2 := by
      intro x hx
      rcases stepItems_stack t st x hx with hx | ⟨rfl, _⟩
      · exact hst x hx
      · exact ht x (by simp)
    exact ih _ _ _ (fun x hx => ht x (by simp [hx])) hst2 h1

theorem takeWhile_always {α : Type} (l : List α) : l.takeWhile (fun _ => true) = l := by
  induction l with
  | nil => rfl
  | cons a l ih => rw [List.takeWhile_cons, if_pos rfl, ih]

theorem convert_tracked (tokens : List Token) (ht : ItemTokens tokens) :
    Tracked (convert tokens) (outputItems tokens) := by
  obtain ⟨h1, h2, h3⟩ := runItems_tracked tokens [] [] [] ht (by intro t ht; simp at ht)
    ⟨by simp, Or.inl rfl⟩
  unfold convert outputItems
  simp only [popWhile_eq, h2, takeWhile_always]
  have := Tracked_trail ((runItems tokens [] []).2.map Token.value) _ _
    (by
      intro v hv
      obtain ⟨t, ht, rfl⟩ := List.mem_map.mp hv
      exact h3 t ht) h1
  simpa using this

theorem infixToRPN_items (e : Str) (ts : List Token) (h : tokenize e = some ts) :
    infixToRPN e = some (convert ts) ∧ Tracked (convert ts) (outputItems ts) ∧
      splitTokens (convert ts) = some (outputItems ts) := by
  have ht := convert_tracked ts (tokenize_items e ts h)
  refine ⟨?_, ht, splitTokens_tracked _ _ ht⟩
  unfold infixToRPN
  rw [h]; rfl

theorem names_not_operand {v : Str}
    (h : isOperator v = true ∨ isUnaryFunction v = true ∨ isBinaryFunction v = true ∨
      isListFunction v = true) : isOperandText v = false := by
  have hc : isConstant v = false := by
    cases hc : isConstant v with
    | false => rfl
    | true =>
      obtain ⟨h1, h2, h3, h4⟩ := exclusive_constant hc
      rw [h1, h2, h3, h4] at h
      simp at h
  have hl : isNumberLiteral v = false := by
    rcases h with h | h | h | h
    · exact literal_keys.1 v (mem_keys_of_lookup v OPERATORS h)
    · exact literal_keys.2.1 v (mem_keys_of_lookup v UNARY_FUNCTIONS h)
    · exact literal_keys.2.2.1 v (mem_keys_of_lookup v BINARY_FUNCTIONS h)
    · exact literal_keys.2.2.2.1 v (mem_keys_of_lookup v LIST_FUNCTIONS h)
  simp [isOperandText, hc, hl]

theorem typed_operand (t : Token) (h : typedText t = true) :
    isOperandText t.value = isOperandToken t := by
  obtain ⟨ty, v⟩ := t
  cases ty
  · simp only [typedText] at h
    simp [isOperandText, isOperandToken, h]
  · simp only [typedText] at h
    rw [names_not_operand (Or.inl h)]; rfl
  · simp only [typedText] at h
    rw [names_not_operand (Or.inr (Or.inl h))]; rfl
  · simp only [typedText, Bool.and_eq_true] at h
    rw [names_not_operand (Or.inr (Or.inr (Or.inl h.1)))]; rfl
  · simp only [typedText, Bool.and_eq_true] at h
    rw [names_not_operand (Or.inr (Or.inr (Or.inr h.1)))]; rfl
  · simp only [typedText] at h
    simp [isOperandText, isOperandToken, h]
  all_goals
    simp only [typedText, beq_iff_eq] at h
    subst h
    decide

theorem stackTyped_not_operand {st : List Token} (hst : StackTyped st) :
    ∀ t ∈ st, isOperandText t.value = false := by
  intro t ht
  obtain ⟨h1, h2⟩ := hst t ht
  rw [typed_operand t h1]
  obtain ⟨ty, v⟩ := t
  revert h2
  cases ty <;> intro h2 <;> first | rfl | (simp [isPushed] at h2)

theorem filter_operands_stack {st : List Token} (hst : StackTyped st) (l : List Token)
    (hl : ∀ t ∈ l, t ∈ st) : (l.map Token.value).filter isOperandText = [] := by
  rw [List.filter_eq_nil_iff]
  intro v hv
  obtain ⟨t, ht, rfl⟩ := List.mem_map.mp hv
  rw [stackTyped_not_operand hst t (hl t ht)]
  simp

theorem stepItems_operands (token : Token) (st : List Token) (ht : typedText token = true)
    (hst : StackTyped st) :
    (stepItems token st).1.filter isOperandText =
      if isOperandToken token then [token.value] else [] := by
  have hpop : ∀ cond : Token → Bool,
      ((st.takeWhile cond).map Token.value).filter isOperandText = [] :=
    fun cond => filter_operands_stack hst _ (fun t h => (List.takeWhile_prefix cond).subset h)
  have hval := typed_operand token ht
  obtain ⟨ty, v⟩ := token
  cases ty
  · simp only [stepItems, List.filter_cons, List.filter_nil]
    simp only at hval
    rw [hval]
  · simp only [stepItems, hpop]; rfl
  · rfl
  · rfl
  · rfl
  · simp only [stepItems, List.filter_cons, List.filter_nil]
    simp only at hval
    rw [hval]
  · rfl
  · simp only [stepItems]
    have hsub : ∀ x ∈ (st.dropWhile (fun top => top.type != TokenType.LeftParen)).tail,
        x ∈ st := fun x hx => (List.dropWhile_suffix _).subset (List.mem_of_mem_tail hx)
    revert hsub
    cases (st.dropWhile (fun top => top.type != TokenType.LeftParen)).tail with
    | nil => intro _; simp only [hpop]; rfl
    | cons top rest =>
      intro hsub
      simp only
      by_cases hc : (top.type == TokenType.UnaryFunction ||
          top.type == TokenType.BinaryFunction) = true
      · rw [if_pos hc]
        simp only [List.filter_append, hpop, List.nil_append, List.filter_cons,
          List.filter_nil, stackTyped_not_operand hst top (hsub top (by simp))]
        rfl
      · rw [if_neg hc]
        simp only [hpop]; rfl
  · simp only [stepItems, hpop]; rfl
  · simp only [stepItems, List.filter_cons, List.filter_nil]
    rfl
  · simp only [stepItems, List.filter_append, hpop, List.nil_append, List.filter_cons,
      List.filter_nil]
    rfl

theorem stepItems_stackTyped (token : Token) (st : List Token) (ht : typedText token = true)
    (hst : StackTyped st) : StackTyped (stepItems token st).2 := by
  intro x hx
  rcases stepItems_stack token st x hx with hx | ⟨rfl, hp⟩
  · exact hst x hx
  · exact ⟨ht, hp⟩

theorem runItems_operands : ∀ (tokens : List Token) (items : List Str) (st : List Token),
    TypedTokens tokens → StackTyped st →
    (runItems tokens items st).1.filter isOperandText =
        items.filter isOperandText ++ (tokens.filter isOperandToken).map Token.value ∧
      StackTyped (runItems tokens items st).2 := by
  intro tokens
  induction tokens with
  | nil => intro items st _ hst; exact ⟨by simp [runItems], hst⟩
  | cons t l ih =>
    intro items st ht hst
    have h1 := stepItems_operands t st (ht t (by simp)) hst
    have h2 := stepItems_stackTyped t st (ht t (by simp)) hst
    obtain ⟨h3, h4⟩ := ih (items ++ (stepItems t st).1) (stepItems t st).2
      (fun x hx => ht x (by simp [hx])) h2
    refine ⟨?_, h4⟩
    rw [runItems, h3, List.filter_append, h1, List.filter_cons]
    by_cases hc : isOperandToken t = true
    · simp [hc]
    · simp [hc]

theorem outputItems_operands (tokens : List Token) (ht : TypedTokens tokens) :
    (outputItems tokens).filter isOperandText =
      (tokens.filter isOperandToken).map Token.value := by
  obtain ⟨h1, h2⟩ := runItems_operands tokens [] [] ht (by intro t ht; simp at ht)
  unfold outputItems
  rw [List.filter_append, h1, filter_operands_stack h2 _ (fun t h => h)]
  simp

theorem typed_punct (t : Token) (h : typedText t = true) :
    (t.value = str "(" → t.type = .LeftParen) ∧ (t.value = str ")" → t.type = .RightParen) ∧
      (t.value = str "," → t.type = .Comma) ∧ (t.value = str "\x7b" → t.type = .ListStart) ∧
      (t.value = str "\x7d" → t.type = .ListEnd) := by
  obtain ⟨ty, v⟩ := t
  refine ⟨?_, ?_, ?_, ?_, ?_⟩
  all_goals
    intro hv
    simp only at hv
    subst hv
    revert h
    cases ty <;> decide

theorem stepItems_provenance (token : Token) (st : List Token) :
    ∀ w ∈ (stepItems token st).1,
      (w = token.value ∧ isOperandToken token = true) ∨ (∃ t ∈ st, w = t.value) ∨
        (w = str "\x7b" ∧ token.type = .ListStart) ∨
        (w = str "\x7d" ∧ token.type = .ListEnd) := by
  have hpop : ∀ (cond : Token → Bool) (w : Str),
      w ∈ (st.takeWhile cond).map Token.value → ∃ t ∈ st, w = t.value := by
    intro cond w hw
    obtain ⟨t, ht, rfl⟩ := List.mem_map.mp hw
    exact ⟨t, (List.takeWhile_prefix cond).subset ht, rfl⟩
  obtain ⟨ty, v⟩ := token
  intro w hw
  cases ty
  · simp only [stepItems, List.mem_singleton] at hw
    exact Or.inl ⟨hw, rfl⟩
  · exact Or.inr (Or.inl (hpop _ w hw))
  · simp [stepItems] at hw
  · simp [stepItems] at hw
  · simp [stepItems] at hw
  · simp only [stepItems, List.mem_singleton] at hw
    exact Or.inl ⟨hw, rfl⟩
  · simp [stepItems] at hw
  · right; left
    simp only [stepItems] at hw
    have hsub : ∀ x ∈ (st.dropWhile (fun top => top.type != TokenType.LeftParen)).tail,
        x ∈ st := fun x hx => (List.dropWhile_suffix _).subset (List.mem_of_mem_tail hx)
    revert hw hsub
    cases (st.dropWhile (fun top => top.type != TokenType.LeftParen)).tail with
    | nil => intro hw _; exact hpop _ w hw
    | cons top rest =>
      intro hw hsub
      simp only at hw
      by_cases hc : (top.type == TokenType.UnaryFunction ||
          top.type == TokenType.BinaryFunction) = true
      · rw [if_pos hc] at hw
        rcases List.mem_append.mp hw with hw | hw
        · exact hpop _ w hw
        · exact ⟨top, hsub top (by simp), List.mem_singleton.mp hw⟩
      · rw [if_neg hc] at hw
        exact hpop _ w hw
  · exact Or.inr (Or.inl (hpop _ w hw))
  · simp only [stepItems, List.mem_singleton] at hw
    exact Or.inr (Or.inr (Or.inl ⟨hw, rfl⟩))
  · simp only [stepItems, List.mem_append, List.mem_singleton] at hw
    rcases hw with hw | hw
    · exact Or.inr (Or.inl (hpop _ w hw))
    · exact Or.inr (Or.inr (Or.inr ⟨hw, rfl⟩))

theorem stack_value_open {st : List Token} (hst : StackTyped st) :
    ∀ t ∈ st, t.value ≠ str ")" ∧ t.value ≠ str "," ∧ t.value ≠ str "\x7d" := by
  intro t ht
  obtain ⟨h1, h2⟩ := hst t ht
  obtain ⟨_, p2, p3, _, p5⟩ := typed_punct t h1
  refine ⟨fun hv => ?_, fun hv => ?_, fun hv => ?_⟩
  · have := p2 hv; rw [isPushed, this] at h2; exact absurd h2 (by decide)
  · have := p3 hv; rw [isPushed, this] at h2; exact absurd h2 (by decide)
  · have := p5 hv; rw [isPushed, this] at h2; exact absurd h2 (by decide)

theorem operand_value_plain (t : Token) (h : typedText t = true)
    (ho : isOperandToken t = true) :
    t.value ≠ str "(" ∧ t.value ≠ str ")" ∧ t.value ≠ str "," ∧ t.value ≠ str "\x7b" ∧
      t.value ≠ str "\x7d" := by
  obtain ⟨p1, p2, p3, p4, p5⟩ := typed_punct t h
  refine ⟨fun hv => ?_, fun hv => ?_, fun hv => ?_, fun hv => ?_, fun hv => ?_⟩
  · have := p1 hv; rw [isOperandToken, this] at ho; exact absurd ho (by decide)
  · have := p2 hv; rw [isOperandToken, this] at ho; exact absurd ho (by decide)
  · have := p3 hv; rw [isOperandToken, this] at ho; exact absurd ho (by decide)
  · have := p4 hv; rw [isOperandToken, this] at ho; exact absurd ho (by decide)
  · have := p5 hv; rw [isOperandToken, this] at ho; exact absurd ho (by decide)

theorem stepItems_no_closer (token : Token) (st : List Token) (ht : typedText token = true)
    (hst : StackTyped st) :
    ∀ w ∈ (stepItems token st).1, w ≠ str ")" ∧ w ≠ str "," := by
  intro w hw
  rcases stepItems_provenance token st w hw with ⟨rfl, ho⟩ | ⟨t, hts, rfl⟩ | ⟨rfl, _⟩ | ⟨rfl, _⟩
  · have := operand_value_plain token ht ho
    exact ⟨this.2.1, this.2.2.1⟩
  · have := stack_value_open hst t hts
    exact ⟨this.1, this.2.1⟩
  · exact ⟨by decide, by decide⟩
  · exact ⟨by decide, by decide⟩

theorem runItems_no_closer : ∀ (tokens : List Token) (items : List Str) (st : List Token),
    TypedTokens tokens → StackTyped st → (∀ w ∈ items, w ≠ str ")" ∧ w ≠ str ",") →
    ∀ w ∈ (runItems tokens items st).1, w ≠ str ")" ∧ w ≠ str "," := by
  intro tokens
  induction tokens with
  | nil => intro items st _ _ h; exact h
  | cons t l ih =>
    intro items st ht hst h
    rw [runItems]
    refine ih _ _ (fun x hx => ht x (by simp [hx]))
      (stepItems_stackTyped t st (ht t (by simp)) hst) ?_
    intro w hw
    rcases List.mem_append.mp hw with hw | hw
    · exact h w hw
    · exact stepItems_no_closer t st (ht t (by simp)) hst w hw

theorem outputItems_no_closer (tokens : List Token) (ht : TypedTokens tokens) :
    ∀ w ∈ outputItems tokens, w ≠ str ")" ∧ w ≠ str "," := by
  intro w hw
  unfold outputItems at hw
  rcases List.mem_append.mp hw with hw | hw
  · exact runItems_no_closer tokens [] [] ht (by intro t ht; simp at ht) (by simp) w hw
  · obtain ⟨t, hts, rfl⟩ := List.mem_map.mp hw
    have := stack_value_open
      (runItems_operands tokens [] [] ht (by intro t ht; simp at ht)).2 t hts
    exact ⟨this.1, this.2.1⟩

theorem nonbracket_plain {st : List Token} (hst : StackTyped st) (t : Token) (ht : t ∈ st)
    (hb : isBracket t = false) : isPlainItem t.value = true := by
  obtain ⟨h1, h2⟩ := hst t ht
  obtain ⟨p1, _, _, p4, _⟩ := typed_punct t h1
  have h3 := (stack_value_open hst t ht).2.2
  simp only [isPlainItem, Bool.and_eq_true, bne_iff_ne, ne_eq]
  refine ⟨⟨fun hv => ?_, fun hv => ?_⟩, h3⟩
  · have := p1 hv; rw [isBracket, this] at hb; exact absurd hb (by decide)
  · have := p4 hv; rw [isBracket, this] at hb; exact absurd hb (by decide)

theorem operand_plain (t : Token) (h : typedText t = true) (ho : isOperandToken t = true) :
    isPlainItem t.value = true := by
  have := operand_value_plain t h ho
  simp only [isPlainItem, Bool.and_eq_true, bne_iff_ne, ne_eq]
  exact ⟨⟨this.1, this.2.2.2.1⟩, this.2.2.2.2⟩

theorem takeWhile_nonbracket (cond : Token → Bool)
    (hc : ∀ t, cond t = true → isBracket t = false) (st : List Token) :
    (∀ t ∈ st.takeWhile cond, isBracket t = false) ∧
      (st.dropWhile cond).filter isBracket = st.filter isBracket := by
  induction st with
  | nil => simp
  | cons t st ih =>
    by_cases h : cond t = true
    · rw [List.takeWhile_cons, List.dropWhile_cons, if_pos h, if_pos h, List.filter_cons,
        hc t h]
      refine ⟨?_, by simpa using ih.2⟩
      intro x hx
      rcases List.mem_cons.mp hx with rfl | hx
      · exact hc x h
      · exact ih.1 x hx
    · rw [List.takeWhile_cons, List.dropWhile_cons, if_neg h, if_neg h]
      exact ⟨by simp, rfl⟩

theorem first_bracket (B : TokenType) (hB : B = .LeftParen ∨ B = .ListStart) :
    ∀ (st : List Token) (o : List TokenType),
      (st.filter isBracket).map Token.type = B :: o →
      (∀ t ∈ st.takeWhile (fun top => top.type != B), isBracket t = false) ∧
        ∃ lp post, st.dropWhile (fun top => top.type != B) = lp :: post ∧
          (post.filter isBracket).map Token.type = o := by
  intro st
  induction st with
  | nil => intro o h; simp at h
  | cons t st ih =>
    intro o h
    by_cases hb : isBracket t = true
    · rw [List.filter_cons, if_pos hb, List.map_cons, List.cons.injEq] at h
      have hc : (t.type != B) = false := by rw [h.1]; simp
      rw [List.takeWhile_cons, List.dropWhile_cons, hc]
      exact ⟨by simp, t, st, rfl, h.2⟩
    · rw [Bool.not_eq_true] at hb
      rw [List.filter_cons, hb] at h
      simp only [Bool.false_eq_true, if_false] at h
      have hc : (t.type != B) = true := by
        rw [bne_iff_ne]
        intro e
        rw [isBracket, e] at hb
        rcases hB with rfl | rfl <;> exact absurd hb (by decide)
      obtain ⟨h1, lp, post, h2, h3⟩ := ih o h
      rw [List.takeWhile_cons, List.dropWhile_cons, hc]
      refine ⟨?_, lp, post, h2, h3⟩
      intro x hx
      rcases List.mem_cons.mp hx with rfl | hx
      · exact hb
      · exact h1 x hx

theorem popped_plain {st : List Token} (hst : StackTyped st) (l : List Token)
    (hl : ∀ t ∈ l, t ∈ st) (hb : ∀ t ∈ l, isBracket t = false) :
    ∀ w ∈ l.map Token.value, isPlainItem w = true := by
  intro w hw
  obtain ⟨t, ht, rfl⟩ := List.mem_map.mp hw
  exact nonbracket_plain hst t (hl t ht) (hb t ht)

theorem operatorPops_nonbracket (token : Token) :
    ∀ t, operatorPops token t = true → isBracket t = false := by
  intro t h
  simp only [operatorPops, Bool.and_eq_true, bne_iff_ne, ne_eq] at h
  simp [isBracket, h.1.1, h.1.2]

theorem commaPops_nonbracket :
    ∀ t : Token, (t.type != .LeftParen && t.type != .ListStart) = true →
      isBracket t = false := by
  intro t h
  simp only [Bool.and_eq_true, bne_iff_ne, ne_eq] at h
  simp [isBracket, h.1, h.2]

theorem stepItems_balanced (token : Token) (st : List Token) (opened opened1 : List TokenType)
    (ht : typedText token = true) (hst : StackTyped st)
    (hb : (st.filter isBracket).map Token.type = opened)
    (hs : bracketStep token opened = some opened1) :
    ((stepItems token st).2.filter isBracket).map Token.type = opened1 ∧
      ∃ P : List Str, (∀ w ∈ P, isPlainItem w = true) ∧
        (stepItems token st).1 = P ++ braceItem token := by
  have htake : ∀ cond : Token → Bool, ∀ t ∈ st.takeWhile cond, t ∈ st :=
    fun cond t h => (List.takeWhile_prefix cond).subset h
  have hdrop : ∀ cond : Token → Bool, ∀ t ∈ st.dropWhile cond, t ∈ st :=
    fun cond t h => (List.dropWhile_suffix cond).subset h
  obtain ⟨ty, v⟩ := token
  cases ty
  · simp only [bracketStep, Option.some.injEq] at hs
    subst hs
    refine ⟨hb, [v], ?_, rfl⟩
    intro w hw
    rw [List.mem_singleton.mp hw]
    exact operand_plain ⟨.Number, v⟩ ht rfl
  · simp only [bracketStep, Option.some.injEq] at hs
    subst hs
    obtain ⟨h1, h2⟩ := takeWhile_nonbracket (operatorPops ⟨.Operator, v⟩)
      (operatorPops_nonbracket _) st
    refine ⟨?_, _, popped_plain hst _ (htake _) h1, (List.append_nil _).symm⟩
    simp only [stepItems]
    rw [List.filter_cons, if_neg (by simp [isBracket]), h2, hb]
  · simp only [bracketStep, Option.some.injEq] at hs
    subst hs
    refine ⟨?_, [], by simp, rfl⟩
    simp only [stepItems]
    rw [List.filter_cons, if_neg (by simp [isBracket]), hb]
  · simp only [bracketStep, Option.some.injEq] at hs
    subst hs
    refine ⟨?_, [], by simp, rfl⟩
    simp only [stepItems]
    rw [List.filter_cons, if_neg (by simp [isBracket]), hb]
  · simp only [bracketStep, Option.some.injEq] at hs
    subst hs
    refine ⟨?_, [], by simp, rfl⟩
    simp only [stepItems]
    rw [List.filter_cons, if_neg (by simp [isBracket]), hb]
  · simp only [bracketStep, Option.some.injEq] at hs
    subst hs
    refine ⟨hb, [v], ?_, rfl⟩
    intro w hw
    rw [List.mem_singleton.mp hw]
    exact operand_plain ⟨.Constant, v⟩ ht rfl
  · simp only [bracketStep, Option.some.injEq] at hs
    subst hs
    refine ⟨?_, [], by simp, rfl⟩
    simp only [stepItems]
    rw [List.filter_cons, if_pos (by simp [isBracket]), List.map_cons, hb]
  · have ho : opened = .LeftParen :: opened1 := by
      cases opened with
      | nil => simp [bracketStep] at hs
      | cons B o =>
        cases B <;> simp [bracketStep] at hs
        rw [hs]
    rw [ho] at hb
    obtain ⟨h1, lp, post, h2, h3⟩ := first_bracket .LeftParen (Or.inl rfl) st opened1 hb
    have hpost : ∀ t ∈ post, t ∈ st := fun t h =>
      hdrop (fun top => top.type != .LeftParen) t (by rw [h2]; exact List.mem_cons_of_mem _ h)
    have hP := popped_plain hst _ (htake (fun top => top.type != .LeftParen)) h1
    simp only [stepItems, h2, List.tail_cons]
    cases post with
    | nil =>
      simp only [List.filter_nil, List.map_nil] at h3
      exact ⟨by rw [← h3]; rfl, _, hP, (List.append_nil _).symm⟩
    | cons top rest =>
      simp only
      by_cases hc : (top.type == TokenType.UnaryFunction ||
          top.type == TokenType.BinaryFunction) = true
      · rw [if_pos hc]
        have hnb : isBracket top = false := by
          simp only [Bool.or_eq_true, beq_iff_eq] at hc
          rcases hc with hc | hc <;> simp [isBracket, hc]
        rw [List.filter_cons, hnb] at h3
        simp only [Bool.false_eq_true, if_false] at h3
        refine ⟨h3, _, ?_, (List.append_nil _).symm⟩
        intro w hw
        rcases List.mem_append.mp hw with hw | hw
        · exact hP w hw
        · rw [List.mem_singleton.mp hw]
          exact nonbracket_plain hst top (hpost top (by simp)) hnb
      · rw [if_neg hc]
        exact ⟨h3, _, hP, (List.append_nil _).symm⟩
  · simp only [bracketStep, Option.some.injEq] at hs
    subst hs
    obtain ⟨h1, h2⟩ := takeWhile_nonbracket
      (fun top => top.type != .LeftParen && top.type != .ListStart) commaPops_nonbracket st
    refine ⟨?_, _, popped_plain hst _ (htake _) h1, (List.append_nil _).symm⟩
    simp only [stepItems]
    rw [h2, hb]
  · simp only [bracketStep, Option.some.injEq] at hs
    subst hs
    refine ⟨?_, [], by simp, rfl⟩
    simp only [stepItems]
    rw [List.filter_cons, if_pos (by simp [isBracket]), List.map_cons, hb]
  · have ho : opened = .ListStart :: opened1 := by
      cases opened with
      | nil => simp [bracketStep] at hs
      | cons B o =>
        cases B <;> simp [bracketStep] at hs
        rw [hs]
    rw [ho] at hb
    obtain ⟨h1, lp, post, h2, h3⟩ := first_bracket .ListStart (Or.inr rfl) st opened1 hb
    have hP := popped_plain hst _ (htake (fun top => top.type != .ListStart)) h1
    simp only [stepItems, h2, List.tail_cons]
    exact ⟨h3, _, hP, rfl⟩

theorem count_plain_items (P : List Str) (hP : ∀ w ∈ P, isPlainItem w = true) :
    P.count (str "(") = 0 ∧ P.count (str "\x7b") = 0 ∧ P.count (str "\x7d") = 0 := by
  refine ⟨List.count_eq_zero.mpr fun hm => ?_, List.count_eq_zero.mpr fun hm => ?_,
    List.count_eq_zero.mpr fun hm => ?_⟩
  · exact absurd (hP _ hm) (by decide)
  · exact absurd (hP _ hm) (by decide)
  · exact absurd (hP _ hm) (by decide)

theorem count_braceItem (t : Token) :
    (braceItem t).count (str "(") = 0 ∧
      (braceItem t).count (str "\x7b") = (if t.type == .ListStart then 1 else 0) ∧
      (braceItem t).count (str "\x7d") = (if t.type == .ListEnd then 1 else 0) := by
  obtain ⟨ty, v⟩ := t
  cases ty <;> exact ⟨by rfl, by rfl, by rfl⟩

theorem runItems_balanced : ∀ (tokens : List Token) (items : List Str) (st : List Token)
    (opened final : List TokenType), TypedTokens tokens → StackTyped st →
    (st.filter isBracket).map Token.type = opened → bracketRun tokens opened = some final →
    (((runItems tokens items st).2.filter isBracket).map Token.type = final ∧
      StackTyped (runItems tokens items st).2) ∧
      (runItems tokens items st).1.count (str "(") = items.count (str "(") ∧
      (runItems tokens items st).1.count (str "\x7b") =
        items.count (str "\x7b") + tokens.countP (fun t => t.type == .ListStart) ∧
      (runItems tokens items st).1.count (str "\x7d") =
        items.count (str "\x7d") + tokens.countP (fun t => t.type == .ListEnd) := by
  intro tokens
  induction tokens with
  | nil =>
    intro items st opened final _ hst hb hr
    simp only [bracketRun, Option.some.injEq] at hr
    subst hr
    exact ⟨⟨hb, hst⟩, by simp [runItems]⟩
  | cons t l ih =>
    intro items st opened final ht hst hb hr
    rw [bracketRun] at hr
    cases hs : bracketStep t opened with
    | none => rw [hs] at hr; exact absurd hr (by simp)
    | some o =>
      rw [hs] at hr
      simp only at hr
      obtain ⟨h1, P, hP, hitems⟩ := stepItems_balanced t st opened o (ht t (by simp)) hst hb hs
      obtain ⟨h2, h3, h4, h5⟩ := ih (items ++ (stepItems t st).1) (stepItems t st).2 o final
        (fun x hx => ht x (by simp [hx])) (stepItems_stackTyped t st (ht t (by simp)) hst)
        h1 hr
      obtain ⟨c1, c2, c3⟩ := count_plain_items P hP
      obtain ⟨b1, b2, b3⟩ := count_braceItem t
      rw [runItems]
      refine ⟨h2, ?_, ?_, ?_⟩
      · rw [h3, hitems, List.count_append, List.count_append, c1, b1]
        omega
      · rw [h4, hitems, List.count_append, List.count_append, c2, b2, List.countP_cons]
        omega
      · rw [h5, hitems, List.count_append, List.count_append, c3, b3, List.countP_cons]
        omega

theorem bracketRun_counts : ∀ (tokens : List Token) (opened final : List TokenType),
    bracketRun tokens opened = some final →
    tokens.countP (fun t => t.type == .ListStart) + opened.count .ListStart =
      tokens.countP (fun t => t.type == .ListEnd) + final.count .ListStart := by
  intro tokens
  induction tokens with
  | nil =>
    intro opened final hr
    simp only [bracketRun, Option.some.injEq] at hr
    subst hr
    simp
  | cons t l ih =>
    intro opened final hr
    rw [bracketRun] at hr
    cases hs : bracketStep t opened with
    | none => rw [hs] at hr; exact absurd hr (by simp)
    | some o =>
      rw [hs] at hr
      simp only at hr
      have := ih o final hr
      rw [List.countP_cons, List.countP_cons]
      obtain ⟨ty, v⟩ := t
      cases ty
      case RightParen =>
        cases opened with
        | nil => simp [bracketStep] at hs
        | cons B o2 =>
          cases B <;> simp [bracketStep] at hs
          subst hs
          simp only [List.count_cons] at this ⊢
          simpa using this
      case ListEnd =>
        cases opened with
        | nil => simp [bracketStep] at hs
        | cons B o2 =>
          cases B <;> simp [bracketStep] at hs
          subst hs
          simp only [List.count_cons] at this ⊢
          simp at this ⊢
          omega
      case LeftParen =>
        simp only [bracketStep, Option.some.injEq] at hs
        subst hs
        simp only [List.count_cons] at this
        simpa using this
      case ListStart =>
        simp only [bracketStep, Option.some.injEq] at hs
        subst hs
        simp only [List.count_cons] at this
        simp at this ⊢
        omega
      all_goals
        simp only [bracketStep, Option.some.injEq] at hs
        subst hs
        simpa using this

theorem outputItems_balanced (tokens : List Token) (ht : TypedTokens tokens)
    (hb : balanced tokens = true) :
    (∀ w ∈ outputItems tokens, w ≠ str "(") ∧
      (outputItems tokens).count (str "\x7b") =
        tokens.countP (fun t => t.type == .ListStart) ∧
      (outputItems tokens).count (str "\x7d") =
        tokens.countP (fun t => t.type == .ListEnd) ∧
      tokens.countP (fun t => t.type == .ListStart) =
        tokens.countP (fun t => t.type == .ListEnd) := by
  have hr : bracketRun tokens [] = some [] := by simpa [balanced] using hb
  obtain ⟨⟨h1, h2⟩, h3, h4, h5⟩ := runItems_balanced tokens [] [] [] [] ht
    (by intro t ht; simp at ht) rfl hr
  have hnb : ∀ t ∈ (runItems tokens [] []).2, isBracket t = false := by
    intro t hm
    by_contra hc
    rw [Bool.not_eq_false] at hc
    have : t ∈ (runItems tokens [] []).2.filter isBracket := List.mem_filter.mpr ⟨hm, hc⟩
    rw [List.map_eq_nil_iff.mp h1] at this
    simp at this
  obtain ⟨c1, c2, c3⟩ := count_plain_items _
    (popped_plain h2 (runItems tokens [] []).2 (fun t h => h) hnb)
  have hcount := bracketRun_counts tokens [] [] hr
  simp only [List.count_nil, Nat.add_zero] at hcount
  unfold outputItems
  refine ⟨?_, ?_, ?_, hcount⟩
  · intro w hw hv
    subst hv
    have : (runItems tokens [] []).1.count (str "(") +
        ((runItems tokens [] []).2.map Token.value).count (str "(") = 0 := by
      rw [h3, c1]; rfl
    rw [← List.count_append] at this
    exact List.count_eq_zero.mp this hw
  · rw [List.count_append, h4, c2]; simp
  · rw [List.count_append, h5, c3]; simp

/-- C31: stack safety on well-formed RPN. For every expression tree `t` over number
literals, constants, operators and unary/binary function calls, and every initial stack
`s`, the evaluator run on the post-order token sequence of `t` either stops at a literal
that `std::stod` rejects or ends with exactly one value pushed on `s`, and the renderer
ends with exactly one text pushed on `s`: neither pops from an empty stack, and from the
empty stack the final stack holds exactly one value. -/
theorem C31_stack_safety {F : Type} (A : Arith F) (t : Expr) (h : t.wfOperands = true) :
    (∀ s : List F, evalTokens A (postorder t) s = .error .invalidNumber ∨
        ∃ v, evalTokens A (postorder t) s = .ok (v :: s)) ∧
      (∀ s : List Str, ∃ x, renderTokens (postorder t) s = .ok (x :: s)) ∧
      (calculateRPN A (joinSpaces (postorder t)) = .error .invalidNumber ∨
        ∃ v, evalTokens A (postorder t) [] = .ok [v] ∧
          calculateRPN A (joinSpaces (postorder t)) = .ok v) ∧
      (∃ x, renderTokens (postorder t) [] = .ok [x] ∧
        rpnToInfix (joinSpaces (postorder t)) = .ok x) := by
  have he : ∀ s : List F, evalTokens A (postorder t) s = .error .invalidNumber ∨
      ∃ v, evalTokens A (postorder t) s = .ok (v :: s) := by
    intro s
    have := evalTokens_safe A t h [] s
    rw [List.append_nil] at this
    exact this
  have hr : ∀ s : List Str, ∃ x, renderTokens (postorder t) s = .ok (x :: s) := by
    intro s
    have := renderTokens_safe t h [] s
    rw [List.append_nil] at this
    exact this
  have hs := splitTokens_joinSpaces (postorder t) (postorder_operand_items t h)
  refine ⟨he, hr, ?_, ?_⟩
  · unfold calculateRPN
    rw [hs]
    simp only
    rcases he [] with h1 | ⟨v, h1⟩
    · rw [h1]; exact Or.inl rfl
    · rw [h1]; exact Or.inr ⟨v, rfl, rfl⟩
  · obtain ⟨x, hx⟩ := hr []
    refine ⟨x, hx, ?_⟩
    unfold rpnToInfix
    rw [hs]
    simp only
    rw [hx]

theorem C31_stack_safety_witness :
    constantExample.wfOperands = true ∧
      joinSpaces (postorder constantExample) = str "pi 1 2 max +" ∧
      (∃ x, renderTokens (postorder constantExample) [] = .ok [x] ∧
        rpnToInfix (str "pi 1 2 max +") = .ok x) ∧
      (calculateRPN ratArith (str "pi 1 2 max +") = .error .invalidNumber ∨
        ∃ v, evalTokens ratArith (postorder constantExample) [] = .ok [v] ∧
          calculateRPN ratArith (str "pi 1 2 max +") = .ok v) := by
  have hj : joinSpaces (postorder constantExample) = str "pi 1 2 max +" := by decide
  have h := C31_stack_safety ratArith constantExample (by decide)
  rw [hj] at h
  exact ⟨by decide, hj, h.2.2.2, h.2.2.1⟩

/-- C32: operand order is preserved by the converter. For every input on which
`tokenize` returns, `infixToRPN` returns a text made of items separated by single spaces
(possibly after one leading space), the whitespace splitter returns these items, and the
items that are number literals or constant names are exactly the texts of the Number and
Constant tokens of `tokenize e`, in the same order: no operand is dropped, duplicated or
reordered. -/
theorem C32_operand_order (e : Str) (ts : List Token) (h : tokenize e = some ts) :
    ∃ (out : Str) (items : List Str), infixToRPN e = some out ∧
      (out = joinSpaces items ∨ out = str " " ++ joinSpaces items) ∧
      splitTokens out = some items ∧
      items.filter isOperandText = (ts.filter isOperandToken).map Token.value := by
  obtain ⟨h1, h2, h3⟩ := infixToRPN_items e ts h
  refine ⟨convert ts, outputItems ts, h1, ?_, h3, outputItems_operands ts (tokenize_typed e ts h)⟩
  rcases h2.2 with h4 | ⟨_, h4⟩
  · exact Or.inl h4
  · exact Or.inr h4

theorem C32_operand_order_witness :
    tokenize (str "(1 + pi) * max(2, -3)") =
        some [⟨.LeftParen, str "("⟩, ⟨.Number, str "1"⟩, ⟨.Operator, str "+"⟩,
          ⟨.Constant, str "pi"⟩, ⟨.RightParen, str ")"⟩, ⟨.Operator, str "*"⟩,
          ⟨.BinaryFunction, str "max"⟩, ⟨.LeftParen, str "("⟩, ⟨.Number, str "2"⟩,
          ⟨.Comma, str ","⟩, ⟨.Number, str "-3"⟩, ⟨.RightParen, str ")"⟩] ∧
      infixToRPN (str "(1 + pi) * max(2, -3)") = some (str "1 pi + 2 -3 max *") ∧
      ∃ (out : Str) (items : List Str), infixToRPN (str "(1 + pi) * max(2, -3)") = some out ∧
        (out = joinSpaces items ∨ out = str " " ++ joinSpaces items) ∧
        splitTokens out = some items ∧
        items.filter isOperandText = [str "1", str "pi", str "2", str "-3"] := by
  have ht : tokenize (str "(1 + pi) * max(2, -3)") =
      some [⟨.LeftParen, str "("⟩, ⟨.Number, str "1"⟩, ⟨.Operator, str "+"⟩,
        ⟨.Constant, str "pi"⟩, ⟨.RightParen, str ")"⟩, ⟨.Operator, str "*"⟩,
        ⟨.BinaryFunction, str "max"⟩, ⟨.LeftParen, str "("⟩, ⟨.Number, str "2"⟩,
        ⟨.Comma, str ","⟩, ⟨.Number, str "-3"⟩, ⟨.RightParen, str ")"⟩] := by decide
  exact ⟨ht, by decide, C32_operand_order _ _ ht⟩

/-- C33: bracket tokens in converter output. For every input on which `tokenize`
returns, the output of `infixToRPN` is made of items separated by single spaces, none of
which is `)` or `,`; when the parentheses and braces of the token sequence are properly
nested and matched, no item is `(` and the output has exactly as many `{` items and as
many `}` items as the input has ListStart tokens (one per list literal). An unmatched
`(` or `{` is emitted when the stack is drained. -/
theorem C33_brackets (e : Str) (ts : List Token) (h : tokenize e = some ts) :
    (∃ (out : Str) (items : List Str), infixToRPN e = some out ∧
      (out = joinSpaces items ∨ out = str " " ++ joinSpaces items) ∧
      splitTokens out = some items ∧
      (∀ w ∈ items, w ≠ str ")" ∧ w ≠ str ",") ∧
      (balanced ts = true →
        (∀ w ∈ items, w ≠ str "(") ∧
          items.count (str "\x7b") = ts.countP (fun t => t.type == .ListStart) ∧
          items.count (str "\x7d") = ts.countP (fun t => t.type == .ListStart) ∧
          ts.countP (fun t => t.type == .ListStart) =
            ts.countP (fun t => t.type == .ListEnd))) ∧
      infixToRPN (str "( 1") = some (str "1 (") ∧
      infixToRPN (str "\x7b 1") = some (str "\x7b 1 \x7b") := by
  refine ⟨?_, by decide, by decide⟩
  obtain ⟨h1, h2, h3⟩ := infixToRPN_items e ts h
  have ht := tokenize_typed e ts h
  refine ⟨convert ts, outputItems ts, h1, ?_, h3, outputItems_no_closer ts ht, ?_⟩
  · rcases h2.2 with h4 | ⟨_, h4⟩
    · exact Or.inl h4
    · exact Or.inr h4
  · intro hb
    obtain ⟨b1, b2, b3, b4⟩ := outputItems_balanced ts ht hb
    exact ⟨b1, b2, by rw [b3, b4], b4⟩

theorem C33_brackets_witness :
    tokenize (str "max(\x7b 1, 2 \x7d sum, (3 + 4) * 5)") =
        some [⟨.BinaryFunction, str "max"⟩, ⟨.LeftParen, str "("⟩, ⟨.ListStart, str "\x7b"⟩,
          ⟨.Number, str "1"⟩, ⟨.Comma, str ","⟩, ⟨.Number, str "2"⟩, ⟨.ListEnd, str "\x7d"⟩,
          ⟨.ListFunction, str "sum"⟩, ⟨.Comma, str ","⟩, ⟨.LeftParen, str "("⟩,
          ⟨.Number, str "3"⟩, ⟨.Operator, str "+"⟩, ⟨.Number, str "4"⟩,
          ⟨.RightParen, str ")"⟩, ⟨.Operator, str "*"⟩, ⟨.Number, str "5"⟩,
          ⟨.RightParen, str ")"⟩] ∧
      infixToRPN (str "max(\x7b 1, 2 \x7d sum, (3 + 4) * 5)") =
        some (str "\x7b 1 2 \x7d sum 3 4 + 5 * max") ∧
      ∃ (out : Str) (items : List Str),
        infixToRPN (str "max(\x7b 1, 2 \x7d sum, (3 + 4) * 5)") = some out ∧
        splitTokens out = some items ∧
        (∀ w ∈ items, w ≠ str ")" ∧ w ≠ str ",") ∧ (∀ w ∈ items, w ≠ str "(") ∧
        items.count (str "\x7b") = 1 ∧ items.count (str "\x7d") = 1 := by
  have ht : tokenize (str "max(\x7b 1, 2 \x7d sum, (3 + 4) * 5)") =
      some [⟨.BinaryFunction, str "max"⟩, ⟨.LeftParen, str "("⟩, ⟨.ListStart, str "\x7b"⟩,
        ⟨.Number, str "1"⟩, ⟨.Comma, str ","⟩, ⟨.Number, str "2"⟩, ⟨.ListEnd, str "\x7d"⟩,
        ⟨.ListFunction, str "sum"⟩, ⟨.Comma, str ","⟩, ⟨.LeftParen, str "("⟩,
        ⟨.Number, str "3"⟩, ⟨.Operator, str "+"⟩, ⟨.Number, str "4"⟩,
        ⟨.RightParen, str ")"⟩, ⟨.Operator, str "*"⟩, ⟨.Number, str "5"⟩,
        ⟨.RightParen, str ")"⟩] := by decide
  obtain ⟨out, items, h1, _, h3, h4, h5⟩ := (C33_brackets _ _ ht).1
  obtain ⟨b1, b2, b3, _⟩ := h5 (by decide)
  exact ⟨ht, by decide, out, items, h1, h3, h4, b1, b2, b3⟩

/-- C34: the key sets of the five symbol tables are pairwise disjoint. Every string
satisfies at most one of `isOperator`, `isUnaryFunction`, `isBinaryFunction`,
`isListFunction`, `isConstant`; so membership in a table alone fixes how the tokenizer
classifies an identifier or a multi-byte code point and which case of the evaluator
handles a token, whatever the order in which the tables are consulted. -/
theorem C34_tables_disjoint (s : Str) :
    (isOperator s).toNat + (isUnaryFunction s).toNat + (isBinaryFunction s).toNat +
        (isListFunction s).toNat + (isConstant s).toNat ≤ 1 ∧
      (∀ a ∈ OPERATORS.map Prod.fst, ∀ b ∈ UNARY_FUNCTIONS.map Prod.fst, a ≠ b) ∧
      (∀ a ∈ OPERATORS.map Prod.fst, ∀ b ∈ BINARY_FUNCTIONS.map Prod.fst, a ≠ b) ∧
      (∀ a ∈ OPERATORS.map Prod.fst, ∀ b ∈ LIST_FUNCTIONS.map Prod.fst, a ≠ b) ∧
      (∀ a ∈ OPERATORS.map Prod.fst, ∀ b ∈ CONSTANTS.map Prod.fst, a ≠ b) ∧
      (∀ a ∈ UNARY_FUNCTIONS.map Prod.fst, ∀ b ∈ BINARY_FUNCTIONS.map Prod.fst, a ≠ b) ∧
      (∀ a ∈ UNARY_FUNCTIONS.map Prod.fst, ∀ b ∈ LIST_FUNCTIONS.map Prod.fst, a ≠ b) ∧
      (∀ a ∈ UNARY_FUNCTIONS.map Prod.fst, ∀ b ∈ CONSTANTS.map Prod.fst, a ≠ b) ∧
      (∀ a ∈ BINARY_FUNCTIONS.map Prod.fst, ∀ b ∈ LIST_FUNCTIONS.map Prod.fst, a ≠ b) ∧
      (∀ a ∈ BINARY_FUNCTIONS.map Prod.fst, ∀ b ∈ CONSTANTS.map Prod.fst, a ≠ b) ∧
      (∀ a ∈ LIST_FUNCTIONS.map Prod.fst, ∀ b ∈ CONSTANTS.map Prod.fst, a ≠ b) ∧
      (isConstant s = true → nameToken s = [⟨.Constant, s⟩]) ∧
      (isUnaryFunction s = true → nameToken s = [⟨.UnaryFunction, s⟩]) ∧
      (isBinaryFunction s = true → nameToken s = [⟨.BinaryFunction, s⟩]) ∧
      (isListFunction s = true → nameToken s = [⟨.ListFunction, s⟩]) ∧
      (isOperator s = true → glyphToken s = [⟨.Operator, s⟩]) ∧
      (isUnaryFunction s = true → glyphToken s = [⟨.UnaryFunction, s⟩]) ∧
      (isConstant s = true → glyphToken s = [⟨.Constant, s⟩]) ∧
      (∀ (F : Type) (A : Arith F) (st : List F),
        (∀ info a b, OPERATORS.lookup s = some info →
          evalToken A s (b :: a :: st) = .ok (applyBin A info.func a b :: st)) ∧
        (∀ func a, UNARY_FUNCTIONS.lookup s = some func →
          evalToken A s (a :: st) = .ok (applyUn A func a :: st)) ∧
        (∀ func a b, BINARY_FUNCTIONS.lookup s = some func →
          evalToken A s (b :: a :: st) = .ok (applyBin A func a b :: st)) ∧
        (∀ func, LIST_FUNCTIONS.lookup s = some func →
          evalToken A s st = .ok (applyList A func (collectValues A [] st).1.reverse ::
            (collectValues A [] st).2.tail)) ∧
        (∀ c, CONSTANTS.lookup s = some c → evalToken A s st = .ok (constValue A c :: st))) := by
  refine ⟨exclusive_count s, by decide, by decide, by decide, by decide, by decide, by decide,
    by decide, by decide, by decide, by decide, ?_, ?_, ?_, ?_, ?_, ?_, ?_, ?_⟩
  · intro h; simp [nameToken, h]
  · intro h
    have hc : isConstant s = false := by
      cases hc : isConstant s with
      | false => rfl
      | true => rw [(exclusive_constant hc).2.1] at h; exact absurd h (by simp)
    simp [nameToken, h, hc]
  · intro h
    have hu := (exclusive_binary h).2
    have hc : isConstant s = false := by
      cases hc : isConstant s with
      | false => rfl
      | true => rw [(exclusive_constant hc).2.2.1] at h; exact absurd h (by simp)
    simp [nameToken, h, hc, hu]
  · intro h
    obtain ⟨_, hu, hb⟩ := exclusive_list h
    have hc : isConstant s = false := by
      cases hc : isConstant s with
      | false => rfl
      | true => rw [(exclusive_constant hc).2.2.2] at h; exact absurd h (by simp)
    simp [nameToken, h, hc, hu, hb]
  · intro h; simp [glyphToken, h]
  · intro h; simp [glyphToken, h, exclusive_unary h]
  · intro h
    obtain ⟨ho, hu, _, _⟩ := exclusive_constant h
    simp [glyphToken, h, ho, hu]
  · intro F A st
    exact ⟨fun info a b h => evalToken_operator A s info a b st h,
      fun func a h => evalToken_unary A s func a st h,
      fun func a b h => evalToken_binary A s func a b st h,
      fun func h => evalToken_listFunction A s func st h,
      fun c h => evalToken_constant A s c st h⟩

/-- C35: the list-function aliases `ΣLIST` and `ΠLIST` are unreachable through the infix
path. For every input on which `tokenize` returns, every ListFunction token has a text
that is a registered list-function name made only of ASCII letters and digits, and no
token of any kind has the text `ΣLIST` or `ΠLIST`: the glyph is skipped and `LIST` is
dropped, so `infixToRPN "{ 1, 2, 3 } ΣLIST"` is `"{ 1 2 3 }"`. The evaluator does
recognise the aliases in directly written RPN. -/
theorem C35_list_alias_unreachable (e : Str) (ts : List Token) (h : tokenize e = some ts) :
    (∀ t ∈ ts, t.type = .ListFunction →
        isListFunction t.value = true ∧ t.value.all nameByte = true) ∧
      (∀ t ∈ ts, t.value ≠ str "ΣLIST" ∧ t.value ≠ str "ΠLIST") ∧
      tokenize (str "ΣLIST") = some [] ∧ tokenize (str "ΠLIST") = some [] ∧
      infixToRPN (str "\x7b 1, 2, 3 \x7d ΣLIST") = some (str "\x7b 1 2 3 \x7d") ∧
      LIST_FUNCTIONS.lookup (str "ΣLIST") = some .sum ∧
      LIST_FUNCTIONS.lookup (str "ΠLIST") = some .product ∧
      calculateRPN ratArith (str "\x7b 1 2 3 \x7d ΣLIST") = .ok (some 6) ∧
      calculateRPN ratArith (str "\x7b 1 2 3 \x7d ΠLIST") = .ok (some 6) := by
  have ht := tokenize_typed e ts h
  refine ⟨?_, ?_, by decide, by decide, by decide, by decide, by decide,
    ratArith_example_listAlias.1, ratArith_example_listAlias.2⟩
  · intro t hm hty
    have := ht t hm
    obtain ⟨ty, v⟩ := t
    simp only at hty
    subst hty
    simp only [typedText, Bool.and_eq_true] at this
    refine ⟨this.1, ?_⟩
    cases v with
    | nil => rfl
    | cons c l =>
      have hi := this.2
      simp only [isIdentifier, Bool.and_eq_true] at hi
      simp only [List.all_cons, Bool.and_eq_true]
      exact ⟨by simp [nameByte, hi.1], hi.2⟩
  · intro t hm
    have := ht t hm
    obtain ⟨ty, v⟩ := t
    constructor
    · intro hv
      simp only at hv
      subst hv
      revert this
      cases ty <;> decide
    · intro hv
      simp only at hv
      subst hv
      revert this
      cases ty <;> decide

theorem C35_list_alias_unreachable_witness :
    tokenize (str "\x7b 1, 2, 3 \x7d ΣLIST") =
        some [⟨.ListStart, str "\x7b"⟩, ⟨.Number, str "1"⟩, ⟨.Comma, str ","⟩,
          ⟨.Number, str "2"⟩, ⟨.Comma, str ","⟩, ⟨.Number, str "3"⟩,
          ⟨.ListEnd, str "\x7d"⟩] ∧
      (∀ t ∈ [(⟨.ListStart, str "\x7b"⟩ : Token), ⟨.Number, str "1"⟩, ⟨.Comma, str ","⟩,
          ⟨.Number, str "2"⟩, ⟨.Comma, str ","⟩, ⟨.Number, str "3"⟩,
          ⟨.ListEnd, str "\x7d"⟩], t.value ≠ str "ΣLIST" ∧ t.value ≠ str "ΠLIST") ∧
      infixToRPN (str "\x7b 1, 2, 3 \x7d ΣLIST") = some (str "\x7b 1 2 3 \x7d") := by
  have ht : tokenize (str "\x7b 1, 2, 3 \x7d ΣLIST") =
      some [⟨.ListStart, str "\x7b"⟩, ⟨.Number, str "1"⟩, ⟨.Comma, str ","⟩,
        ⟨.Number, str "2"⟩, ⟨.Comma, str ","⟩, ⟨.Number, str "3"⟩,
        ⟨.ListEnd, str "\x7d"⟩] := by decide
  have h := C35_list_alias_unreachable _ _ ht
  exact ⟨ht, h.2.1, h.2.2.2.2.1⟩

/-- C36: a list function with no list marker below it consumes the whole operand stack.
For every list `xs` of `k ≥ 0` number literals that `std::stod` converts to the numbers
`vs` (not NaN) and every list function `f`, `calculateRPN "x1 ... xk f"` is the reducer of
`f` applied to `vs`: the collecting loop stops on the empty stack and the marker is popped
only when the stack is not empty. -/
theorem C36_no_marker {F : Type} (A : Arith F) (xs : List Str) (vs : List F) (f : Str)
    (func : ListOp) (hx : ∀ x ∈ xs, isNumberLiteral x = true)
    (hv : xs.map A.stod = vs.map some) (hn : ∀ v ∈ vs, A.isnan v = false)
    (hf : LIST_FUNCTIONS.lookup f = some func) :
    evalTokens A (xs ++ [f]) [] = .ok [applyList A func vs] ∧
      calculateRPN A (joinSpaces (xs ++ [f])) = .ok (applyList A func vs) ∧
      evalToken A f [] = .ok [applyList A func []] := by
  have hcoll : ∀ l : List F, (∀ x ∈ l, A.isnan x = false) →
      evalToken A f l.reverse = .ok [applyList A func l] := by
    intro l hl
    rw [evalToken_listFunction A f func _ hf,
      collectValues_all A l.reverse [] (fun x hx => hl x (List.mem_reverse.mp hx))]
    simp
  have h1 : evalTokens A (xs ++ [f]) [] = .ok [applyList A func vs] := by
    rw [evalTokens_literals A xs vs [f] [] hx hv, List.append_nil, evalTokens_cons,
      hcoll vs hn]
    rfl
  refine ⟨h1, ?_, by simpa using hcoll [] (by simp)⟩
  unfold calculateRPN
  rw [splitTokens_joinSpaces_solid _ (by
    intro w hw
    rcases List.mem_append.mp hw with hw | hw
    · exact literal_solid (hx w hw)
    · rw [List.mem_singleton.mp hw]
      exact list_solid f (mem_keys_of_lookup f LIST_FUNCTIONS (by rw [hf]; rfl)))]
  simp only
  rw [h1]

theorem C36_no_marker_witness :
    ((∀ x ∈ [str "1", str "2", str "3"], isNumberLiteral x = true) ∧
      [str "1", str "2", str "3"].map ratArith.stod = [some (1 : ℚ), some 2, some 3].map some ∧
      (∀ v ∈ [some (1 : ℚ), some 2, some 3], ratArith.isnan v = false) ∧
      LIST_FUNCTIONS.lookup (str "sum") = some .sum) ∧
      calculateRPN ratArith (str "1 2 3 sum") = .ok (some 6) ∧
      calculateRPN ratArith (str "sum") = .ok (some 0) := by
  have h1 : ∀ x ∈ [str "1", str "2", str "3"], isNumberLiteral x = true := by decide
  have h2 : [str "1", str "2", str "3"].map ratArith.stod =
      [some (1 : ℚ), some 2, some 3].map some := by
    simp [ratArith, str, utf8Encode, decimalValue, digitsValue, isdigit]
  have h3 : ∀ v ∈ [some (1 : ℚ), some 2, some 3], ratArith.isnan v = false := by
    intro v hv
    simp only [List.mem_cons, List.not_mem_nil, or_false] at hv
    rcases hv with rfl | rfl | rfl <;> rfl
  have h := (C36_no_marker ratArith _ _ (str "sum") .sum h1 h2 h3 (by decide)).2.1
  have h0 := (C36_no_marker ratArith [] [] (str "sum") .sum (by simp) rfl (by simp)
    (by decide)).2.1
  rw [show joinSpaces ([str "1", str "2", str "3"] ++ [str "sum"]) = str "1 2 3 sum"
    from by decide] at h
  rw [show joinSpaces (([] : List Str) ++ [str "sum"]) = str "sum" from by decide] at h0
  refine ⟨⟨h1, h2, h3, by decide⟩, ?_, ?_⟩
  · rw [h]; norm_num [applyList, total, ratArith, liftRat]
  · rw [h0]; norm_num [applyList, total, ratArith]

theorem foldl_add_rep {F R : Type} [Field R] (A : Arith F) (Rep : F → R → Prop)
    (hA : Faithful A Rep) (v : List F) (r : List R) (hv : List.Forall₂ Rep v r) :
    ∀ (acc : F) (a : R), Rep acc a → (∀ k, Representable Rep (a + (r.take k).sum)) →
      Rep (v.foldl A.add acc) (a + r.sum) := by
  induction hv with
  | nil => intro acc a ha _; simpa using ha
  | @cons x b v r hx _ ih =>
    intro acc a ha hk
    rw [List.foldl_cons, List.sum_cons, ← add_assoc]
    refine ih _ _ (hA.add _ _ _ _ ha hx (by simpa using hk 1)) (fun k => ?_)
    have := hk (k + 1)
    rwa [List.take_succ_cons, List.sum_cons, ← add_assoc] at this

theorem foldl_mul_rep {F R : Type} [Field R] (A : Arith F) (Rep : F → R → Prop)
    (hA : Faithful A Rep) (v : List F) (r : List R) (hv : List.Forall₂ Rep v r) :
    ∀ (acc : F) (a : R), Rep acc a → (∀ k, Representable Rep (a * (r.take k).prod)) →
      Rep (v.foldl A.mul acc) (a * r.prod) := by
  induction hv with
  | nil => intro acc a ha _; simpa using ha
  | @cons x b v r hx _ ih =>
    intro acc a ha hk
    rw [List.foldl_cons, List.prod_cons, ← mul_assoc]
    refine ih _ _ (hA.mul _ _ _ _ ha hx (by simpa using hk 1)) (fun k => ?_)
    have := hk (k + 1)
    rwa [List.take_succ_cons, List.prod_cons, ← mul_assoc] at this

theorem total_rep {F R : Type} [Field R] (A : Arith F) (Rep : F → R → Prop)
    (hA : Faithful A Rep) (v : List F) (r : List R) (hv : List.Forall₂ Rep v r)
    (hk : ∀ k, Representable Rep (r.take k).sum) : Rep (total A v) r.sum := by
  have h0 : Rep (A.ofNat 0) (0 : R) := by
    have := hA.ofNat 0 (by simpa using hk 0)
    simpa using this
  have := foldl_add_rep A Rep hA v r hv (A.ofNat 0) 0 h0 (fun k => by simpa using hk k)
  simpa [total] using this

theorem product_rep {F R : Type} [Field R] (A : Arith F) (Rep : F → R → Prop)
    (hA : Faithful A Rep) (v : List F) (r : List R) (hv : List.Forall₂ Rep v r)
    (hk : ∀ k, Representable Rep (r.take k).prod) :
    Rep (v.foldl A.mul (A.ofNat 1)) r.prod := by
  have h1 : Rep (A.ofNat 1) (1 : R) := by
    have := hA.ofNat 1 (by simpa using hk 0)
    simpa using this
  have := foldl_mul_rep A Rep hA v r hv (A.ofNat 1) 1 h1 (fun k => by simpa using hk k)
  simpa using this

theorem squares_eq_total {F : Type} (A : Arith F) (mean : F) (v : List F) :
    squares A mean v = total A (v.map (deviation A mean)) := by
  unfold squares total
  rw [List.foldl_map]
  rfl

theorem squares_fold_rep {F R : Type} [Field R] (A : Arith F) (Rep : F → R → Prop)
    (hA : Faithful A Rep) (mean : F) (m : R) (hm : Rep mean m) (v : List F) (r : List R)
    (hv : List.Forall₂ Rep v r) :
    ∀ (acc : F) (a : R), Rep acc a →
      (∀ x ∈ r, Representable Rep (x - m) ∧ Representable Rep ((x - m) ^ 2)) →
      (∀ k, Representable Rep (a + squaredDeviations m (r.take k))) →
      Rep (v.foldl (fun variance x => A.add variance (A.mul (A.sub x mean) (A.sub x mean))) acc)
        (a + squaredDeviations m r) := by
  induction hv with
  | nil => intro acc a ha _ _; simpa [squaredDeviations] using ha
  | @cons x b v r hx _ ih =>
    intro acc a ha hd hk
    have hsub := hA.sub _ _ _ _ hx hm (hd b (by simp)).1
    have hsq := hA.mul _ _ _ _ hsub hsub (by
      have := (hd b (by simp)).2
      rwa [sq] at this)
    have e : squaredDeviations m (b :: r) = (b - m) * (b - m) + squaredDeviations m r := by
      simp [squaredDeviations, sq]
    have hadd := hA.add _ _ _ _ ha hsq (by
      have := hk 1
      simpa [squaredDeviations, sq] using this)
    rw [List.foldl_cons, e, ← add_assoc]
    refine ih _ _ ?_ (fun y hy => hd y (by simp [hy])) (fun k => ?_)
    · simpa [squaredDeviations] using hadd
    · have := hk (k + 1)
      rwa [List.take_succ_cons, show squaredDeviations m (b :: r.take k) =
        (b - m) * (b - m) + squaredDeviations m (r.take k) from by
          simp [squaredDeviations, sq], ← add_assoc] at this

theorem squares_rep {F R : Type} [Field R] (A : Arith F) (Rep : F → R → Prop)
    (hA : Faithful A Rep) (mean : F) (m : R) (hm : Rep mean m) (v : List F) (r : List R)
    (hv : List.Forall₂ Rep v r)
    (hd : ∀ x ∈ r, Representable Rep (x - m) ∧ Representable Rep ((x - m) ^ 2))
    (hk : ∀ k, Representable Rep (squaredDeviations m (r.take k))) :
    Rep (squares A mean v) (squaredDeviations m r) := by
  have h0 : Rep (A.ofNat 0) (0 : R) := by
    have := hA.ofNat 0 (by simpa [squaredDeviations] using hk 0)
    simpa using this
  have := squares_fold_rep A Rep hA mean m hm v r hv (A.ofNat 0) 0 h0 hd
    (fun k => by simpa using hk k)
  simpa [squares] using this

theorem mean_rep {F R : Type} [Field R] [CharZero R] (A : Arith F) (Rep : F → R → Prop)
    (hA : Faithful A Rep) (v : List F) (r : List R) (hv : List.Forall₂ Rep v r)
    (hr : r ≠ []) (hk : ∀ k, Representable Rep (r.take k).sum)
    (hn : Representable Rep (r.length : R))
    (hm : Representable Rep (r.sum / (r.length : R))) :
    Rep (A.div (total A v) (A.ofNat v.length)) (r.sum / (r.length : R)) := by
  have hn0 : (r.length : R) ≠ 0 := by
    rw [Nat.cast_ne_zero]; exact fun h => hr (List.length_eq_zero.mp h)
  rw [hv.length_eq]
  exact hA.div _ _ _ _ (total_rep A Rep hA v r hv hk) (hA.ofNat _ hn) hn0 hm

theorem variance_rep {F R : Type} [Field R] [CharZero R] (A : Arith F) (Rep : F → R → Prop)
    (hA : Faithful A Rep) (v : List F) (r : List R) (hv : List.Forall₂ Rep v r)
    (hr : r ≠ []) (d : Nat) (hd : d ≠ 0) (he : VarianceExact Rep r d) :
    Rep (A.div (squares A (A.div (total A v) (A.ofNat v.length)) v) (A.ofNat d))
      (squaredDeviations (r.sum / (r.length : R)) r / (d : R)) := by
  obtain ⟨h1, h2, h3, h4, h5, h6, h7⟩ := he
  have hm := mean_rep A Rep hA v r hv hr h1 h2 h3
  exact hA.div _ _ _ _ (squares_rep A Rep hA _ _ hm v r hv h4 h5) (hA.ofNat _ h6)
    (Nat.cast_ne_zero.mpr hd) h7

theorem isEmpty_false {F : Type} {v : List F} (hv : v ≠ []) : v.isEmpty = false := by
  cases v with
  | nil => exact absurd rfl hv
  | cons _ _ => rfl

theorem ratArith_faithful : Faithful ratArith ratRep where
  add := fun x y a b hx hy _ => by subst hx; subst hy; rfl
  sub := fun x y a b hx hy _ => by subst hx; subst hy; rfl
  mul := fun x y a b hx hy _ => by subst hx; subst hy; rfl
  div := fun x y a b hx hy hb _ => by subst hx; subst hy; simp [ratRep, ratArith, hb]
  ofNat := fun _ _ => rfl

theorem ratRep_representable (a : ℚ) : Representable ratRep a := ⟨some a, rfl⟩

theorem ratRep_map (r : List ℚ) : List.Forall₂ ratRep (r.map some) r := by
  induction r with
  | nil => exact List.Forall₂.nil
  | cons a r ih => exact List.Forall₂.cons rfl ih

theorem variance_example {F R : Type} [Field R] [CharZero R] (Rep : F → R → Prop)
    (hint : ∀ n : ℤ, -3 ≤ n → n ≤ 20 → Representable Rep (n : R)) :
    VarianceExact Rep ([2, 4, 6, 8] : List R) 4 := by
  have hm : ([2, 4, 6, 8] : List R).sum / (([2, 4, 6, 8] : List R).length : R) = 5 := by
    norm_num
  have key : ∀ (e : R) (n : ℤ), e = (n : R) → -3 ≤ n → n ≤ 20 → Representable Rep e :=
    fun e n he h1 h2 => he ▸ hint n h1 h2
  unfold VarianceExact
  rw [hm]
  refine ⟨fun k => ?_, ?_, ?_, fun x hx => ?_, fun k => ?_, ?_, ?_⟩
  · rcases k with _ | _ | _ | _ | k
    · exact key _ 0 (by norm_num) (by norm_num) (by norm_num)
    · exact key _ 2 (by norm_num) (by norm_num) (by norm_num)
    · exact key _ 6 (by norm_num) (by norm_num) (by norm_num)
    · exact key _ 12 (by norm_num) (by norm_num) (by norm_num)
    · exact key _ 20 (by norm_num) (by norm_num) (by norm_num)
  · exact key _ 4 (by norm_num) (by norm_num) (by norm_num)
  · exact key _ 5 (by norm_num) (by norm_num) (by norm_num)
  · simp only [List.mem_cons, List.mem_singleton, List.not_mem_nil, or_false] at hx
    rcases hx with rfl | rfl | rfl | rfl
    · exact ⟨key _ (-3) (by norm_num) (by norm_num) (by norm_num),
        key _ 9 (by norm_num) (by norm_num) (by norm_num)⟩
    · exact ⟨key _ (-1) (by norm_num) (by norm_num) (by norm_num),
        key _ 1 (by norm_num) (by norm_num) (by norm_num)⟩
    · exact ⟨key _ 1 (by norm_num) (by norm_num) (by norm_num),
        key _ 1 (by norm_num) (by norm_num) (by norm_num)⟩
    · exact ⟨key _ 3 (by norm_num) (by norm_num) (by norm_num),
        key _ 9 (by norm_num) (by norm_num) (by norm_num)⟩
  · rcases k with _ | _ | _ | _ | k
    · exact key _ 0 (by norm_num [squaredDeviations]) (by norm_num) (by norm_num)
    · exact key _ 9 (by norm_num [squaredDeviations]) (by norm_num) (by norm_num)
    · exact key _ 10 (by norm_num [squaredDeviations]) (by norm_num) (by norm_num)
    · exact key _ 11 (by norm_num [squaredDeviations]) (by norm_num) (by norm_num)
    · exact key _ 20 (by norm_num [squaredDeviations]) (by norm_num) (by norm_num)
  · exact key _ 4 (by norm_num) (by norm_num) (by norm_num)
  · exact key _ 5 (by norm_num [squaredDeviations]) (by norm_num) (by norm_num)

theorem variance_example_value {R : Type} [Field R] [CharZero R] :
    squaredDeviations (([2, 4, 6, 8] : List R).sum / (([2, 4, 6, 8] : List R).length : R))
      [2, 4, 6, 8] / (([2, 4, 6, 8] : List R).length : R) = 5 := by
  norm_num [squaredDeviations]

theorem var_rep {F R : Type} [Field R] [CharZero R] (A : Arith F) (Rep : F → R → Prop)
    (hA : Faithful A Rep) (v : List F) (r : List R) (hv : List.Forall₂ Rep v r)
    (hr : r ≠ []) (he : VarianceExact Rep r r.length) :
    Rep (applyList A .var v)
      (squaredDeviations (r.sum / (r.length : R)) r / (r.length : R)) := by
  have hv0 : v ≠ [] := by
    intro h; subst h; cases hv; exact hr rfl
  simp only [applyList, isEmpty_false hv0, Bool.false_eq_true, if_false]
  have := variance_rep A Rep hA v r hv hr r.length
    (fun h => hr (List.length_eq_zero.mp h)) he
  rw [hv.length_eq] at this ⊢
  exact this

theorem toGrid_fixed (a : ℚ) (h : Representable gridRep a) : gridRep (toGrid (some a)) a := by
  obtain ⟨_, _, k, hk⟩ := h
  refine ⟨?_, k, hk⟩
  simp only [toGrid, Option.some.injEq]
  rw [hk]
  have : (k : ℚ) / 8 * 8 = k := by ring
  rw [this, Int.floor_intCast]

theorem gridArith_faithful : Faithful gridArith gridRep where
  add := fun x y a b hx hy h => by
    obtain ⟨rfl, _⟩ := hx
    obtain ⟨rfl, _⟩ := hy
    exact toGrid_fixed _ h
  sub := fun x y a b hx hy h => by
    obtain ⟨rfl, _⟩ := hx
    obtain ⟨rfl, _⟩ := hy
    exact toGrid_fixed _ h
  mul := fun x y a b hx hy h => by
    obtain ⟨rfl, _⟩ := hx
    obtain ⟨rfl, _⟩ := hy
    exact toGrid_fixed _ h
  div := fun x y a b hx hy hb h => by
    obtain ⟨rfl, _⟩ := hx
    obtain ⟨rfl, _⟩ := hy
    have : gridArith.div (some a) (some b) = toGrid (some (a / b)) := by
      simp [gridArith, ratArith, hb]
    rw [this]
    exact toGrid_fixed _ h
  ofNat := fun n _ => ⟨rfl, 8 * n, by push_cast; ring⟩

theorem gridRep_int (n : ℤ) : Representable gridRep (n : ℚ) :=
  ⟨some n, rfl, 8 * n, by push_cast; ring⟩

theorem gridArith_rounds : gridArith.div (some 1) (some 3) = some (1 / 4) := by
  have h : ⌊(1 : ℚ) / 3 * 8⌋ = 2 := by
    rw [Int.floor_eq_iff]; norm_num
  simp only [gridArith, ratArith, toGrid]
  norm_num [h]

theorem tree_wf : ∀ s : Written, s.valid = true → s.tree.wf = true := by
  intro s
  induction s with
  | num lit => intro h; exact h
  | op o a b iha ihb =>
    intro h
    simp only [Written.valid, Bool.and_eq_true] at h
    simp [Written.tree, Expr.wf, h.1.1.1.1, iha h.1.1.1.2, ihb h.1.1.2]
  | un f a iha =>
    intro h
    simp only [Written.valid, Bool.and_eq_true] at h
    simp [Written.tree, Expr.wf, h.1, iha h.2]
  | bin g a b iha ihb =>
    intro h
    simp only [Written.valid, Bool.and_eq_true] at h
    simp [Written.tree, Expr.wf, h.1.1, iha h.1.2, ihb h.2]
  | paren a iha => intro h; exact iha h

theorem lex_text (s : Written) : s.valid = true → ∀ (rest : Str) (toks : List Token),
    startsNumber rest = false → isUnaryMinus toks = true →
    lex (s.text ++ rest) toks = lex rest (toks ++ s.tokens) := by
  induction s with
  | num lit =>
    intro hw rest toks hr hu
    exact lex_literal lit rest toks hw hr hu
  | op o a b iha ihb =>
    intro hw rest toks hr hu
    simp only [Written.valid, Bool.and_eq_true] at hw
    obtain ⟨⟨⟨⟨ho, ha⟩, hb⟩, _⟩, _⟩ := hw
    simp only [Written.text, Written.tokens, str_space, List.append_assoc,
      List.cons_append, List.nil_append]
    rw [iha ha _ _ (startsNumber_cons 32 _ (by decide)) hu,
      lex_space _ _ _ (by decide),
      lex_operator o _ _ ho (startsNumber_cons 32 _ (by decide)), lex_space _ _ _ (by decide),
      ihb hb _ _ hr (by rw [isUnaryMinus_append]; rfl)]
    simp only [List.append_assoc, List.cons_append, List.nil_append]
  | un f a iha =>
    intro hw rest toks hr hu
    simp only [Written.valid, Bool.and_eq_true] at hw
    obtain ⟨hf, ha⟩ := hw
    simp only [Written.text, Written.tokens, str_leftParen, str_rightParen, List.append_assoc,
      List.cons_append, List.nil_append]
    rw [lex_unary f _ _ hf (stopsName_cons 40 _ (by decide)), lex_leftParen,
      iha ha _ _ (startsNumber_cons 41 _ (by decide)) (by rw [isUnaryMinus_append]; rfl),
      lex_rightParen]
    simp only [List.append_assoc, List.cons_append, List.nil_append]
  | bin g a b iha ihb =>
    intro hw rest toks hr hu
    simp only [Written.valid, Bool.and_eq_true] at hw
    obtain ⟨⟨hg, ha⟩, hb⟩ := hw
    simp only [Written.text, Written.tokens, str_leftParen, str_rightParen, str_commaSpace,
      str_comma, List.append_assoc, List.cons_append, List.nil_append]
    rw [lex_binary g _ _ hg (stopsName_cons 40 _ (by decide)), lex_leftParen,
      iha ha _ _ (startsNumber_cons 44 _ (by decide)) (by rw [isUnaryMinus_append]; rfl),
      lex_comma, lex_space _ _ _ (by decide),
      ihb hb _ _ (startsNumber_cons 41 _ (by decide)) (by rw [isUnaryMinus_append]; rfl),
      lex_rightParen]
    simp only [List.append_assoc, List.cons_append, List.nil_append]
  | paren a iha =>
    intro hw rest toks hr hu
    simp only [Written.valid] at hw
    simp only [Written.text, Written.tokens, str_leftParen, str_rightParen, List.append_assoc,
      List.cons_append, List.nil_append]
    rw [lex_leftParen,
      iha hw _ _ (startsNumber_cons 41 _ (by decide)) (by rw [isUnaryMinus_append]; rfl),
      lex_rightParen]
    simp only [List.append_assoc, List.cons_append, List.nil_append]

theorem tokenize_text (s : Written) (h : s.valid = true) :
    tokenize s.text = some s.tokens := by
  have := lex_text s h [] [] rfl rfl
  rw [List.append_nil, lex_nil, List.nil_append] at this
  exact this

theorem written_root : ∀ (s : Written), s.valid = true → ∀ x ∈ s.topOps,
    isOperator x = true ∧ ∃ o a b, s = .op o a b ∧ getPrecedence o ≤ getPrecedence x := by
  intro s
  induction s with
  | num lit => intro _ x hx; simp [Written.topOps] at hx
  | un f a _ => intro _ x hx; simp [Written.topOps] at hx
  | bin g a b _ _ => intro _ x hx; simp [Written.topOps] at hx
  | paren a _ => intro _ x hx; simp [Written.topOps] at hx
  | op o a b iha ihb =>
    intro hw x hx
    simp only [Written.valid, Bool.and_eq_true] at hw
    obtain ⟨⟨⟨⟨ho, ha⟩, hb⟩, hl⟩, hr⟩ := hw
    simp only [Written.topOps, List.mem_append, List.mem_singleton] at hx
    rcases hx with (hx | hx) | hx
    · obtain ⟨h1, oa, a1, a2, rfl, hle⟩ := iha ha x hx
      refine ⟨h1, o, _, b, rfl, ?_⟩
      simp only [bareLeft, Bool.not_eq_true', Bool.or_eq_false_iff, decide_eq_false_iff_not,
        not_lt] at hl
      exact le_trans hl.1 hle
    · subst hx; exact ⟨ho, x, a, b, rfl, le_refl _⟩
    · obtain ⟨h1, ob, b1, b2, rfl, hle⟩ := ihb hb x hx
      refine ⟨h1, o, a, _, rfl, ?_⟩
      simp only [bareRight, Bool.not_eq_true', Bool.or_eq_false_iff, decide_eq_false_iff_not,
        not_lt] at hr
      exact le_trans hr.1 hle

theorem written_left_pops (o : Str) (a : Written) (ha : a.valid = true)
    (hp : bareLeft o a = true) :
    ∀ x ∈ a.topOps, operatorPops ⟨.Operator, o⟩ ⟨.Operator, x⟩ = true := by
  intro x hx
  obtain ⟨_, oa, a1, a2, rfl, hle⟩ := written_root a ha x hx
  simp only [bareLeft, Bool.not_eq_true', Bool.or_eq_false_iff, decide_eq_false_iff_not,
    not_lt, Bool.and_eq_false_iff, beq_eq_false_iff_ne] at hp
  rw [operatorPops_operator]
  simp only [Bool.or_eq_true, decide_eq_true_eq, Bool.and_eq_true, beq_iff_eq,
    Bool.not_eq_true']
  by_cases h : getPrecedence x > getPrecedence o
  · exact Or.inl h
  · right
    have he : getPrecedence x = getPrecedence o := by omega
    refine ⟨he, ?_⟩
    rcases hp.2 with h2 | h2
    · exact absurd (by omega) h2
    · exact h2

theorem written_right_keeps (o : Str) (b : Written) (ho : isOperator o = true)
    (hb : b.valid = true) (hp : bareRight o b = true) :
    ∀ x ∈ b.topOps, operatorPops ⟨.Operator, x⟩ ⟨.Operator, o⟩ = false := by
  intro x hx
  obtain ⟨hxo, ob, b1, b2, rfl, hle⟩ := written_root b hb x hx
  simp only [bareRight, Bool.not_eq_true', Bool.or_eq_false_iff, decide_eq_false_iff_not,
    not_lt, Bool.and_eq_false_iff, beq_eq_false_iff_ne, Bool.not_eq_false'] at hp
  rw [operatorPops_operator]
  simp only [Bool.or_eq_false_iff, decide_eq_false_iff_not, not_lt, Bool.and_eq_false_iff,
    beq_eq_false_iff_ne, Bool.not_eq_false', gt_iff_lt]
  refine ⟨by omega, ?_⟩
  by_cases he : getPrecedence o = getPrecedence x
  · right
    have h2 : isRightAssociative o = true := by
      rcases hp.2 with h2 | h2
      · exact absurd (by omega) h2
      · exact h2
    rw [← associativity_uniform o (mem_keys_of_lookup o OPERATORS ho) x
      (mem_keys_of_lookup x OPERATORS hxo) he, h2]
  · exact Or.inl he

theorem convertToken_comma_pending (c v out : Str) (pend st : List Token)
    (hp : ∀ p ∈ pend, p.type = .Operator) :
    convertToken ⟨.Comma, c⟩ out (pend ++ ⟨.LeftParen, v⟩ :: st) =
      (out ++ trail (pend.map Token.value), ⟨.LeftParen, v⟩ :: st) := by
  have h := popWhile_pending (fun top => top.type != .LeftParen && top.type != .ListStart)
    pend out (⟨.LeftParen, v⟩ :: st) (fun p hp1 => by simp [hp p hp1])
    (fun top rest e => by
      rw [List.cons.injEq] at e
      rw [← e.1]; rfl)
  simp only [convertToken, h]

theorem convertToken_rightParen_call (r v out : Str) (pend st : List Token) (fn : Token)
    (hp : ∀ p ∈ pend, p.type = .Operator)
    (hf : fn.type = .UnaryFunction ∨ fn.type = .BinaryFunction) :
    convertToken ⟨.RightParen, r⟩ out (pend ++ ⟨.LeftParen, v⟩ :: fn :: st) =
      (out ++ trail (pend.map Token.value) ++ 32 :: fn.value, st) := by
  have h := popWhile_pending (fun top => top.type != .LeftParen) pend out
    (⟨.LeftParen, v⟩ :: fn :: st) (fun p hp1 => by simp [hp p hp1])
    (fun top rest e => by
      rw [List.cons.injEq] at e
      rw [← e.1]; rfl)
  rcases hf with hf | hf <;> simp [convertToken, h, List.tail_cons, hf, str_space]

theorem convertTokens_written : ∀ s : Written, s.valid = true →
    ∀ (out : Str) (st : List Token),
    noFunctionOnTop st = true → (∀ x ∈ s.topOps, keepsStack x st = true) →
    ∃ (o1 : Str) (pend : List Token),
      convertTokens s.tokens out st = (o1, pend ++ st) ∧
      (∀ q ∈ pend, q.type = .Operator ∧ q.value ∈ s.topOps) ∧
      o1 ++ trail (pend.map Token.value) = separate out ++ joinSpaces (postorder s.tree) := by
  intro s
  induction s with
  | num lit =>
    intro _ out st _ _
    exact ⟨separate out ++ lit, [], by
      simp [Written.tokens, convertTokens_cons, convertTokens_nil, convertToken_number],
      by simp, by simp [trail, postorder, joinSpaces, Written.tree]⟩
  | paren a iha =>
    intro hw out st hst _
    simp only [Written.valid] at hw
    obtain ⟨o1, pend, h1, h2, h3⟩ := iha hw out (⟨.LeftParen, str "("⟩ :: st) rfl
      (fun x _ => keepsStack_leftParen x _ st)
    refine ⟨o1 ++ trail (pend.map Token.value), [], ?_, by simp, ?_⟩
    · simp only [Written.tokens, List.append_assoc, List.singleton_append, convertTokens_cons,
        convertTokens_append, convertToken_leftParen, h1, convertTokens_nil, List.nil_append]
      exact convertToken_rightParen_pending (str ")") (str "(") o1 pend st
        (fun q hq => (h2 q hq).1) hst
    · simp [trail, h3, Written.tree]
  | un f a iha =>
    intro hw out st _ _
    simp only [Written.valid, Bool.and_eq_true] at hw
    obtain ⟨o1, pend, h1, h2, h3⟩ := iha hw.2 out
      (⟨.LeftParen, str "("⟩ :: ⟨.UnaryFunction, f⟩ :: st) rfl
      (fun x _ => keepsStack_leftParen x _ _)
    refine ⟨o1 ++ trail (pend.map Token.value) ++ 32 :: f, [], ?_, by simp, ?_⟩
    · simp only [Written.tokens, List.append_assoc, List.singleton_append, convertTokens_cons,
        List.cons_append, List.nil_append,
        convertTokens_append, convertToken_leftParen, convertToken_unary, h1,
        convertTokens_nil]
      rw [convertToken_rightParen_call (str ")") (str "(") o1 pend st ⟨.UnaryFunction, f⟩
        (fun q hq => (h2 q hq).1) (Or.inl rfl)]
      simp
    · rw [h3]
      simp only [trail, List.map_nil, List.append_nil, Written.tree, postorder]
      rw [joinSpaces_append_singleton _ _ (postorder_ne_nil _)]
      simp
  | bin g a b iha ihb =>
    intro hw out st _ _
    simp only [Written.valid, Bool.and_eq_true] at hw
    obtain ⟨⟨hg, ha⟩, hb⟩ := hw
    have hne := joinSpaces_postorder_ne_nil a.tree (tree_wf a ha)
    obtain ⟨o1, pa, ha1, ha2, ha3⟩ := iha ha out
      (⟨.LeftParen, str "("⟩ :: ⟨.BinaryFunction, g⟩ :: st) rfl
      (fun x _ => keepsStack_leftParen x _ _)
    have hc := convertToken_comma_pending (str ",") (str "(") o1 pa
      (⟨.BinaryFunction, g⟩ :: st) (fun q hq => (ha2 q hq).1)
    rw [ha3] at hc
    obtain ⟨o2, pb, hb1, hb2, hb3⟩ := ihb hb (separate out ++ joinSpaces (postorder a.tree))
      (⟨.LeftParen, str "("⟩ :: ⟨.BinaryFunction, g⟩ :: st) rfl
      (fun x _ => keepsStack_leftParen x _ _)
    refine ⟨o2 ++ trail (pb.map Token.value) ++ 32 :: g, [], ?_, by simp, ?_⟩
    · simp only [Written.tokens, List.append_assoc, List.singleton_append, convertTokens_cons,
        List.cons_append, List.nil_append,
        convertTokens_append, convertToken_leftParen, convertToken_binary, ha1, hc, hb1,
        convertTokens_nil]
      rw [convertToken_rightParen_call (str ")") (str "(") o2 pb st ⟨.BinaryFunction, g⟩
        (fun q hq => (hb2 q hq).1) (Or.inr rfl)]
      simp
    · rw [hb3, separate_append _ _ hne]
      simp only [trail, List.map_nil, List.append_nil, Written.tree, postorder]
      rw [joinSpaces_append_singleton _ _ (by simp [postorder_ne_nil]),
        joinSpaces_append _ _ (postorder_ne_nil _) (postorder_ne_nil _)]
      simp
  | op o a b iha ihb =>
    intro hw out st hst hsafe
    simp only [Written.valid, Bool.and_eq_true] at hw
    obtain ⟨⟨⟨⟨ho, ha⟩, hb⟩, hl⟩, hr⟩ := hw
    have hne := joinSpaces_postorder_ne_nil a.tree (tree_wf a ha)
    obtain ⟨o1, pa, ha1, ha2, ha3⟩ := iha ha out st hst
      (fun x hx => hsafe x (by simp [Written.topOps, hx]))
    have hop := convertToken_operator_pending o o1 pa st
      (fun q hq => by
        obtain ⟨hq1, hq2⟩ := ha2 q hq
        have := written_left_pops o a ha hl q.value hq2
        cases q with
        | mk ty v =>
          simp only at hq1
          subst hq1
          exact this)
      (hsafe o (by simp [Written.topOps]))
    rw [ha3] at hop
    obtain ⟨o2, pb, hb1, hb2, hb3⟩ := ihb hb
      (separate out ++ joinSpaces (postorder a.tree)) (⟨.Operator, o⟩ :: st) rfl
      (fun x hx => by
        have := written_right_keeps o b ho hb hr x hx
        simp [keepsStack, this])
    refine ⟨o2, pb ++ [⟨.Operator, o⟩], ?_, ?_, ?_⟩
    · simp only [Written.tokens, convertTokens_append, ha1, convertTokens_cons,
        convertTokens_nil, hop, hb1, List.append_assoc, List.singleton_append]
    · intro q hq
      rcases List.mem_append.mp hq with hq | hq
      · obtain ⟨hq1, hq2⟩ := hb2 q hq
        exact ⟨hq1, by simp [Written.topOps, hq2]⟩
      · rw [List.mem_singleton.mp hq]
        exact ⟨rfl, by simp [Written.topOps]⟩
    · rw [List.map_append, trail_append, ← List.append_assoc, hb3, separate_append _ _ hne]
      simp only [Written.tree, postorder, List.map_cons, List.map_nil, trail, str_space]
      rw [joinSpaces_append_singleton _ _ (by simp [postorder_ne_nil]),
        joinSpaces_append _ _ (postorder_ne_nil _) (postorder_ne_nil _)]
      simp

theorem convert_written (s : Written) (h : s.valid = true) :
    convert s.tokens = joinSpaces (postorder s.tree) := by
  obtain ⟨o1, pend, h1, h2, h3⟩ := convertTokens_written s h [] [] rfl (fun _ _ => rfl)
  unfold convert
  rw [h1, List.append_nil]
  have := popWhile_pending (fun _ => true) pend o1 [] (fun _ _ => rfl)
    (fun top rest e => by simp at e)
  rw [List.append_nil] at this
  simp only [this]
  rw [h3, separate_nil, List.nil_append]

theorem insertAsc_perm {F : Type} (A : Arith F) (x : F) (l : List F) :
    (insertAsc A x l).Perm (x :: l) := by
  induction l with
  | nil => exact List.Perm.refl _
  | cons y ys ih =>
    simp only [insertAsc]
    by_cases h : A.lt x y = true
    · rw [if_pos h]
    · rw [if_neg h]
      exact (List.Perm.cons y ih).trans (List.Perm.swap x y ys)

theorem sortAsc_perm {F : Type} (A : Arith F) (v : List F) : (sortAsc A v).Perm v := by
  induction v with
  | nil => exact List.Perm.refl _
  | cons x xs ih =>
    simp only [sortAsc]
    exact (insertAsc_perm A x _).trans (List.Perm.cons x ih)

theorem insertAsc_ascending {F : Type} (A : Arith F) (x : F) (l : List F)
    (hi : ∀ a ∈ x :: l, A.lt a a = false)
    (ht : ∀ a ∈ x :: l, ∀ b ∈ x :: l, ∀ c ∈ x :: l,
      A.lt a b = true → A.lt b c = true → A.lt a c = true)
    (hl : Ascending A l) : Ascending A (insertAsc A x l) := by
  induction l with
  | nil => simp [insertAsc, Ascending]
  | cons y ys ih =>
    have hy := List.pairwise_cons.mp hl
    simp only [insertAsc]
    by_cases h : A.lt x y = true
    · rw [if_pos h]
      refine List.pairwise_cons.mpr ⟨fun b hb => ?_, hl⟩
      cases hbx : A.lt b x with
      | false => rfl
      | true =>
        have hbm : b ∈ x :: y :: ys := List.mem_cons_of_mem _ hb
        have hby := ht b hbm x (by simp) y (by simp) hbx h
        rcases List.mem_cons.mp hb with rfl | hb1
        · rw [hi b hbm] at hby; exact absurd hby (by simp)
        · rw [hy.1 b hb1] at hby; exact absurd hby (by simp)
    · rw [if_neg h]
      refine List.pairwise_cons.mpr ⟨fun b hb => ?_, ?_⟩
      · rcases List.mem_cons.mp ((insertAsc_perm A x ys).mem_iff.mp hb) with rfl | hb1
        · simpa using h
        · exact hy.1 b hb1
      · exact ih (fun a ha => hi a (by
            rcases List.mem_cons.mp ha with rfl | ha
            · simp
            · simp [ha]))
          (fun a ha b hb c hc => ht a (by
            rcases List.mem_cons.mp ha with rfl | ha
            · simp
            · simp [ha]) b (by
            rcases List.mem_cons.mp hb with rfl | hb
            · simp
            · simp [hb]) c (by
            rcases List.mem_cons.mp hc with rfl | hc
            · simp
            · simp [hc])) hy.2

theorem sortAsc_ascending {F : Type} (A : Arith F) (v : List F)
    (hi : ∀ a ∈ v, A.lt a a = false)
    (ht : ∀ a ∈ v, ∀ b ∈ v, ∀ c ∈ v, A.lt a b = true → A.lt b c = true → A.lt a c = true) :
    Ascending A (sortAsc A v) := by
  induction v with
  | nil => simp [sortAsc, Ascending]
  | cons x xs ih =>
    simp only [sortAsc]
    have hm : ∀ a, a ∈ x :: sortAsc A xs → a ∈ x :: xs := by
      intro a ha
      rcases List.mem_cons.mp ha with rfl | ha
      · simp
      · exact List.mem_cons_of_mem _ ((sortAsc_perm A xs).mem_iff.mp ha)
    exact insertAsc_ascending A x _ (fun a ha => hi a (hm a ha))
      (fun a ha b hb c hc => ht a (hm a ha) b (hm b hb) c (hm c hc))
      (ih (fun a ha => hi a (List.mem_cons_of_mem _ ha))
        (fun a ha b hb c hc => ht a (List.mem_cons_of_mem _ ha) b (List.mem_cons_of_mem _ hb)
          c (List.mem_cons_of_mem _ hc)))

theorem ascending_unique {F : Type} (A : Arith F) : ∀ (l1 l2 : List F), l1.Perm l2 →
    (∀ a ∈ l1, ∀ b ∈ l1, A.lt a b = false → A.lt b a = false → a = b) →
    Ascending A l1 → Ascending A l2 → l1 = l2 := by
  intro l1
  induction l1 with
  | nil => intro l2 hp _ _ _; exact (List.nil_perm.mp hp).symm
  | cons a l1 ih =>
    intro l2 hp ha h1 h2
    cases l2 with
    | nil => exact absurd (List.perm_nil.mp hp) (by simp)
    | cons b l2 =>
      have p1 := List.pairwise_cons.mp h1
      have p2 := List.pairwise_cons.mp h2
      have hab : a = b := by
        have hbm : b ∈ a :: l1 := hp.mem_iff.mpr (by simp)
        have ham : a ∈ b :: l2 := hp.mem_iff.mp (by simp)
        rcases List.mem_cons.mp ham with h | h
        · exact h
        · rcases List.mem_cons.mp hbm with h3 | h3
          · exact h3.symm
          · exact ha a (by simp) b hbm (p2.1 a h) (p1.1 b h3)
      subst hab
      rw [ih l2 (List.Perm.cons_inv hp)
        (fun x hx y hy => ha x (List.mem_cons_of_mem _ hx) y (List.mem_cons_of_mem _ hy))
        p1.2 p2.2]

theorem sortAsc_eq {F : Type} (A : Arith F) (v s : List F) (ho : StrictOrderOn A v)
    (hp : s.Perm v) (hs : Ascending A s) : sortAsc A v = s := by
  refine ascending_unique A _ _ ((sortAsc_perm A v).trans hp.symm) ?_
    (sortAsc_ascending A v ho.1 ho.2.1) hs
  intro a ha b hb
  exact ho.2.2 a ((sortAsc_perm A v).mem_iff.mp ha) b ((sortAsc_perm A v).mem_iff.mp hb)

theorem maxElement_mem {F : Type} (A : Arith F) : ∀ (rest : List F) (first : F),
    maxElement A first rest ∈ first :: rest := by
  intro rest
  induction rest with
  | nil => intro first; simp [maxElement]
  | cons y ys ih =>
    intro first
    have hstep : maxElement A first (y :: ys) =
        maxElement A (if A.lt first y then y else first) ys := rfl
    rw [hstep]
    have := ih (if A.lt first y = true then y else first)
    rcases List.mem_cons.mp this with h | h
    · rw [h]
      by_cases hc : A.lt first y = true
      · rw [if_pos hc]; simp
      · rw [if_neg hc]; simp
    · exact List.mem_cons_of_mem _ (List.mem_cons_of_mem _ h)

theorem minElement_mem {F : Type} (A : Arith F) : ∀ (rest : List F) (first : F),
    minElement A first rest ∈ first :: rest := by
  intro rest
  induction rest with
  | nil => intro first; simp [minElement]
  | cons y ys ih =>
    intro first
    have hstep : minElement A first (y :: ys) =
        minElement A (if A.lt y first then y else first) ys := rfl
    rw [hstep]
    have := ih (if A.lt y first = true then y else first)
    rcases List.mem_cons.mp this with h | h
    · rw [h]
      by_cases hc : A.lt y first = true
      · rw [if_pos hc]; simp
      · rw [if_neg hc]; simp
    · exact List.mem_cons_of_mem _ (List.mem_cons_of_mem _ h)

theorem maxElement_greatest {F : Type} (A : Arith F) (v : List F)
    (hi : ∀ a ∈ v, A.lt a a = false)
    (ht : ∀ a ∈ v, ∀ b ∈ v, ∀ c ∈ v, A.lt a b = true → A.lt b c = true → A.lt a c = true) :
    ∀ (rest : List F) (largest : F) (seen : List F), largest ∈ seen →
      (∀ x ∈ seen, x ∈ v) → (∀ x ∈ rest, x ∈ v) →
      (∀ x ∈ seen, A.lt largest x = false) →
      ∀ x, x ∈ seen ∨ x ∈ rest → A.lt (maxElement A largest rest) x = false := by
  intro rest
  induction rest with
  | nil =>
    intro largest seen _ _ _ hinv x hx
    rcases hx with hx | hx
    · exact hinv x hx
    · simp at hx
  | cons y ys ih =>
    intro largest seen hl hsv hrv hinv x hx
    have hstep : maxElement A largest (y :: ys) =
        maxElement A (if A.lt largest y then y else largest) ys := rfl
    rw [hstep]
    have hyv : y ∈ v := hrv y (by simp)
    have hx2 : x ∈ y :: seen ∨ x ∈ ys := by
      rcases hx with hx | hx
      · exact Or.inl (List.mem_cons_of_mem _ hx)
      · rcases List.mem_cons.mp hx with rfl | hx
        · exact Or.inl (by simp)
        · exact Or.inr hx
    by_cases hc : A.lt largest y = true
    · rw [if_pos hc]
      refine ih y (y :: seen) (by simp) ?_ (fun z hz => hrv z (List.mem_cons_of_mem _ hz)) ?_
        x hx2
      · intro z hz
        rcases List.mem_cons.mp hz with rfl | hz
        · exact hyv
        · exact hsv z hz
      · intro z hz
        rcases List.mem_cons.mp hz with rfl | hz
        · exact hi z hyv
        · cases hyz : A.lt y z with
          | false => rfl
          | true =>
            have := ht largest (hsv _ hl) y hyv z (hsv z hz) hc hyz
            rw [hinv z hz] at this
            exact absurd this (by simp)
    · rw [if_neg hc]
      refine ih largest (y :: seen) (List.mem_cons_of_mem _ hl) ?_
        (fun z hz => hrv z (List.mem_cons_of_mem _ hz)) ?_ x hx2
      · intro z hz
        rcases List.mem_cons.mp hz with rfl | hz
        · exact hyv
        · exact hsv z hz
      · intro z hz
        rcases List.mem_cons.mp hz with rfl | hz
        · simpa using hc
        · exact hinv z hz

theorem minElement_least {F : Type} (A : Arith F) (v : List F)
    (hi : ∀ a ∈ v, A.lt a a = false)
    (ht : ∀ a ∈ v, ∀ b ∈ v, ∀ c ∈ v, A.lt a b = true → A.lt b c = true → A.lt a c = true) :
    ∀ (rest : List F) (smallest : F) (seen : List F), smallest ∈ seen →
      (∀ x ∈ seen, x ∈ v) → (∀ x ∈ rest, x ∈ v) →
      (∀ x ∈ seen, A.lt x smallest = false) →
      ∀ x, x ∈ seen ∨ x ∈ rest → A.lt x (minElement A smallest rest) = false := by
  intro rest
  induction rest with
  | nil =>
    intro smallest seen _ _ _ hinv x hx
    rcases hx with hx | hx
    · exact hinv x hx
    · simp at hx
  | cons y ys ih =>
    intro smallest seen hl hsv hrv hinv x hx
    have hstep : minElement A smallest (y :: ys) =
        minElement A (if A.lt y smallest then y else smallest) ys := rfl
    rw [hstep]
    have hyv : y ∈ v := hrv y (by simp)
    have hx2 : x ∈ y :: seen ∨ x ∈ ys := by
      rcases hx with hx | hx
      · exact Or.inl (List.mem_cons_of_mem _ hx)
      · rcases List.mem_cons.mp hx with rfl | hx
        · exact Or.inl (by simp)
        · exact Or.inr hx
    by_cases hc : A.lt y smallest = true
    · rw [if_pos hc]
      refine ih y (y :: seen) (by simp) ?_ (fun z hz => hrv z (List.mem_cons_of_mem _ hz)) ?_
        x hx2
      · intro z hz
        rcases List.mem_cons.mp hz with rfl | hz
        · exact hyv
        · exact hsv z hz
      · intro z hz
        rcases List.mem_cons.mp hz with rfl | hz
        · exact hi z hyv
        · cases hzy : A.lt z y with
          | false => rfl
          | true =>
            have := ht z (hsv z hz) y hyv smallest (hsv _ hl) hzy hc
            rw [hinv z hz] at this
            exact absurd this (by simp)
    · rw [if_neg hc]
      refine ih smallest (y :: seen) (List.mem_cons_of_mem _ hl) ?_
        (fun z hz => hrv z (List.mem_cons_of_mem _ hz)) ?_ x hx2
      · intro z hz
        rcases List.mem_cons.mp hz with rfl | hz
        · exact hyv
        · exact hsv z hz
      · intro z hz
        rcases List.mem_cons.mp hz with rfl | hz
        · simpa using hc
        · exact hinv z hz

theorem median_ascending {F : Type} (A : Arith F) (v s : List F) (ho : StrictOrderOn A v)
    (hp : s.Perm v) (hs : Ascending A s) (hv : v ≠ []) :
    applyList A .median v =
      if v.length % 2 = 0 then
        A.div (A.add (s.getD (v.length / 2 - 1) (A.ofNat 0)) (s.getD (v.length / 2) (A.ofNat 0)))
          (A.ofNat 2)
      else s.getD (v.length / 2) (A.ofNat 0) := by
  have he : v.isEmpty = false := by
    cases v with
    | nil => exact absurd rfl hv
    | cons _ _ => rfl
  simp only [applyList, he, Bool.false_eq_true, if_false, sortAsc_eq A v s ho hp hs,
    hp.length_eq]

theorem ratArith_strictOrderOn (l : List ℚ) : StrictOrderOn ratArith (l.map some) := by
  refine ⟨?_, ?_, ?_⟩
  · intro a ha
    obtain ⟨x, _, rfl⟩ := List.mem_map.mp ha
    simp [ratArith]
  · intro a ha b hb c hc
    obtain ⟨x, _, rfl⟩ := List.mem_map.mp ha
    obtain ⟨y, _, rfl⟩ := List.mem_map.mp hb
    obtain ⟨z, _, rfl⟩ := List.mem_map.mp hc
    simp only [ratArith, decide_eq_true_eq]
    exact lt_trans
  · intro a ha b hb
    obtain ⟨x, _, rfl⟩ := List.mem_map.mp ha
    obtain ⟨y, _, rfl⟩ := List.mem_map.mp hb
    simp only [ratArith, decide_eq_false_iff_not, not_lt, Option.some.injEq]
    exact fun h1 h2 => le_antisymm h2 h1

theorem median_three {F : Type} (A : Arith F) (a b c : F) (ho : StrictOrderOn A [c, a, b])
    (hab : A.lt a b = true) (hbc : A.lt b c = true) :
    applyList A .median [a, b, c] = b ∧ applyList A .median [c, a, b] = b := by
  have hac := ho.2.1 a (by simp) b (by simp) c (by simp) hab hbc
  have asym : ∀ x ∈ [c, a, b], ∀ y ∈ [c, a, b], A.lt x y = true → A.lt y x = false := by
    intro x hx y hy hxy
    cases hyx : A.lt y x with
    | false => rfl
    | true =>
      have := ho.2.1 x hx y hy x hx hxy hyx
      rw [ho.1 x hx] at this
      exact absurd this (by simp)
  have hs : Ascending A [a, b, c] := by
    simp only [Ascending, List.pairwise_cons, List.mem_cons, List.mem_singleton,
      List.not_mem_nil, or_false, forall_eq_or_imp, forall_eq, IsEmpty.forall_iff,
      implies_true, List.Pairwise.nil, and_true]
    exact ⟨⟨asym a (by simp) b (by simp) hab, asym a (by simp) c (by simp) hac⟩,
      asym b (by simp) c (by simp) hbc⟩
  have hp : [a, b, c].Perm [c, a, b] :=
    @List.perm_append_comm _ [a, b] [c]
  have h1 := median_ascending A [c, a, b] [a, b, c] ho hp hs (by simp)
  have ho2 : StrictOrderOn A [a, b, c] :=
    ⟨fun x hx => ho.1 x (hp.mem_iff.mp hx),
      fun x hx y hy z hz => ho.2.1 x (hp.mem_iff.mp hx) y (hp.mem_iff.mp hy) z
        (hp.mem_iff.mp hz),
      fun x hx y hy => ho.2.2 x (hp.mem_iff.mp hx) y (hp.mem_iff.mp hy)⟩
  have h2 := median_ascending A [a, b, c] [a, b, c] ho2 (List.Perm.refl _) hs (by simp)
  simp at h1 h2
  exact ⟨h2, h1⟩

theorem ratRep_varianceExact (r : List ℚ) (d : Nat) : VarianceExact ratRep r d :=
  ⟨fun _ => ratRep_representable _, ratRep_representable _, ratRep_representable _,
    fun _ _ => ⟨ratRep_representable _, ratRep_representable _⟩,
    fun _ => ratRep_representable _, ratRep_representable _, ratRep_representable _⟩

/-- C3: idempotent re-render. For every expression tree `t` over number literals,
registered operators, unary and binary function calls, with `s` its fully parenthesised
text, `rpnToInfix (infixToRPN s) = s`. More generally, for every written expression `w`
(operands of operators with or without parentheses, grouped as precedence and
associativity read them), `rpnToInfix (infixToRPN e)` is the fully parenthesised text
of the tree that `w` denotes, for `e` the text of `w` and for every text `e` that
`tokenize` splits into the tokens of `w`. -/
theorem C3_rerender (t : Expr) (w : Written) :
    (t.wf = true →
      ∃ rpn, infixToRPN (render t) = some rpn ∧ rpnToInfix rpn = .ok (render t)) ∧
    (w.valid = true →
      (∃ rpn, infixToRPN w.text = some rpn ∧ rpnToInfix rpn = .ok (render w.tree)) ∧
      ∀ e, tokenize e = some w.tokens →
        ∃ rpn, infixToRPN e = some rpn ∧ rpnToInfix rpn = .ok (render w.tree)) := by
  refine ⟨fun h => ⟨_, infixToRPN_render t h, rpnToInfix_postorder t h⟩, fun hw => ?_⟩
  have key : ∀ e, tokenize e = some w.tokens →
      ∃ rpn, infixToRPN e = some rpn ∧ rpnToInfix rpn = .ok (render w.tree) := by
    intro e he
    refine ⟨joinSpaces (postorder w.tree), ?_, rpnToInfix_postorder _ (tree_wf w hw)⟩
    unfold infixToRPN
    rw [he, Option.map_some', convert_written w hw]
  exact ⟨key _ (tokenize_text w hw), key⟩

theorem C3_rerender_witness :
    (exampleTree.wf = true ∧ writtenExample.valid = true) ∧
      writtenExample.text = str "(1 + 2) * 3 - pow(sqrt(16), -2) ^ 2 ^ 3" ∧
      render writtenExample.tree =
        str "(((1 + 2) * 3) - (pow(sqrt(16), -2) ^ (2 ^ 3)))" ∧
      (∃ rpn, infixToRPN (render exampleTree) = some rpn ∧
        rpnToInfix rpn = .ok (render exampleTree)) ∧
      (∃ rpn, infixToRPN writtenExample.text = some rpn ∧
        rpnToInfix rpn = .ok (render writtenExample.tree)) := by
  have h := C3_rerender exampleTree writtenExample
  exact ⟨⟨by decide, by decide⟩, by decide, by decide, h.1 (by decide), (h.2 (by decide)).1⟩

/-- C15: `sum` and `product` reducers. `sum` accumulates the elements from 0 with `+`
and `product` accumulates them from 1 with `*`, left to right; in an arithmetic that is
faithful to a representation of numbers, when the running total (running product) of a
sequence `v` of values standing for the numbers `r` stays representable, `sum v`
(`product v`) stands for the sum (product) of `r`; `ΣLIST` and `ΠLIST` are the same
reducers; on the empty sequence `sum` is 0 and `product` is 1, and
`calculateRPN "{ } sum"` is 0. -/
theorem C15_sum_product {F R : Type} [Field R] (A : Arith F) (Rep : F → R → Prop) :
    (∀ (v : List F) (x : F),
        applyList A .sum (v ++ [x]) = A.add (applyList A .sum v) x ∧
        applyList A .product (v ++ [x]) = A.mul (applyList A .product v) x) ∧
      (Faithful A Rep → ∀ (v : List F) (r : List R), List.Forall₂ Rep v r →
        ((∀ k, Representable Rep (r.take k).sum) → Rep (applyList A .sum v) r.sum) ∧
        ((∀ k, Representable Rep (r.take k).prod) → Rep (applyList A .product v) r.prod)) ∧
      LIST_FUNCTIONS.lookup (str "sum") = some .sum ∧
      LIST_FUNCTIONS.lookup (str "ΣLIST") = some .sum ∧
      LIST_FUNCTIONS.lookup (str "product") = some .product ∧
      LIST_FUNCTIONS.lookup (str "ΠLIST") = some .product ∧
      applyList A .sum [] = A.ofNat 0 ∧ applyList A .product [] = A.ofNat 1 ∧
      (A.isnan A.nan = true → calculateRPN A (str "\x7b \x7d sum") = .ok (A.ofNat 0)) :=
  ⟨fun v x => ⟨by simp [applyList, total, List.foldl_append],
      by simp [applyList, List.foldl_append]⟩,
    fun hA v r hv => ⟨total_rep A Rep hA v r hv, product_rep A Rep hA v r hv⟩,
    by decide, by decide, by decide, by decide, rfl, rfl,
    fun hnan => calculateRPN_emptyList A (str "sum") .sum hnan (by decide) (by decide)⟩

theorem C15_sum_product_witness :
    (Faithful ratArith ratRep ∧
      List.Forall₂ ratRep [some 1, some 2, some 3, some 4, some 5] [1, 2, 3, 4, 5] ∧
      (∀ k, Representable ratRep (([1, 2, 3, 4, 5] : List ℚ).take k).sum) ∧
      (∀ k, Representable ratRep (([1, 2, 3, 4, 5] : List ℚ).take k).prod) ∧
      ratArith.isnan ratArith.nan = true) ∧
      applyList ratArith .sum [some 1, some 2, some 3, some 4, some 5] = some 15 ∧
      applyList ratArith .product [some 1, some 2, some 3, some 4, some 5] = some 120 ∧
      calculateRPN ratArith (str "\x7b \x7d sum") = .ok (ratArith.ofNat 0) := by
  have h := C15_sum_product ratArith ratRep
  have hv := ratRep_map [1, 2, 3, 4, 5]
  have h1 := (h.2.1 ratArith_faithful _ _ hv).1 (fun _ => ratRep_representable _)
  have h2 := (h.2.1 ratArith_faithful _ _ hv).2 (fun _ => ratRep_representable _)
  refine ⟨⟨ratArith_faithful, hv, fun _ => ratRep_representable _,
    fun _ => ratRep_representable _, rfl⟩, ?_, ?_, h.2.2.2.2.2.2.2.2 rfl⟩
  · rw [show [some 1, some 2, some 3, some 4, some (5 : ℚ)] = [1, 2, 3, 4, 5].map some from rfl,
      h1]
    norm_num
  · rw [show [some 1, some 2, some 3, some 4, some (5 : ℚ)] = [1, 2, 3, 4, 5].map some from rfl,
      h2]
    norm_num

/-- C16: `mean` reducer. For a non-empty sequence `v` of `n` values, `mean v` is
`sum v / n` in the operations of the arithmetic; in an arithmetic that is faithful to a
representation of numbers, when `v` stands for the numbers `r` and the running total,
`n` and the quotient are representable, `mean v` stands for (the sum of `r`) / `n`;
`mean` of the empty sequence is 0. -/
theorem C16_mean {F R : Type} [Field R] [CharZero R] (A : Arith F) (Rep : F → R → Prop) :
    (∀ v : List F, v ≠ [] →
        applyList A .mean v = A.div (applyList A .sum v) (A.ofNat v.length)) ∧
      (Faithful A Rep → ∀ (v : List F) (r : List R), List.Forall₂ Rep v r → r ≠ [] →
        (∀ k, Representable Rep (r.take k).sum) → Representable Rep (r.length : R) →
        Representable Rep (r.sum / (r.length : R)) →
        Rep (applyList A .mean v) (r.sum / (r.length : R))) ∧
      applyList A .mean [] = A.ofNat 0 := by
  refine ⟨fun v hv => ?_, fun hA v r hv hr hk hn hm => ?_, rfl⟩
  · simp only [applyList, isEmpty_false hv, Bool.false_eq_true, if_false]
  · have hv0 : v ≠ [] := by
      intro h; subst h; cases hv; exact hr rfl
    simp only [applyList, isEmpty_false hv0, Bool.false_eq_true, if_false]
    exact mean_rep A Rep hA v r hv hr hk hn hm

theorem C16_mean_witness :
    (Faithful ratArith ratRep ∧
      List.Forall₂ ratRep [some 2, some 4, some 6, some 8, some 10] [2, 4, 6, 8, 10] ∧
      ([2, 4, 6, 8, 10] : List ℚ) ≠ [] ∧
      [some 2, some 4, some 6, some 8, some (10 : ℚ)] ≠ [] ∧
      Faithful gridArith gridRep ∧ List.Forall₂ gridRep [some 1, some 2] [1, 2] ∧
      ([1, 2] : List ℚ) ≠ [] ∧ (∀ k, Representable gridRep (([1, 2] : List ℚ).take k).sum) ∧
      Representable gridRep ((([1, 2] : List ℚ).length : ℕ) : ℚ) ∧
      Representable gridRep (([1, 2] : List ℚ).sum / (([1, 2] : List ℚ).length : ℚ))) ∧
      applyList ratArith .mean [some 2, some 4, some 6, some 8, some 10] = some 6 ∧
      applyList ratArith .mean [some 2, some 4, some 6, some 8, some 10] =
        ratArith.div (applyList ratArith .sum [some 2, some 4, some 6, some 8, some 10])
          (ratArith.ofNat 5) ∧
      gridArith.div (some 1) (some 3) = some (1 / 4) ∧
      applyList gridArith .mean [some 1, some 2] = some (3 / 2) := by
  have h := C16_mean ratArith ratRep
  have hv := ratRep_map [2, 4, 6, 8, 10]
  have h1 := h.2.1 ratArith_faithful _ _ hv (by simp) (fun _ => ratRep_representable _)
    (ratRep_representable _) (ratRep_representable _)
  have gv : List.Forall₂ gridRep [some 1, some 2] [1, 2] :=
    List.Forall₂.cons ⟨rfl, 8, by norm_num⟩
      (List.Forall₂.cons ⟨rfl, 16, by norm_num⟩ List.Forall₂.nil)
  have gk : ∀ k, Representable gridRep (([1, 2] : List ℚ).take k).sum := by
    intro k
    rcases k with _ | _ | k
    · simpa using gridRep_int 0
    · simpa using gridRep_int 1
    · have := gridRep_int 3
      norm_num at this ⊢
      exact this
  have gn : Representable gridRep ((([1, 2] : List ℚ).length : ℕ) : ℚ) := by
    simpa using gridRep_int 2
  have gm : Representable gridRep (([1, 2] : List ℚ).sum / (([1, 2] : List ℚ).length : ℚ)) :=
    ⟨some _, rfl, 12, by norm_num⟩
  have h2 := (C16_mean gridArith gridRep).2.1 gridArith_faithful _ _ gv (by simp) gk gn gm
  refine ⟨⟨ratArith_faithful, hv, by simp, by simp, gridArith_faithful, gv, by simp, gk, gn,
    gm⟩, ?_, h.1 _ (by simp), gridArith_rounds, ?_⟩
  · rw [show [some 2, some 4, some 6, some 8, some (10 : ℚ)] = [2, 4, 6, 8, 10].map some
      from rfl, h1]
    norm_num
  · rw [h2.1]
    norm_num

/-- C17: population variance. For a non-empty sequence `v` of `n` values with
`m = mean v`, `var v` is (the `sum` of the products `(x - m) * (x - m)` over the
elements `x` of `v`) `/ n` in the operations of the arithmetic; in an arithmetic that is
faithful to a representation of numbers, when `v` stands for the numbers `r` and no
step of the computation rounds, `var v` stands for (the sum of the `(x - m)^2`) / `n`
with `m` the mean of `r`; so where the integers from -3 to 20 are representable, `var`
of values standing for 2, 4, 6, 8 stands for 5; `var` of the empty sequence is 0. -/
theorem C17_var {F R : Type} [Field R] [CharZero R] (A : Arith F) (Rep : F → R → Prop) :
    (∀ v : List F, v ≠ [] →
        applyList A .var v =
          A.div (applyList A .sum (v.map (deviation A (applyList A .mean v))))
            (A.ofNat v.length)) ∧
      (Faithful A Rep → ∀ (v : List F) (r : List R), List.Forall₂ Rep v r → r ≠ [] →
        VarianceExact Rep r r.length →
        Rep (applyList A .var v)
          (squaredDeviations (r.sum / (r.length : R)) r / (r.length : R))) ∧
      (Faithful A Rep → (∀ n : ℤ, -3 ≤ n → n ≤ 20 → Representable Rep (n : R)) →
        ∀ v : List F, List.Forall₂ Rep v [2, 4, 6, 8] → Rep (applyList A .var v) 5) ∧
      applyList A .var [] = A.ofNat 0 := by
  refine ⟨fun v hv => ?_, fun hA v r hv hr he => var_rep A Rep hA v r hv hr he,
    fun hA hint v hv => ?_, rfl⟩
  · simp only [applyList, isEmpty_false hv, Bool.false_eq_true, if_false, squares_eq_total]
  · have := var_rep A Rep hA v [2, 4, 6, 8] hv (by simp) (variance_example Rep hint)
    rwa [variance_example_value] at this

theorem C17_var_witness :
    (Faithful ratArith ratRep ∧
      List.Forall₂ ratRep [some 2, some 4, some 6, some 8] [2, 4, 6, 8] ∧
      ([2, 4, 6, 8] : List ℚ) ≠ [] ∧
      VarianceExact ratRep [2, 4, 6, 8] ([2, 4, 6, 8] : List ℚ).length ∧
      [some 2, some 4, some 6, some (8 : ℚ)] ≠ [] ∧
      (∀ n : ℤ, -3 ≤ n → n ≤ 20 → Representable ratRep (n : ℚ))) ∧
      applyList ratArith .var [some 2, some 4, some 6, some 8] = some 5 ∧
      applyList ratArith .var [some 2, some 4, some 6, some 8] =
        ratArith.div (applyList ratArith .sum [some 9, some 1, some 1, some 9])
          (ratArith.ofNat 4) ∧
      ratRep (applyList ratArith .var [some 2, some 4, some 6, some 8]) 5 := by
  have h := C17_var ratArith ratRep
  have hv := ratRep_map [2, 4, 6, 8]
  have h1 := h.2.1 ratArith_faithful _ _ hv (by simp) (ratRep_varianceExact _ _)
  have h2 := h.1 [some 2, some 4, some 6, some 8] (by simp)
  have h3 := h.2.2.1 ratArith_faithful (fun n _ _ => ratRep_representable _) _ hv
  refine ⟨⟨ratArith_faithful, hv, by simp, ratRep_varianceExact _ _, by simp,
    fun n _ _ => ratRep_representable _⟩, ?_, ?_, h3⟩
  · rw [show [some 2, some 4, some 6, some (8 : ℚ)] = [2, 4, 6, 8].map some from rfl, h1]
    norm_num [squaredDeviations]
  · rw [h2]
    norm_num [applyList, total, deviation, ratArith, liftRat]

/-- C18: sample variance. For a sequence `v` of `n ≥ 2` values with `m = mean v`,
`svar v` is (the `sum` of the products `(x - m) * (x - m)` over the elements `x` of
`v`) `/ (n - 1)` in the operations of the arithmetic; in an arithmetic that is faithful
to a representation of numbers, when `v` stands for the numbers `r` and no step of the
computation rounds, `svar v` stands for (the sum of the `(x - m)^2`) / `(n - 1)` with
`m` the mean of `r`; `svar` of a sequence with fewer than 2 elements is 0, and
`calculateRPN "{ } svar"` is 0. -/
theorem C18_svar {F R : Type} [Field R] [CharZero R] (A : Arith F) (Rep : F → R → Prop) :
    (∀ v : List F, 2 ≤ v.length →
        applyList A .svar v =
          A.div (applyList A .sum (v.map (deviation A (applyList A .mean v))))
            (A.ofNat (v.length - 1))) ∧
      (Faithful A Rep → ∀ (v : List F) (r : List R), List.Forall₂ Rep v r → 2 ≤ r.length →
        VarianceExact Rep r (r.length - 1) →
        Rep (applyList A .svar v)
          (squaredDeviations (r.sum / (r.length : R)) r / ((r.length : R) - 1))) ∧
      (∀ v : List F, v.length < 2 → applyList A .svar v = A.ofNat 0) ∧
      (A.isnan A.nan = true → calculateRPN A (str "\x7b \x7d svar") = .ok (A.ofNat 0)) := by
  refine ⟨fun v hv => ?_, fun hA v r hv hr he => ?_, fun v hv => ?_,
    fun hnan => calculateRPN_emptyList A (str "svar") .svar hnan (by decide) (by decide)⟩
  · have hv0 : v ≠ [] := by
      intro h; subst h; simp at hv
    simp only [applyList, if_neg (show ¬ v.length < 2 by omega), isEmpty_false hv0,
      Bool.false_eq_true, if_false, squares_eq_total]
  · have hr0 : r ≠ [] := by
      intro h; subst h; simp at hr
    have hc : ((r.length - 1 : ℕ) : R) = (r.length : R) - 1 := by
      rw [Nat.cast_sub (by omega), Nat.cast_one]
    simp only [applyList, if_neg (show ¬ v.length < 2 by rw [hv.length_eq]; omega)]
    have := variance_rep A Rep hA v r hv hr0 (r.length - 1) (by omega) he
    rw [hc, hv.length_eq] at this
    rw [hv.length_eq]
    exact this
  · simp only [applyList, if_pos hv]

theorem C18_svar_witness :
    (Faithful ratArith ratRep ∧
      List.Forall₂ ratRep [some 1, some 2, some 3, some 4, some 5] [1, 2, 3, 4, 5] ∧
      2 ≤ ([1, 2, 3, 4, 5] : List ℚ).length ∧
      VarianceExact ratRep [1, 2, 3, 4, 5] (([1, 2, 3, 4, 5] : List ℚ).length - 1) ∧
      ([] : List (Option ℚ)).length < 2 ∧ ratArith.isnan ratArith.nan = true) ∧
      applyList ratArith .svar [some 1, some 2, some 3, some 4, some 5] = some (5 / 2) ∧
      applyList ratArith .svar [] = ratArith.ofNat 0 ∧
      calculateRPN ratArith (str "\x7b \x7d svar") = .ok (ratArith.ofNat 0) := by
  have h := C18_svar ratArith ratRep
  have hv := ratRep_map [1, 2, 3, 4, 5]
  have h1 := h.2.1 ratArith_faithful _ _ hv (by simp) (ratRep_varianceExact _ _)
  refine ⟨⟨ratArith_faithful, hv, by simp, ratRep_varianceExact _ _, by simp, rfl⟩, ?_,
    h.2.2.1 [] (by simp), h.2.2.2 rfl⟩
  rw [show [some 1, some 2, some 3, some 4, some (5 : ℚ)] = [1, 2, 3, 4, 5].map some from rfl,
    h1]
  norm_num [squaredDeviations]

/-- C20: median. Let `<` be a strict total order on the elements of `v` (as it is for
doubles other than NaN, the two zeros not both among them), and let `s` be the ascending
sort of `v`: a permutation of `v` in ascending order, which exists. With `n` the length of `v`, `median v` is `s[n/2]` when
`n` is odd and `(s[n/2 - 1] + s[n/2]) / 2`, in the operations of the arithmetic, when
`n` is even and not 0; `median w = median v` for every permutation `w` of `v`; for
values `a < b < c`, `median [a, b, c]` and `median [c, a, b]` are both `b`; and `median`
of the empty sequence is 0. -/
theorem C20_median {F : Type} (A : Arith F) (v w s : List F) :
    (StrictOrderOn A v → (∃ s1 : List F, s1.Perm v ∧ Ascending A s1) ∧
      (s.Perm v → Ascending A s →
        (v.length % 2 = 1 → s[v.length / 2]? = some (applyList A .median v)) ∧
        (v ≠ [] → v.length % 2 = 0 →
          ∃ a b, s[v.length / 2 - 1]? = some a ∧ s[v.length / 2]? = some b ∧
            applyList A .median v = A.div (A.add a b) (A.ofNat 2))) ∧
      (w.Perm v → applyList A .median w = applyList A .median v)) ∧
    (∀ a b c : F, StrictOrderOn A [c, a, b] → A.lt a b = true → A.lt b c = true →
      applyList A .median [a, b, c] = b ∧ applyList A .median [c, a, b] = b) ∧
    applyList A .median [] = A.ofNat 0 := by
  refine ⟨fun ho => ⟨⟨sortAsc A v, sortAsc_perm A v, sortAsc_ascending A v ho.1 ho.2.1⟩,
    fun hp hs => ⟨fun hodd => ?_, fun hv heven => ?_⟩, fun hw => ?_⟩,
    fun a b c ho hab hbc => median_three A a b c ho hab hbc, rfl⟩
  · have hv : v ≠ [] := by
      intro h; subst h; simp at hodd
    have hlen : v.length / 2 < s.length := by
      rw [hp.length_eq]; exact Nat.div_lt_self (List.length_pos.mpr hv) (by decide)
    rw [median_ascending A v s ho hp hs hv, if_neg (by omega), List.getD_eq_getElem _ _ hlen,
      List.getElem?_eq_getElem hlen]
  · have hpos := List.length_pos.mpr hv
    have hlen : v.length / 2 < s.length := by
      rw [hp.length_eq]; exact Nat.div_lt_self hpos (by decide)
    have hlen1 : v.length / 2 - 1 < s.length := by omega
    refine ⟨s[v.length / 2 - 1], s[v.length / 2], List.getElem?_eq_getElem hlen1,
      List.getElem?_eq_getElem hlen, ?_⟩
    rw [median_ascending A v s ho hp hs hv, if_pos heven, List.getD_eq_getElem _ _ hlen,
      List.getD_eq_getElem _ _ hlen1]
  · by_cases hv : v = []
    · subst hv
      rw [List.perm_nil.mp hw]
    · have hw0 : w ≠ [] := fun h => hv (by subst h; exact (List.nil_perm.mp hw))
      have how : StrictOrderOn A w :=
        ⟨fun a ha => ho.1 a (hw.mem_iff.mp ha),
          fun a ha b hb c hc => ho.2.1 a (hw.mem_iff.mp ha) b (hw.mem_iff.mp hb) c
            (hw.mem_iff.mp hc),
          fun a ha b hb => ho.2.2 a (hw.mem_iff.mp ha) b (hw.mem_iff.mp hb)⟩
      rw [median_ascending A v (sortAsc A v) ho (sortAsc_perm A v)
          (sortAsc_ascending A v ho.1 ho.2.1) hv,
        median_ascending A w (sortAsc A v) how ((sortAsc_perm A v).trans hw.symm)
          (sortAsc_ascending A v ho.1 ho.2.1) hw0, hw.length_eq]

theorem C20_median_witness :
    (StrictOrderOn ratArith [some 5, some 1, some 3] ∧
      [some 1, some 3, some (5 : ℚ)].Perm [some 5, some 1, some 3] ∧
      Ascending ratArith [some 1, some 3, some 5] ∧
      [some 5, some 1, some (3 : ℚ)].length % 2 = 1 ∧
      ratArith.lt (some 1) (some 3) = true ∧ ratArith.lt (some 3) (some 5) = true) ∧
      applyList ratArith .median [some 5, some 1, some 3] = some 3 ∧
      applyList ratArith .median [some 1, some 3, some 5] =
        applyList ratArith .median [some 5, some 1, some 3] ∧
      (applyList ratArith .median [some 1, some 3, some 5] = some 3 ∧
        applyList ratArith .median [some 5, some 1, some 3] = some 3) := by
  have ho : StrictOrderOn ratArith [some 5, some 1, some 3] :=
    ratArith_strictOrderOn [5, 1, 3]
  have hp : [some 1, some 3, some (5 : ℚ)].Perm [some 5, some 1, some 3] := by decide
  have hs : Ascending ratArith [some 1, some 3, some 5] := by
    norm_num [Ascending, ratArith]
  have h13 : ratArith.lt (some 1) (some 3) = true := by norm_num [ratArith]
  have h35 : ratArith.lt (some 3) (some 5) = true := by norm_num [ratArith]
  have hall := C20_median ratArith [some 5, some 1, some 3] [some 1, some 3, some 5]
    [some 1, some 3, some 5]
  have h := hall.1 ho
  refine ⟨⟨ho, hp, hs, rfl, h13, h35⟩, ?_, h.2.2 hp, hall.2.1 _ _ _ ho h13 h35⟩
  have h3 := (h.2.1 hp hs).1 rfl
  simpa using h3.symm

/-- C21: extrema. For a non-empty sequence `v`, `lmax v` and `lmin v` are elements of
`v` and `range v = lmax v - lmin v` in the operations of the arithmetic; when `<` is
irreflexive and transitive on the elements of `v` (as it is for doubles), no element of
`v` is greater than `lmax v` and none is less than `lmin v`; all three return 0 on the
empty sequence. -/
theorem C21_extrema {F : Type} (A : Arith F) (v : List F) :
    (v ≠ [] → applyList A .lmax v ∈ v ∧ applyList A .lmin v ∈ v ∧
      applyList A .range v = A.sub (applyList A .lmax v) (applyList A .lmin v)) ∧
    ((∀ a ∈ v, A.lt a a = false) →
      (∀ a ∈ v, ∀ b ∈ v, ∀ c ∈ v, A.lt a b = true → A.lt b c = true → A.lt a c = true) →
      ∀ x ∈ v, A.lt (applyList A .lmax v) x = false ∧
        A.lt x (applyList A .lmin v) = false) ∧
    applyList A .lmax [] = A.ofNat 0 ∧ applyList A .lmin [] = A.ofNat 0 ∧
    applyList A .range [] = A.ofNat 0 := by
  refine ⟨fun hv => ?_, fun hi ht x hx => ?_, rfl, rfl, rfl⟩
  · cases v with
    | nil => exact absurd rfl hv
    | cons first rest =>
      exact ⟨maxElement_mem A rest first, minElement_mem A rest first, rfl⟩
  · cases v with
    | nil => simp at hx
    | cons first rest =>
      have hxs : x ∈ [first] ∨ x ∈ rest := by
        rcases List.mem_cons.mp hx with rfl | h
        · exact Or.inl (by simp)
        · exact Or.inr h
      refine ⟨maxElement_greatest A (first :: rest) hi ht rest first [first] (by simp)
          (fun z hz => by simp at hz; simp [hz]) (fun z hz => List.mem_cons_of_mem _ hz)
          (fun z hz => by simp at hz; subst hz; exact hi z (by simp)) x hxs,
        minElement_least A (first :: rest) hi ht rest first [first] (by simp)
          (fun z hz => by simp at hz; simp [hz]) (fun z hz => List.mem_cons_of_mem _ hz)
          (fun z hz => by simp at hz; subst hz; exact hi z (by simp)) x hxs⟩

theorem C21_extrema_witness :
    ([some 3, some 1, some 4, some 1, some (5 : ℚ)] ≠ [] ∧
      (∀ a ∈ [some 3, some 1, some 4, some 1, some (5 : ℚ)], ratArith.lt a a = false) ∧
      (∀ a ∈ [some 3, some 1, some 4, some 1, some (5 : ℚ)],
        ∀ b ∈ [some 3, some 1, some 4, some 1, some (5 : ℚ)],
        ∀ c ∈ [some 3, some 1, some 4, some 1, some (5 : ℚ)],
        ratArith.lt a b = true → ratArith.lt b c = true → ratArith.lt a c = true)) ∧
      applyList ratArith .lmax [some 3, some 1, some 4, some 1, some 5] = some 5 ∧
      applyList ratArith .lmin [some 3, some 1, some 4, some 1, some 5] = some 1 ∧
      applyList ratArith .range [some 3, some 1, some 4, some 1, some 5] = some 4 ∧
      (∀ x ∈ [some 3, some 1, some 4, some 1, some (5 : ℚ)],
        ratArith.lt (applyList ratArith .lmax [some 3, some 1, some 4, some 1, some 5]) x =
          false ∧
        ratArith.lt x (applyList ratArith .lmin [some 3, some 1, some 4, some 1, some 5]) =
          false) := by
  have ho := ratArith_strictOrderOn [3, 1, 4, 1, 5]
  have h := C21_extrema ratArith [some 3, some 1, some 4, some 1, some 5]
  have hmax : applyList ratArith .lmax [some 3, some 1, some 4, some 1, some 5] = some 5 := by
    norm_num [applyList, maxElement, ratArith]
  have hmin : applyList ratArith .lmin [some 3, some 1, some 4, some 1, some 5] = some 1 := by
    norm_num [applyList, minElement, ratArith]
  refine ⟨⟨by simp, ho.1, ho.2.1⟩, hmax, hmin, ?_, h.2.1 ho.1 ho.2.1⟩
  rw [(h.1 (by simp)).2.2, hmax, hmin]
  norm_num [ratArith, liftRat]

end librpn
